import Mathlib

/-!
# RASM atomic pseudo instruction expansion

A shallow embedding of `llvm/lib/Target/RASM/RASMExpandAtomicPseudoInsts.cpp`.

* A machine function is the layout-ordered list of its basic blocks together with the
  counter from which fresh block numbers are drawn.  A block's number plays the part of
  the block pointer: successor lists and branch targets hold block numbers.
* Iterators are positions: a block is addressed by its index in the layout and an
  instruction by its index in the block.
* `assert` and `llvm_unreachable` are fatal: the expanders return in `Except Fatal`.
-/

namespace RASM

/-! ## Data model -/

abbrev Register := Nat

/-- The hard-wired zero register `RASM::R0`. -/
def R0 : Register := 0

/-- Opcodes: the atomic pseudo instructions dispatched by `expandMI`, the target
instructions the expanders emit, the remaining branch opcodes of the target, and
`other n` for every other opcode. -/
inductive Opcode
  | PseudoMaskedAtomicSwap32
  | PseudoAtomicSwap32
  | PseudoMaskedAtomicLoadAdd32
  | PseudoMaskedAtomicLoadSub32
  | PseudoAtomicLoadNand32
  | PseudoAtomicLoadNand64
  | PseudoMaskedAtomicLoadNand32
  | PseudoAtomicLoadAdd32
  | PseudoAtomicLoadSub32
  | PseudoAtomicLoadAnd32
  | PseudoAtomicLoadOr32
  | PseudoAtomicLoadXor32
  | PseudoMaskedAtomicLoadUMax32
  | PseudoMaskedAtomicLoadUMin32
  | PseudoCmpXchg32
  | PseudoCmpXchg64
  | PseudoMaskedCmpXchg32
  | PseudoMaskedAtomicLoadMax32
  | PseudoMaskedAtomicLoadMin32
  | DBAR
  | LL_W
  | LL_D
  | SC_W
  | SC_D
  | OR
  | AND
  | ANDN
  | NOR
  | XOR
  | ADD_W
  | SUB_W
  | ADDI_W
  | SLL_W
  | SRA_W
  | BEQZ
  | BNEZ
  | BEQ
  | BNE
  | BLT
  | BGE
  | BLTU
  | BGEU
  | B
  | other (n : Nat)
  deriving DecidableEq, Repr

namespace AtomicRMWInst

/-- The operation kinds of `AtomicRMWInst::BinOp`. -/
inductive BinOp
  | Xchg | Add | Sub | And | Nand | Or | Xor | Max | Min | UMax | UMin | FAdd | FSub
  deriving DecidableEq, Repr

end AtomicRMWInst

namespace AtomicOrdering

/-- The immediate that encodes `AtomicOrdering::Monotonic`. -/
def Monotonic : Int := 2

/-- The immediate that encodes `AtomicOrdering::Acquire`. -/
def Acquire : Int := 4

/-- The immediate that encodes `AtomicOrdering::Release`. -/
def Release : Int := 5

/-- The immediate that encodes `AtomicOrdering::AcquireRelease`. -/
def AcquireRelease : Int := 6

/-- The immediate that encodes `AtomicOrdering::SequentiallyConsistent`. -/
def SequentiallyConsistent : Int := 7

/-- The cast `static_cast<AtomicOrdering>(MI.getOperand(i).getImm())` of the 64-bit
immediate.  The enumeration has the underlying type `unsigned` (declared in
`llvm/Support/AtomicOrdering.h`, which lives outside this source tree), so the cast keeps
the immediate modulo `2 ^ 32`. -/
def ofImm (V : Int) : Int := V % 4294967296

end AtomicOrdering

/-- A machine operand: a register (defined or read), an immediate, or a block. -/
inductive MachineOperand
  | Reg (R : Register) (IsDef : Bool)
  | Imm (V : Int)
  | MBB (Number : Nat)
  deriving DecidableEq, Repr

structure MachineInstr where
  opcode : Opcode
  operands : List MachineOperand
  deriving DecidableEq, Repr

structure MachineBasicBlock where
  number : Nat
  insts : List MachineInstr
  successors : List Nat
  liveIns : List Register
  deriving DecidableEq, Repr

structure MachineFunction where
  blocks : List MachineBasicBlock
  numBlockIDs : Nat
  deriving DecidableEq, Repr

/-- The fatal exits of the pass. -/
inductive Fatal
  /-- The default case `llvm_unreachable("Unexpected AtomicRMW BinOp")`. -/
  | unexpectedBinOp
  /-- Failure of `assert(OldValReg != ScratchReg)`. -/
  | oldValIsScratch
  /-- Failure of `assert(OldValReg != MaskReg)`. -/
  | oldValIsMask
  /-- Failure of `assert(ScratchReg != MaskReg)`. -/
  | scratchIsMask
  /-- Failure of `assert(Width == 32)`. -/
  | masked64
  /-- Failure of `assert(IsMasked == true)`. -/
  | unmaskedMinMax
  /-- An operand read `getOperand(i).getReg()` or `.getImm()` on an absent or ill-kinded
  operand. -/
  | badOperand
  /-- An iterator that designates no block or no instruction. -/
  | badIterator
  deriving DecidableEq, Repr

/-! ## Machine instruction construction and access -/

/-- The call `BuildMI(MBB, DL, TII->get(Opc))`: an instruction without operands yet. -/
def BuildMI (Opc : Opcode) : MachineInstr :=
  { opcode := Opc, operands := [] }

/-- The call `BuildMI(MBB, DL, TII->get(Opc), DestReg)`: the destination is the first
operand, a definition. -/
def BuildMIDef (Opc : Opcode) (DestReg : Register) : MachineInstr :=
  { opcode := Opc, operands := [MachineOperand.Reg DestReg true] }

def MachineInstr.addReg (MI : MachineInstr) (R : Register) : MachineInstr :=
  { MI with operands := MI.operands ++ [MachineOperand.Reg R false] }

def MachineInstr.addImm (MI : MachineInstr) (V : Int) : MachineInstr :=
  { MI with operands := MI.operands ++ [MachineOperand.Imm V] }

def MachineInstr.addMBB (MI : MachineInstr) (Target : Nat) : MachineInstr :=
  { MI with operands := MI.operands ++ [MachineOperand.MBB Target] }

/-- The read `MI.getOperand(i).getReg()`. -/
def MachineInstr.getReg (MI : MachineInstr) (i : Nat) : Except Fatal Register :=
  match MI.operands[i]? with
  | some (MachineOperand.Reg R _) => .ok R
  | _ => .error Fatal.badOperand

/-- The read `MI.getOperand(i).getImm()`. -/
def MachineInstr.getImm (MI : MachineInstr) (i : Nat) : Except Fatal Int :=
  match MI.operands[i]? with
  | some (MachineOperand.Imm V) => .ok V
  | _ => .error Fatal.badOperand

/-- The registers an instruction defines. -/
def MachineInstr.defs (MI : MachineInstr) : List Register :=
  MI.operands.filterMap fun
    | MachineOperand.Reg R true => some R
    | _ => none

/-- The registers an instruction reads. -/
def MachineInstr.uses (MI : MachineInstr) : List Register :=
  MI.operands.filterMap fun
    | MachineOperand.Reg R false => some R
    | _ => none

/-! ## Basic block operations -/

/-- The call `MF->CreateMachineBasicBlock(...)` followed by `MF->insert`, which numbers
the block. -/
def CreateMachineBasicBlock (Number : Nat) : MachineBasicBlock :=
  { number := Number, insts := [], successors := [], liveIns := [] }

/-- Appending at `MBB->end()`, where `BuildMI` on a block pointer inserts. -/
def MachineBasicBlock.push (MBB : MachineBasicBlock) (MI : MachineInstr) : MachineBasicBlock :=
  { MBB with insts := MBB.insts ++ [MI] }

def MachineBasicBlock.addSuccessor (MBB : MachineBasicBlock) (Succ : Nat) : MachineBasicBlock :=
  { MBB with successors := MBB.successors ++ [Succ] }

/-- The call `To->splice(To->end(), &From, MI, From.end())` with `MI` at position `MBBI` of `From`:
   the instructions from `MI` on move, in order, to the end of `To`.  Returns `(To, From)`. -/
def MachineBasicBlock.splice (To From : MachineBasicBlock) (MBBI : Nat) :
    MachineBasicBlock × MachineBasicBlock :=
  ({ To with insts := To.insts ++ From.insts.drop MBBI },
   { From with insts := From.insts.take MBBI })

/-- The call `To->transferSuccessors(&From)`: every successor of `From` is moved, in order, to
   the end of the successor list of `To`.  Returns `(To, From)`. -/
def MachineBasicBlock.transferSuccessors (To From : MachineBasicBlock) :
    MachineBasicBlock × MachineBasicBlock :=
  ({ To with successors := To.successors ++ From.successors },
   { From with successors := [] })

/-- The call `MI.eraseFromParent()` for the instruction at position `MBBI` of its block. -/
def MachineBasicBlock.erase (MBB : MachineBasicBlock) (MBBI : Nat) : MachineBasicBlock :=
  { MBB with insts := MBB.insts.eraseIdx MBBI }

/-! ## Live-in recomputation -/

/-- Modelled from the spec: `LivePhysRegs::stepBackward`, which lives outside this
source tree.  Stepping backward over an instruction removes the registers it defines
and adds the registers it reads. -/
def stepBackward (Live : List Register) (MI : MachineInstr) : List Register :=
  (Live.filter fun R => !MI.defs.contains R) ∪ MI.uses

/-- Modelled from the spec: the live-outs of a block, the union of the live-in lists of
its successors as they stand in the layout `Blocks`. -/
def addLiveOuts (Blocks : List MachineBasicBlock) (MBB : MachineBasicBlock) : List Register :=
  MBB.successors.foldl
    (fun Live Succ =>
      match Blocks.find? (fun B => B.number == Succ) with
      | some B => Live ∪ B.liveIns
      | none => Live)
    []

/-- Modelled from the spec: `computeAndAddLiveIns`, which lives outside this source
tree.  The live-in list of the block is recomputed by stepping backward through its
instructions from its live-outs. -/
def computeAndAddLiveIns (Blocks : List MachineBasicBlock) (MBB : MachineBasicBlock) :
    MachineBasicBlock :=
  { MBB with liveIns := MBB.insts.foldr (fun MI Live => stepBackward Live MI) (addLiveOuts Blocks MBB) }

/-! ## The expanders -/

/-- Emits the loop body of a full-word binary read-modify-write into `LoopMBB`
(`ThisMBB` and `DoneMBB` are not used by the source function). -/
def doAtomicBinOpExpansion (MI : MachineInstr) (LoopMBB : MachineBasicBlock)
    (BinOp : AtomicRMWInst.BinOp) (Width : Nat) : Except Fatal MachineBasicBlock := do
  let DestReg ← MI.getReg 0
  let ScratchReg ← MI.getReg 1
  let AddrReg ← MI.getReg 2
  let IncrReg ← MI.getReg 3
  let Ordering := AtomicOrdering.ofImm (← MI.getImm 4)
  let LoopMBB :=
    if Ordering ≠ AtomicOrdering.Monotonic then
      LoopMBB.push ((BuildMI Opcode.DBAR).addImm 0)
    else LoopMBB
  let LoopMBB := LoopMBB.push
    (((BuildMIDef (if Width = 32 then Opcode.LL_W else Opcode.LL_D) DestReg).addReg AddrReg).addImm 0)
  let LoopMBB ← (match BinOp with
    | AtomicRMWInst.BinOp.Xchg =>
      pure (LoopMBB.push (((BuildMIDef Opcode.OR ScratchReg).addReg IncrReg).addReg R0))
    | AtomicRMWInst.BinOp.Nand =>
      pure ((LoopMBB.push (((BuildMIDef Opcode.AND ScratchReg).addReg DestReg).addReg IncrReg)).push
        (((BuildMIDef Opcode.NOR ScratchReg).addReg ScratchReg).addReg R0))
    | AtomicRMWInst.BinOp.Add =>
      pure (LoopMBB.push (((BuildMIDef Opcode.ADD_W ScratchReg).addReg DestReg).addReg IncrReg))
    | AtomicRMWInst.BinOp.Sub =>
      pure (LoopMBB.push (((BuildMIDef Opcode.SUB_W ScratchReg).addReg DestReg).addReg IncrReg))
    | AtomicRMWInst.BinOp.And =>
      pure (LoopMBB.push (((BuildMIDef Opcode.AND ScratchReg).addReg DestReg).addReg IncrReg))
    | AtomicRMWInst.BinOp.Or =>
      pure (LoopMBB.push (((BuildMIDef Opcode.OR ScratchReg).addReg DestReg).addReg IncrReg))
    | AtomicRMWInst.BinOp.Xor =>
      pure (LoopMBB.push (((BuildMIDef Opcode.XOR ScratchReg).addReg DestReg).addReg IncrReg))
    | _ => throw Fatal.unexpectedBinOp)
  let LoopMBB := LoopMBB.push
    ((((BuildMIDef (if Width = 32 then Opcode.SC_W else Opcode.SC_D) ScratchReg).addReg ScratchReg).addReg
      AddrReg).addImm 0)
  pure (LoopMBB.push (((BuildMI Opcode.BEQZ).addReg ScratchReg).addMBB LoopMBB.number))

/-- Emits `res = oldval ^ ((oldval ^ newval) & mask)` at the end of `MBB`. -/
def insertMaskedMerge (MBB : MachineBasicBlock) (DestReg OldValReg NewValReg MaskReg
    ScratchReg : Register) : Except Fatal MachineBasicBlock := do
  if OldValReg = ScratchReg then throw Fatal.oldValIsScratch
  if OldValReg = MaskReg then throw Fatal.oldValIsMask
  if ScratchReg = MaskReg then throw Fatal.scratchIsMask
  let MBB := MBB.push (((BuildMIDef Opcode.XOR ScratchReg).addReg OldValReg).addReg NewValReg)
  let MBB := MBB.push (((BuildMIDef Opcode.AND ScratchReg).addReg ScratchReg).addReg MaskReg)
  pure (MBB.push (((BuildMIDef Opcode.XOR DestReg).addReg OldValReg).addReg ScratchReg))

/-- Emits the loop body of a masked binary read-modify-write into `LoopMBB`
(`ThisMBB` and `DoneMBB` are not used by the source function). -/
def doMaskedAtomicBinOpExpansion (MI : MachineInstr) (LoopMBB : MachineBasicBlock)
    (BinOp : AtomicRMWInst.BinOp) (Width : Nat) : Except Fatal MachineBasicBlock := do
  if Width ≠ 32 then throw Fatal.masked64
  let DestReg ← MI.getReg 0
  let ScratchReg ← MI.getReg 1
  let AddrReg ← MI.getReg 2
  let IncrReg ← MI.getReg 3
  let MaskReg ← MI.getReg 4
  let Ordering := AtomicOrdering.ofImm (← MI.getImm 5)
  let LoopMBB :=
    if Ordering ≠ AtomicOrdering.Monotonic then
      LoopMBB.push ((BuildMI Opcode.DBAR).addImm 0)
    else LoopMBB
  let LoopMBB := LoopMBB.push (((BuildMIDef Opcode.LL_W DestReg).addReg AddrReg).addImm 0)
  let LoopMBB ← (match BinOp with
    | AtomicRMWInst.BinOp.Xchg =>
      pure (LoopMBB.push (((BuildMIDef Opcode.ADDI_W ScratchReg).addReg IncrReg).addImm 0))
    | AtomicRMWInst.BinOp.Add =>
      pure (LoopMBB.push (((BuildMIDef Opcode.ADD_W ScratchReg).addReg DestReg).addReg IncrReg))
    | AtomicRMWInst.BinOp.Sub =>
      pure (LoopMBB.push (((BuildMIDef Opcode.SUB_W ScratchReg).addReg DestReg).addReg IncrReg))
    | AtomicRMWInst.BinOp.Nand =>
      pure ((LoopMBB.push (((BuildMIDef Opcode.AND ScratchReg).addReg DestReg).addReg IncrReg)).push
        (((BuildMIDef Opcode.NOR ScratchReg).addReg ScratchReg).addReg R0))
    | _ => throw Fatal.unexpectedBinOp)
  let LoopMBB ← insertMaskedMerge LoopMBB ScratchReg DestReg ScratchReg MaskReg ScratchReg
  let LoopMBB := LoopMBB.push
    ((((BuildMIDef Opcode.SC_W ScratchReg).addReg ScratchReg).addReg AddrReg).addImm 0)
  pure (LoopMBB.push (((BuildMI Opcode.BEQZ).addReg ScratchReg).addMBB LoopMBB.number))

/-- Expands the binary read-modify-write pseudo at position `MBBI` of the block at layout
index `MBBIdx`.  On return the source has set `NextMBBI = MBB.end()` and reports `true`. -/
def expandAtomicBinOp (MF : MachineFunction) (MBBIdx MBBI : Nat) (BinOp : AtomicRMWInst.BinOp)
    (IsMasked : Bool) (Width : Nat) : Except Fatal MachineFunction := do
  let some MBB := MF.blocks[MBBIdx]? | throw Fatal.badIterator
  let some MI := MBB.insts[MBBI]? | throw Fatal.badIterator
  let LoopMBB := CreateMachineBasicBlock MF.numBlockIDs
  let DoneMBB := CreateMachineBasicBlock (MF.numBlockIDs + 1)
  -- Set up successors and transfer remaining instructions to DoneMBB.
  let LoopMBB := LoopMBB.addSuccessor LoopMBB.number
  let LoopMBB := LoopMBB.addSuccessor DoneMBB.number
  let (DoneMBB, MBB) := DoneMBB.splice MBB MBBI
  let (DoneMBB, MBB) := DoneMBB.transferSuccessors MBB
  let MBB := MBB.addSuccessor LoopMBB.number
  let LoopMBB ←
    (if IsMasked then doMaskedAtomicBinOpExpansion MI LoopMBB BinOp Width
     else doAtomicBinOpExpansion MI LoopMBB BinOp Width)
  -- MI.eraseFromParent(): after the splice MI is the first instruction of DoneMBB.
  let DoneMBB := DoneMBB.erase 0
  let Before := MF.blocks.take MBBIdx
  let After := MF.blocks.drop (MBBIdx + 1)
  let LoopMBB := computeAndAddLiveIns (Before ++ MBB :: LoopMBB :: DoneMBB :: After) LoopMBB
  let DoneMBB := computeAndAddLiveIns (Before ++ MBB :: LoopMBB :: DoneMBB :: After) DoneMBB
  pure { blocks := Before ++ MBB :: LoopMBB :: DoneMBB :: After, numBlockIDs := MF.numBlockIDs + 2 }

/-- Emits the shift-left, arithmetic-shift-right pair that sign-extends `ValReg`. -/
def insertSext (MBB : MachineBasicBlock) (ValReg ShamtReg : Register) : MachineBasicBlock :=
  let MBB := MBB.push (((BuildMIDef Opcode.SLL_W ValReg).addReg ValReg).addReg ShamtReg)
  MBB.push (((BuildMIDef Opcode.SRA_W ValReg).addReg ValReg).addReg ShamtReg)

/-- Expands the masked min/max pseudo at position `MBBI` of the block at layout index
`MBBIdx`.  On return the source has set `NextMBBI = MBB.end()` and reports `true`. -/
def expandAtomicMinMaxOp (MF : MachineFunction) (MBBIdx MBBI : Nat) (BinOp : AtomicRMWInst.BinOp)
    (IsMasked : Bool) (Width : Nat) : Except Fatal MachineFunction := do
  if IsMasked ≠ true then throw Fatal.unmaskedMinMax
  if Width ≠ 32 then throw Fatal.masked64
  let some MBB := MF.blocks[MBBIdx]? | throw Fatal.badIterator
  let some MI := MBB.insts[MBBI]? | throw Fatal.badIterator
  let LoopHeadMBB := CreateMachineBasicBlock MF.numBlockIDs
  let LoopIfBodyMBB := CreateMachineBasicBlock (MF.numBlockIDs + 1)
  let LoopTailMBB := CreateMachineBasicBlock (MF.numBlockIDs + 2)
  let TailMBB := CreateMachineBasicBlock (MF.numBlockIDs + 3)
  let DoneMBB := CreateMachineBasicBlock (MF.numBlockIDs + 4)
  -- Set up successors and transfer remaining instructions to DoneMBB.
  let LoopHeadMBB := LoopHeadMBB.addSuccessor LoopIfBodyMBB.number
  let LoopHeadMBB := LoopHeadMBB.addSuccessor LoopTailMBB.number
  let LoopIfBodyMBB := LoopIfBodyMBB.addSuccessor LoopTailMBB.number
  let LoopTailMBB := LoopTailMBB.addSuccessor LoopHeadMBB.number
  let LoopTailMBB := LoopTailMBB.addSuccessor TailMBB.number
  let TailMBB := TailMBB.addSuccessor DoneMBB.number
  let (DoneMBB, MBB) := DoneMBB.splice MBB MBBI
  let (DoneMBB, MBB) := DoneMBB.transferSuccessors MBB
  let MBB := MBB.addSuccessor LoopHeadMBB.number
  let DestReg ← MI.getReg 0
  let Scratch1Reg ← MI.getReg 1
  let Scratch2Reg ← MI.getReg 2
  let AddrReg ← MI.getReg 3
  let IncrReg ← MI.getReg 4
  let MaskReg ← MI.getReg 5
  -- .loophead:
  let LoopHeadMBB := LoopHeadMBB.push ((BuildMI Opcode.DBAR).addImm 0)
  let LoopHeadMBB := LoopHeadMBB.push (((BuildMIDef Opcode.LL_W DestReg).addReg AddrReg).addImm 0)
  let LoopHeadMBB := LoopHeadMBB.push (((BuildMIDef Opcode.AND Scratch2Reg).addReg DestReg).addReg MaskReg)
  let LoopHeadMBB := LoopHeadMBB.push (((BuildMIDef Opcode.OR Scratch1Reg).addReg DestReg).addReg R0)
  let LoopHeadMBB ← (match BinOp with
    | AtomicRMWInst.BinOp.UMax =>
      pure (LoopHeadMBB.push
        ((((BuildMI Opcode.BGEU).addReg Scratch2Reg).addReg IncrReg).addMBB LoopTailMBB.number))
    | AtomicRMWInst.BinOp.UMin =>
      pure (LoopHeadMBB.push
        ((((BuildMI Opcode.BGEU).addReg IncrReg).addReg Scratch2Reg).addMBB LoopTailMBB.number))
    | AtomicRMWInst.BinOp.Max => do
      let ShamtReg ← MI.getReg 6
      let LoopHeadMBB := insertSext LoopHeadMBB Scratch2Reg ShamtReg
      pure (LoopHeadMBB.push
        ((((BuildMI Opcode.BGE).addReg Scratch2Reg).addReg IncrReg).addMBB LoopTailMBB.number))
    | AtomicRMWInst.BinOp.Min => do
      let ShamtReg ← MI.getReg 6
      let LoopHeadMBB := insertSext LoopHeadMBB Scratch2Reg ShamtReg
      pure (LoopHeadMBB.push
        ((((BuildMI Opcode.BGE).addReg IncrReg).addReg Scratch2Reg).addMBB LoopTailMBB.number))
    | _ => throw Fatal.unexpectedBinOp)
  -- .loopifbody:
  let LoopIfBodyMBB ← insertMaskedMerge LoopIfBodyMBB Scratch1Reg DestReg IncrReg MaskReg Scratch1Reg
  -- .looptail:
  let LoopTailMBB := LoopTailMBB.push
    ((((BuildMIDef Opcode.SC_W Scratch1Reg).addReg Scratch1Reg).addReg AddrReg).addImm 0)
  let LoopTailMBB := LoopTailMBB.push
    (((BuildMI Opcode.BEQZ).addReg Scratch1Reg).addMBB LoopHeadMBB.number)
  -- .tail:
  let TailMBB := TailMBB.push ((BuildMI Opcode.DBAR).addImm 0x700)
  -- MI.eraseFromParent(): after the splice MI is the first instruction of DoneMBB.
  let DoneMBB := DoneMBB.erase 0
  let Before := MF.blocks.take MBBIdx
  let After := MF.blocks.drop (MBBIdx + 1)
  let LoopHeadMBB := computeAndAddLiveIns
    (Before ++ MBB :: LoopHeadMBB :: LoopIfBodyMBB :: LoopTailMBB :: TailMBB :: DoneMBB :: After) LoopHeadMBB
  let LoopIfBodyMBB := computeAndAddLiveIns
    (Before ++ MBB :: LoopHeadMBB :: LoopIfBodyMBB :: LoopTailMBB :: TailMBB :: DoneMBB :: After) LoopIfBodyMBB
  let LoopTailMBB := computeAndAddLiveIns
    (Before ++ MBB :: LoopHeadMBB :: LoopIfBodyMBB :: LoopTailMBB :: TailMBB :: DoneMBB :: After) LoopTailMBB
  let TailMBB := computeAndAddLiveIns
    (Before ++ MBB :: LoopHeadMBB :: LoopIfBodyMBB :: LoopTailMBB :: TailMBB :: DoneMBB :: After) TailMBB
  let DoneMBB := computeAndAddLiveIns
    (Before ++ MBB :: LoopHeadMBB :: LoopIfBodyMBB :: LoopTailMBB :: TailMBB :: DoneMBB :: After) DoneMBB
  pure { blocks := Before ++ MBB :: LoopHeadMBB :: LoopIfBodyMBB :: LoopTailMBB :: TailMBB :: DoneMBB :: After,
         numBlockIDs := MF.numBlockIDs + 5 }

/-- Expands the compare-and-exchange pseudo at position `MBBI` of the block at layout
index `MBBIdx`.  On return the source has set `NextMBBI = MBB.end()` and reports `true`. -/
def expandAtomicCmpXchg (MF : MachineFunction) (MBBIdx MBBI : Nat) (IsMasked : Bool)
    (Width : Nat) : Except Fatal MachineFunction := do
  let some MBB := MF.blocks[MBBIdx]? | throw Fatal.badIterator
  let some MI := MBB.insts[MBBI]? | throw Fatal.badIterator
  let LoopHeadMBB := CreateMachineBasicBlock MF.numBlockIDs
  let LoopTailMBB := CreateMachineBasicBlock (MF.numBlockIDs + 1)
  let TailMBB := CreateMachineBasicBlock (MF.numBlockIDs + 2)
  let DoneMBB := CreateMachineBasicBlock (MF.numBlockIDs + 3)
  -- Set up successors and transfer remaining instructions to DoneMBB.
  let LoopHeadMBB := LoopHeadMBB.addSuccessor LoopTailMBB.number
  let LoopHeadMBB := LoopHeadMBB.addSuccessor TailMBB.number
  let LoopTailMBB := LoopTailMBB.addSuccessor DoneMBB.number
  let LoopTailMBB := LoopTailMBB.addSuccessor LoopHeadMBB.number
  let TailMBB := TailMBB.addSuccessor DoneMBB.number
  let (DoneMBB, MBB) := DoneMBB.splice MBB MBBI
  let (DoneMBB, MBB) := DoneMBB.transferSuccessors MBB
  let MBB := MBB.addSuccessor LoopHeadMBB.number
  let DestReg ← MI.getReg 0
  let ScratchReg ← MI.getReg 1
  let AddrReg ← MI.getReg 2
  let CmpValReg ← MI.getReg 3
  let NewValReg ← MI.getReg 4
  let (LoopHeadMBB, LoopTailMBB) ←
    (if ¬ IsMasked then do
      -- .loophead:
      let LoopHeadMBB := LoopHeadMBB.push
        (((BuildMIDef (if Width = 32 then Opcode.LL_W else Opcode.LL_D) DestReg).addReg AddrReg).addImm 0)
      let LoopHeadMBB := LoopHeadMBB.push
        ((((BuildMI Opcode.BNE).addReg DestReg).addReg CmpValReg).addMBB TailMBB.number)
      -- .looptail:
      let LoopTailMBB := LoopTailMBB.push ((BuildMI Opcode.DBAR).addImm 0)
      let LoopTailMBB := LoopTailMBB.push (((BuildMIDef Opcode.OR ScratchReg).addReg NewValReg).addReg R0)
      let LoopTailMBB := LoopTailMBB.push
        ((((BuildMIDef (if Width = 32 then Opcode.SC_W else Opcode.SC_D) ScratchReg).addReg ScratchReg).addReg
          AddrReg).addImm 0)
      let LoopTailMBB := LoopTailMBB.push
        (((BuildMI Opcode.BEQZ).addReg ScratchReg).addMBB LoopHeadMBB.number)
      let LoopTailMBB := LoopTailMBB.push ((BuildMI Opcode.B).addMBB DoneMBB.number)
      pure (LoopHeadMBB, LoopTailMBB)
    else do
      -- .loophead:
      let MaskReg ← MI.getReg 5
      let LoopHeadMBB := LoopHeadMBB.push
        (((BuildMIDef (if Width = 32 then Opcode.LL_W else Opcode.LL_D) DestReg).addReg AddrReg).addImm 0)
      let LoopHeadMBB := LoopHeadMBB.push (((BuildMIDef Opcode.AND ScratchReg).addReg DestReg).addReg MaskReg)
      let LoopHeadMBB := LoopHeadMBB.push
        ((((BuildMI Opcode.BNE).addReg ScratchReg).addReg CmpValReg).addMBB TailMBB.number)
      -- .looptail:
      let LoopTailMBB := LoopTailMBB.push ((BuildMI Opcode.DBAR).addImm 0)
      let LoopTailMBB := LoopTailMBB.push (((BuildMIDef Opcode.ANDN ScratchReg).addReg DestReg).addReg MaskReg)
      let LoopTailMBB := LoopTailMBB.push (((BuildMIDef Opcode.OR ScratchReg).addReg ScratchReg).addReg NewValReg)
      let LoopTailMBB := LoopTailMBB.push
        ((((BuildMIDef (if Width = 32 then Opcode.SC_W else Opcode.SC_D) ScratchReg).addReg ScratchReg).addReg
          AddrReg).addImm 0)
      let LoopTailMBB := LoopTailMBB.push
        (((BuildMI Opcode.BEQZ).addReg ScratchReg).addMBB LoopHeadMBB.number)
      let LoopTailMBB := LoopTailMBB.push ((BuildMI Opcode.B).addMBB DoneMBB.number)
      pure (LoopHeadMBB, LoopTailMBB))
  -- .tail:
  let TailMBB := TailMBB.push ((BuildMI Opcode.DBAR).addImm 0x700)
  -- MI.eraseFromParent(): after the splice MI is the first instruction of DoneMBB.
  let DoneMBB := DoneMBB.erase 0
  let Before := MF.blocks.take MBBIdx
  let After := MF.blocks.drop (MBBIdx + 1)
  let LoopHeadMBB := computeAndAddLiveIns
    (Before ++ MBB :: LoopHeadMBB :: LoopTailMBB :: TailMBB :: DoneMBB :: After) LoopHeadMBB
  let LoopTailMBB := computeAndAddLiveIns
    (Before ++ MBB :: LoopHeadMBB :: LoopTailMBB :: TailMBB :: DoneMBB :: After) LoopTailMBB
  let TailMBB := computeAndAddLiveIns
    (Before ++ MBB :: LoopHeadMBB :: LoopTailMBB :: TailMBB :: DoneMBB :: After) TailMBB
  let DoneMBB := computeAndAddLiveIns
    (Before ++ MBB :: LoopHeadMBB :: LoopTailMBB :: TailMBB :: DoneMBB :: After) DoneMBB
  pure { blocks := Before ++ MBB :: LoopHeadMBB :: LoopTailMBB :: TailMBB :: DoneMBB :: After,
         numBlockIDs := MF.numBlockIDs + 4 }

/-! ## The driver -/

/-- Dispatches on the opcode of the instruction at position `MBBI` of the block at layout
index `MBBIdx`.  The result `none` stands for the return value `false` (function and
`NextMBBI` untouched); `some MF'` stands for the return value `true`, in which case the
expander has set `NextMBBI = MBB.end()`. -/
def expandMI (MF : MachineFunction) (MBBIdx MBBI : Nat) :
    Except Fatal (Option MachineFunction) := do
  let some MBB := MF.blocks[MBBIdx]? | throw Fatal.badIterator
  let some MI := MBB.insts[MBBI]? | throw Fatal.badIterator
  match MI.opcode with
  | Opcode.PseudoMaskedAtomicSwap32 =>
    some <$> expandAtomicBinOp MF MBBIdx MBBI AtomicRMWInst.BinOp.Xchg true 32
  | Opcode.PseudoAtomicSwap32 =>
    some <$> expandAtomicBinOp MF MBBIdx MBBI AtomicRMWInst.BinOp.Xchg false 32
  | Opcode.PseudoMaskedAtomicLoadAdd32 =>
    some <$> expandAtomicBinOp MF MBBIdx MBBI AtomicRMWInst.BinOp.Add true 32
  | Opcode.PseudoMaskedAtomicLoadSub32 =>
    some <$> expandAtomicBinOp MF MBBIdx MBBI AtomicRMWInst.BinOp.Sub true 32
  | Opcode.PseudoAtomicLoadNand32 =>
    some <$> expandAtomicBinOp MF MBBIdx MBBI AtomicRMWInst.BinOp.Nand false 32
  | Opcode.PseudoAtomicLoadNand64 =>
    some <$> expandAtomicBinOp MF MBBIdx MBBI AtomicRMWInst.BinOp.Nand false 64
  | Opcode.PseudoMaskedAtomicLoadNand32 =>
    some <$> expandAtomicBinOp MF MBBIdx MBBI AtomicRMWInst.BinOp.Nand true 32
  | Opcode.PseudoAtomicLoadAdd32 =>
    some <$> expandAtomicBinOp MF MBBIdx MBBI AtomicRMWInst.BinOp.Add false 32
  | Opcode.PseudoAtomicLoadSub32 =>
    some <$> expandAtomicBinOp MF MBBIdx MBBI AtomicRMWInst.BinOp.Sub false 32
  | Opcode.PseudoAtomicLoadAnd32 =>
    some <$> expandAtomicBinOp MF MBBIdx MBBI AtomicRMWInst.BinOp.And false 32
  | Opcode.PseudoAtomicLoadOr32 =>
    some <$> expandAtomicBinOp MF MBBIdx MBBI AtomicRMWInst.BinOp.Or false 32
  | Opcode.PseudoAtomicLoadXor32 =>
    some <$> expandAtomicBinOp MF MBBIdx MBBI AtomicRMWInst.BinOp.Xor false 32
  | Opcode.PseudoMaskedAtomicLoadUMax32 =>
    some <$> expandAtomicMinMaxOp MF MBBIdx MBBI AtomicRMWInst.BinOp.UMax true 32
  | Opcode.PseudoMaskedAtomicLoadUMin32 =>
    some <$> expandAtomicMinMaxOp MF MBBIdx MBBI AtomicRMWInst.BinOp.UMin true 32
  | Opcode.PseudoCmpXchg32 =>
    some <$> expandAtomicCmpXchg MF MBBIdx MBBI false 32
  | Opcode.PseudoCmpXchg64 =>
    some <$> expandAtomicCmpXchg MF MBBIdx MBBI false 64
  | Opcode.PseudoMaskedCmpXchg32 =>
    some <$> expandAtomicCmpXchg MF MBBIdx MBBI true 32
  | Opcode.PseudoMaskedAtomicLoadMax32 =>
    some <$> expandAtomicMinMaxOp MF MBBIdx MBBI AtomicRMWInst.BinOp.Max true 32
  | Opcode.PseudoMaskedAtomicLoadMin32 =>
    some <$> expandAtomicMinMaxOp MF MBBIdx MBBI AtomicRMWInst.BinOp.Min true 32
  | _ => pure none

/-- The `while (MBBI != E)` loop of `expandMBB`.  `Rest` holds the instructions from
`MBBI` to the end of the block.  When `expandMI` reports `false` the iterator advances to
`std::next(MBBI)`; when it reports `true` it has set `NextMBBI = MBB.end()`, so the loop
is left with `Modified = true`. -/
def expandMBB.loop (MF : MachineFunction) (MBBIdx : Nat) :
    List MachineInstr → Nat → Except Fatal (MachineFunction × Bool)
  | [], _ => .ok (MF, false)
  | _ :: Rest, MBBI =>
    match expandMI MF MBBIdx MBBI with
    | .error e => .error e
    | .ok none => expandMBB.loop MF MBBIdx Rest (MBBI + 1)
    | .ok (some MF') => .ok (MF', true)

/-- Expands the block at layout index `MBBIdx`; returns the function and `Modified`. -/
def expandMBB (MF : MachineFunction) (MBBIdx : Nat) : Except Fatal (MachineFunction × Bool) :=
  match MF.blocks[MBBIdx]? with
  | none => .error Fatal.badIterator
  | some MBB => expandMBB.loop MF MBBIdx MBB.insts 0

/-- The opcodes that `expandMI` dispatches to an expander. -/
def isAtomicPseudo : Opcode → Bool
  | Opcode.PseudoMaskedAtomicSwap32 => true
  | Opcode.PseudoAtomicSwap32 => true
  | Opcode.PseudoMaskedAtomicLoadAdd32 => true
  | Opcode.PseudoMaskedAtomicLoadSub32 => true
  | Opcode.PseudoAtomicLoadNand32 => true
  | Opcode.PseudoAtomicLoadNand64 => true
  | Opcode.PseudoMaskedAtomicLoadNand32 => true
  | Opcode.PseudoAtomicLoadAdd32 => true
  | Opcode.PseudoAtomicLoadSub32 => true
  | Opcode.PseudoAtomicLoadAnd32 => true
  | Opcode.PseudoAtomicLoadOr32 => true
  | Opcode.PseudoAtomicLoadXor32 => true
  | Opcode.PseudoMaskedAtomicLoadUMax32 => true
  | Opcode.PseudoMaskedAtomicLoadUMin32 => true
  | Opcode.PseudoCmpXchg32 => true
  | Opcode.PseudoCmpXchg64 => true
  | Opcode.PseudoMaskedCmpXchg32 => true
  | Opcode.PseudoMaskedAtomicLoadMax32 => true
  | Opcode.PseudoMaskedAtomicLoadMin32 => true
  | _ => false

/-- The number of atomic pseudo instructions in a list of blocks. -/
def numPseudos (Blocks : List MachineBasicBlock) : Nat :=
  (Blocks.map fun MBB => MBB.insts.countP fun MI => isAtomicPseudo MI.opcode).sum

/-- The loop `for (auto &MBB : MF) Modified |= expandMBB(MBB)`.  The iterator is the
layout index `MBBIdx`: blocks inserted behind the current block are visited in their
turn.  `Fuel` bounds the number of iterations. -/
def runOnMachineFunction.loop :
    Nat → MachineFunction → Nat → Bool → Except Fatal (MachineFunction × Bool)
  | 0, MF, _, Modified => .ok (MF, Modified)
  | Fuel + 1, MF, MBBIdx, Modified =>
    if MBBIdx < MF.blocks.length then
      match expandMBB MF MBBIdx with
      | .error e => .error e
      | .ok (MF', M) => runOnMachineFunction.loop Fuel MF' (MBBIdx + 1) (Modified || M)
    else .ok (MF, Modified)

/-- Runs the pass on a function; returns the function and `Modified`.  Every iteration
visits one block and an expansion inserts at most five, so the loop runs at most
`MF.size() + 5 * numPseudos` times: with this fuel it always reaches the end of the
layout (`runOnMachineFunction_fuel_adequate`). -/
def runOnMachineFunction (MF : MachineFunction) : Except Fatal (MachineFunction × Bool) :=
  runOnMachineFunction.loop (MF.blocks.length + 5 * numPseudos MF.blocks) MF 0 false

/-- The three expanders with the arguments `expandMI` passes besides the iterators. -/
inductive Expander
  | binOp (BinOp : AtomicRMWInst.BinOp) (IsMasked : Bool) (Width : Nat)
  | minMax (BinOp : AtomicRMWInst.BinOp) (IsMasked : Bool) (Width : Nat)
  | cmpXchg (IsMasked : Bool) (Width : Nat)
  deriving DecidableEq, Repr

/-- Calls the expander on the instruction at position `MBBI` of the block at layout index
`MBBIdx`. -/
def Expander.run (E : Expander) (MF : MachineFunction) (MBBIdx MBBI : Nat) :
    Except Fatal MachineFunction :=
  match E with
  | Expander.binOp BinOp IsMasked Width => expandAtomicBinOp MF MBBIdx MBBI BinOp IsMasked Width
  | Expander.minMax BinOp IsMasked Width => expandAtomicMinMaxOp MF MBBIdx MBBI BinOp IsMasked Width
  | Expander.cmpXchg IsMasked Width => expandAtomicCmpXchg MF MBBIdx MBBI IsMasked Width

/-- No instruction of the blocks carries an atomic pseudo opcode. -/
def noPseudo (Blocks : List MachineBasicBlock) : Prop :=
  ∀ MBB ∈ Blocks, ∀ MI ∈ MBB.insts, isAtomicPseudo MI.opcode = false

/-! ## Semantics of the emitted arithmetic and logical instructions -/

/-- Modelled from the spec: a register file of 32-bit machine words (the instruction set
semantics is not part of the source tree). -/
abbrev RegFile := Register → Nat

/-- Reads a register as a 32-bit word; the zero register reads 0. -/
def RegFile.read (σ : RegFile) (R : Register) : Nat :=
  if R = R0 then 0 else σ R % 2 ^ 32

/-- Writes a 32-bit word to a register. -/
def RegFile.write (σ : RegFile) (R : Register) (V : Nat) : RegFile :=
  fun X => if X = R then V % 2 ^ 32 else σ X

/-- The bitwise complement of a 32-bit word. -/
def not32 (V : Nat) : Nat := 2 ^ 32 - 1 - V % 2 ^ 32

/-- The signed value of a 32-bit word. -/
def toSigned32 (V : Nat) : Int :=
  if V % 2 ^ 32 < 2 ^ 31 then (V % 2 ^ 32 : Nat) else ((V % 2 ^ 32 : Nat) : Int) - 2 ^ 32

/-- Modelled from the spec: the effect on the register file of one arithmetic or logical
instruction of the kind the expanders emit, on 32-bit words. -/
def execALU (σ : RegFile) (MI : MachineInstr) : Option RegFile :=
  match MI.opcode, MI.operands with
  | Opcode.XOR, [MachineOperand.Reg D true, MachineOperand.Reg A false, MachineOperand.Reg B false] =>
    some (σ.write D (σ.read A ^^^ σ.read B))
  | Opcode.AND, [MachineOperand.Reg D true, MachineOperand.Reg A false, MachineOperand.Reg B false] =>
    some (σ.write D (σ.read A &&& σ.read B))
  | Opcode.OR, [MachineOperand.Reg D true, MachineOperand.Reg A false, MachineOperand.Reg B false] =>
    some (σ.write D (σ.read A ||| σ.read B))
  | Opcode.NOR, [MachineOperand.Reg D true, MachineOperand.Reg A false, MachineOperand.Reg B false] =>
    some (σ.write D (not32 (σ.read A ||| σ.read B)))
  | Opcode.ANDN, [MachineOperand.Reg D true, MachineOperand.Reg A false, MachineOperand.Reg B false] =>
    some (σ.write D (σ.read A &&& not32 (σ.read B)))
  | Opcode.ADD_W, [MachineOperand.Reg D true, MachineOperand.Reg A false, MachineOperand.Reg B false] =>
    some (σ.write D (σ.read A + σ.read B))
  | Opcode.SUB_W, [MachineOperand.Reg D true, MachineOperand.Reg A false, MachineOperand.Reg B false] =>
    some (σ.write D (σ.read A + (2 ^ 32 - σ.read B)))
  | Opcode.ADDI_W, [MachineOperand.Reg D true, MachineOperand.Reg A false, MachineOperand.Imm V] =>
    some (σ.write D (σ.read A + (V % 2 ^ 32).toNat))
  | Opcode.SLL_W, [MachineOperand.Reg D true, MachineOperand.Reg A false, MachineOperand.Reg B false] =>
    some (σ.write D (σ.read A <<< (σ.read B % 32)))
  | Opcode.SRA_W, [MachineOperand.Reg D true, MachineOperand.Reg A false, MachineOperand.Reg B false] =>
    some (σ.write D ((toSigned32 (σ.read A) / 2 ^ (σ.read B % 32) % 2 ^ 32).toNat))
  | _, _ => none

/-- Runs a straight-line sequence of arithmetic and logical instructions. -/
def execALUs (σ : RegFile) : List MachineInstr → Option RegFile
  | [] => some σ
  | MI :: Rest => (execALU σ MI).bind fun σ' => execALUs σ' Rest

/-- The value a binary read-modify-write puts in place of `old` for the operand `v`, in the
words of the specification: `v` for exchange, `old + v` and `old - v` modulo `2 ^ 32` for
add and sub, the bitwise and, or and exclusive or for and, or and xor, and the complement
of the bitwise and for nand. -/
def specBinOpValue (op : AtomicRMWInst.BinOp) (old v : Nat) : Option Nat :=
  match op with
  | AtomicRMWInst.BinOp.Xchg => some v
  | AtomicRMWInst.BinOp.Add => some ((old + v) % 2 ^ 32)
  | AtomicRMWInst.BinOp.Sub => some (((old : Int) - (v : Int)) % 2 ^ 32).toNat
  | AtomicRMWInst.BinOp.And => some (old &&& v)
  | AtomicRMWInst.BinOp.Or => some (old ||| v)
  | AtomicRMWInst.BinOp.Xor => some (old ^^^ v)
  | AtomicRMWInst.BinOp.Nand => some (not32 (old &&& v))
  | _ => none

/-! ## Vocabulary of the claims -/

/-- The load-linked opcodes. -/
def isLoadLinked : Opcode → Bool
  | Opcode.LL_W => true
  | Opcode.LL_D => true
  | _ => false

/-- The store-conditional opcodes. -/
def isStoreConditional : Opcode → Bool
  | Opcode.SC_W => true
  | Opcode.SC_D => true
  | _ => false

/-- The number of instructions in the blocks whose opcode satisfies `p`. -/
def countInsts (p : Opcode → Bool) (Blocks : List MachineBasicBlock) : Nat :=
  (Blocks.map fun MBB => MBB.insts.countP fun MI => p MI.opcode).sum

/-! ## Example functions -/

/-- A function of two blocks: block 0 holds a full-word atomic add (Monotonic) and a
masked unsigned max (SequentiallyConsistent) between ordinary instructions and branches to
block 1, which holds a masked compare-and-exchange. -/
def exampleMF : MachineFunction :=
  { blocks :=
      [{ number := 0,
         insts :=
           [⟨Opcode.other 1, []⟩,
            ⟨Opcode.PseudoAtomicLoadAdd32,
              [MachineOperand.Reg 10 true, MachineOperand.Reg 11 true, MachineOperand.Reg 12 false,
               MachineOperand.Reg 13 false, MachineOperand.Imm 2]⟩,
            ⟨Opcode.other 2, []⟩,
            ⟨Opcode.PseudoMaskedAtomicLoadUMax32,
              [MachineOperand.Reg 10 true, MachineOperand.Reg 11 true, MachineOperand.Reg 14 true,
               MachineOperand.Reg 12 false, MachineOperand.Reg 13 false, MachineOperand.Reg 15 false,
               MachineOperand.Imm 7]⟩,
            ⟨Opcode.other 3, []⟩],
         successors := [1],
         liveIns := [] },
       { number := 1,
         insts :=
           [⟨Opcode.PseudoMaskedCmpXchg32,
              [MachineOperand.Reg 10 true, MachineOperand.Reg 11 true, MachineOperand.Reg 12 false,
               MachineOperand.Reg 13 false, MachineOperand.Reg 14 false, MachineOperand.Reg 15 false,
               MachineOperand.Imm 7]⟩],
         successors := [],
         liveIns := [5] }],
    numBlockIDs := 2 }

/-- A function of one block that holds a masked atomic exchange with ordering
AcquireRelease between two ordinary instructions. -/
def exampleSwapMF : MachineFunction :=
  { blocks :=
      [{ number := 0,
         insts :=
           [⟨Opcode.other 1, []⟩,
            ⟨Opcode.PseudoMaskedAtomicSwap32,
              [MachineOperand.Reg 10 true, MachineOperand.Reg 11 true, MachineOperand.Reg 12 false,
               MachineOperand.Reg 13 false, MachineOperand.Reg 15 false, MachineOperand.Imm 6]⟩,
            ⟨Opcode.other 2, []⟩],
         successors := [],
         liveIns := [12, 13, 15] }],
    numBlockIDs := 1 }

/-- A function of one block that holds a masked unsigned max whose only immediate operand,
the ordering tag, is Monotonic. -/
def exampleMonotonicMaxMF : MachineFunction :=
  { blocks :=
      [{ number := 0,
         insts :=
           [⟨Opcode.PseudoMaskedAtomicLoadUMax32,
              [MachineOperand.Reg 10 true, MachineOperand.Reg 11 true, MachineOperand.Reg 14 true,
               MachineOperand.Reg 12 false, MachineOperand.Reg 13 false, MachineOperand.Reg 15 false,
               MachineOperand.Imm 2]⟩],
         successors := [],
         liveIns := [12, 13, 15] }],
    numBlockIDs := 1 }

/-- A function of one block that holds a full-word atomic add whose destination and
scratch operands are the same register. -/
def exampleAliasedAddMF : MachineFunction :=
  { blocks :=
      [{ number := 0,
         insts :=
           [⟨Opcode.PseudoAtomicLoadAdd32,
              [MachineOperand.Reg 10 true, MachineOperand.Reg 10 true, MachineOperand.Reg 12 false,
               MachineOperand.Reg 12 false, MachineOperand.Imm 7]⟩],
         successors := [],
         liveIns := [12] }],
    numBlockIDs := 1 }

/-- A function of one block that holds a masked signed max whose shift-amount register is
operand 6, directly after the mask register, and whose ordering tag is operand 7. -/
def exampleSignedMaxMF : MachineFunction :=
  { blocks :=
      [{ number := 0,
         insts :=
           [⟨Opcode.PseudoMaskedAtomicLoadMax32,
              [MachineOperand.Reg 10 true, MachineOperand.Reg 11 true, MachineOperand.Reg 14 true,
               MachineOperand.Reg 12 false, MachineOperand.Reg 13 false, MachineOperand.Reg 15 false,
               MachineOperand.Reg 16 false, MachineOperand.Imm 7]⟩],
         successors := [],
         liveIns := [12, 13, 15, 16] }],
    numBlockIDs := 1 }

/-- A function of one block that holds a masked signed max whose ordering tag is operand 6,
directly after the mask register, and whose shift-amount register follows the tag. -/
def exampleTagFirstMaxMF : MachineFunction :=
  { blocks :=
      [{ number := 0,
         insts :=
           [⟨Opcode.PseudoMaskedAtomicLoadMax32,
              [MachineOperand.Reg 10 true, MachineOperand.Reg 11 true, MachineOperand.Reg 14 true,
               MachineOperand.Reg 12 false, MachineOperand.Reg 13 false, MachineOperand.Reg 15 false,
               MachineOperand.Imm 7, MachineOperand.Reg 16 false]⟩],
         successors := [],
         liveIns := [12, 13, 15, 16] }],
    numBlockIDs := 1 }

/-! ## Execution of the emitted code -/

/-- Modelled from the spec: a machine state (the instruction set semantics is not part of
the source tree): the register file, the memory, and the outcomes of the store-conditionals
still to come, in execution order. -/
structure MachineState where
  regs : RegFile
  mem : Nat → Nat
  SCOutcomes : List Bool

/-- Modelled from the spec: the address `Off(Base)` of a load-linked or store-conditional. -/
def effectiveAddress (σ : RegFile) (Base : Register) (Off : Int) : Nat :=
  ((σ.read Base : Int) + Off).toNat

/-- Modelled from the spec: a store-conditional of register `V` to `Off(A)`.  It succeeds
or fails as the next outcome says; on success the word is stored and `D` is set to 1, on
failure memory is untouched and `D` is set to 0. -/
def storeConditional (s : MachineState) (D V A : Register) (Off : Int) :
    Option (MachineState × Option Nat) :=
  match s.SCOutcomes with
  | [] => none
  | true :: Rest =>
    some ({ regs := s.regs.write D 1,
            mem := fun X => if X = effectiveAddress s.regs A Off then s.regs.read V else s.mem X,
            SCOutcomes := Rest }, none)
  | false :: Rest => some ({ s with regs := s.regs.write D 0, SCOutcomes := Rest }, none)

/-- Modelled from the spec: executes one instruction.  The result is the new state and,
when the instruction is a branch that is taken, the number of the target block. -/
def execInst (s : MachineState) (MI : MachineInstr) : Option (MachineState × Option Nat) :=
  match MI.opcode, MI.operands with
  | Opcode.DBAR, [MachineOperand.Imm _] => some (s, none)
  | Opcode.LL_W, [MachineOperand.Reg D true, MachineOperand.Reg A false, MachineOperand.Imm Off] =>
    some ({ s with regs := s.regs.write D (s.mem (effectiveAddress s.regs A Off)) }, none)
  | Opcode.LL_D, [MachineOperand.Reg D true, MachineOperand.Reg A false, MachineOperand.Imm Off] =>
    some ({ s with regs := s.regs.write D (s.mem (effectiveAddress s.regs A Off)) }, none)
  | Opcode.SC_W, [MachineOperand.Reg D true, MachineOperand.Reg V false, MachineOperand.Reg A false,
      MachineOperand.Imm Off] => storeConditional s D V A Off
  | Opcode.SC_D, [MachineOperand.Reg D true, MachineOperand.Reg V false, MachineOperand.Reg A false,
      MachineOperand.Imm Off] => storeConditional s D V A Off
  | Opcode.BEQZ, [MachineOperand.Reg A false, MachineOperand.MBB T] =>
    some (s, if s.regs.read A = 0 then some T else none)
  | Opcode.BNEZ, [MachineOperand.Reg A false, MachineOperand.MBB T] =>
    some (s, if s.regs.read A ≠ 0 then some T else none)
  | Opcode.BEQ, [MachineOperand.Reg A false, MachineOperand.Reg B false, MachineOperand.MBB T] =>
    some (s, if s.regs.read A = s.regs.read B then some T else none)
  | Opcode.BNE, [MachineOperand.Reg A false, MachineOperand.Reg B false, MachineOperand.MBB T] =>
    some (s, if s.regs.read A ≠ s.regs.read B then some T else none)
  | Opcode.BLT, [MachineOperand.Reg A false, MachineOperand.Reg B false, MachineOperand.MBB T] =>
    some (s, if toSigned32 (s.regs.read A) < toSigned32 (s.regs.read B) then some T else none)
  | Opcode.BGE, [MachineOperand.Reg A false, MachineOperand.Reg B false, MachineOperand.MBB T] =>
    some (s, if toSigned32 (s.regs.read B) ≤ toSigned32 (s.regs.read A) then some T else none)
  | Opcode.BLTU, [MachineOperand.Reg A false, MachineOperand.Reg B false, MachineOperand.MBB T] =>
    some (s, if s.regs.read A < s.regs.read B then some T else none)
  | Opcode.BGEU, [MachineOperand.Reg A false, MachineOperand.Reg B false, MachineOperand.MBB T] =>
    some (s, if s.regs.read B ≤ s.regs.read A then some T else none)
  | Opcode.B, [MachineOperand.MBB T] => some (s, some T)
  | _, _ => (execALU s.regs MI).map fun σ => ({ s with regs := σ }, none)

/-- Modelled from the spec: runs the instructions of a block in order until a branch is
taken or the block ends.
The result is the state, the number of the block branched to (`none` when control falls
off the end of the block), and the instructions executed. -/
def execBlock (s : MachineState) :
    List MachineInstr → Option (MachineState × Option Nat × List MachineInstr)
  | [] => some (s, none, [])
  | MI :: Rest =>
    match execInst s MI with
    | none => none
    | some (s', some T) => some (s', some T, [MI])
    | some (s', none) =>
      (execBlock s' Rest).map fun (s'', Target, Trace) => (s'', Target, MI :: Trace)

/-- The layout index of the first block numbered `T`. -/
def blockIndex (T : Nat) : List MachineBasicBlock → Option Nat
  | [] => none
  | B :: Rest => if B.number = T then some 0 else (blockIndex T Rest).map (· + 1)

/-- Modelled from the spec: where control goes after the block at layout index `Idx`: to
the block a taken branch names, or else to the next block of the layout. -/
def nextBlock (Blocks : List MachineBasicBlock) (Idx : Nat) : Option Nat → Option Nat
  | some T => blockIndex T Blocks
  | none => if Idx + 1 < Blocks.length then some (Idx + 1) else none

/-- Modelled from the spec: runs from the start of the block at layout index `Idx` until
control enters the block numbered `Stop`, for at most `Fuel` block entries.  The result is the numbers of the blocks
run through, the instructions executed, and the state on entry to `Stop`. -/
def execFrom (Blocks : List MachineBasicBlock) (Stop : Nat) :
    Nat → Nat → MachineState → Option (List Nat × List MachineInstr × MachineState)
  | 0, _, _ => none
  | Fuel + 1, Idx, s =>
    match Blocks[Idx]? with
    | none => none
    | some B =>
      if B.number = Stop then some ([], [], s)
      else
        match execBlock s B.insts with
        | none => none
        | some (s', Target, Trace) =>
          match nextBlock Blocks Idx Target with
          | none => none
          | some Idx' =>
            (execFrom Blocks Stop Fuel Idx' s').map fun (Path, Trace', s'') =>
              (B.number :: Path, Trace ++ Trace', s'')

/-- A function of one block that holds a full-word 64-bit compare-and-exchange with ordering
Acquire. -/
def exampleCmpXchg64MF : MachineFunction :=
  { blocks :=
      [{ number := 0,
         insts :=
           [⟨Opcode.PseudoCmpXchg64,
              [MachineOperand.Reg 10 true, MachineOperand.Reg 11 true, MachineOperand.Reg 12 false,
               MachineOperand.Reg 13 false, MachineOperand.Reg 14 false, MachineOperand.Imm 4]⟩],
         successors := [],
         liveIns := [12, 13, 14] }],
    numBlockIDs := 1 }

/-- A function of one block that holds a full-word atomic add whose ordering immediate is
`2 ^ 32 + 2`, which the cast to `AtomicOrdering` takes to Monotonic. -/
def exampleWrappedTagAddMF : MachineFunction :=
  { blocks :=
      [{ number := 0,
         insts :=
           [⟨Opcode.PseudoAtomicLoadAdd32,
              [MachineOperand.Reg 10 true, MachineOperand.Reg 11 true, MachineOperand.Reg 12 false,
               MachineOperand.Reg 13 false, MachineOperand.Imm 4294967298]⟩],
         successors := [],
         liveIns := [12, 13] }],
    numBlockIDs := 1 }

/-! ## Supported calls -/

/-- The fatal exits that depend on the operation, `IsMasked` and `Width` an expander is
called with: the `llvm_unreachable` default of the operation switches and the assertions on
`Width` and `IsMasked`. -/
def Fatal.isDispatchFatal : Fatal → Bool
  | Fatal.unexpectedBinOp => true
  | Fatal.masked64 => true
  | Fatal.unmaskedMinMax => true
  | _ => false

/-- The calls whose operation, `IsMasked` and `Width` the callee handles: a masked binary
read-modify-write of width 32 for exchange, add, sub or nand; a full-word one for one of
its seven operations; a masked min/max of width 32 for umax, umin, max or min; a
compare-and-exchange, of width 32 when masked. -/
def Expander.supported : Expander → Prop
  | Expander.binOp op true w =>
    w = 32 ∧ op ∈ [AtomicRMWInst.BinOp.Xchg, AtomicRMWInst.BinOp.Add, AtomicRMWInst.BinOp.Sub,
      AtomicRMWInst.BinOp.Nand]
  | Expander.binOp op false _ =>
    op ∈ [AtomicRMWInst.BinOp.Xchg, AtomicRMWInst.BinOp.Nand, AtomicRMWInst.BinOp.Add,
      AtomicRMWInst.BinOp.Sub, AtomicRMWInst.BinOp.And, AtomicRMWInst.BinOp.Or,
      AtomicRMWInst.BinOp.Xor]
  | Expander.minMax op m w =>
    m = true ∧ w = 32 ∧ op ∈ [AtomicRMWInst.BinOp.UMax, AtomicRMWInst.BinOp.UMin,
      AtomicRMWInst.BinOp.Max, AtomicRMWInst.BinOp.Min]
  | Expander.cmpXchg m w => m = true → w = 32

/-! ## Control flow read off the instructions -/

/-- The block numbers that the instructions of a list name as branch targets, in order. -/
def branchTargets : List MachineInstr → List Nat
  | [] => []
  | MI :: Rest =>
    (MI.operands.filterMap fun
      | MachineOperand.MBB T => some T
      | _ => none) ++ branchTargets Rest

/-- Whether the last instruction of a list is the unconditional branch `B`. -/
def endsWithUnconditionalBranch (Insts : List MachineInstr) : Bool :=
  match Insts.getLast? with
  | some MI => decide (MI.opcode = Opcode.B)
  | none => false

/-- The blocks control can go to from the block at layout index `Idx`, read off its
instructions and the layout: the targets of its branches and, unless it ends with an
unconditional branch, the block laid out right after it. -/
def controlSuccessors (Blocks : List MachineBasicBlock) (Idx : Nat) : List Nat :=
  match Blocks[Idx]? with
  | none => []
  | some X =>
    branchTargets X.insts ++
      (if endsWithUnconditionalBranch X.insts then []
       else match Blocks[Idx + 1]? with
        | some N => [N.number]
        | none => [])

/-! ## Replacing a pseudo-instruction -/

/-- The instruction with operand `p` replaced by the immediate `Ord`: the same pseudo with
another ordering tag, when operand `p` is its ordering operand. -/
def MachineInstr.withOrdering (MI : MachineInstr) (p : Nat) (Ord : Int) : MachineInstr :=
  { MI with operands := MI.operands.set p (MachineOperand.Imm Ord) }

/-- The function with the instruction at position `MBBI` of the block at layout index
`MBBIdx` replaced by `MI`; every other instruction, block and counter is kept. -/
def MachineFunction.setInst (MF : MachineFunction) (MBBIdx MBBI : Nat) (MI : MachineInstr) :
    MachineFunction :=
  match MF.blocks[MBBIdx]? with
  | none => MF
  | some MBB =>
    { MF with blocks := MF.blocks.set MBBIdx { MBB with insts := MBB.insts.set MBBI MI } }

/-- Operand `p` of the instruction at position `MBBI` of the block at layout index
`MBBIdx`. -/
def MachineFunction.operandAt (MF : MachineFunction) (MBBIdx MBBI p : Nat) :
    Option MachineOperand :=
  match MF.blocks[MBBIdx]? with
  | none => none
  | some MBB =>
    match MBB.insts[MBBI]? with
    | none => none
    | some MI => MI.operands[p]?

/-- The function with operand `p` of the instruction at position `MBBI` of the block at
layout index `MBBIdx` replaced by the immediate `Ord`. -/
def MachineFunction.withOrdering (MF : MachineFunction) (MBBIdx MBBI p : Nat) (Ord : Int) :
    MachineFunction :=
  match MF.blocks[MBBIdx]? with
  | none => MF
  | some MBB =>
    match MBB.insts[MBBI]? with
    | none => MF
    | some MI => MF.setInst MBBIdx MBBI (MI.withOrdering p Ord)

/-! ## Execution on words of the access width -/

/-- Modelled from the spec: the number of bits of the words an expansion of access width
`Width` works on: 32 for the word forms (`LL_W`, `SC_W`), 64 for the doubleword forms
(`LL_D`, `SC_D`). -/
def accessBits (Width : Nat) : Nat := if Width = 32 then 32 else 64

/-- Reads a register as a word of `n` bits; the zero register reads 0. -/
def RegFile.readBits (n : Nat) (σ : RegFile) (R : Register) : Nat :=
  if R = R0 then 0 else σ R % 2 ^ n

/-- Writes a word of `n` bits to a register. -/
def RegFile.writeBits (n : Nat) (σ : RegFile) (R : Register) (V : Nat) : RegFile :=
  fun X => if X = R then V % 2 ^ n else σ X

/-- Modelled from the spec: the address `Off(Base)` of a load-linked or store-conditional,
on registers of `n` bits. -/
def effectiveAddressBits (n : Nat) (σ : RegFile) (Base : Register) (Off : Int) : Nat :=
  ((σ.readBits n Base : Int) + Off).toNat

/-- Modelled from the spec: a store-conditional of register `V` to `Off(A)` on words of `n`
bits.  It succeeds or fails as the next outcome says; on success the word is stored and `D`
is set to 1, on failure memory is untouched and `D` is set to 0. -/
def storeConditionalBits (n : Nat) (s : MachineState) (D V A : Register) (Off : Int) :
    Option (MachineState × Option Nat) :=
  match s.SCOutcomes with
  | [] => none
  | true :: Rest =>
    some ({ regs := s.regs.writeBits n D 1,
            mem := fun X =>
              if X = effectiveAddressBits n s.regs A Off then s.regs.readBits n V else s.mem X,
            SCOutcomes := Rest }, none)
  | false :: Rest => some ({ s with regs := s.regs.writeBits n D 0, SCOutcomes := Rest }, none)

/-- Modelled from the spec: executes one instruction of a compare-and-exchange expansion on
registers and memory words of `n` bits.  The word forms `LL_W` and `SC_W` run on 32-bit
words and the doubleword forms `LL_D` and `SC_D` on 64-bit words; the fence, the branches
and the bitwise instructions work on the whole register.  The result is the new state and,
when the instruction is a branch that is taken, the number of the target block. -/
def execInstBits (n : Nat) (s : MachineState) (MI : MachineInstr) :
    Option (MachineState × Option Nat) :=
  match MI.opcode, MI.operands with
  | Opcode.DBAR, [MachineOperand.Imm _] => some (s, none)
  | Opcode.LL_W, [MachineOperand.Reg D true, MachineOperand.Reg A false, MachineOperand.Imm Off] =>
    if n = 32 then
      some ({ s with regs := s.regs.writeBits n D (s.mem (effectiveAddressBits n s.regs A Off)) },
        none)
    else none
  | Opcode.LL_D, [MachineOperand.Reg D true, MachineOperand.Reg A false, MachineOperand.Imm Off] =>
    if n = 64 then
      some ({ s with regs := s.regs.writeBits n D (s.mem (effectiveAddressBits n s.regs A Off)) },
        none)
    else none
  | Opcode.SC_W, [MachineOperand.Reg D true, MachineOperand.Reg V false, MachineOperand.Reg A false,
      MachineOperand.Imm Off] => if n = 32 then storeConditionalBits n s D V A Off else none
  | Opcode.SC_D, [MachineOperand.Reg D true, MachineOperand.Reg V false, MachineOperand.Reg A false,
      MachineOperand.Imm Off] => if n = 64 then storeConditionalBits n s D V A Off else none
  | Opcode.BEQZ, [MachineOperand.Reg A false, MachineOperand.MBB T] =>
    some (s, if s.regs.readBits n A = 0 then some T else none)
  | Opcode.BNE, [MachineOperand.Reg A false, MachineOperand.Reg B false, MachineOperand.MBB T] =>
    some (s, if s.regs.readBits n A ≠ s.regs.readBits n B then some T else none)
  | Opcode.B, [MachineOperand.MBB T] => some (s, some T)
  | Opcode.AND, [MachineOperand.Reg D true, MachineOperand.Reg A false, MachineOperand.Reg B false] =>
    some ({ s with regs := s.regs.writeBits n D (s.regs.readBits n A &&& s.regs.readBits n B) },
      none)
  | Opcode.OR, [MachineOperand.Reg D true, MachineOperand.Reg A false, MachineOperand.Reg B false] =>
    some ({ s with regs := s.regs.writeBits n D (s.regs.readBits n A ||| s.regs.readBits n B) },
      none)
  | Opcode.ANDN, [MachineOperand.Reg D true, MachineOperand.Reg A false, MachineOperand.Reg B false] =>
    some ({ s with
            regs := s.regs.writeBits n D
              (s.regs.readBits n A &&& (2 ^ n - 1 - s.regs.readBits n B)) }, none)
  | _, _ => none

/-- Modelled from the spec: runs the instructions of a block in order, on words of `n`
bits, until a branch is taken or the block ends.  The result is the state, the number of
the block branched to (`none` when control falls off the end of the block), and the
instructions executed. -/
def execBlockBits (n : Nat) (s : MachineState) :
    List MachineInstr → Option (MachineState × Option Nat × List MachineInstr)
  | [] => some (s, none, [])
  | MI :: Rest =>
    match execInstBits n s MI with
    | none => none
    | some (s', some T) => some (s', some T, [MI])
    | some (s', none) =>
      (execBlockBits n s' Rest).map fun (s'', Target, Trace) => (s'', Target, MI :: Trace)

/-- Modelled from the spec: runs on words of `n` bits from the start of the block at layout
index `Idx` until control enters the block numbered `Stop`, for at most `Fuel` block
entries.  The result is the numbers of the blocks run through, the instructions executed,
and the state on entry to `Stop`. -/
def execFromBits (n : Nat) (Blocks : List MachineBasicBlock) (Stop : Nat) :
    Nat → Nat → MachineState → Option (List Nat × List MachineInstr × MachineState)
  | 0, _, _ => none
  | Fuel + 1, Idx, s =>
    match Blocks[Idx]? with
    | none => none
    | some B =>
      if B.number = Stop then some ([], [], s)
      else
        match execBlockBits n s B.insts with
        | none => none
        | some (s', Target, Trace) =>
          match nextBlock Blocks Idx Target with
          | none => none
          | some Idx' =>
            (execFromBits n Blocks Stop Fuel Idx' s').map fun (Path, Trace', s'') =>
              (B.number :: Path, Trace ++ Trace', s'')

/-! ## Characterisation of the expanders -/

theorem AtomicOrdering.ofImm_Monotonic :
    AtomicOrdering.ofImm AtomicOrdering.Monotonic = AtomicOrdering.Monotonic := by
  decide

theorem AtomicOrdering.ofImm_AcquireRelease :
    AtomicOrdering.ofImm AtomicOrdering.AcquireRelease = AtomicOrdering.AcquireRelease := by
  decide


theorem bind_eq_ok {ε α β : Type} {x : Except ε α} {f : α → Except ε β} {b : β} :
    (x >>= f) = .ok b ↔ ∃ a, x = .ok a ∧ f a = .ok b := by
  cases x <;> simp [bind, Except.bind]

theorem map_eq_ok {ε α β : Type} {x : Except ε α} {f : α → β} {b : β} :
    (f <$> x) = .ok b ↔ ∃ a, x = .ok a ∧ f a = b := by
  cases x <;> simp [Functor.map, Except.map]


theorem doAtomicBinOpExpansion_ok {MI : MachineInstr} {L0 L : MachineBasicBlock}
    {op : AtomicRMWInst.BinOp} {w : Nat} (h : doAtomicBinOpExpansion MI L0 op w = .ok L) :
    ∃ Dest Scratch Addr Incr Ord,
      MI.getReg 0 = .ok Dest ∧ MI.getReg 1 = .ok Scratch ∧ MI.getReg 2 = .ok Addr ∧
      MI.getReg 3 = .ok Incr ∧ MI.getImm 4 = .ok Ord ∧
      L.number = L0.number ∧ L.successors = L0.successors ∧ L.liveIns = L0.liveIns ∧
      L.insts = L0.insts ++
        (if AtomicOrdering.ofImm Ord ≠ AtomicOrdering.Monotonic then [⟨Opcode.DBAR, [MachineOperand.Imm 0]⟩] else []) ++
        [⟨if w = 32 then Opcode.LL_W else Opcode.LL_D,
          [MachineOperand.Reg Dest true, MachineOperand.Reg Addr false, MachineOperand.Imm 0]⟩] ++
        (match op with
          | AtomicRMWInst.BinOp.Xchg => [⟨Opcode.OR, [MachineOperand.Reg Scratch true,
              MachineOperand.Reg Incr false, MachineOperand.Reg R0 false]⟩]
          | AtomicRMWInst.BinOp.Nand => [⟨Opcode.AND, [MachineOperand.Reg Scratch true,
              MachineOperand.Reg Dest false, MachineOperand.Reg Incr false]⟩,
             ⟨Opcode.NOR, [MachineOperand.Reg Scratch true,
              MachineOperand.Reg Scratch false, MachineOperand.Reg R0 false]⟩]
          | AtomicRMWInst.BinOp.Add => [⟨Opcode.ADD_W, [MachineOperand.Reg Scratch true,
              MachineOperand.Reg Dest false, MachineOperand.Reg Incr false]⟩]
          | AtomicRMWInst.BinOp.Sub => [⟨Opcode.SUB_W, [MachineOperand.Reg Scratch true,
              MachineOperand.Reg Dest false, MachineOperand.Reg Incr false]⟩]
          | AtomicRMWInst.BinOp.And => [⟨Opcode.AND, [MachineOperand.Reg Scratch true,
              MachineOperand.Reg Dest false, MachineOperand.Reg Incr false]⟩]
          | AtomicRMWInst.BinOp.Or => [⟨Opcode.OR, [MachineOperand.Reg Scratch true,
              MachineOperand.Reg Dest false, MachineOperand.Reg Incr false]⟩]
          | AtomicRMWInst.BinOp.Xor => [⟨Opcode.XOR, [MachineOperand.Reg Scratch true,
              MachineOperand.Reg Dest false, MachineOperand.Reg Incr false]⟩]
          | _ => []) ++
        [⟨if w = 32 then Opcode.SC_W else Opcode.SC_D,
          [MachineOperand.Reg Scratch true, MachineOperand.Reg Scratch false,
           MachineOperand.Reg Addr false, MachineOperand.Imm 0]⟩,
         ⟨Opcode.BEQZ, [MachineOperand.Reg Scratch false, MachineOperand.MBB L0.number]⟩] := by
  unfold doAtomicBinOpExpansion at h
  simp only [bind_eq_ok] at h
  obtain ⟨Dest, h0, Scratch, h1, Addr, h2, Incr, h3, Ord, h4, L1, hL1, h⟩ := h
  refine ⟨Dest, Scratch, Addr, Incr, Ord, h0, h1, h2, h3, h4, ?_⟩
  cases h
  cases op <;> simp [pure, Except.pure, throw, throwThe, MonadExceptOf.throw] at hL1 <;> subst hL1 <;>
    by_cases ho : AtomicOrdering.ofImm Ord = AtomicOrdering.Monotonic <;>
    simp [ho, MachineBasicBlock.push, BuildMI, BuildMIDef, MachineInstr.addReg, MachineInstr.addImm,
      MachineInstr.addMBB]


theorem drop_eraseIdx_zero {α : Type} (l : List α) (j : Nat) :
    (l.drop j).eraseIdx 0 = l.drop (j + 1) := by
  simp [List.eraseIdx_zero, List.tail_drop]

theorem expandAtomicBinOp_ok {MF MF' : MachineFunction} {k j : Nat} {op : AtomicRMWInst.BinOp}
    {m : Bool} {w : Nat} (h : expandAtomicBinOp MF k j op m w = .ok MF') :
    ∃ MBB MI L B' Loop Done, MF.blocks[k]? = some MBB ∧ MBB.insts[j]? = some MI ∧
      (if m then doMaskedAtomicBinOpExpansion MI ⟨MF.numBlockIDs, [], [MF.numBlockIDs, MF.numBlockIDs + 1], []⟩ op w
        else doAtomicBinOpExpansion MI ⟨MF.numBlockIDs, [], [MF.numBlockIDs, MF.numBlockIDs + 1], []⟩ op w) = .ok L ∧
      MF' = { blocks := MF.blocks.take k ++ B' :: Loop :: Done :: MF.blocks.drop (k + 1),
              numBlockIDs := MF.numBlockIDs + 2 } ∧
      B' = { MBB with insts := MBB.insts.take j, successors := [MF.numBlockIDs] } ∧
      Loop.number = L.number ∧ Loop.insts = L.insts ∧ Loop.successors = L.successors ∧
      Done.number = MF.numBlockIDs + 1 ∧ Done.insts = MBB.insts.drop (j + 1) ∧
      Done.successors = MBB.successors := by
  unfold expandAtomicBinOp at h
  cases hB : MF.blocks[k]? with
  | none => simp [hB] at h
  | some MBB =>
    cases hI : MBB.insts[j]? with
    | none => simp [hB, hI] at h
    | some MI =>
      simp only [hB, hI, bind_eq_ok] at h
      obtain ⟨L, hL, h⟩ := h
      cases h
      refine ⟨MBB, MI, L, _, _, _, rfl, hI, ?_, rfl, ?_⟩
      · simpa [CreateMachineBasicBlock, MachineBasicBlock.addSuccessor] using hL
      · simp [computeAndAddLiveIns, CreateMachineBasicBlock, MachineBasicBlock.addSuccessor,
          MachineBasicBlock.splice, MachineBasicBlock.transferSuccessors, MachineBasicBlock.erase,
          drop_eraseIdx_zero]


theorem insertMaskedMerge_ok {B B' : MachineBasicBlock} {D O Nw M S : Register} :
    insertMaskedMerge B D O Nw M S = .ok B' ↔
      O ≠ S ∧ O ≠ M ∧ S ≠ M ∧
      B' = { B with insts := B.insts ++
        [⟨Opcode.XOR, [MachineOperand.Reg S true, MachineOperand.Reg O false, MachineOperand.Reg Nw false]⟩,
         ⟨Opcode.AND, [MachineOperand.Reg S true, MachineOperand.Reg S false, MachineOperand.Reg M false]⟩,
         ⟨Opcode.XOR, [MachineOperand.Reg D true, MachineOperand.Reg O false, MachineOperand.Reg S false]⟩] } := by
  unfold insertMaskedMerge
  by_cases h1 : O = S
  · simp [h1, throw, throwThe, MonadExceptOf.throw, bind, Except.bind]
  by_cases h2 : O = M
  · subst h2
    simp [h1, pure, Except.pure, throw, throwThe, MonadExceptOf.throw, bind, Except.bind]
  by_cases h3 : S = M
  · subst h3
    simp [h1, pure, Except.pure, throw, throwThe, MonadExceptOf.throw, bind, Except.bind]
  simp [h1, h2, h3, pure, Except.pure, bind, Except.bind, MachineBasicBlock.push, BuildMIDef,
    MachineInstr.addReg, eq_comm]

theorem doMaskedAtomicBinOpExpansion_ok {MI : MachineInstr} {L0 L : MachineBasicBlock}
    {op : AtomicRMWInst.BinOp} {w : Nat} (h : doMaskedAtomicBinOpExpansion MI L0 op w = .ok L) :
    ∃ Dest Scratch Addr Incr Mask Ord,
      w = 32 ∧
      MI.getReg 0 = .ok Dest ∧ MI.getReg 1 = .ok Scratch ∧ MI.getReg 2 = .ok Addr ∧
      MI.getReg 3 = .ok Incr ∧ MI.getReg 4 = .ok Mask ∧ MI.getImm 5 = .ok Ord ∧
      Dest ≠ Scratch ∧ Dest ≠ Mask ∧ Scratch ≠ Mask ∧
      L.number = L0.number ∧ L.successors = L0.successors ∧ L.liveIns = L0.liveIns ∧
      L.insts = L0.insts ++
        (if AtomicOrdering.ofImm Ord ≠ AtomicOrdering.Monotonic then [⟨Opcode.DBAR, [MachineOperand.Imm 0]⟩] else []) ++
        [⟨Opcode.LL_W,
          [MachineOperand.Reg Dest true, MachineOperand.Reg Addr false, MachineOperand.Imm 0]⟩] ++
        (match op with
          | AtomicRMWInst.BinOp.Xchg => [⟨Opcode.ADDI_W, [MachineOperand.Reg Scratch true,
              MachineOperand.Reg Incr false, MachineOperand.Imm 0]⟩]
          | AtomicRMWInst.BinOp.Add => [⟨Opcode.ADD_W, [MachineOperand.Reg Scratch true,
              MachineOperand.Reg Dest false, MachineOperand.Reg Incr false]⟩]
          | AtomicRMWInst.BinOp.Sub => [⟨Opcode.SUB_W, [MachineOperand.Reg Scratch true,
              MachineOperand.Reg Dest false, MachineOperand.Reg Incr false]⟩]
          | AtomicRMWInst.BinOp.Nand => [⟨Opcode.AND, [MachineOperand.Reg Scratch true,
              MachineOperand.Reg Dest false, MachineOperand.Reg Incr false]⟩,
             ⟨Opcode.NOR, [MachineOperand.Reg Scratch true,
              MachineOperand.Reg Scratch false, MachineOperand.Reg R0 false]⟩]
          | _ => []) ++
        [⟨Opcode.XOR, [MachineOperand.Reg Scratch true, MachineOperand.Reg Dest false,
            MachineOperand.Reg Scratch false]⟩,
         ⟨Opcode.AND, [MachineOperand.Reg Scratch true, MachineOperand.Reg Scratch false,
            MachineOperand.Reg Mask false]⟩,
         ⟨Opcode.XOR, [MachineOperand.Reg Scratch true, MachineOperand.Reg Dest false,
            MachineOperand.Reg Scratch false]⟩,
         ⟨Opcode.SC_W,
          [MachineOperand.Reg Scratch true, MachineOperand.Reg Scratch false,
           MachineOperand.Reg Addr false, MachineOperand.Imm 0]⟩,
         ⟨Opcode.BEQZ, [MachineOperand.Reg Scratch false, MachineOperand.MBB L0.number]⟩] := by
  unfold doMaskedAtomicBinOpExpansion at h
  by_cases hw : w = 32
  swap
  · simp [hw, throw, throwThe, MonadExceptOf.throw, bind, Except.bind] at h
  simp only [hw, ne_eq, not_true_eq_false, ite_false, bind_eq_ok] at h
  obtain ⟨_, -, Dest, h0, Scratch, h1, Addr, h2, Incr, h3, Mask, h4, Ord, h5, L1, hL1, L2, hL2, h⟩ := h
  rw [insertMaskedMerge_ok] at hL2
  obtain ⟨d1, d2, d3, hL2⟩ := hL2
  refine ⟨Dest, Scratch, Addr, Incr, Mask, Ord, hw, h0, h1, h2, h3, h4, h5, d1, d2, d3, ?_⟩
  cases h
  subst hL2
  cases op <;> simp [pure, Except.pure, throw, throwThe, MonadExceptOf.throw] at hL1 <;> subst hL1 <;>
    by_cases ho : AtomicOrdering.ofImm Ord = AtomicOrdering.Monotonic <;>
    simp [ho, MachineBasicBlock.push, BuildMI, BuildMIDef, MachineInstr.addReg, MachineInstr.addImm,
      MachineInstr.addMBB]


theorem expandAtomicMinMaxOp_ok {MF MF' : MachineFunction} {k j : Nat} {op : AtomicRMWInst.BinOp}
    {m : Bool} {w : Nat} (h : expandAtomicMinMaxOp MF k j op m w = .ok MF') :
    ∃ MBB MI Dest S1 S2 Addr Incr Mask B' Head IfBody LoopTail Tail Done cmp,
      m = true ∧ w = 32 ∧ MF.blocks[k]? = some MBB ∧ MBB.insts[j]? = some MI ∧
      MI.getReg 0 = .ok Dest ∧ MI.getReg 1 = .ok S1 ∧ MI.getReg 2 = .ok S2 ∧
      MI.getReg 3 = .ok Addr ∧ MI.getReg 4 = .ok Incr ∧ MI.getReg 5 = .ok Mask ∧
      Dest ≠ S1 ∧ Dest ≠ Mask ∧ S1 ≠ Mask ∧
      MF' = { blocks := MF.blocks.take k ++
                B' :: Head :: IfBody :: LoopTail :: Tail :: Done :: MF.blocks.drop (k + 1),
              numBlockIDs := MF.numBlockIDs + 5 } ∧
      B' = { MBB with insts := MBB.insts.take j, successors := [MF.numBlockIDs] } ∧
      Head.number = MF.numBlockIDs ∧
      Head.successors = [MF.numBlockIDs + 1, MF.numBlockIDs + 2] ∧
      Head.insts =
        [⟨Opcode.DBAR, [MachineOperand.Imm 0]⟩,
         ⟨Opcode.LL_W, [MachineOperand.Reg Dest true, MachineOperand.Reg Addr false, MachineOperand.Imm 0]⟩,
         ⟨Opcode.AND, [MachineOperand.Reg S2 true, MachineOperand.Reg Dest false, MachineOperand.Reg Mask false]⟩,
         ⟨Opcode.OR, [MachineOperand.Reg S1 true, MachineOperand.Reg Dest false, MachineOperand.Reg R0 false]⟩]
        ++ cmp ∧
      (match op with
        | AtomicRMWInst.BinOp.UMax => cmp =
           [⟨Opcode.BGEU, [MachineOperand.Reg S2 false, MachineOperand.Reg Incr false,
             MachineOperand.MBB (MF.numBlockIDs + 2)]⟩]
        | AtomicRMWInst.BinOp.UMin => cmp =
           [⟨Opcode.BGEU, [MachineOperand.Reg Incr false, MachineOperand.Reg S2 false,
             MachineOperand.MBB (MF.numBlockIDs + 2)]⟩]
        | AtomicRMWInst.BinOp.Max => ∃ Shamt, MI.getReg 6 = .ok Shamt ∧ cmp =
           [⟨Opcode.SLL_W, [MachineOperand.Reg S2 true, MachineOperand.Reg S2 false, MachineOperand.Reg Shamt false]⟩,
            ⟨Opcode.SRA_W, [MachineOperand.Reg S2 true, MachineOperand.Reg S2 false, MachineOperand.Reg Shamt false]⟩,
            ⟨Opcode.BGE, [MachineOperand.Reg S2 false, MachineOperand.Reg Incr false,
             MachineOperand.MBB (MF.numBlockIDs + 2)]⟩]
        | AtomicRMWInst.BinOp.Min => ∃ Shamt, MI.getReg 6 = .ok Shamt ∧ cmp =
           [⟨Opcode.SLL_W, [MachineOperand.Reg S2 true, MachineOperand.Reg S2 false, MachineOperand.Reg Shamt false]⟩,
            ⟨Opcode.SRA_W, [MachineOperand.Reg S2 true, MachineOperand.Reg S2 false, MachineOperand.Reg Shamt false]⟩,
            ⟨Opcode.BGE, [MachineOperand.Reg Incr false, MachineOperand.Reg S2 false,
             MachineOperand.MBB (MF.numBlockIDs + 2)]⟩]
        | _ => False) ∧
      IfBody.number = MF.numBlockIDs + 1 ∧ IfBody.successors = [MF.numBlockIDs + 2] ∧
      IfBody.insts =
        [⟨Opcode.XOR, [MachineOperand.Reg S1 true, MachineOperand.Reg Dest false, MachineOperand.Reg Incr false]⟩,
         ⟨Opcode.AND, [MachineOperand.Reg S1 true, MachineOperand.Reg S1 false, MachineOperand.Reg Mask false]⟩,
         ⟨Opcode.XOR, [MachineOperand.Reg S1 true, MachineOperand.Reg Dest false, MachineOperand.Reg S1 false]⟩] ∧
      LoopTail.number = MF.numBlockIDs + 2 ∧
      LoopTail.successors = [MF.numBlockIDs, MF.numBlockIDs + 3] ∧
      LoopTail.insts =
        [⟨Opcode.SC_W, [MachineOperand.Reg S1 true, MachineOperand.Reg S1 false,
           MachineOperand.Reg Addr false, MachineOperand.Imm 0]⟩,
         ⟨Opcode.BEQZ, [MachineOperand.Reg S1 false, MachineOperand.MBB MF.numBlockIDs]⟩] ∧
      Tail.number = MF.numBlockIDs + 3 ∧ Tail.successors = [MF.numBlockIDs + 4] ∧
      Tail.insts = [⟨Opcode.DBAR, [MachineOperand.Imm 0x700]⟩] ∧
      Done.number = MF.numBlockIDs + 4 ∧ Done.insts = MBB.insts.drop (j + 1) ∧
      Done.successors = MBB.successors := by
  unfold expandAtomicMinMaxOp at h
  by_cases hm : m = true
  swap
  · simp [hm, throw, throwThe, MonadExceptOf.throw, bind, Except.bind] at h
  by_cases hw : w = 32
  swap
  · simp [hm, hw, pure, Except.pure, throw, throwThe, MonadExceptOf.throw, bind, Except.bind] at h
  cases hB : MF.blocks[k]? with
  | none => simp [hm, hw, hB, pure, Except.pure, throw, throwThe, MonadExceptOf.throw, bind, Except.bind] at h
  | some MBB =>
    cases hI : MBB.insts[j]? with
    | none => simp [hm, hw, hB, hI, pure, Except.pure, throw, throwThe, MonadExceptOf.throw, bind, Except.bind] at h
    | some MI =>
      simp only [hm, hw, hB, hI, ne_eq, not_true_eq_false, ite_false, bind_eq_ok] at h
      obtain ⟨_, -, _, -, Dest, h0, S1, h1, S2, h2, Addr, h3, Incr, h4, Mask, h5, H, hH, I, hI2, h⟩ := h
      rw [insertMaskedMerge_ok] at hI2
      obtain ⟨d1, d2, d3, hI2⟩ := hI2
      cases h
      subst hI2
      cases op <;> simp [pure, Except.pure, throw, throwThe, MonadExceptOf.throw, bind_eq_ok] at hH
      · obtain ⟨Shamt, h6, hH⟩ := hH
        subst hH
        refine ⟨MBB, MI, Dest, S1, S2, Addr, Incr, Mask, _, _, _, _, _, _,
          [⟨Opcode.SLL_W, [MachineOperand.Reg S2 true, MachineOperand.Reg S2 false, MachineOperand.Reg Shamt false]⟩,
            ⟨Opcode.SRA_W, [MachineOperand.Reg S2 true, MachineOperand.Reg S2 false, MachineOperand.Reg Shamt false]⟩,
            ⟨Opcode.BGE, [MachineOperand.Reg S2 false, MachineOperand.Reg Incr false,
             MachineOperand.MBB (MF.numBlockIDs + 2)]⟩],
          hm, hw, rfl, hI, h0, h1, h2, h3, h4, h5, d1, d2, d3, rfl, ?_⟩
        simp [computeAndAddLiveIns, CreateMachineBasicBlock, MachineBasicBlock.addSuccessor,
          MachineBasicBlock.splice, MachineBasicBlock.transferSuccessors, MachineBasicBlock.erase,
          drop_eraseIdx_zero, MachineBasicBlock.push, BuildMI, BuildMIDef, MachineInstr.addReg,
          MachineInstr.addImm, MachineInstr.addMBB, insertSext, h6]
      · obtain ⟨Shamt, h6, hH⟩ := hH
        subst hH
        refine ⟨MBB, MI, Dest, S1, S2, Addr, Incr, Mask, _, _, _, _, _, _,
          [⟨Opcode.SLL_W, [MachineOperand.Reg S2 true, MachineOperand.Reg S2 false, MachineOperand.Reg Shamt false]⟩,
            ⟨Opcode.SRA_W, [MachineOperand.Reg S2 true, MachineOperand.Reg S2 false, MachineOperand.Reg Shamt false]⟩,
            ⟨Opcode.BGE, [MachineOperand.Reg Incr false, MachineOperand.Reg S2 false,
             MachineOperand.MBB (MF.numBlockIDs + 2)]⟩],
          hm, hw, rfl, hI, h0, h1, h2, h3, h4, h5, d1, d2, d3, rfl, ?_⟩
        simp [computeAndAddLiveIns, CreateMachineBasicBlock, MachineBasicBlock.addSuccessor,
          MachineBasicBlock.splice, MachineBasicBlock.transferSuccessors, MachineBasicBlock.erase,
          drop_eraseIdx_zero, MachineBasicBlock.push, BuildMI, BuildMIDef, MachineInstr.addReg,
          MachineInstr.addImm, MachineInstr.addMBB, insertSext, h6]
      · subst hH
        refine ⟨MBB, MI, Dest, S1, S2, Addr, Incr, Mask, _, _, _, _, _, _,
          [⟨Opcode.BGEU, [MachineOperand.Reg S2 false, MachineOperand.Reg Incr false,
             MachineOperand.MBB (MF.numBlockIDs + 2)]⟩],
          hm, hw, rfl, hI, h0, h1, h2, h3, h4, h5, d1, d2, d3, rfl, ?_⟩
        simp [computeAndAddLiveIns, CreateMachineBasicBlock, MachineBasicBlock.addSuccessor,
          MachineBasicBlock.splice, MachineBasicBlock.transferSuccessors, MachineBasicBlock.erase,
          drop_eraseIdx_zero, MachineBasicBlock.push, BuildMI, BuildMIDef, MachineInstr.addReg,
          MachineInstr.addImm, MachineInstr.addMBB]
      · subst hH
        refine ⟨MBB, MI, Dest, S1, S2, Addr, Incr, Mask, _, _, _, _, _, _,
          [⟨Opcode.BGEU, [MachineOperand.Reg Incr false, MachineOperand.Reg S2 false,
             MachineOperand.MBB (MF.numBlockIDs + 2)]⟩],
          hm, hw, rfl, hI, h0, h1, h2, h3, h4, h5, d1, d2, d3, rfl, ?_⟩
        simp [computeAndAddLiveIns, CreateMachineBasicBlock, MachineBasicBlock.addSuccessor,
          MachineBasicBlock.splice, MachineBasicBlock.transferSuccessors, MachineBasicBlock.erase,
          drop_eraseIdx_zero, MachineBasicBlock.push, BuildMI, BuildMIDef, MachineInstr.addReg,
          MachineInstr.addImm, MachineInstr.addMBB]


theorem expandAtomicCmpXchg_ok {MF MF' : MachineFunction} {k j : Nat} {m : Bool} {w : Nat}
    (h : expandAtomicCmpXchg MF k j m w = .ok MF') :
    ∃ MBB MI Dest Scratch Addr CmpVal NewVal B' Head LoopTail Tail Done,
      MF.blocks[k]? = some MBB ∧ MBB.insts[j]? = some MI ∧
      MI.getReg 0 = .ok Dest ∧ MI.getReg 1 = .ok Scratch ∧ MI.getReg 2 = .ok Addr ∧
      MI.getReg 3 = .ok CmpVal ∧ MI.getReg 4 = .ok NewVal ∧
      MF' = { blocks := MF.blocks.take k ++
                B' :: Head :: LoopTail :: Tail :: Done :: MF.blocks.drop (k + 1),
              numBlockIDs := MF.numBlockIDs + 4 } ∧
      B' = { MBB with insts := MBB.insts.take j, successors := [MF.numBlockIDs] } ∧
      Head.number = MF.numBlockIDs ∧
      Head.successors = [MF.numBlockIDs + 1, MF.numBlockIDs + 2] ∧
      LoopTail.number = MF.numBlockIDs + 1 ∧
      LoopTail.successors = [MF.numBlockIDs + 3, MF.numBlockIDs] ∧
      Tail.number = MF.numBlockIDs + 2 ∧ Tail.successors = [MF.numBlockIDs + 3] ∧
      Tail.insts = [⟨Opcode.DBAR, [MachineOperand.Imm 0x700]⟩] ∧
      Done.number = MF.numBlockIDs + 3 ∧ Done.insts = MBB.insts.drop (j + 1) ∧
      Done.successors = MBB.successors ∧
      (if m = true then
        ∃ Mask, MI.getReg 5 = .ok Mask ∧
          Head.insts =
            [⟨if w = 32 then Opcode.LL_W else Opcode.LL_D,
               [MachineOperand.Reg Dest true, MachineOperand.Reg Addr false, MachineOperand.Imm 0]⟩,
             ⟨Opcode.AND, [MachineOperand.Reg Scratch true, MachineOperand.Reg Dest false,
               MachineOperand.Reg Mask false]⟩,
             ⟨Opcode.BNE, [MachineOperand.Reg Scratch false, MachineOperand.Reg CmpVal false,
               MachineOperand.MBB (MF.numBlockIDs + 2)]⟩] ∧
          LoopTail.insts =
            [⟨Opcode.DBAR, [MachineOperand.Imm 0]⟩,
             ⟨Opcode.ANDN, [MachineOperand.Reg Scratch true, MachineOperand.Reg Dest false,
               MachineOperand.Reg Mask false]⟩,
             ⟨Opcode.OR, [MachineOperand.Reg Scratch true, MachineOperand.Reg Scratch false,
               MachineOperand.Reg NewVal false]⟩,
             ⟨if w = 32 then Opcode.SC_W else Opcode.SC_D,
               [MachineOperand.Reg Scratch true, MachineOperand.Reg Scratch false,
                MachineOperand.Reg Addr false, MachineOperand.Imm 0]⟩,
             ⟨Opcode.BEQZ, [MachineOperand.Reg Scratch false, MachineOperand.MBB MF.numBlockIDs]⟩,
             ⟨Opcode.B, [MachineOperand.MBB (MF.numBlockIDs + 3)]⟩]
      else
        Head.insts =
          [⟨if w = 32 then Opcode.LL_W else Opcode.LL_D,
             [MachineOperand.Reg Dest true, MachineOperand.Reg Addr false, MachineOperand.Imm 0]⟩,
           ⟨Opcode.BNE, [MachineOperand.Reg Dest false, MachineOperand.Reg CmpVal false,
             MachineOperand.MBB (MF.numBlockIDs + 2)]⟩] ∧
        LoopTail.insts =
          [⟨Opcode.DBAR, [MachineOperand.Imm 0]⟩,
           ⟨Opcode.OR, [MachineOperand.Reg Scratch true, MachineOperand.Reg NewVal false,
             MachineOperand.Reg R0 false]⟩,
           ⟨if w = 32 then Opcode.SC_W else Opcode.SC_D,
             [MachineOperand.Reg Scratch true, MachineOperand.Reg Scratch false,
              MachineOperand.Reg Addr false, MachineOperand.Imm 0]⟩,
           ⟨Opcode.BEQZ, [MachineOperand.Reg Scratch false, MachineOperand.MBB MF.numBlockIDs]⟩,
           ⟨Opcode.B, [MachineOperand.MBB (MF.numBlockIDs + 3)]⟩]) := by
  unfold expandAtomicCmpXchg at h
  cases hB : MF.blocks[k]? with
  | none => simp [hB, pure, Except.pure, throw, throwThe, MonadExceptOf.throw, bind, Except.bind] at h
  | some MBB =>
    cases hI : MBB.insts[j]? with
    | none => simp [hB, hI, pure, Except.pure, throw, throwThe, MonadExceptOf.throw, bind, Except.bind] at h
    | some MI =>
      simp only [hB, hI, bind_eq_ok] at h
      obtain ⟨Dest, h0, Scratch, h1, Addr, h2, CmpVal, h3, NewVal, h4, ⟨H, T⟩, hHT, h⟩ := h
      cases h
      cases m
      · simp [pure, Except.pure] at hHT
        obtain ⟨hH, hT⟩ := hHT
        subst hH hT
        refine ⟨MBB, MI, Dest, Scratch, Addr, CmpVal, NewVal, _, _, _, _, _,
          rfl, hI, h0, h1, h2, h3, h4, rfl, ?_⟩
        simp [computeAndAddLiveIns, CreateMachineBasicBlock, MachineBasicBlock.addSuccessor,
          MachineBasicBlock.splice, MachineBasicBlock.transferSuccessors, MachineBasicBlock.erase,
          drop_eraseIdx_zero, MachineBasicBlock.push, BuildMI, BuildMIDef, MachineInstr.addReg,
          MachineInstr.addImm, MachineInstr.addMBB]
      · simp [pure, Except.pure, bind_eq_ok] at hHT
        obtain ⟨Mask, h5, hH, hT⟩ := hHT
        subst hH hT
        refine ⟨MBB, MI, Dest, Scratch, Addr, CmpVal, NewVal, _, _, _, _, _,
          rfl, hI, h0, h1, h2, h3, h4, rfl, ?_⟩
        simp [computeAndAddLiveIns, CreateMachineBasicBlock, MachineBasicBlock.addSuccessor,
          MachineBasicBlock.splice, MachineBasicBlock.transferSuccessors, MachineBasicBlock.erase,
          drop_eraseIdx_zero, MachineBasicBlock.push, BuildMI, BuildMIDef, MachineInstr.addReg,
          MachineInstr.addImm, MachineInstr.addMBB, h5]

/-! ## Dispatch and block splitting -/

theorem expandMI_none {MF : MachineFunction} {k j : Nat} (h : expandMI MF k j = .ok none) :
    ∃ MBB MI, MF.blocks[k]? = some MBB ∧ MBB.insts[j]? = some MI ∧
      isAtomicPseudo MI.opcode = false := by
  unfold expandMI at h
  cases hB : MF.blocks[k]? with
  | none => simp [hB, throw, throwThe, MonadExceptOf.throw] at h
  | some MBB =>
    cases hI : MBB.insts[j]? with
    | none => simp [hB, hI, throw, throwThe, MonadExceptOf.throw] at h
    | some MI =>
      refine ⟨MBB, MI, rfl, hI, ?_⟩
      simp only [hB, hI] at h
      cases ho : MI.opcode <;> simp [ho, map_eq_ok, isAtomicPseudo] at h ⊢

theorem expandMI_some {MF MF' : MachineFunction} {k j : Nat} (h : expandMI MF k j = .ok (some MF')) :
    ∃ MBB MI E, MF.blocks[k]? = some MBB ∧ MBB.insts[j]? = some MI ∧
      isAtomicPseudo MI.opcode = true ∧ Expander.run E MF k j = .ok MF' := by
  unfold expandMI at h
  cases hB : MF.blocks[k]? with
  | none => simp [hB, throw, throwThe, MonadExceptOf.throw] at h
  | some MBB =>
    cases hI : MBB.insts[j]? with
    | none => simp [hB, hI, throw, throwThe, MonadExceptOf.throw] at h
    | some MI =>
      simp only [hB, hI] at h
      have key : isAtomicPseudo MI.opcode = true ∧
          ((∃ op m w, expandAtomicBinOp MF k j op m w = .ok MF') ∨
           (∃ op m w, expandAtomicMinMaxOp MF k j op m w = .ok MF') ∨
           (∃ m w, expandAtomicCmpXchg MF k j m w = .ok MF')) := by
        cases ho : MI.opcode <;> simp [ho, map_eq_ok, pure, Except.pure] at h <;>
          refine ⟨by simp [isAtomicPseudo], ?_⟩
        all_goals first
          | exact Or.inl ⟨_, _, _, h⟩
          | exact Or.inr (Or.inl ⟨_, _, _, h⟩)
          | exact Or.inr (Or.inr ⟨_, _, h⟩)
      obtain ⟨hp, ⟨op, m, w, hE⟩ | ⟨op, m, w, hE⟩ | ⟨m, w, hE⟩⟩ := key
      · exact ⟨MBB, MI, Expander.binOp op m w, rfl, hI, hp, hE⟩
      · exact ⟨MBB, MI, Expander.minMax op m w, rfl, hI, hp, hE⟩
      · exact ⟨MBB, MI, Expander.cmpXchg m w, rfl, hI, hp, hE⟩

theorem expandMI_of_not_pseudo {MF : MachineFunction} {k j : Nat} {MBB : MachineBasicBlock}
    {MI : MachineInstr} (hB : MF.blocks[k]? = some MBB) (hI : MBB.insts[j]? = some MI)
    (hp : isAtomicPseudo MI.opcode = false) : expandMI MF k j = .ok none := by
  unfold expandMI
  simp only [hB, hI]
  cases ho : MI.opcode <;> simp [ho, isAtomicPseudo] at hp ⊢ <;> rfl


theorem doAtomicBinOpExpansion_noPseudo {MI : MachineInstr} {L0 L : MachineBasicBlock}
    {op : AtomicRMWInst.BinOp} {w : Nat} (h : doAtomicBinOpExpansion MI L0 op w = .ok L)
    (h0 : L0.insts = []) : ∀ I ∈ L.insts, isAtomicPseudo I.opcode = false := by
  obtain ⟨Dest, Scratch, Addr, Incr, Ord, -, -, -, -, -, -, -, -, hL⟩ := doAtomicBinOpExpansion_ok h
  rw [hL, h0]
  by_cases ho : AtomicOrdering.ofImm Ord = AtomicOrdering.Monotonic <;> by_cases hw : w = 32 <;>
    cases op <;> simp [ho, hw, isAtomicPseudo]

theorem doMaskedAtomicBinOpExpansion_noPseudo {MI : MachineInstr} {L0 L : MachineBasicBlock}
    {op : AtomicRMWInst.BinOp} {w : Nat} (h : doMaskedAtomicBinOpExpansion MI L0 op w = .ok L)
    (h0 : L0.insts = []) : ∀ I ∈ L.insts, isAtomicPseudo I.opcode = false := by
  obtain ⟨Dest, Scratch, Addr, Incr, Mask, Ord, -, -, -, -, -, -, -, -, -, -, -, -, -, hL⟩ :=
    doMaskedAtomicBinOpExpansion_ok h
  rw [hL, h0]
  by_cases ho : AtomicOrdering.ofImm Ord = AtomicOrdering.Monotonic <;>
    cases op <;> simp [ho, isAtomicPseudo]

theorem Expander.run_split {E : Expander} {MF MF' : MachineFunction} {k j : Nat}
    (h : E.run MF k j = .ok MF') :
    ∃ MBB MI Mid Done, MF.blocks[k]? = some MBB ∧ MBB.insts[j]? = some MI ∧
      MF'.blocks = MF.blocks.take k ++
        { MBB with insts := MBB.insts.take j, successors := [MF.numBlockIDs] } ::
          (Mid ++ Done :: MF.blocks.drop (k + 1)) ∧
      MF'.numBlockIDs = MF.numBlockIDs + (Mid.length + 1) ∧
      1 ≤ Mid.length ∧ Mid.length ≤ 4 ∧ noPseudo Mid ∧
      Mid.head?.map MachineBasicBlock.number = some MF.numBlockIDs ∧
      Done.number = MF.numBlockIDs + Mid.length ∧ Done.insts = MBB.insts.drop (j + 1) ∧
      Done.successors = MBB.successors := by
  cases E with
  | binOp op m w =>
    obtain ⟨MBB, MI, L, B', Loop, Done, hB, hI, hL, hMF, hB', hn, hi, hs, hdn, hdi, hds⟩ :=
      expandAtomicBinOp_ok h
    refine ⟨MBB, MI, [Loop], Done, hB, hI, ?_, ?_, by simp, by simp, ?_, ?_, ?_, hdi, hds⟩
    · simp [hMF, hB']
    · simp [hMF]
    · intro b hb I hI'
      simp at hb
      subst hb
      rw [hi] at hI'
      cases m
      · exact doAtomicBinOpExpansion_noPseudo (by simpa using hL) rfl I hI'
      · exact doMaskedAtomicBinOpExpansion_noPseudo (by simpa using hL) rfl I hI'
    · simp [hn]
      cases m
      · obtain ⟨_, _, _, _, _, -, -, -, -, -, hnum, -⟩ := doAtomicBinOpExpansion_ok (by simpa using hL)
        exact hnum
      · obtain ⟨_, _, _, _, _, _, -, -, -, -, -, -, -, -, -, -, hnum, -⟩ :=
          doMaskedAtomicBinOpExpansion_ok (by simpa using hL)
        exact hnum
    · simp [hdn]
  | minMax op m w =>
    obtain ⟨MBB, MI, Dest, S1, S2, Addr, Incr, Mask, B', Head, IfBody, LoopTail, Tail, Done, cmp,
      -, -, hB, hI, -, -, -, -, -, -, -, -, -, hMF, hB', hhn, hhs, hhi, hcmp, hin, his, hii,
      hln, hls, hli, htn, hts, hti, hdn, hdi, hds⟩ := expandAtomicMinMaxOp_ok h
    refine ⟨MBB, MI, [Head, IfBody, LoopTail, Tail], Done, hB, hI, ?_, ?_, by simp, by simp, ?_, ?_, ?_,
      hdi, hds⟩
    · simp [hMF, hB']
    · simp [hMF]
    · intro b hb I hI'
      simp at hb
      rcases hb with rfl | rfl | rfl | rfl
      · rw [hhi] at hI'
        cases op <;> simp at hcmp
        all_goals first
          | (obtain ⟨Shamt, -, hcmp⟩ := hcmp
             subst hcmp
             simp at hI'
             rcases hI' with rfl | rfl | rfl | rfl | rfl | rfl | rfl <;> rfl)
          | (subst hcmp
             simp at hI'
             rcases hI' with rfl | rfl | rfl | rfl | rfl <;> rfl)
      · rw [hii] at hI'
        simp at hI'
        rcases hI' with rfl | rfl | rfl <;> rfl
      · rw [hli] at hI'
        simp at hI'
        rcases hI' with rfl | rfl <;> rfl
      · rw [hti] at hI'
        simp at hI'
        subst hI'
        rfl
    · simp [hhn]
    · simp [hdn]
  | cmpXchg m w =>
    obtain ⟨MBB, MI, Dest, Scratch, Addr, CmpVal, NewVal, B', Head, LoopTail, Tail, Done,
      hB, hI, -, -, -, -, -, hMF, hB', hhn, hhs, hln, hls, htn, hts, hti, hdn, hdi, hds, hm⟩ :=
      expandAtomicCmpXchg_ok h
    refine ⟨MBB, MI, [Head, LoopTail, Tail], Done, hB, hI, ?_, ?_, by simp, by simp, ?_, ?_, ?_,
      hdi, hds⟩
    · simp [hMF, hB']
    · simp [hMF]
    · intro b hb I hI'
      simp at hb
      rcases hb with rfl | rfl | rfl
      · cases m
        · simp at hm
          rw [hm.1] at hI'
          by_cases hw : w = 32 <;> simp [hw] at hI' <;> rcases hI' with rfl | rfl <;> rfl
        · simp at hm
          obtain ⟨Mask, -, hh, -⟩ := hm
          rw [hh] at hI'
          by_cases hw : w = 32 <;> simp [hw] at hI' <;> rcases hI' with rfl | rfl | rfl <;> rfl
      · cases m
        · simp at hm
          rw [hm.2] at hI'
          by_cases hw : w = 32 <;> simp [hw] at hI' <;>
            rcases hI' with rfl | rfl | rfl | rfl | rfl <;> rfl
        · simp at hm
          obtain ⟨Mask, -, -, hh⟩ := hm
          rw [hh] at hI'
          by_cases hw : w = 32 <;> simp [hw] at hI' <;>
            rcases hI' with rfl | rfl | rfl | rfl | rfl | rfl <;> rfl
      · rw [hti] at hI'
        simp at hI'
        subst hI'
        rfl
    · simp [hhn]
    · simp [hdn]


/-! ## The driver loops -/

theorem numPseudos_append (A B : List MachineBasicBlock) :
    numPseudos (A ++ B) = numPseudos A + numPseudos B := by
  simp [numPseudos, List.map_append, List.sum_append]

theorem numPseudos_cons (b : MachineBasicBlock) (B : List MachineBasicBlock) :
    numPseudos (b :: B) = (b.insts.countP fun MI => isAtomicPseudo MI.opcode) + numPseudos B := by
  simp [numPseudos]

theorem numPseudos_eq_zero_iff (Bs : List MachineBasicBlock) :
    numPseudos Bs = 0 ↔ noPseudo Bs := by
  induction Bs with
  | nil => simp [numPseudos, noPseudo]
  | cons b Bs ih =>
    rw [numPseudos_cons, Nat.add_eq_zero, ih]
    simp [noPseudo, List.countP_eq_zero]

theorem noPseudo_append {A B : List MachineBasicBlock} :
    noPseudo (A ++ B) ↔ noPseudo A ∧ noPseudo B := by
  simp only [← numPseudos_eq_zero_iff, numPseudos_append, Nat.add_eq_zero]

theorem expandMBB_loop_spec {MF : MachineFunction} {k : Nat} {MBB : MachineBasicBlock}
    (hB : MF.blocks[k]? = some MBB) :
    ∀ (Rest : List MachineInstr) (j : Nat) (MF' : MachineFunction) (M : Bool),
      expandMBB.loop MF k Rest j = .ok (MF', M) → MBB.insts.drop j = Rest →
      (M = false ∧ MF' = MF ∧ ∀ I ∈ Rest, isAtomicPseudo I.opcode = false) ∨
      (M = true ∧ ∃ n MI E, (∀ I ∈ Rest.take n, isAtomicPseudo I.opcode = false) ∧
        Rest[n]? = some MI ∧ isAtomicPseudo MI.opcode = true ∧ Expander.run E MF k (j + n) = .ok MF') := by
  intro Rest
  induction Rest with
  | nil =>
    intro j MF' M h _
    simp [expandMBB.loop] at h
    obtain ⟨h1, h2⟩ := h
    subst h1 h2
    exact Or.inl ⟨rfl, rfl, by simp⟩
  | cons I Rest ih =>
    intro j MF' M h hd
    have hj : MBB.insts[j]? = some I := by
      have := congrArg List.head? hd
      simpa [List.head?_drop] using this
    have hd' : MBB.insts.drop (j + 1) = Rest := by
      have := congrArg List.tail hd
      simpa [List.tail_drop] using this
    unfold expandMBB.loop at h
    cases hE : expandMI MF k j with
    | error e => simp [hE] at h
    | ok r =>
      cases r with
      | none =>
        simp only [hE] at h
        obtain ⟨MBB1, MI1, hB1, hI1, hp⟩ := expandMI_none hE
        rw [hB] at hB1
        cases hB1
        rw [hj] at hI1
        cases hI1
        rcases ih (j + 1) MF' M h hd' with ⟨h1, h2, h3⟩ | ⟨h1, n, MI, E, h2, h3, h4, h5⟩
        · refine Or.inl ⟨h1, h2, ?_⟩
          intro I' hI'
          simp at hI'
          rcases hI' with rfl | hI'
          · exact hp
          · exact h3 I' hI'
        · refine Or.inr ⟨h1, n + 1, MI, E, ?_, by simpa using h3, h4, ?_⟩
          · intro I' hI'
            simp at hI'
            rcases hI' with rfl | hI'
            · exact hp
            · exact h2 I' hI'
          · rw [← h5]
            congr 1
            omega
      | some MF1 =>
        simp only [hE] at h
        cases h
        obtain ⟨MBB1, MI1, E, hB1, hI1, hp, hrun⟩ := expandMI_some hE
        rw [hB] at hB1
        cases hB1
        rw [hj] at hI1
        cases hI1
        exact Or.inr ⟨rfl, 0, I, E, by simp, by simp, hp, by simpa using hrun⟩

theorem expandMBB_spec {MF MF' : MachineFunction} {k : Nat} {M : Bool}
    (h : expandMBB MF k = .ok (MF', M)) :
    ∃ MBB, MF.blocks[k]? = some MBB ∧
      ((M = false ∧ MF' = MF ∧ ∀ I ∈ MBB.insts, isAtomicPseudo I.opcode = false) ∨
       (M = true ∧ ∃ n MI E, (∀ I ∈ MBB.insts.take n, isAtomicPseudo I.opcode = false) ∧
         MBB.insts[n]? = some MI ∧ isAtomicPseudo MI.opcode = true ∧
         Expander.run E MF k n = .ok MF')) := by
  unfold expandMBB at h
  cases hB : MF.blocks[k]? with
  | none => simp [hB] at h
  | some MBB =>
    simp only [hB] at h
    refine ⟨MBB, rfl, ?_⟩
    have := expandMBB_loop_spec hB MBB.insts 0 MF' M h (by simp)
    simpa using this

theorem take_succ_of_getElem? {α : Type} {l : List α} {k : Nat} {x : α} (h : l[k]? = some x) :
    l.take (k + 1) = l.take k ++ [x] := by
  rw [List.take_succ, h]; rfl

theorem drop_of_getElem? {α : Type} {l : List α} {k : Nat} {x : α} (h : l[k]? = some x) :
    l.drop k = x :: l.drop (k + 1) := by
  have hk : k < l.length := by
    by_contra hk
    rw [List.getElem?_eq_none (by omega)] at h
    cases h
  rw [List.drop_eq_getElem_cons hk]
  rw [List.getElem?_eq_getElem hk] at h
  cases h
  rfl

theorem lt_length_of_getElem? {α : Type} {l : List α} {k : Nat} {x : α} (h : l[k]? = some x) :
    k < l.length := by
  by_contra hk
  rw [List.getElem?_eq_none (by omega)] at h
  cases h

theorem countP_split {MBB : MachineBasicBlock} {n : Nat} {MI : MachineInstr}
    (hI : MBB.insts[n]? = some MI) (hp : isAtomicPseudo MI.opcode = true)
    (hpre : ∀ I ∈ MBB.insts.take n, isAtomicPseudo I.opcode = false) :
    (MBB.insts.countP fun MI => isAtomicPseudo MI.opcode) =
      1 + (MBB.insts.drop (n + 1)).countP fun MI => isAtomicPseudo MI.opcode := by
  conv_lhs => rw [← List.take_append_drop n MBB.insts, drop_of_getElem? hI]
  rw [List.countP_append, List.countP_cons, List.countP_eq_zero.2 (by simpa using hpre)]
  simp [hp]
  omega

theorem runOnMachineFunction_loop_spec :
    ∀ (Fuel : Nat) (MF : MachineFunction) (k : Nat) (M : Bool) (MF' : MachineFunction) (M' : Bool),
      runOnMachineFunction.loop Fuel MF k M = .ok (MF', M') →
      k ≤ MF.blocks.length → noPseudo (MF.blocks.take k) →
      (MF.blocks.length - k) + 5 * numPseudos (MF.blocks.drop k) ≤ Fuel →
      noPseudo MF'.blocks ∧ M' = (M || decide (numPseudos (MF.blocks.drop k) ≠ 0)) ∧
        (numPseudos (MF.blocks.drop k) = 0 → MF' = MF) := by
  intro Fuel
  induction Fuel with
  | zero =>
    intro MF k M MF' M' h hk hc hf
    simp [runOnMachineFunction.loop] at h
    obtain ⟨h1, h2⟩ := h
    subst h1 h2
    have hk' : k = MF.blocks.length := by omega
    have hz : numPseudos (MF.blocks.drop k) = 0 := by omega
    refine ⟨?_, by simp [hz], fun _ => rfl⟩
    subst hk'
    simpa using hc
  | succ Fuel ih =>
    intro MF k M MF' M' h hk hc hf
    unfold runOnMachineFunction.loop at h
    by_cases hlt : k < MF.blocks.length
    · simp only [hlt, if_true] at h
      cases hE : expandMBB MF k with
      | error e => simp [hE] at h
      | ok r =>
        obtain ⟨MF1, M1⟩ := r
        simp only [hE] at h
        obtain ⟨MBB, hB, hcase⟩ := expandMBB_spec hE
        rcases hcase with ⟨hM, hMF, hcl⟩ | ⟨hM, n, MI, E, hpre, hI, hp, hrun⟩
        · subst hM hMF
          have hdrop := drop_of_getElem? hB
          have hzero : (MBB.insts.countP fun MI => isAtomicPseudo MI.opcode) = 0 :=
            List.countP_eq_zero.2 (by simpa using hcl)
          have hnum : numPseudos (MF1.blocks.drop k) = numPseudos (MF1.blocks.drop (k + 1)) := by
            rw [hdrop, numPseudos_cons, hzero, Nat.zero_add]
          have := ih MF1 (k + 1) (M || false) MF' M' h (by omega)
            (by
              rw [take_succ_of_getElem? hB, noPseudo_append]
              exact ⟨hc, by intro b hb; simp at hb; subst hb; exact hcl⟩)
            (by rw [hnum] at hf; omega)
          rw [hnum]
          simpa using this
        · subst hM
          obtain ⟨MBB1, MI1, Mid, Done, hB1, hI1, hbl, hnb, hl1, hl4, hmid, hhead, hdn, hdi, hds⟩ :=
            Expander.run_split hrun
          rw [hB] at hB1
          cases hB1
          rw [hI] at hI1
          cases hI1
          have hlen : (MF.blocks.take k).length = k := by simp; omega
          have hdrop := drop_of_getElem? hB
          have hcount := countP_split hI hp hpre
          have hnum : numPseudos (MF.blocks.drop k) =
              1 + ((MBB.insts.drop (n + 1)).countP fun MI => isAtomicPseudo MI.opcode) +
                numPseudos (MF.blocks.drop (k + 1)) := by
            rw [hdrop, numPseudos_cons, hcount]
          have htake1 : MF1.blocks.take (k + 1) = MF.blocks.take k ++
              [{ MBB with insts := MBB.insts.take n, successors := [MF.numBlockIDs] }] := by
            rw [hbl, List.take_append_eq_append_take, hlen]
            simp
          have hdrop1 : MF1.blocks.drop (k + 1) = Mid ++ Done :: MF.blocks.drop (k + 1) := by
            rw [hbl, List.drop_append_eq_append_drop, hlen]
            simp
          have hnum1 : numPseudos (MF1.blocks.drop (k + 1)) =
              ((MBB.insts.drop (n + 1)).countP fun MI => isAtomicPseudo MI.opcode) +
                numPseudos (MF.blocks.drop (k + 1)) := by
            rw [hdrop1, numPseudos_append, numPseudos_cons, (numPseudos_eq_zero_iff Mid).2 hmid, hdi]
            omega
          have hlen1 : MF1.blocks.length = MF.blocks.length + Mid.length + 1 := by
            rw [hbl]
            simp
            have : (MF.blocks.drop (k + 1)).length = MF.blocks.length - (k + 1) := by simp
            omega
          have := ih MF1 (k + 1) (M || true) MF' M' h (by omega)
            (by
              rw [htake1, noPseudo_append]
              exact ⟨hc, by intro b hb; simp at hb; subst hb; exact hpre⟩)
            (by rw [hnum1, hlen1]; rw [hnum] at hf; omega)
          refine ⟨this.1, ?_, ?_⟩
          · rw [this.2.1, hnum]
            simp
          · intro hz
            rw [hnum] at hz
            omega
    · simp only [hlt, if_false] at h
      simp at h
      obtain ⟨h1, h2⟩ := h
      subst h1 h2
      have hk' : k = MF.blocks.length := by omega
      subst hk'
      refine ⟨by simpa using hc, by simp [numPseudos], fun _ => rfl⟩


theorem expandMBB_loop_of_noPseudo {MF : MachineFunction} {k : Nat} {MBB : MachineBasicBlock}
    (hB : MF.blocks[k]? = some MBB) :
    ∀ (Rest : List MachineInstr) (j : Nat), MBB.insts.drop j = Rest →
      (∀ I ∈ Rest, isAtomicPseudo I.opcode = false) →
      expandMBB.loop MF k Rest j = .ok (MF, false) := by
  intro Rest
  induction Rest with
  | nil => intro j _ _; rfl
  | cons I Rest ih =>
    intro j hd hc
    have hj : MBB.insts[j]? = some I := by
      have := congrArg List.head? hd
      simpa [List.head?_drop] using this
    have hd' : MBB.insts.drop (j + 1) = Rest := by
      have := congrArg List.tail hd
      simpa [List.tail_drop] using this
    unfold expandMBB.loop
    rw [expandMI_of_not_pseudo hB hj (hc I (by simp))]
    exact ih (j + 1) hd' (fun I' hI' => hc I' (by simp [hI']))

theorem expandMBB_of_noPseudo {MF : MachineFunction} {k : Nat} (hk : k < MF.blocks.length)
    (hc : noPseudo MF.blocks) : expandMBB MF k = .ok (MF, false) := by
  unfold expandMBB
  rw [List.getElem?_eq_getElem hk]
  exact expandMBB_loop_of_noPseudo (List.getElem?_eq_getElem hk) _ 0 (by simp)
    (hc _ (List.getElem_mem hk))

theorem runOnMachineFunction_loop_of_noPseudo {MF : MachineFunction} (hc : noPseudo MF.blocks) :
    ∀ (Fuel k : Nat) (M : Bool), runOnMachineFunction.loop Fuel MF k M = .ok (MF, M) := by
  intro Fuel
  induction Fuel with
  | zero => intro k M; rfl
  | succ Fuel ih =>
    intro k M
    unfold runOnMachineFunction.loop
    by_cases hlt : k < MF.blocks.length
    · simp only [hlt, if_true, expandMBB_of_noPseudo hlt hc]
      simpa using ih (k + 1) M
    · simp [hlt]

theorem expandMBB_measure {MF MF1 : MachineFunction} {k : Nat} {M1 : Bool}
    (h : expandMBB MF k = .ok (MF1, M1)) :
    (MF1.blocks.length - (k + 1)) + 5 * numPseudos (MF1.blocks.drop (k + 1)) + 1 ≤
      (MF.blocks.length - k) + 5 * numPseudos (MF.blocks.drop k) := by
  obtain ⟨MBB, hB, hcase⟩ := expandMBB_spec h
  have hlt := lt_length_of_getElem? hB
  have hdrop := drop_of_getElem? hB
  rcases hcase with ⟨-, hMF, hcl⟩ | ⟨-, n, MI, E, hpre, hI, hp, hrun⟩
  · subst hMF
    rw [hdrop, numPseudos_cons]
    omega
  · obtain ⟨MBB1, MI1, Mid, Done, hB1, hI1, hbl, hnb, hl1, hl4, hmid, hhead, hdn, hdi, hds⟩ :=
      Expander.run_split hrun
    rw [hB] at hB1
    cases hB1
    rw [hI] at hI1
    cases hI1
    have hlen : (MF.blocks.take k).length = k := by simp; omega
    have hcount := countP_split hI hp hpre
    have hdrop1 : MF1.blocks.drop (k + 1) = Mid ++ Done :: MF.blocks.drop (k + 1) := by
      rw [hbl, List.drop_append_eq_append_drop, hlen]
      simp
    have hlen1 : MF1.blocks.length = MF.blocks.length + Mid.length + 1 := by
      rw [hbl]
      simp
      have : (MF.blocks.drop (k + 1)).length = MF.blocks.length - (k + 1) := by simp
      omega
    rw [hdrop1, numPseudos_append, numPseudos_cons, (numPseudos_eq_zero_iff Mid).2 hmid, hdi, hlen1,
      hdrop, numPseudos_cons, hcount]
    omega

theorem runOnMachineFunction_loop_fuel :
    ∀ (Fuel : Nat) (MF : MachineFunction) (k : Nat) (M : Bool) (Extra : Nat),
      (MF.blocks.length - k) + 5 * numPseudos (MF.blocks.drop k) ≤ Fuel →
      runOnMachineFunction.loop (Fuel + Extra) MF k M = runOnMachineFunction.loop Fuel MF k M := by
  intro Fuel
  induction Fuel with
  | zero =>
    intro MF k M Extra hf
    cases Extra with
    | zero => rfl
    | succ n =>
      have hk : ¬ k < MF.blocks.length := by omega
      simp [runOnMachineFunction.loop, hk]
  | succ Fuel ih =>
    intro MF k M Extra hf
    have e : Fuel + 1 + Extra = (Fuel + Extra) + 1 := by omega
    rw [e]
    unfold runOnMachineFunction.loop
    by_cases hlt : k < MF.blocks.length
    · simp only [hlt, if_true]
      cases hE : expandMBB MF k with
      | error e => rfl
      | ok r =>
        obtain ⟨MF1, M1⟩ := r
        have := expandMBB_measure hE
        exact ih MF1 (k + 1) (M || M1) Extra (by omega)
    · simp [hlt]

/-- The fuel of `runOnMachineFunction` is adequate: the loop gives the same result with
any larger fuel, so it never stops before the end of the layout. -/
theorem runOnMachineFunction_fuel_adequate (MF : MachineFunction) (Extra : Nat) :
    runOnMachineFunction.loop (MF.blocks.length + 5 * numPseudos MF.blocks + Extra) MF 0 false =
      runOnMachineFunction MF :=
  runOnMachineFunction_loop_fuel _ MF 0 false Extra (by simp)

theorem take_length_of_eq {α : Type} {l pre post : List α} {x : α} (h : l = pre ++ x :: post) :
    l.take pre.length = pre ∧ l.drop (pre.length + 1) = post := by
  subst h
  simp

theorem Expander.run_ll_sc {E : Expander} {MF MF' : MachineFunction} {k j : Nat}
    (h : E.run MF k j = .ok MF') :
    ∃ MBB B' First Rest Done BS, MF.blocks[k]? = some MBB ∧
      MF'.blocks = MF.blocks.take k ++ B' :: First :: (Rest ++ Done :: MF.blocks.drop (k + 1)) ∧
      B'.insts = MBB.insts.take j ∧ Done.insts = MBB.insts.drop (j + 1) ∧
      countInsts isLoadLinked (First :: Rest) = 1 ∧
      countInsts isStoreConditional (First :: Rest) = 1 ∧
      (∃ X ∈ First.insts, isLoadLinked X.opcode = true) ∧
      BS ∈ First :: Rest ∧ (∃ X ∈ BS.insts, isStoreConditional X.opcode = true) ∧
      First.number ∈ BS.successors ∧
      B'.number = MBB.number ∧ B'.successors = [First.number] ∧
      Done.successors = MBB.successors := by
  cases E with
  | binOp op m w =>
    obtain ⟨MBB, MI, L, B', Loop, Done, hB, hI, hL, hMF, hB', hn, hi, hs, hdn, hdi, hds⟩ :=
      expandAtomicBinOp_ok h
    have key : Loop.number ∈ Loop.successors ∧
        (Loop.insts.countP fun MI => isLoadLinked MI.opcode) = 1 ∧
        (Loop.insts.countP fun MI => isStoreConditional MI.opcode) = 1 := by
      rw [hn, hi, hs]
      cases m
      · obtain ⟨Dest, Scratch, Addr, Incr, Ord, -, -, -, -, -, h1, h2, -, h3⟩ :=
          doAtomicBinOpExpansion_ok (by simpa using hL)
        rw [h1, h2, h3]
        refine ⟨by simp, ?_, ?_⟩ <;>
        · by_cases ho : AtomicOrdering.ofImm Ord = AtomicOrdering.Monotonic <;> by_cases hw : w = 32 <;>
            cases op <;> simp [ho, hw, isLoadLinked, isStoreConditional, List.countP_cons]
      · obtain ⟨Dest, Scratch, Addr, Incr, Mask, Ord, -, -, -, -, -, -, -, -, -, -, h1, h2, -, h3⟩ :=
          doMaskedAtomicBinOpExpansion_ok (by simpa using hL)
        rw [h1, h2, h3]
        refine ⟨by simp, ?_, ?_⟩ <;>
        · by_cases ho : AtomicOrdering.ofImm Ord = AtomicOrdering.Monotonic <;>
            cases op <;> simp [ho, isLoadLinked, isStoreConditional, List.countP_cons]
    obtain ⟨k1, k2, k3⟩ := key
    have hnum : Loop.number = MF.numBlockIDs := by
      rw [hn]
      cases m
      · obtain ⟨_, _, _, _, _, -, -, -, -, -, h1, -⟩ := doAtomicBinOpExpansion_ok (by simpa using hL)
        exact h1
      · obtain ⟨_, _, _, _, _, _, -, -, -, -, -, -, -, -, -, -, h1, -⟩ :=
          doMaskedAtomicBinOpExpansion_ok (by simpa using hL)
        exact h1
    refine ⟨MBB, B', Loop, [], Done, Loop, hB, by simp [hMF], by simp [hB'], hdi,
      by simp [countInsts, k2], by simp [countInsts, k3], ?_, by simp, ?_, k1,
      by simp [hB'], by simp [hB', hnum], hds⟩
    · exact (List.countP_pos_iff.1 (by rw [k2]; exact Nat.one_pos)).imp fun X hX => hX
    · exact (List.countP_pos_iff.1 (by rw [k3]; exact Nat.one_pos)).imp fun X hX => hX
  | minMax op m w =>
    obtain ⟨MBB, MI, Dest, S1, S2, Addr, Incr, Mask, B', Head, IfBody, LoopTail, Tail, Done, cmp,
      -, -, hB, hI, -, -, -, -, -, -, -, -, -, hMF, hB', hhn, hhs, hhi, hcmp, hin, his, hii,
      hln, hls, hli, htn, hts, hti, hdn, hdi, hds⟩ := expandAtomicMinMaxOp_ok h
    have hc : (cmp.countP fun MI => isLoadLinked MI.opcode) = 0 ∧
        (cmp.countP fun MI => isStoreConditional MI.opcode) = 0 := by
      cases op <;> simp at hcmp
      all_goals first
        | (obtain ⟨Shamt, -, hcmp⟩ := hcmp
           subst hcmp
           simp [isLoadLinked, isStoreConditional, List.countP_cons])
        | (subst hcmp
           simp [isLoadLinked, isStoreConditional, List.countP_cons])
    have hH1 : (Head.insts.countP fun MI => isLoadLinked MI.opcode) = 1 := by
      rw [hhi, List.countP_append, hc.1]
      simp [isLoadLinked, List.countP_cons]
    have hH2 : (Head.insts.countP fun MI => isStoreConditional MI.opcode) = 0 := by
      rw [hhi, List.countP_append, hc.2]
      simp [isStoreConditional, List.countP_cons]
    refine ⟨MBB, B', Head, [IfBody, LoopTail, Tail], Done, LoopTail, hB, by simp [hMF],
      by simp [hB'], hdi, ?_, ?_, ?_, by simp, ?_, by simp [hhn, hls],
      by simp [hB'], by simp [hB', hhn], hds⟩
    · have e1 : (IfBody.insts.countP fun MI => isLoadLinked MI.opcode) = 0 := by rw [hii]; rfl
      have e2 : (LoopTail.insts.countP fun MI => isLoadLinked MI.opcode) = 0 := by rw [hli]; rfl
      have e3 : (Tail.insts.countP fun MI => isLoadLinked MI.opcode) = 0 := by rw [hti]; rfl
      simp [countInsts, hH1, e1, e2, e3]
    · have e1 : (IfBody.insts.countP fun MI => isStoreConditional MI.opcode) = 0 := by rw [hii]; rfl
      have e2 : (LoopTail.insts.countP fun MI => isStoreConditional MI.opcode) = 1 := by rw [hli]; rfl
      have e3 : (Tail.insts.countP fun MI => isStoreConditional MI.opcode) = 0 := by rw [hti]; rfl
      simp [countInsts, hH2, e1, e2, e3]
    · exact (List.countP_pos_iff.1 (by rw [hH1]; exact Nat.one_pos)).imp fun X hX => hX
    · exact ⟨⟨Opcode.SC_W, [MachineOperand.Reg S1 true, MachineOperand.Reg S1 false,
        MachineOperand.Reg Addr false, MachineOperand.Imm 0]⟩, by rw [hli]; simp, rfl⟩
  | cmpXchg m w =>
    obtain ⟨MBB, MI, Dest, Scratch, Addr, CmpVal, NewVal, B', Head, LoopTail, Tail, Done,
      hB, hI, -, -, -, -, -, hMF, hB', hhn, hhs, hln, hls, htn, hts, hti, hdn, hdi, hds, hm⟩ :=
      expandAtomicCmpXchg_ok h
    have key : (Head.insts.countP fun MI => isLoadLinked MI.opcode) = 1 ∧
        (Head.insts.countP fun MI => isStoreConditional MI.opcode) = 0 ∧
        (LoopTail.insts.countP fun MI => isLoadLinked MI.opcode) = 0 ∧
        (LoopTail.insts.countP fun MI => isStoreConditional MI.opcode) = 1 := by
      cases m
      · simp at hm
        rw [hm.1, hm.2]
        by_cases hw : w = 32 <;> simp [hw, isLoadLinked, isStoreConditional, List.countP_cons]
      · simp at hm
        obtain ⟨Mask, -, hh, ht⟩ := hm
        rw [hh, ht]
        by_cases hw : w = 32 <;> simp [hw, isLoadLinked, isStoreConditional, List.countP_cons]
    obtain ⟨k1, k2, k3, k4⟩ := key
    refine ⟨MBB, B', Head, [LoopTail, Tail], Done, LoopTail, hB, by simp [hMF],
      by simp [hB'], hdi, ?_, ?_, ?_, by simp, ?_, by simp [hhn, hls],
      by simp [hB'], by simp [hB', hhn], hds⟩
    · have e3 : (Tail.insts.countP fun MI => isLoadLinked MI.opcode) = 0 := by rw [hti]; rfl
      simp [countInsts, k1, k3, e3]
    · have e3 : (Tail.insts.countP fun MI => isStoreConditional MI.opcode) = 0 := by rw [hti]; rfl
      simp [countInsts, k2, k4, e3]
    · exact (List.countP_pos_iff.1 (by rw [k1]; exact Nat.one_pos)).imp fun X hX => hX
    · exact (List.countP_pos_iff.1 (by rw [k4]; exact Nat.one_pos)).imp fun X hX => hX


/-! ## Expansions that complete -/

theorem doAtomicBinOpExpansion_succeeds (MI : MachineInstr) (L0 : MachineBasicBlock)
    (op : AtomicRMWInst.BinOp) (w : Nat) (Dest Scratch Addr Incr : Register) (Ord : Int)
    (h0 : MI.getReg 0 = .ok Dest) (h1 : MI.getReg 1 = .ok Scratch) (h2 : MI.getReg 2 = .ok Addr)
    (h3 : MI.getReg 3 = .ok Incr) (h4 : MI.getImm 4 = .ok Ord)
    (hop : op ∈ [AtomicRMWInst.BinOp.Xchg, AtomicRMWInst.BinOp.Nand, AtomicRMWInst.BinOp.Add,
      AtomicRMWInst.BinOp.Sub, AtomicRMWInst.BinOp.And, AtomicRMWInst.BinOp.Or,
      AtomicRMWInst.BinOp.Xor]) :
    ∃ L, doAtomicBinOpExpansion MI L0 op w = .ok L := by
  unfold doAtomicBinOpExpansion
  simp only [h0, h1, h2, h3, h4, bind, Except.bind, pure, Except.pure]
  simp only [List.mem_cons, List.mem_singleton, List.not_mem_nil, or_false] at hop
  rcases hop with rfl | rfl | rfl | rfl | rfl | rfl | rfl <;> exact ⟨_, rfl⟩

theorem doMaskedAtomicBinOpExpansion_succeeds (MI : MachineInstr) (L0 : MachineBasicBlock)
    (op : AtomicRMWInst.BinOp) (Dest Scratch Addr Incr Mask : Register) (Ord : Int)
    (h0 : MI.getReg 0 = .ok Dest) (h1 : MI.getReg 1 = .ok Scratch) (h2 : MI.getReg 2 = .ok Addr)
    (h3 : MI.getReg 3 = .ok Incr) (h4 : MI.getReg 4 = .ok Mask) (h5 : MI.getImm 5 = .ok Ord)
    (d1 : Dest ≠ Scratch) (d2 : Dest ≠ Mask) (d3 : Scratch ≠ Mask)
    (hop : op ∈ [AtomicRMWInst.BinOp.Xchg, AtomicRMWInst.BinOp.Add, AtomicRMWInst.BinOp.Sub,
      AtomicRMWInst.BinOp.Nand]) :
    ∃ L, doMaskedAtomicBinOpExpansion MI L0 op 32 = .ok L := by
  have hmerge : ∀ X, ∃ L, insertMaskedMerge X Scratch Dest Scratch Mask Scratch = .ok L :=
    fun X => ⟨_, insertMaskedMerge_ok.2 ⟨d1, d2, d3, rfl⟩⟩
  unfold doMaskedAtomicBinOpExpansion
  simp only [h0, h1, h2, h3, h4, h5, bind, Except.bind, pure, Except.pure, ne_eq, not_true_eq_false,
    ite_false]
  simp only [List.mem_cons, List.mem_singleton, List.not_mem_nil, or_false] at hop
  rcases hop with rfl | rfl | rfl | rfl
  all_goals
    simp only []
    obtain ⟨L, hL⟩ := hmerge _
    rw [hL]
    exact ⟨_, rfl⟩

theorem expandAtomicBinOp_succeeds (MF : MachineFunction) (k j : Nat) (op : AtomicRMWInst.BinOp)
    (m : Bool) (w : Nat) (B : MachineBasicBlock) (MI : MachineInstr)
    (hB : MF.blocks[k]? = some B) (hI : B.insts[j]? = some MI)
    (hbody : ∀ L0, ∃ L, (if m then doMaskedAtomicBinOpExpansion MI L0 op w
      else doAtomicBinOpExpansion MI L0 op w) = .ok L) :
    ∃ MF', expandAtomicBinOp MF k j op m w = .ok MF' := by
  unfold expandAtomicBinOp
  simp only [hB, hI, bind, Except.bind, pure, Except.pure]
  obtain ⟨L, hL⟩ := hbody (((CreateMachineBasicBlock MF.numBlockIDs).addSuccessor
    (CreateMachineBasicBlock MF.numBlockIDs).number).addSuccessor
      (CreateMachineBasicBlock (MF.numBlockIDs + 1)).number)
  rw [hL]
  exact ⟨_, rfl⟩

theorem expandAtomicMinMaxOp_succeeds (MF : MachineFunction) (k j : Nat) (op : AtomicRMWInst.BinOp)
    (B : MachineBasicBlock) (MI : MachineInstr) (Dest S1 S2 Addr Incr Mask : Register)
    (hB : MF.blocks[k]? = some B) (hI : B.insts[j]? = some MI)
    (h0 : MI.getReg 0 = .ok Dest) (h1 : MI.getReg 1 = .ok S1) (h2 : MI.getReg 2 = .ok S2)
    (h3 : MI.getReg 3 = .ok Addr) (h4 : MI.getReg 4 = .ok Incr) (h5 : MI.getReg 5 = .ok Mask)
    (d1 : Dest ≠ S1) (d2 : Dest ≠ Mask) (d3 : S1 ≠ Mask)
    (hop : op = AtomicRMWInst.BinOp.UMax ∨ op = AtomicRMWInst.BinOp.UMin ∨
      ((op = AtomicRMWInst.BinOp.Max ∨ op = AtomicRMWInst.BinOp.Min) ∧
        ∃ Shamt, MI.getReg 6 = .ok Shamt)) :
    ∃ MF', expandAtomicMinMaxOp MF k j op true 32 = .ok MF' := by
  have hmerge : ∀ X, ∃ L, insertMaskedMerge X S1 Dest Incr Mask S1 = .ok L :=
    fun X => ⟨_, insertMaskedMerge_ok.2 ⟨d1, d2, d3, rfl⟩⟩
  unfold expandAtomicMinMaxOp
  simp only [hB, hI, h0, h1, h2, h3, h4, h5, bind, Except.bind, pure, Except.pure, ne_eq,
    not_true_eq_false, ite_false]
  rcases hop with rfl | rfl | ⟨rfl | rfl, Shamt, h6⟩
  · simp only []
    obtain ⟨L, hL⟩ := hmerge _
    rw [hL]
    exact ⟨_, rfl⟩
  · simp only []
    obtain ⟨L, hL⟩ := hmerge _
    rw [hL]
    exact ⟨_, rfl⟩
  · simp only [h6, bind, Except.bind, pure, Except.pure]
    obtain ⟨L, hL⟩ := hmerge _
    rw [hL]
    exact ⟨_, rfl⟩
  · simp only [h6, bind, Except.bind, pure, Except.pure]
    obtain ⟨L, hL⟩ := hmerge _
    rw [hL]
    exact ⟨_, rfl⟩

theorem expandAtomicCmpXchg_succeeds (MF : MachineFunction) (k j : Nat) (m : Bool) (w : Nat)
    (B : MachineBasicBlock) (MI : MachineInstr) (Dest Scratch Addr CmpVal NewVal : Register)
    (hB : MF.blocks[k]? = some B) (hI : B.insts[j]? = some MI)
    (h0 : MI.getReg 0 = .ok Dest) (h1 : MI.getReg 1 = .ok Scratch) (h2 : MI.getReg 2 = .ok Addr)
    (h3 : MI.getReg 3 = .ok CmpVal) (h4 : MI.getReg 4 = .ok NewVal)
    (h5 : m = true → ∃ Mask, MI.getReg 5 = .ok Mask) :
    ∃ MF', expandAtomicCmpXchg MF k j m w = .ok MF' := by
  unfold expandAtomicCmpXchg
  simp only [hB, hI, h0, h1, h2, h3, h4, bind, Except.bind, pure, Except.pure]
  cases m
  · exact ⟨_, rfl⟩
  · obtain ⟨Mask, h5⟩ := h5 rfl
    simp only [h5]
    exact ⟨_, rfl⟩

/-! ## The masked merge on machine words -/

theorem RegFile.read_lt (σ : RegFile) (R : Register) : σ.read R < 2 ^ 32 := by
  unfold RegFile.read
  split
  · exact Nat.two_pow_pos 32
  · exact Nat.mod_lt _ (Nat.two_pow_pos 32)

theorem RegFile.read_write_same (σ : RegFile) (R : Register) (V : Nat) (hR : R ≠ R0)
    (hV : V < 2 ^ 32) : (σ.write R V).read R = V := by
  simp only [RegFile.read, RegFile.write, hR, if_false, if_true]
  rw [Nat.mod_mod, Nat.mod_eq_of_lt hV]

theorem RegFile.read_write_other (σ : RegFile) (R X : Register) (V : Nat) (h : X ≠ R) :
    (σ.write R V).read X = σ.read X := by
  simp [RegFile.read, RegFile.write, h]

theorem not32_testBit (V : Nat) (hV : V < 2 ^ 32) (i : Nat) :
    (not32 V).testBit i = (decide (i < 32) && !V.testBit i) := by
  unfold not32
  rw [Nat.mod_eq_of_lt hV]
  have : 2 ^ 32 - 1 - V = 2 ^ 32 - (V + 1) := by omega
  rw [this, Nat.testBit_two_pow_sub_succ hV]

theorem testBit_of_lt_32 {V : Nat} (hV : V < 2 ^ 32) {i : Nat} (hi : ¬ i < 32) :
    V.testBit i = false :=
  Nat.testBit_lt_two_pow (lt_of_lt_of_le hV (Nat.pow_le_pow_right (by decide) (by omega)))

theorem masked_merge_identity (old new mask : Nat) (ho : old < 2 ^ 32) (hn : new < 2 ^ 32)
    (hm : mask < 2 ^ 32) :
    old ^^^ ((old ^^^ new) &&& mask) = (old &&& not32 mask) ||| (new &&& mask) := by
  apply Nat.eq_of_testBit_eq
  intro i
  simp only [Nat.testBit_xor, Nat.testBit_and, Nat.testBit_or, not32_testBit mask hm]
  by_cases hi : i < 32
  · simp [hi]
    cases old.testBit i <;> cases new.testBit i <;> cases mask.testBit i <;> rfl
  · simp [hi, testBit_of_lt_32 ho hi, testBit_of_lt_32 hn hi, testBit_of_lt_32 hm hi]

/-! ## Loop endings and fatal exits -/

theorem doAtomicBinOpExpansion_ends {MI : MachineInstr} {L0 L : MachineBasicBlock}
    {op : AtomicRMWInst.BinOp} {w : Nat} (h : doAtomicBinOpExpansion MI L0 op w = .ok L) :
    ∃ Scratch Init SC, MI.getReg 1 = .ok Scratch ∧ L.number = L0.number ∧
      L.insts = Init ++ [SC, ⟨Opcode.BEQZ, [MachineOperand.Reg Scratch false,
        MachineOperand.MBB L0.number]⟩] ∧
      isStoreConditional SC.opcode = true := by
  obtain ⟨Dest, Scratch, Addr, Incr, Ord, -, h1, -, -, -, hn, -, -, hLi⟩ :=
    doAtomicBinOpExpansion_ok h
  refine ⟨Scratch, _, _, h1, hn, hLi, ?_⟩
  by_cases hw : w = 32 <;> simp [hw, isStoreConditional]

theorem doMaskedAtomicBinOpExpansion_ends {MI : MachineInstr} {L0 L : MachineBasicBlock}
    {op : AtomicRMWInst.BinOp} {w : Nat} (h : doMaskedAtomicBinOpExpansion MI L0 op w = .ok L) :
    ∃ Scratch Init SC, MI.getReg 1 = .ok Scratch ∧ L.number = L0.number ∧
      L.insts = Init ++ [SC, ⟨Opcode.BEQZ, [MachineOperand.Reg Scratch false,
        MachineOperand.MBB L0.number]⟩] ∧
      isStoreConditional SC.opcode = true := by
  obtain ⟨Dest, Scratch, Addr, Incr, Mask, Ord, -, -, h1, -, -, -, -, -, -, -, hn, -, -, hLi⟩ :=
    doMaskedAtomicBinOpExpansion_ok h
  have e : ∀ (X : List MachineInstr) (a b c d e : MachineInstr),
      X ++ [a, b, c, d, e] = (X ++ [a, b, c]) ++ [d, e] := by simp
  rw [e] at hLi
  exact ⟨Scratch, _, _, h1, hn, hLi, rfl⟩

theorem expandAtomicBinOp_ends {MF MF' : MachineFunction} {k j : Nat} {op : AtomicRMWInst.BinOp}
    {m : Bool} {w : Nat} {B : MachineBasicBlock} {MI : MachineInstr}
    (hB : MF.blocks[k]? = some B) (hI : B.insts[j]? = some MI)
    (h : expandAtomicBinOp MF k j op m w = .ok MF') :
    ∃ Scratch B' Loop Done Init SC, MI.getReg 1 = .ok Scratch ∧
      MF'.blocks = MF.blocks.take k ++ B' :: Loop :: Done :: MF.blocks.drop (k + 1) ∧
      Loop.insts = Init ++ [SC, ⟨Opcode.BEQZ, [MachineOperand.Reg Scratch false,
        MachineOperand.MBB Loop.number]⟩] ∧
      isStoreConditional SC.opcode = true := by
  obtain ⟨MBB, MI1, L, B', Loop, Done, hB1, hI1, hL, hMF, hB', hn, hi, hs, hdn, hdi, hds⟩ :=
    expandAtomicBinOp_ok h
  rw [hB] at hB1
  cases hB1
  rw [hI] at hI1
  cases hI1
  have key : ∃ Scratch Init SC, MI.getReg 1 = .ok Scratch ∧ L.number = MF.numBlockIDs ∧
      L.insts = Init ++ [SC, ⟨Opcode.BEQZ, [MachineOperand.Reg Scratch false,
        MachineOperand.MBB MF.numBlockIDs]⟩] ∧
      isStoreConditional SC.opcode = true := by
    cases m
    · exact doAtomicBinOpExpansion_ends (by simpa using hL)
    · exact doMaskedAtomicBinOpExpansion_ends (by simpa using hL)
  obtain ⟨Scratch, Init, SC, h1, hLn, hLi, hsc⟩ := key
  exact ⟨Scratch, B', Loop, Done, Init, SC, h1, by rw [hMF], by rw [hi, hLi, hn, hLn], hsc⟩

theorem getReg_error {MI : MachineInstr} {i : Nat} {e : Fatal} (h : MI.getReg i = .error e) :
    e = Fatal.badOperand := by
  unfold MachineInstr.getReg at h
  split at h <;> simp at h
  exact h.symm

theorem getImm_error {MI : MachineInstr} {i : Nat} {e : Fatal} (h : MI.getImm i = .error e) :
    e = Fatal.badOperand := by
  unfold MachineInstr.getImm at h
  split at h <;> simp at h
  exact h.symm

theorem bind_eq_error {ε α β : Type} {x : Except ε α} {f : α → Except ε β} {e : ε} :
    (x >>= f) = .error e ↔ x = .error e ∨ ∃ a, x = .ok a ∧ f a = .error e := by
  cases x <;> simp [bind, Except.bind]

theorem doAtomicBinOpExpansion_error {MI : MachineInstr} {L0 : MachineBasicBlock}
    {op : AtomicRMWInst.BinOp} {w : Nat} {e : Fatal}
    (h : doAtomicBinOpExpansion MI L0 op w = .error e) :
    e = Fatal.badOperand ∨ e = Fatal.unexpectedBinOp := by
  unfold doAtomicBinOpExpansion at h
  simp only [bind_eq_error] at h
  rcases h with h | ⟨_, -, h | ⟨_, -, h | ⟨_, -, h | ⟨_, -, h | ⟨_, -, h | ⟨_, -, h⟩⟩⟩⟩⟩⟩
  · exact Or.inl (getReg_error h)
  · exact Or.inl (getReg_error h)
  · exact Or.inl (getReg_error h)
  · exact Or.inl (getReg_error h)
  · exact Or.inl (getImm_error h)
  · right
    cases op <;> simp [pure, Except.pure, throw, throwThe, MonadExceptOf.throw] at h <;> exact h.symm
  · simp [pure, Except.pure] at h

theorem insertMaskedMerge_eq (B : MachineBasicBlock) (D O Nw M S : Register) :
    insertMaskedMerge B D O Nw M S =
      if O = S then .error Fatal.oldValIsScratch
      else if O = M then .error Fatal.oldValIsMask
      else if S = M then .error Fatal.scratchIsMask
      else .ok (((B.push (((BuildMIDef Opcode.XOR S).addReg O).addReg Nw)).push
        (((BuildMIDef Opcode.AND S).addReg S).addReg M)).push
        (((BuildMIDef Opcode.XOR D).addReg O).addReg S)) := by
  unfold insertMaskedMerge
  by_cases h1 : O = S
  · simp [h1, throw, throwThe, MonadExceptOf.throw, bind, Except.bind]
  by_cases h2 : O = M
  · simp [h1, h2, pure, Except.pure, throw, throwThe, MonadExceptOf.throw, bind, Except.bind]
  by_cases h3 : S = M
  · simp [h1, h2, h3, pure, Except.pure, throw, throwThe, MonadExceptOf.throw, bind, Except.bind]
  simp [h1, h2, h3, pure, Except.pure, bind, Except.bind]

theorem doMaskedAtomicBinOpExpansion_eq (MI : MachineInstr) (L0 : MachineBasicBlock)
    (op : AtomicRMWInst.BinOp) (Dest Scratch Addr Incr Mask : Register) (Ord : Int)
    (h0 : MI.getReg 0 = .ok Dest) (h1 : MI.getReg 1 = .ok Scratch) (h2 : MI.getReg 2 = .ok Addr)
    (h3 : MI.getReg 3 = .ok Incr) (h4 : MI.getReg 4 = .ok Mask) (h5 : MI.getImm 5 = .ok Ord)
    (hop : op ∈ [AtomicRMWInst.BinOp.Xchg, AtomicRMWInst.BinOp.Add, AtomicRMWInst.BinOp.Sub,
      AtomicRMWInst.BinOp.Nand]) :
    ∃ L1, doMaskedAtomicBinOpExpansion MI L0 op 32 =
      (insertMaskedMerge L1 Scratch Dest Scratch Mask Scratch >>= fun L2 =>
        pure ((L2.push ((((BuildMIDef Opcode.SC_W Scratch).addReg Scratch).addReg Addr).addImm 0)).push
          (((BuildMI Opcode.BEQZ).addReg Scratch).addMBB L2.number))) := by
  unfold doMaskedAtomicBinOpExpansion
  simp only [h0, h1, h2, h3, h4, h5, bind, Except.bind, pure, Except.pure, ne_eq,
    not_true_eq_false, ite_false]
  simp only [List.mem_cons, List.mem_singleton, List.not_mem_nil, or_false] at hop
  rcases hop with rfl | rfl | rfl | rfl <;> exact ⟨_, rfl⟩

/-! ## The value handed to the store-conditional -/

theorem doAtomicBinOpExpansion_op {MI : MachineInstr} {L0 L : MachineBasicBlock}
    {op : AtomicRMWInst.BinOp} {w : Nat} (h : doAtomicBinOpExpansion MI L0 op w = .ok L) :
    op ∈ [AtomicRMWInst.BinOp.Xchg, AtomicRMWInst.BinOp.Nand, AtomicRMWInst.BinOp.Add,
      AtomicRMWInst.BinOp.Sub, AtomicRMWInst.BinOp.And, AtomicRMWInst.BinOp.Or,
      AtomicRMWInst.BinOp.Xor] := by
  unfold doAtomicBinOpExpansion at h
  simp only [bind_eq_ok] at h
  obtain ⟨_, -, _, -, _, -, _, -, _, -, L1, hL1, -⟩ := h
  cases op <;> simp [throw, throwThe, MonadExceptOf.throw] at hL1 ⊢

theorem doMaskedAtomicBinOpExpansion_op {MI : MachineInstr} {L0 L : MachineBasicBlock}
    {op : AtomicRMWInst.BinOp} {w : Nat} (h : doMaskedAtomicBinOpExpansion MI L0 op w = .ok L) :
    op ∈ [AtomicRMWInst.BinOp.Xchg, AtomicRMWInst.BinOp.Add, AtomicRMWInst.BinOp.Sub,
      AtomicRMWInst.BinOp.Nand] := by
  unfold doMaskedAtomicBinOpExpansion at h
  by_cases hw : w = 32
  swap
  · simp [hw, throw, throwThe, MonadExceptOf.throw, bind, Except.bind] at h
  simp only [hw, ne_eq, not_true_eq_false, ite_false, bind_eq_ok] at h
  obtain ⟨_, -, _, -, _, -, _, -, _, -, _, -, _, -, L1, hL1, -⟩ := h
  cases op <;> simp [throw, throwThe, MonadExceptOf.throw] at hL1 ⊢

theorem RegFile.read_write_mod (σ : RegFile) (R : Register) (V : Nat) (hR : R ≠ R0) :
    (σ.write R V).read R = V % 2 ^ 32 := by
  simp only [RegFile.read, RegFile.write, hR, if_false, if_true, Nat.mod_mod]

theorem sub_mod_word (a b : Nat) (hb : b ≤ 2 ^ 32) :
    (a + (2 ^ 32 - b)) % 2 ^ 32 = (((a : Int) - (b : Int)) % 2 ^ 32).toNat := by
  omega

theorem getElem?_layout {α : Type} {l : List α} {k : Nat} {x : α} (hk : l[k]? = some x)
    (Front Back : List α) (i : Nat) :
    (l.take k ++ Front ++ Back)[k + i]? = (Front ++ Back)[i]? := by
  have hlen : (l.take k).length = k :=
    List.length_take_of_le (Nat.le_of_lt (lt_length_of_getElem? hk))
  rw [List.append_assoc, List.getElem?_append_right (by omega)]
  simp [hlen]

theorem execALUs_append (σ : RegFile) (A B : List MachineInstr) :
    execALUs σ (A ++ B) = (execALUs σ A).bind fun σ' => execALUs σ' B := by
  induction A generalizing σ with
  | nil => rfl
  | cons a A ih =>
    simp only [List.cons_append, execALUs]
    cases execALU σ a with
    | none => rfl
    | some σ1 => simpa using ih σ1

/-- The instructions that compute the new value of a binary read-modify-write (`OR` with
the zero register or `ADDI_W` with 0 for exchange) leave in the scratch register the value
the specification names and change no other register. -/
theorem execALUs_binop (op : AtomicRMWInst.BinOp) (σ : RegFile) (Dest Scratch Incr : Register)
    (Mid : List MachineInstr) (hS : Scratch ≠ R0)
    (hMid :
      (op = AtomicRMWInst.BinOp.Xchg ∧ Mid = [⟨Opcode.OR, [MachineOperand.Reg Scratch true,
        MachineOperand.Reg Incr false, MachineOperand.Reg R0 false]⟩]) ∨
      (op = AtomicRMWInst.BinOp.Xchg ∧ Mid = [⟨Opcode.ADDI_W, [MachineOperand.Reg Scratch true,
        MachineOperand.Reg Incr false, MachineOperand.Imm 0]⟩]) ∨
      (op = AtomicRMWInst.BinOp.Nand ∧ Mid = [⟨Opcode.AND, [MachineOperand.Reg Scratch true,
          MachineOperand.Reg Dest false, MachineOperand.Reg Incr false]⟩,
        ⟨Opcode.NOR, [MachineOperand.Reg Scratch true, MachineOperand.Reg Scratch false,
          MachineOperand.Reg R0 false]⟩]) ∨
      (op = AtomicRMWInst.BinOp.Add ∧ Mid = [⟨Opcode.ADD_W, [MachineOperand.Reg Scratch true,
        MachineOperand.Reg Dest false, MachineOperand.Reg Incr false]⟩]) ∨
      (op = AtomicRMWInst.BinOp.Sub ∧ Mid = [⟨Opcode.SUB_W, [MachineOperand.Reg Scratch true,
        MachineOperand.Reg Dest false, MachineOperand.Reg Incr false]⟩]) ∨
      (op = AtomicRMWInst.BinOp.And ∧ Mid = [⟨Opcode.AND, [MachineOperand.Reg Scratch true,
        MachineOperand.Reg Dest false, MachineOperand.Reg Incr false]⟩]) ∨
      (op = AtomicRMWInst.BinOp.Or ∧ Mid = [⟨Opcode.OR, [MachineOperand.Reg Scratch true,
        MachineOperand.Reg Dest false, MachineOperand.Reg Incr false]⟩]) ∨
      (op = AtomicRMWInst.BinOp.Xor ∧ Mid = [⟨Opcode.XOR, [MachineOperand.Reg Scratch true,
        MachineOperand.Reg Dest false, MachineOperand.Reg Incr false]⟩])) :
    ∃ σ', execALUs σ Mid = some σ' ∧
      specBinOpValue op (σ.read Dest) (σ.read Incr) = some (σ'.read Scratch) ∧
      ∀ X, X ≠ Scratch → σ'.read X = σ.read X := by
  have hD := σ.read_lt Dest
  have hV := σ.read_lt Incr
  rcases hMid with ⟨rfl, rfl⟩ | ⟨rfl, rfl⟩ | ⟨rfl, rfl⟩ | ⟨rfl, rfl⟩ | hMid
  rotate_right
  rcases hMid with ⟨rfl, rfl⟩ | ⟨rfl, rfl⟩ | ⟨rfl, rfl⟩ | ⟨rfl, rfl⟩
  rotate_left 4
  · refine ⟨_, rfl, ?_, fun X hX => RegFile.read_write_other _ _ _ _ hX⟩
    simp only [specBinOpValue]
    rw [RegFile.read_write_same _ _ _ hS (by simpa [RegFile.read, R0] using hV)]
    simp [RegFile.read, R0]
  · refine ⟨_, rfl, ?_, fun X hX => RegFile.read_write_other _ _ _ _ hX⟩
    simp only [specBinOpValue]
    rw [RegFile.read_write_same _ _ _ hS (by simpa using hV)]
    simp
  · refine ⟨_, rfl, ?_, fun X hX => ?_⟩
    · simp only [specBinOpValue]
      have ha : σ.read Dest &&& σ.read Incr < 2 ^ 32 := Nat.and_lt_two_pow _ hV
      rw [RegFile.read_write_same _ _ _ hS, RegFile.read_write_same _ _ _ hS ha]
      · simp [RegFile.read, R0]
      · rw [RegFile.read_write_same _ _ _ hS ha]
        simp only [RegFile.read, R0, if_true, Nat.or_zero]
        unfold not32
        omega
    · rw [RegFile.read_write_other _ _ _ _ hX, RegFile.read_write_other _ _ _ _ hX]
  · refine ⟨_, rfl, ?_, fun X hX => RegFile.read_write_other _ _ _ _ hX⟩
    simp only [specBinOpValue]
    rw [RegFile.read_write_mod _ _ _ hS]
  · refine ⟨_, rfl, ?_, fun X hX => RegFile.read_write_other _ _ _ _ hX⟩
    simp only [specBinOpValue]
    rw [RegFile.read_write_mod _ _ _ hS, sub_mod_word _ _ (Nat.le_of_lt hV)]
  · refine ⟨_, rfl, ?_, fun X hX => RegFile.read_write_other _ _ _ _ hX⟩
    simp only [specBinOpValue]
    rw [RegFile.read_write_same _ _ _ hS (Nat.and_lt_two_pow _ hV)]
  · refine ⟨_, rfl, ?_, fun X hX => RegFile.read_write_other _ _ _ _ hX⟩
    simp only [specBinOpValue]
    rw [RegFile.read_write_same _ _ _ hS (Nat.or_lt_two_pow hD hV)]
  · refine ⟨_, rfl, ?_, fun X hX => RegFile.read_write_other _ _ _ _ hX⟩
    simp only [specBinOpValue]
    rw [RegFile.read_write_same _ _ _ hS (Nat.xor_lt_two_pow hD hV)]

/-- The XOR, AND, XOR triple of `insertMaskedMerge` on a register file. -/
theorem execALUs_merge (σ : RegFile) (D O Nw M S : Register) (hOS : O ≠ S) (hSM : S ≠ M)
    (hD : D ≠ R0) (hS : S ≠ R0) :
    ∃ σ', execALUs σ
        [⟨Opcode.XOR, [MachineOperand.Reg S true, MachineOperand.Reg O false, MachineOperand.Reg Nw false]⟩,
         ⟨Opcode.AND, [MachineOperand.Reg S true, MachineOperand.Reg S false, MachineOperand.Reg M false]⟩,
         ⟨Opcode.XOR, [MachineOperand.Reg D true, MachineOperand.Reg O false, MachineOperand.Reg S false]⟩]
        = some σ' ∧
      σ'.read D = (σ.read O &&& not32 (σ.read M)) ||| (σ.read Nw &&& σ.read M) ∧
      ∀ X, X ≠ S → X ≠ D → σ'.read X = σ.read X := by
  have hx : σ.read O ^^^ σ.read Nw < 2 ^ 32 := Nat.xor_lt_two_pow (σ.read_lt O) (σ.read_lt Nw)
  have ha : (σ.read O ^^^ σ.read Nw) &&& σ.read M < 2 ^ 32 := Nat.and_lt_two_pow _ (σ.read_lt M)
  have hr : σ.read O ^^^ ((σ.read O ^^^ σ.read Nw) &&& σ.read M) < 2 ^ 32 :=
    Nat.xor_lt_two_pow (σ.read_lt O) ha
  have hMS : M ≠ S := fun e => hSM e.symm
  refine ⟨_, rfl, ?_, fun X hXS hXD => ?_⟩
  · rw [← masked_merge_identity _ _ _ (σ.read_lt O) (σ.read_lt Nw) (σ.read_lt M)]
    rw [RegFile.read_write_same _ _ _ hD]
    · rw [RegFile.read_write_other _ _ _ _ hOS, RegFile.read_write_other _ _ _ _ hOS,
        RegFile.read_write_same _ _ _ hS, RegFile.read_write_same _ _ _ hS hx,
        RegFile.read_write_other _ _ _ _ hMS]
      rw [RegFile.read_write_same _ _ _ hS hx, RegFile.read_write_other _ _ _ _ hMS]
      exact ha
    · rw [RegFile.read_write_other _ _ _ _ hOS, RegFile.read_write_other _ _ _ _ hOS,
        RegFile.read_write_same _ _ _ hS, RegFile.read_write_same _ _ _ hS hx,
        RegFile.read_write_other _ _ _ _ hMS]
      · exact hr
      · rw [RegFile.read_write_same _ _ _ hS hx, RegFile.read_write_other _ _ _ _ hMS]
        exact ha
  · rw [RegFile.read_write_other _ _ _ _ hXD, RegFile.read_write_other _ _ _ _ hXS,
      RegFile.read_write_other _ _ _ _ hXS]

theorem merge_outside_mask (old new mask : Nat) (ho : old < 2 ^ 32) (hm : mask < 2 ^ 32)
    (i : Nat) (hi : mask.testBit i = false) :
    ((old &&& not32 mask) ||| (new &&& mask)).testBit i = old.testBit i := by
  simp only [Nat.testBit_or, Nat.testBit_and, not32_testBit mask hm, hi]
  by_cases h32 : i < 32
  · simp [h32]
  · simp [h32, testBit_of_lt_32 ho h32]

theorem merge_field (old new mask : Nat) (hm : mask < 2 ^ 32) :
    ((old &&& not32 mask) ||| (new &&& mask)) &&& mask = new &&& mask := by
  apply Nat.eq_of_testBit_eq
  intro i
  simp only [Nat.testBit_or, Nat.testBit_and, not32_testBit mask hm]
  cases mask.testBit i <;> simp

/-! ## Execution of blocks and paths -/

theorem execInst_DBAR (s : MachineState) (V : Int) :
    execInst s ⟨Opcode.DBAR, [MachineOperand.Imm V]⟩ = some (s, none) := rfl

theorem execInst_LL (s : MachineState) (w : Nat) (D A : Register) (Off : Int) :
    execInst s ⟨if w = 32 then Opcode.LL_W else Opcode.LL_D,
      [MachineOperand.Reg D true, MachineOperand.Reg A false, MachineOperand.Imm Off]⟩ =
    some ({ s with regs := s.regs.write D (s.mem (effectiveAddress s.regs A Off)) }, none) := by
  by_cases hw : w = 32 <;> simp only [hw, if_true, if_false] <;> rfl

theorem execInst_BNE (s : MachineState) (A B : Register) (T : Nat) :
    execInst s ⟨Opcode.BNE, [MachineOperand.Reg A false, MachineOperand.Reg B false,
      MachineOperand.MBB T]⟩ =
    some (s, if s.regs.read A ≠ s.regs.read B then some T else none) := rfl

theorem execInst_BGEU (s : MachineState) (A B : Register) (T : Nat) :
    execInst s ⟨Opcode.BGEU, [MachineOperand.Reg A false, MachineOperand.Reg B false,
      MachineOperand.MBB T]⟩ =
    some (s, if s.regs.read B ≤ s.regs.read A then some T else none) := rfl

theorem execInst_AND (s : MachineState) (D A B : Register) :
    execInst s ⟨Opcode.AND, [MachineOperand.Reg D true, MachineOperand.Reg A false,
      MachineOperand.Reg B false]⟩ =
    some ({ s with regs := s.regs.write D (s.regs.read A &&& s.regs.read B) }, none) := rfl

theorem execInst_OR (s : MachineState) (D A B : Register) :
    execInst s ⟨Opcode.OR, [MachineOperand.Reg D true, MachineOperand.Reg A false,
      MachineOperand.Reg B false]⟩ =
    some ({ s with regs := s.regs.write D (s.regs.read A ||| s.regs.read B) }, none) := rfl

theorem execInst_XOR (s : MachineState) (D A B : Register) :
    execInst s ⟨Opcode.XOR, [MachineOperand.Reg D true, MachineOperand.Reg A false,
      MachineOperand.Reg B false]⟩ =
    some ({ s with regs := s.regs.write D (s.regs.read A ^^^ s.regs.read B) }, none) := rfl

theorem execInst_ANDN (s : MachineState) (D A B : Register) :
    execInst s ⟨Opcode.ANDN, [MachineOperand.Reg D true, MachineOperand.Reg A false,
      MachineOperand.Reg B false]⟩ =
    some ({ s with regs := s.regs.write D (s.regs.read A &&& not32 (s.regs.read B)) }, none) := rfl

theorem blockIndex_append (T : Nat) (A L : List MachineBasicBlock)
    (hA : ∀ b ∈ A, b.number ≠ T) :
    blockIndex T (A ++ L) = (blockIndex T L).map (· + A.length) := by
  induction A with
  | nil => simp
  | cons a A ih =>
    have ha : a.number ≠ T := hA a (List.mem_cons_self _ _)
    have ih' := ih (fun b hb => hA b (List.mem_cons_of_mem _ hb))
    rw [List.cons_append, blockIndex, if_neg ha, ih']
    cases blockIndex T L with
    | none => rfl
    | some i => simp [Nat.add_assoc]

theorem execFrom_step {Blocks : List MachineBasicBlock} {Stop Idx Idx' : Nat}
    {s s' : MachineState} {B : MachineBasicBlock} {Target : Option Nat}
    {Trace : List MachineInstr} (Fuel : Nat)
    (hB : Blocks[Idx]? = some B) (hne : B.number ≠ Stop)
    (hex : execBlock s B.insts = some (s', Target, Trace))
    (hnx : nextBlock Blocks Idx Target = some Idx') :
    execFrom Blocks Stop (Fuel + 1) Idx s =
      (execFrom Blocks Stop Fuel Idx' s').map fun (Path, Trace', s'') =>
        (B.number :: Path, Trace ++ Trace', s'') := by
  simp only [execFrom, hB, hne, if_false, hex, hnx]

theorem execFrom_stop {Blocks : List MachineBasicBlock} {Stop Idx : Nat}
    {B : MachineBasicBlock} (Fuel : Nat) (s : MachineState)
    (hB : Blocks[Idx]? = some B) (he : B.number = Stop) :
    execFrom Blocks Stop (Fuel + 1) Idx s = some ([], [], s) := by
  simp only [execFrom, hB, he, if_true]

/-- The layout index of a block the expansion inserted, in a function whose block numbers
are below `numBlockIDs`. -/
theorem blockIndex_layout {MF : MachineFunction} {k : Nat} {MBB : MachineBasicBlock}
    (hB : MF.blocks[k]? = some MBB) (hnum : ∀ b ∈ MF.blocks, b.number < MF.numBlockIDs)
    (B' : MachineBasicBlock) (hB' : B'.number = MBB.number)
    (New Back : List MachineBasicBlock) (T i : Nat) (hT : MF.numBlockIDs ≤ T)
    (hi : blockIndex T New = some i) :
    blockIndex T (MF.blocks.take k ++ B' :: (New ++ Back)) = some (k + 1 + i) := by
  have hlen : (MF.blocks.take k).length = k :=
    List.length_take_of_le (Nat.le_of_lt (lt_length_of_getElem? hB))
  have hMBB : MBB ∈ MF.blocks := by
    have hk := lt_length_of_getElem? hB
    have e : MF.blocks[k] = MBB := by
      rw [List.getElem?_eq_getElem hk] at hB
      exact Option.some.inj hB
    exact e ▸ List.getElem_mem hk
  have hpre : ∀ b ∈ MF.blocks.take k, b.number ≠ T := fun b hb =>
    Nat.ne_of_lt (lt_of_lt_of_le (hnum b (List.mem_of_mem_take hb)) hT)
  have hb' : B'.number ≠ T := by
    rw [hB']
    exact Nat.ne_of_lt (lt_of_lt_of_le (hnum MBB hMBB) hT)
  have hNew : ∀ (N : List MachineBasicBlock) (i : Nat), blockIndex T N = some i →
      blockIndex T (N ++ Back) = some i := by
    intro N
    induction N with
    | nil => intro i h; simp [blockIndex] at h
    | cons a N ih =>
      intro i h
      rw [List.cons_append]
      simp only [blockIndex] at h ⊢
      by_cases ha : a.number = T
      · simpa [ha] using h
      · simp only [ha, if_false] at h ⊢
        cases hN : blockIndex T N with
        | none => simp [hN] at h
        | some i' =>
          rw [ih i' hN]
          simpa [hN] using h
  rw [blockIndex_append T _ _ hpre, blockIndex, if_neg hb', hNew New i hi, hlen]
  simp
  omega

theorem and_mask_of_and_not32 (v mask : Nat) (hv : v < 2 ^ 32) (hm : mask < 2 ^ 32)
    (h : v &&& not32 mask = 0) : v &&& mask = v := by
  apply Nat.eq_of_testBit_eq
  intro i
  have hi := congrArg (fun x => x.testBit i) h
  simp only [Nat.testBit_and, not32_testBit mask hm, Nat.zero_testBit] at hi ⊢
  by_cases h32 : i < 32
  · simp only [h32, decide_True, Bool.true_and] at hi
    cases hvb : v.testBit i <;> cases hmb : mask.testBit i <;> simp_all
  · simp [testBit_of_lt_32 hv h32]

theorem execInst_LL_W (s : MachineState) (D A : Register) (Off : Int) :
    execInst s ⟨Opcode.LL_W,
      [MachineOperand.Reg D true, MachineOperand.Reg A false, MachineOperand.Imm Off]⟩ =
    some ({ s with regs := s.regs.write D (s.mem (effectiveAddress s.regs A Off)) }, none) := rfl

theorem execInst_BGE (s : MachineState) (A B : Register) (T : Nat) :
    execInst s ⟨Opcode.BGE, [MachineOperand.Reg A false, MachineOperand.Reg B false,
      MachineOperand.MBB T]⟩ =
    some (s, if toSigned32 (s.regs.read B) ≤ toSigned32 (s.regs.read A) then some T else none) :=
  rfl

/-! ## Fatal exits of the dispatch -/

theorem map_eq_error {ε α β : Type} {x : Except ε α} {f : α → β} {e : ε} :
    (f <$> x) = .error e ↔ x = .error e := by
  cases x <;> simp [Functor.map, Except.map]

theorem insertMaskedMerge_error {B : MachineBasicBlock} {D O Nw M S : Register} {e : Fatal}
    (h : insertMaskedMerge B D O Nw M S = .error e) : e.isDispatchFatal = false := by
  rw [insertMaskedMerge_eq] at h
  split_ifs at h <;> cases h <;> rfl

theorem getReg_error_dispatch {MI : MachineInstr} {i : Nat} {e : Fatal}
    (h : MI.getReg i = .error e) : e.isDispatchFatal = false := by
  rw [getReg_error h]; rfl

theorem getImm_error_dispatch {MI : MachineInstr} {i : Nat} {e : Fatal}
    (h : MI.getImm i = .error e) : e.isDispatchFatal = false := by
  rw [getImm_error h]; rfl

theorem doAtomicBinOpExpansion_error_supported {MI : MachineInstr} {L0 : MachineBasicBlock}
    {op : AtomicRMWInst.BinOp} {w : Nat} {e : Fatal}
    (hop : op ∈ [AtomicRMWInst.BinOp.Xchg, AtomicRMWInst.BinOp.Nand, AtomicRMWInst.BinOp.Add,
      AtomicRMWInst.BinOp.Sub, AtomicRMWInst.BinOp.And, AtomicRMWInst.BinOp.Or,
      AtomicRMWInst.BinOp.Xor])
    (h : doAtomicBinOpExpansion MI L0 op w = .error e) : e.isDispatchFatal = false := by
  unfold doAtomicBinOpExpansion at h
  simp only [bind_eq_error] at h
  simp only [List.mem_cons, List.mem_singleton, List.not_mem_nil, or_false] at hop
  rcases h with h | ⟨_, -, h | ⟨_, -, h | ⟨_, -, h | ⟨_, -, h | ⟨_, -, h | ⟨_, -, h⟩⟩⟩⟩⟩⟩
  · exact getReg_error_dispatch h
  · exact getReg_error_dispatch h
  · exact getReg_error_dispatch h
  · exact getReg_error_dispatch h
  · exact getImm_error_dispatch h
  · rcases hop with rfl | rfl | rfl | rfl | rfl | rfl | rfl <;> simp [pure, Except.pure] at h
  · simp [pure, Except.pure] at h

theorem doMaskedAtomicBinOpExpansion_error_supported {MI : MachineInstr}
    {L0 : MachineBasicBlock} {op : AtomicRMWInst.BinOp} {e : Fatal}
    (hop : op ∈ [AtomicRMWInst.BinOp.Xchg, AtomicRMWInst.BinOp.Add, AtomicRMWInst.BinOp.Sub,
      AtomicRMWInst.BinOp.Nand])
    (h : doMaskedAtomicBinOpExpansion MI L0 op 32 = .error e) : e.isDispatchFatal = false := by
  unfold doMaskedAtomicBinOpExpansion at h
  simp only [ne_eq, not_true_eq_false, ite_false, bind_eq_error] at h
  simp only [List.mem_cons, List.mem_singleton, List.not_mem_nil, or_false] at hop
  rcases h with h | ⟨_, -, h⟩
  · simp [pure, Except.pure] at h
  rcases h with h | ⟨_, -, h | ⟨_, -, h | ⟨_, -, h | ⟨_, -, h | ⟨_, -, h | ⟨_, -, h⟩⟩⟩⟩⟩⟩
  · exact getReg_error_dispatch h
  · exact getReg_error_dispatch h
  · exact getReg_error_dispatch h
  · exact getReg_error_dispatch h
  · exact getReg_error_dispatch h
  · exact getImm_error_dispatch h
  rcases h with h | ⟨_, -, h | ⟨_, -, h⟩⟩
  · rcases hop with rfl | rfl | rfl | rfl <;> simp [pure, Except.pure] at h
  · exact insertMaskedMerge_error h
  · simp [pure, Except.pure] at h

theorem expandAtomicBinOp_error_supported {MF : MachineFunction} {k j : Nat}
    {op : AtomicRMWInst.BinOp} {m : Bool} {w : Nat} {e : Fatal}
    (hs : (Expander.binOp op m w).supported)
    (h : expandAtomicBinOp MF k j op m w = .error e) : e.isDispatchFatal = false := by
  unfold expandAtomicBinOp at h
  cases hB : MF.blocks[k]? with
  | none =>
    simp [hB, throw, throwThe, MonadExceptOf.throw, bind, Except.bind] at h
    rw [← h]; rfl
  | some MBB =>
    cases hI : MBB.insts[j]? with
    | none =>
      simp [hB, hI, throw, throwThe, MonadExceptOf.throw, bind, Except.bind] at h
      rw [← h]; rfl
    | some MI =>
      simp only [hB, hI, bind_eq_error] at h
      rcases h with h | ⟨_, -, h⟩
      · cases m
        · simp only [Bool.false_eq_true, if_false] at h
          exact doAtomicBinOpExpansion_error_supported hs h
        · simp only [if_true] at h
          obtain ⟨hw, hop⟩ := hs
          subst hw
          exact doMaskedAtomicBinOpExpansion_error_supported hop h
      · simp [pure, Except.pure] at h

theorem expandAtomicMinMaxOp_error_supported {MF : MachineFunction} {k j : Nat}
    {op : AtomicRMWInst.BinOp} {e : Fatal}
    (hop : op ∈ [AtomicRMWInst.BinOp.UMax, AtomicRMWInst.BinOp.UMin,
      AtomicRMWInst.BinOp.Max, AtomicRMWInst.BinOp.Min])
    (h : expandAtomicMinMaxOp MF k j op true 32 = .error e) : e.isDispatchFatal = false := by
  unfold expandAtomicMinMaxOp at h
  cases hB : MF.blocks[k]? with
  | none =>
    simp [hB, pure, Except.pure, throw, throwThe, MonadExceptOf.throw, bind, Except.bind] at h
    rw [← h]; rfl
  | some MBB =>
    cases hI : MBB.insts[j]? with
    | none =>
      simp [hB, hI, pure, Except.pure, throw, throwThe, MonadExceptOf.throw, bind,
        Except.bind] at h
      rw [← h]; rfl
    | some MI =>
      simp only [hB, hI, ne_eq, not_true_eq_false, ite_false, bind_eq_error] at h
      simp only [List.mem_cons, List.mem_singleton, List.not_mem_nil, or_false] at hop
      rcases h with h | ⟨_, -, h⟩
      · simp [pure, Except.pure] at h
      rcases h with h | ⟨_, -, h⟩
      · simp [pure, Except.pure] at h
      rcases h with h | ⟨_, -, h | ⟨_, -, h | ⟨_, -, h | ⟨_, -, h | ⟨_, -, h | ⟨_, -, h⟩⟩⟩⟩⟩⟩
      · exact getReg_error_dispatch h
      · exact getReg_error_dispatch h
      · exact getReg_error_dispatch h
      · exact getReg_error_dispatch h
      · exact getReg_error_dispatch h
      · exact getReg_error_dispatch h
      rcases h with h | ⟨_, -, h | ⟨_, -, h⟩⟩
      · rcases hop with rfl | rfl | rfl | rfl
        · simp [pure, Except.pure] at h
        · simp [pure, Except.pure] at h
        · simp only [bind_eq_error] at h
          rcases h with h | ⟨_, -, h⟩
          · exact getReg_error_dispatch h
          · simp [pure, Except.pure] at h
        · simp only [bind_eq_error] at h
          rcases h with h | ⟨_, -, h⟩
          · exact getReg_error_dispatch h
          · simp [pure, Except.pure] at h
      · exact insertMaskedMerge_error h
      · simp [pure, Except.pure] at h

theorem expandAtomicCmpXchg_error_supported {MF : MachineFunction} {k j : Nat}
    {m : Bool} {w : Nat} {e : Fatal}
    (h : expandAtomicCmpXchg MF k j m w = .error e) : e.isDispatchFatal = false := by
  unfold expandAtomicCmpXchg at h
  cases hB : MF.blocks[k]? with
  | none =>
    simp [hB, pure, Except.pure, throw, throwThe, MonadExceptOf.throw, bind, Except.bind] at h
    rw [← h]; rfl
  | some MBB =>
    cases hI : MBB.insts[j]? with
    | none =>
      simp [hB, hI, pure, Except.pure, throw, throwThe, MonadExceptOf.throw, bind,
        Except.bind] at h
      rw [← h]; rfl
    | some MI =>
      simp only [hB, hI, bind_eq_error] at h
      rcases h with h | ⟨_, -, h | ⟨_, -, h | ⟨_, -, h | ⟨_, -, h | ⟨_, -, h⟩⟩⟩⟩⟩
      · exact getReg_error_dispatch h
      · exact getReg_error_dispatch h
      · exact getReg_error_dispatch h
      · exact getReg_error_dispatch h
      · exact getReg_error_dispatch h
      rcases h with h | ⟨_, -, h⟩
      · cases m
        · simp [pure, Except.pure] at h
        · cases h5 : MI.getReg 5 with
          | error err =>
            simp [h5, pure, Except.pure, bind, Except.bind] at h
            subst h
            exact getReg_error_dispatch h5
          | ok v => simp [h5, pure, Except.pure, bind, Except.bind] at h
      · simp [pure, Except.pure] at h

theorem Expander.run_error_supported {E : Expander} {MF : MachineFunction} {k j : Nat}
    {e : Fatal} (hs : E.supported) (h : E.run MF k j = .error e) :
    e.isDispatchFatal = false := by
  cases E with
  | binOp op m w => exact expandAtomicBinOp_error_supported hs h
  | minMax op m w =>
    obtain ⟨rfl, rfl, hop⟩ := hs
    exact expandAtomicMinMaxOp_error_supported hop h
  | cmpXchg m w => exact expandAtomicCmpXchg_error_supported h

/-- The expander call that `expandMI` makes for an atomic pseudo: it is a supported
call. -/
theorem expandMI_dispatch {MF : MachineFunction} {k j : Nat} {B : MachineBasicBlock}
    {MI : MachineInstr} (hB : MF.blocks[k]? = some B) (hI : B.insts[j]? = some MI)
    (hp : isAtomicPseudo MI.opcode = true) :
    ∃ E : Expander, E.supported ∧ expandMI MF k j = some <$> E.run MF k j := by
  have key : (∃ op m w, (Expander.binOp op m w).supported ∧
        expandMI MF k j = some <$> expandAtomicBinOp MF k j op m w) ∨
      (∃ op m w, (Expander.minMax op m w).supported ∧
        expandMI MF k j = some <$> expandAtomicMinMaxOp MF k j op m w) ∨
      (∃ m w, (Expander.cmpXchg m w).supported ∧
        expandMI MF k j = some <$> expandAtomicCmpXchg MF k j m w) := by
    cases ho : MI.opcode <;> rw [ho] at hp <;>
      simp only [isAtomicPseudo, Bool.false_eq_true] at hp <;>
      simp only [expandMI, hB, hI, ho] <;>
      first
      | exact Or.inl ⟨_, _, _, by simp [Expander.supported], rfl⟩
      | exact Or.inr (Or.inl ⟨_, _, _, by simp [Expander.supported], rfl⟩)
      | exact Or.inr (Or.inr ⟨_, _, by simp [Expander.supported], rfl⟩)
  rcases key with ⟨op, m, w, hs, he⟩ | ⟨op, m, w, hs, he⟩ | ⟨m, w, hs, he⟩
  · exact ⟨Expander.binOp op m w, hs, he⟩
  · exact ⟨Expander.minMax op m w, hs, he⟩
  · exact ⟨Expander.cmpXchg m w, hs, he⟩

theorem not32_lt (V : Nat) : not32 V < 2 ^ 32 := by
  unfold not32
  omega

theorem or_field_of_and_not32 (old n mask : Nat) (hn : n < 2 ^ 32) (hm : mask < 2 ^ 32)
    (h : n &&& not32 mask = 0) : ((old &&& not32 mask) ||| n) &&& mask = n := by
  have hnm := and_mask_of_and_not32 n mask hn hm h
  apply Nat.eq_of_testBit_eq
  intro i
  have hi := congrArg (fun x => x.testBit i) hnm
  simp only [Nat.testBit_and] at hi
  simp only [Nat.testBit_or, Nat.testBit_and, not32_testBit mask hm]
  cases hb : mask.testBit i <;> cases hv : n.testBit i <;> simp_all

theorem or_outside_of_and_not32 (old n mask : Nat) (ho : old < 2 ^ 32) (hn : n < 2 ^ 32)
    (hm : mask < 2 ^ 32) (h : n &&& not32 mask = 0) (i : Nat) (hi : mask.testBit i = false) :
    ((old &&& not32 mask) ||| n).testBit i = old.testBit i := by
  have hnm := and_mask_of_and_not32 n mask hn hm h
  have hv : n.testBit i = false := by
    have := congrArg (fun x => x.testBit i) hnm
    simp only [Nat.testBit_and, hi, Bool.and_false] at this
    exact this.symm
  simp only [Nat.testBit_or, Nat.testBit_and, not32_testBit mask hm, hi, hv]
  by_cases h32 : i < 32
  · simp [h32]
  · simp [h32, testBit_of_lt_32 ho h32]

theorem mem_foldr_stepBackward (Outs : List Register) (R : Register) :
    ∀ (Insts : List MachineInstr) (i : Nat) (MI : MachineInstr),
      Insts[i]? = some MI → R ∈ MI.uses →
      (∀ i' MI', i' < i → Insts[i']? = some MI' → R ∉ MI'.defs) →
      R ∈ Insts.foldr (fun MI Live => stepBackward Live MI) Outs := by
  intro Insts
  induction Insts with
  | nil => intro i MI h; simp at h
  | cons a Rest ih =>
    intro i MI h hu hd
    simp only [List.foldr_cons, stepBackward, List.mem_union_iff, List.mem_filter]
    cases i with
    | zero =>
      simp only [List.getElem?_cons_zero, Option.some.injEq] at h
      subst h
      exact Or.inr hu
    | succ i =>
      simp only [List.getElem?_cons_succ] at h
      have ha : R ∉ a.defs := hd 0 a (Nat.succ_pos _) (by simp)
      have hr := ih i MI h hu (fun i' MI' hlt h' =>
        hd (i' + 1) MI' (Nat.succ_lt_succ hlt) (by simpa using h'))
      exact Or.inl ⟨hr, by simpa using ha⟩

theorem computeAndAddLiveIns_liveIns (Blocks : List MachineBasicBlock)
    (MBB : MachineBasicBlock) :
    (computeAndAddLiveIns Blocks MBB).liveIns =
      (computeAndAddLiveIns Blocks MBB).insts.foldr (fun MI Live => stepBackward Live MI)
        (addLiveOuts Blocks MBB) := rfl

/-- The blocks an expansion creates carry the live-in list that `computeAndAddLiveIns`
computed from their final instructions. -/
theorem Expander.run_liveIns {E : Expander} {MF MF' : MachineFunction} {k j : Nat}
    (h : E.run MF k j = .ok MF') :
    ∃ B' New, MF'.blocks = MF.blocks.take k ++ B' :: (New ++ MF.blocks.drop (k + 1)) ∧
      MF'.blocks.length = MF.blocks.length + New.length ∧
      ∀ X ∈ New, ∃ Outs,
        X.liveIns = X.insts.foldr (fun MI Live => stepBackward Live MI) Outs := by
  cases E with
  | binOp op m w =>
    simp only [Expander.run] at h
    unfold expandAtomicBinOp at h
    cases hB : MF.blocks[k]? with
    | none => simp [hB] at h
    | some MBB =>
      cases hI : MBB.insts[j]? with
      | none => simp [hB, hI] at h
      | some MI =>
        simp only [hB, hI, bind_eq_ok] at h
        obtain ⟨L, hL, h⟩ := h
        cases h
        refine ⟨_, [_, _], rfl, ?_, ?_⟩
        · have hk := lt_length_of_getElem? hB
          simp only [List.length_append, List.length_take, List.length_drop, List.length_cons,
            List.length_nil]
          omega
        intro X hX
        simp only [List.mem_cons, List.mem_singleton, List.not_mem_nil, or_false] at hX
        rcases hX with rfl | rfl <;> exact ⟨_, computeAndAddLiveIns_liveIns _ _⟩
  | minMax op m w =>
    simp only [Expander.run] at h
    unfold expandAtomicMinMaxOp at h
    by_cases hm : m = true
    swap
    · simp [hm, throw, throwThe, MonadExceptOf.throw, bind, Except.bind] at h
    by_cases hw : w = 32
    swap
    · simp [hm, hw, pure, Except.pure, throw, throwThe, MonadExceptOf.throw, bind,
        Except.bind] at h
    cases hB : MF.blocks[k]? with
    | none =>
      simp [hm, hw, hB, pure, Except.pure, throw, throwThe, MonadExceptOf.throw, bind,
        Except.bind] at h
    | some MBB =>
      cases hI : MBB.insts[j]? with
      | none =>
        simp [hm, hw, hB, hI, pure, Except.pure, throw, throwThe, MonadExceptOf.throw, bind,
          Except.bind] at h
      | some MI =>
        simp only [hm, hw, hB, hI, ne_eq, not_true_eq_false, ite_false, bind_eq_ok] at h
        obtain ⟨_, -, _, -, Dest, h0, S1, h1, S2, h2, Addr, h3, Incr, h4, Mask, h5, H, hH, I, hI2,
          h⟩ := h
        cases h
        refine ⟨_, [_, _, _, _, _], rfl, ?_, ?_⟩
        · have hk := lt_length_of_getElem? hB
          simp only [List.length_append, List.length_take, List.length_drop, List.length_cons,
            List.length_nil]
          omega
        intro X hX
        simp only [List.mem_cons, List.mem_singleton, List.not_mem_nil, or_false] at hX
        rcases hX with rfl | rfl | rfl | rfl | rfl <;>
          exact ⟨_, computeAndAddLiveIns_liveIns _ _⟩
  | cmpXchg m w =>
    simp only [Expander.run] at h
    unfold expandAtomicCmpXchg at h
    cases hB : MF.blocks[k]? with
    | none =>
      simp [hB, pure, Except.pure, throw, throwThe, MonadExceptOf.throw, bind, Except.bind] at h
    | some MBB =>
      cases hI : MBB.insts[j]? with
      | none =>
        simp [hB, hI, pure, Except.pure, throw, throwThe, MonadExceptOf.throw, bind,
          Except.bind] at h
      | some MI =>
        simp only [hB, hI, bind_eq_ok] at h
        obtain ⟨Dest, h0, Scratch, h1, Addr, h2, CmpVal, h3, NewVal, h4, ⟨H, T⟩, hHT, h⟩ := h
        cases h
        refine ⟨_, [_, _, _, _], rfl, ?_, ?_⟩
        · have hk := lt_length_of_getElem? hB
          simp only [List.length_append, List.length_take, List.length_drop, List.length_cons,
            List.length_nil]
          omega
        intro X hX
        simp only [List.mem_cons, List.mem_singleton, List.not_mem_nil, or_false] at hX
        rcases hX with rfl | rfl | rfl | rfl <;> exact ⟨_, computeAndAddLiveIns_liveIns _ _⟩

theorem execALU_frame {σ σ' : RegFile} {X : MachineInstr} {R : Register}
    (h : execALU σ X = some σ') (hR : R ∉ X.defs) : σ' R = σ R := by
  unfold execALU at h
  split at h <;> cases h <;>
    (rename_i hops
     simp [MachineInstr.defs, hops] at hR
     simp [RegFile.write, hR])

theorem storeConditional_frame {s s' : MachineState} {D V A : Register} {Off : Int}
    {t : Option Nat} {R : Register} (h : storeConditional s D V A Off = some (s', t))
    (hR : R ≠ D) : s'.regs R = s.regs R := by
  unfold storeConditional at h
  split at h <;> cases h <;> simp [RegFile.write, hR]

theorem execInst_frame {s s' : MachineState} {X : MachineInstr} {t : Option Nat}
    {R : Register} (h : execInst s X = some (s', t)) (hR : R ∉ X.defs) :
    s'.regs R = s.regs R := by
  unfold execInst at h
  split at h
  all_goals first
    | (cases h
       rfl)
    | (cases h
       rename_i hops
       simp [MachineInstr.defs, hops] at hR
       simp [RegFile.write, hR])
    | (rename_i hops
       simp [MachineInstr.defs, hops] at hR
       exact storeConditional_frame h hR)
    | (cases he : execALU s.regs X with
       | none => simp [he] at h
       | some σ =>
         simp only [he, Option.map_some', Option.some.injEq, Prod.mk.injEq] at h
         obtain ⟨h1, -⟩ := h
         subst h1
         exact execALU_frame he hR)

theorem RegFile.read_congr {σ σ' : RegFile} {R : Register} (h : σ' R = σ R) :
    σ'.read R = σ.read R := by
  simp only [RegFile.read, h]

set_option maxHeartbeats 1600000 in
theorem doAtomicBinOpExpansion_defs {MI : MachineInstr} {L : MachineBasicBlock}
    {op : AtomicRMWInst.BinOp} {w n : Nat} {ss : List Nat} {ll : List Register}
    (h : doAtomicBinOpExpansion MI ⟨n, [], ss, ll⟩ op w = .ok L) :
    ∃ Dest Scratch, MI.getReg 0 = .ok Dest ∧ MI.getReg 1 = .ok Scratch ∧
      (L.insts.countP fun MI => isLoadLinked MI.opcode) = 1 ∧
      ∀ X ∈ L.insts,
        (isLoadLinked X.opcode = true → X.defs = [Dest]) ∧
        (isLoadLinked X.opcode = false → ∀ R ∈ X.defs, R ∈ [Scratch]) := by
  have hop := doAtomicBinOpExpansion_op h
  obtain ⟨Dest, Scratch, Addr, Incr, Ord, h0, h1, -, -, -, -, -, -, h3⟩ :=
    doAtomicBinOpExpansion_ok h
  refine ⟨Dest, Scratch, h0, h1, ?_, ?_⟩
  · rw [h3]
    by_cases ho : AtomicOrdering.ofImm Ord = AtomicOrdering.Monotonic <;> by_cases hw : w = 32 <;>
      cases op <;> simp [ho, hw, isLoadLinked, List.countP_cons]
  · rw [h3]
    simp only [List.mem_cons, List.mem_singleton, List.not_mem_nil, or_false] at hop
    by_cases ho : AtomicOrdering.ofImm Ord = AtomicOrdering.Monotonic <;> by_cases hw : w = 32 <;>
      rcases hop with rfl | rfl | rfl | rfl | rfl | rfl | rfl <;>
      simp [ho, hw, isLoadLinked, MachineInstr.defs]

theorem doMaskedAtomicBinOpExpansion_defs {MI : MachineInstr} {L : MachineBasicBlock}
    {op : AtomicRMWInst.BinOp} {w n : Nat} {ss : List Nat} {ll : List Register}
    (h : doMaskedAtomicBinOpExpansion MI ⟨n, [], ss, ll⟩ op w = .ok L) :
    ∃ Dest Scratch, MI.getReg 0 = .ok Dest ∧ MI.getReg 1 = .ok Scratch ∧
      (L.insts.countP fun MI => isLoadLinked MI.opcode) = 1 ∧
      ∀ X ∈ L.insts,
        (isLoadLinked X.opcode = true → X.defs = [Dest]) ∧
        (isLoadLinked X.opcode = false → ∀ R ∈ X.defs, R ∈ [Scratch]) := by
  have hop := doMaskedAtomicBinOpExpansion_op h
  obtain ⟨Dest, Scratch, Addr, Incr, Mask, Ord, -, h0, h1, -, -, -, -, -, -, -, -, -, -, h3⟩ :=
    doMaskedAtomicBinOpExpansion_ok h
  refine ⟨Dest, Scratch, h0, h1, ?_, ?_⟩
  · rw [h3]
    by_cases ho : AtomicOrdering.ofImm Ord = AtomicOrdering.Monotonic <;>
      cases op <;> simp [ho, isLoadLinked, List.countP_cons]
  · rw [h3]
    simp only [List.mem_cons, List.mem_singleton, List.not_mem_nil, or_false] at hop
    by_cases ho : AtomicOrdering.ofImm Ord = AtomicOrdering.Monotonic <;>
      rcases hop with rfl | rfl | rfl | rfl <;>
      simp [ho, isLoadLinked, MachineInstr.defs]

theorem Expander.run_defs {E : Expander} {MF MF' : MachineFunction} {k j : Nat}
    (h : E.run MF k j = .ok MF') :
    ∃ MBB MI B' Mid Done Dest S1 Scratches,
    MF.blocks[k]? = some MBB ∧ MBB.insts[j]? = some MI ∧
    MF'.blocks = MF.blocks.take k ++ B' :: (Mid ++ Done :: MF.blocks.drop (k + 1)) ∧
    B'.insts = MBB.insts.take j ∧ Done.insts = MBB.insts.drop (j + 1) ∧
    MI.getReg 0 = .ok Dest ∧ MI.getReg 1 = .ok S1 ∧
    (match E with
      | Expander.minMax _ _ _ => ∃ S2, MI.getReg 2 = .ok S2 ∧ Scratches = [S1, S2]
      | _ => Scratches = [S1]) ∧
    countInsts isLoadLinked Mid = 1 ∧
    (∀ B ∈ Mid, ∀ X ∈ B.insts,
      (isLoadLinked X.opcode = true → X.defs = [Dest]) ∧
      (isLoadLinked X.opcode = false → ∀ R ∈ X.defs, R ∈ Scratches)) := by
  cases E with
  | binOp op m w =>
    obtain ⟨MBB, MI, L, B', Loop, Done, hB, hI, hL, hMF, hB', hn, hi, hs, hdn, hdi, hds⟩ :=
      expandAtomicBinOp_ok h
    have hd : ∃ Dest Scratch, MI.getReg 0 = .ok Dest ∧ MI.getReg 1 = .ok Scratch ∧
        (L.insts.countP fun MI => isLoadLinked MI.opcode) = 1 ∧
        ∀ X ∈ L.insts,
          (isLoadLinked X.opcode = true → X.defs = [Dest]) ∧
          (isLoadLinked X.opcode = false → ∀ R ∈ X.defs, R ∈ [Scratch]) := by
      cases m
      · exact doAtomicBinOpExpansion_defs (by simpa using hL)
      · exact doMaskedAtomicBinOpExpansion_defs (by simpa using hL)
    obtain ⟨Dest, Scratch, h0, h1, hc, hP⟩ := hd
    rw [← hi] at hc hP
    refine ⟨MBB, MI, B', [Loop], Done, Dest, Scratch, [Scratch], hB, hI, by simp [hMF],
      by simp [hB'], hdi, h0, h1, rfl, by simp [countInsts, hc], ?_⟩
    intro B hBm
    simp only [List.mem_singleton] at hBm
    subst hBm
    exact hP
  | minMax op m w =>
    obtain ⟨MBB, MI, Dest, S1, S2, Addr, Incr, Mask, B', Head, IfBody, LoopTail, Tail, Done, cmp,
      -, -, hB, hI, h0, h1, h2, -, -, -, -, -, -, hMF, hB', hhn, hhs, hhi, hcmp, hin, his, hii,
      hln, hls, hli, htn, hts, hti, hdn, hdi, hds⟩ := expandAtomicMinMaxOp_ok h
    have hc : (cmp.countP fun MI => isLoadLinked MI.opcode) = 0 ∧
        ∀ X ∈ cmp, isLoadLinked X.opcode = false ∧ ∀ R ∈ X.defs, R ∈ [S1, S2] := by
      cases op <;> simp at hcmp
      all_goals first
        | (obtain ⟨Shamt, -, hcmp⟩ := hcmp
           subst hcmp
           simp [isLoadLinked, List.countP_cons, MachineInstr.defs])
        | (subst hcmp
           simp [isLoadLinked, List.countP_cons, MachineInstr.defs])
    refine ⟨MBB, MI, B', [Head, IfBody, LoopTail, Tail], Done, Dest, S1, [S1, S2], hB, hI,
      by simp [hMF], by simp [hB'], hdi, h0, h1, ⟨S2, h2, rfl⟩, ?_, ?_⟩
    · have hH1 : (Head.insts.countP fun MI => isLoadLinked MI.opcode) = 1 := by
        rw [hhi, List.countP_append, hc.1]
        simp [isLoadLinked, List.countP_cons]
      have e1 : (IfBody.insts.countP fun MI => isLoadLinked MI.opcode) = 0 := by rw [hii]; rfl
      have e2 : (LoopTail.insts.countP fun MI => isLoadLinked MI.opcode) = 0 := by
        rw [hli]; rfl
      have e3 : (Tail.insts.countP fun MI => isLoadLinked MI.opcode) = 0 := by rw [hti]; rfl
      simp [countInsts, hH1, e1, e2, e3]
    · intro B hBm X hX
      simp only [List.mem_cons, List.mem_singleton, List.not_mem_nil, or_false] at hBm
      rcases hBm with rfl | rfl | rfl | rfl
      · rw [hhi, List.mem_append] at hX
        rcases hX with hX | hX
        · simp only [List.mem_cons, List.mem_singleton, List.not_mem_nil, or_false] at hX
          rcases hX with rfl | rfl | rfl | rfl <;> simp [isLoadLinked, MachineInstr.defs]
        · obtain ⟨hl, hd⟩ := hc.2 X hX
          exact ⟨fun ht => (by rw [hl] at ht; cases ht), fun _ => hd⟩
      · rw [hii] at hX
        simp only [List.mem_cons, List.mem_singleton, List.not_mem_nil, or_false] at hX
        rcases hX with rfl | rfl | rfl <;> simp [isLoadLinked, MachineInstr.defs]
      · rw [hli] at hX
        simp only [List.mem_cons, List.mem_singleton, List.not_mem_nil, or_false] at hX
        rcases hX with rfl | rfl <;> simp [isLoadLinked, MachineInstr.defs]
      · rw [hti] at hX
        simp only [List.mem_singleton] at hX
        subst hX
        simp [isLoadLinked, MachineInstr.defs]
  | cmpXchg m w =>
    obtain ⟨MBB, MI, Dest, Scratch, Addr, CmpVal, NewVal, B', Head, LoopTail, Tail, Done,
      hB, hI, h0, h1, -, -, -, hMF, hB', hhn, hhs, hln, hls, htn, hts, hti, hdn, hdi, hds, hm⟩ :=
      expandAtomicCmpXchg_ok h
    have hshape : (Head.insts.countP fun MI => isLoadLinked MI.opcode) = 1 ∧
        (LoopTail.insts.countP fun MI => isLoadLinked MI.opcode) = 0 ∧
        ∀ X ∈ Head.insts ++ LoopTail.insts,
          (isLoadLinked X.opcode = true → X.defs = [Dest]) ∧
          (isLoadLinked X.opcode = false → ∀ R ∈ X.defs, R ∈ [Scratch]) := by
      cases m
      · simp at hm
        rw [hm.1, hm.2]
        by_cases hw : w = 32 <;>
          simp [hw, isLoadLinked, List.countP_cons, MachineInstr.defs]
      · simp at hm
        obtain ⟨Mask, -, hh, ht⟩ := hm
        rw [hh, ht]
        by_cases hw : w = 32 <;>
          simp [hw, isLoadLinked, List.countP_cons, MachineInstr.defs]
    obtain ⟨k1, k3, hP⟩ := hshape
    refine ⟨MBB, MI, B', [Head, LoopTail, Tail], Done, Dest, Scratch, [Scratch], hB, hI,
      by simp [hMF], by simp [hB'], hdi, h0, h1, rfl, ?_, ?_⟩
    · have e3 : (Tail.insts.countP fun MI => isLoadLinked MI.opcode) = 0 := by rw [hti]; rfl
      simp [countInsts, k1, k3, e3]
    · intro B hBm X hX
      simp only [List.mem_cons, List.mem_singleton, List.not_mem_nil, or_false] at hBm
      rcases hBm with rfl | rfl | rfl
      · exact hP X (List.mem_append_left _ hX)
      · exact hP X (List.mem_append_right _ hX)
      · rw [hti] at hX
        simp only [List.mem_singleton] at hX
        subst hX
        simp [isLoadLinked, MachineInstr.defs]

theorem foldlM_execInst_frame {R : Register} :
    ∀ (Xs : List MachineInstr) (s s' : MachineState), (∀ X ∈ Xs, R ∉ X.defs) →
      Xs.foldlM (fun s X => (execInst s X).map Prod.fst) s = some s' →
      s'.regs R = s.regs R := by
  intro Xs
  induction Xs with
  | nil =>
    intro s s' _ h
    simp only [List.foldlM_nil, pure, Option.some.injEq] at h
    rw [h]
  | cons X Rest ih =>
    intro s s' hd h
    rw [List.foldlM_cons] at h
    cases hX : execInst s X with
    | none => simp [hX] at h
    | some p =>
      obtain ⟨s1, t⟩ := p
      simp only [hX, Option.map_some', Option.some_bind, Option.bind_eq_bind] at h
      rw [ih s1 s' (fun Y hY => hd Y (List.mem_cons_of_mem _ hY)) h]
      exact execInst_frame hX (hd X (List.mem_cons_self _ _))

theorem branchTargets_append (A B : List MachineInstr) :
    branchTargets (A ++ B) = branchTargets A ++ branchTargets B := by
  induction A with
  | nil => rfl
  | cons a A ih => simp [branchTargets, ih]

theorem controlSuccessors_layout {l : List MachineBasicBlock} {k : Nat} {x : MachineBasicBlock}
    (hk : l[k]? = some x) (B' : MachineBasicBlock) (Mid Back : List MachineBasicBlock)
    (i : Nat) (X N : MachineBasicBlock) (hX : (Mid ++ Back)[i]? = some X)
    (hN : (Mid ++ Back)[i + 1]? = some N) :
    (l.take k ++ B' :: (Mid ++ Back))[k + 1 + i]? = some X ∧
    controlSuccessors (l.take k ++ B' :: (Mid ++ Back)) (k + 1 + i) =
      branchTargets X.insts ++
        (if endsWithUnconditionalBranch X.insts then [] else [N.number]) := by
  have h1 : (l.take k ++ B' :: (Mid ++ Back))[k + 1 + i]? = some X := by
    have := getElem?_layout hk [B'] (Mid ++ Back) (1 + i)
    rw [← Nat.add_assoc] at this
    simp only [List.append_assoc, List.singleton_append] at this
    rw [this, Nat.add_comm 1 i, List.getElem?_cons_succ, hX]
  have h2 : (l.take k ++ B' :: (Mid ++ Back))[k + 1 + i + 1]? = some N := by
    have := getElem?_layout hk [B'] (Mid ++ Back) (1 + (i + 1))
    simp only [List.append_assoc, List.singleton_append] at this
    rw [show k + 1 + i + 1 = k + (1 + (i + 1)) by omega, this, Nat.add_comm 1 (i + 1),
      List.getElem?_cons_succ, hN]
  refine ⟨h1, ?_⟩
  simp only [controlSuccessors, h1, h2]

theorem doAtomicBinOpExpansion_flow {MI : MachineInstr} {L : MachineBasicBlock}
    {op : AtomicRMWInst.BinOp} {w n : Nat} {ss : List Nat} {ll : List Register}
    (h : doAtomicBinOpExpansion MI ⟨n, [], ss, ll⟩ op w = .ok L) :
    branchTargets L.insts = [n] ∧ endsWithUnconditionalBranch L.insts = false := by
  have hop := doAtomicBinOpExpansion_op h
  obtain ⟨Dest, Scratch, Addr, Incr, Ord, -, -, -, -, -, -, -, -, h3⟩ :=
    doAtomicBinOpExpansion_ok h
  rw [h3]
  simp only [List.mem_cons, List.mem_singleton, List.not_mem_nil, or_false] at hop
  by_cases ho : AtomicOrdering.ofImm Ord = AtomicOrdering.Monotonic <;>
    rcases hop with rfl | rfl | rfl | rfl | rfl | rfl | rfl <;>
    simp [ho, branchTargets, endsWithUnconditionalBranch]

theorem doMaskedAtomicBinOpExpansion_flow {MI : MachineInstr} {L : MachineBasicBlock}
    {op : AtomicRMWInst.BinOp} {w n : Nat} {ss : List Nat} {ll : List Register}
    (h : doMaskedAtomicBinOpExpansion MI ⟨n, [], ss, ll⟩ op w = .ok L) :
    branchTargets L.insts = [n] ∧ endsWithUnconditionalBranch L.insts = false := by
  have hop := doMaskedAtomicBinOpExpansion_op h
  obtain ⟨Dest, Scratch, Addr, Incr, Mask, Ord, -, -, -, -, -, -, -, -, -, -, -, -, -, h3⟩ :=
    doMaskedAtomicBinOpExpansion_ok h
  rw [h3]
  simp only [List.mem_cons, List.mem_singleton, List.not_mem_nil, or_false] at hop
  by_cases ho : AtomicOrdering.ofImm Ord = AtomicOrdering.Monotonic <;>
    rcases hop with rfl | rfl | rfl | rfl <;>
    simp [ho, branchTargets, endsWithUnconditionalBranch]

theorem Expander.run_flow {E : Expander} {MF MF' : MachineFunction} {k j : Nat}
    (h : E.run MF k j = .ok MF') :
    ∃ MBB B' Mid Done, MF.blocks[k]? = some MBB ∧
      MF'.blocks = MF.blocks.take k ++ B' :: (Mid ++ Done :: MF.blocks.drop (k + 1)) ∧
      Mid ≠ [] ∧
      ∀ (i : Nat) (X : MachineBasicBlock), Mid[i]? = some X →
        ∃ N, (Mid ++ Done :: MF.blocks.drop (k + 1))[i]? = some X ∧
          (Mid ++ Done :: MF.blocks.drop (k + 1))[i + 1]? = some N ∧
          X.successors.Perm (branchTargets X.insts ++
            (if endsWithUnconditionalBranch X.insts then [] else [N.number])) := by
  cases E with
  | binOp op m w =>
    obtain ⟨MBB, MI, L, B', Loop, Done, hB, hI, hL, hMF, hB', hn, hi, hs, hdn, hdi, hds⟩ :=
      expandAtomicBinOp_ok h
    have hf : branchTargets L.insts = [MF.numBlockIDs] ∧
        endsWithUnconditionalBranch L.insts = false ∧
        L.successors = [MF.numBlockIDs, MF.numBlockIDs + 1] := by
      cases m
      · obtain ⟨_, _, _, _, _, -, -, -, -, -, -, h2, -⟩ :=
          doAtomicBinOpExpansion_ok (by simpa using hL)
        exact ⟨(doAtomicBinOpExpansion_flow (by simpa using hL)).1,
          (doAtomicBinOpExpansion_flow (by simpa using hL)).2, h2⟩
      · obtain ⟨_, _, _, _, _, _, -, -, -, -, -, -, -, -, -, -, -, h2, -⟩ :=
          doMaskedAtomicBinOpExpansion_ok (by simpa using hL)
        exact ⟨(doMaskedAtomicBinOpExpansion_flow (by simpa using hL)).1,
          (doMaskedAtomicBinOpExpansion_flow (by simpa using hL)).2, h2⟩
    obtain ⟨f1, f2, f3⟩ := hf
    rw [← hi] at f1 f2
    rw [← hs] at f3
    refine ⟨MBB, B', [Loop], Done, hB, by simp [hMF], by simp, ?_⟩
    intro i X hX
    rcases i with _ | i
    · simp only [List.getElem?_cons_zero, Option.some.injEq] at hX
      subst hX
      refine ⟨Done, rfl, by simp, ?_⟩
      rw [f1, f2, f3, hdn]
      exact List.Perm.refl _
    · simp at hX
  | minMax op m w =>
    obtain ⟨MBB, MI, Dest, S1, S2, Addr, Incr, Mask, B', Head, IfBody, LoopTail, Tail, Done, cmp,
      -, -, hB, hI, -, -, -, -, -, -, -, -, -, hMF, hB', hhn, hhs, hhi, hcmp, hin, his, hii,
      hln, hls, hli, htn, hts, hti, hdn, hdi, hds⟩ := expandAtomicMinMaxOp_ok h
    have hc : branchTargets Head.insts = [MF.numBlockIDs + 2] ∧
        endsWithUnconditionalBranch Head.insts = false := by
      rw [hhi]
      cases op <;> simp at hcmp
      all_goals first
        | (obtain ⟨Shamt, -, hcmp⟩ := hcmp
           subst hcmp
           simp [branchTargets, endsWithUnconditionalBranch])
        | (subst hcmp
           simp [branchTargets, endsWithUnconditionalBranch])
    refine ⟨MBB, B', [Head, IfBody, LoopTail, Tail], Done, hB, by simp [hMF], by simp, ?_⟩
    intro i X hX
    rcases i with _ | _ | _ | _ | i
    · simp only [List.getElem?_cons_zero, Option.some.injEq] at hX
      subst hX
      refine ⟨IfBody, rfl, rfl, ?_⟩
      rw [hc.1, hc.2, hhs, hin]
      exact List.Perm.swap _ _ _
    · simp only [List.getElem?_cons_succ, List.getElem?_cons_zero, Option.some.injEq] at hX
      subst hX
      refine ⟨LoopTail, rfl, rfl, ?_⟩
      rw [his, hii, hln]
      exact List.Perm.refl _
    · simp only [List.getElem?_cons_succ, List.getElem?_cons_zero, Option.some.injEq] at hX
      subst hX
      refine ⟨Tail, rfl, rfl, ?_⟩
      rw [hls, hli, htn]
      exact List.Perm.refl _
    · simp only [List.getElem?_cons_succ, List.getElem?_cons_zero, Option.some.injEq] at hX
      subst hX
      refine ⟨Done, rfl, by simp, ?_⟩
      rw [hts, hti, hdn]
      exact List.Perm.refl _
    · simp at hX
  | cmpXchg m w =>
    obtain ⟨MBB, MI, Dest, Scratch, Addr, CmpVal, NewVal, B', Head, LoopTail, Tail, Done,
      hB, hI, -, -, -, -, -, hMF, hB', hhn, hhs, hln, hls, htn, hts, hti, hdn, hdi, hds, hm⟩ :=
      expandAtomicCmpXchg_ok h
    have hc : branchTargets Head.insts = [MF.numBlockIDs + 2] ∧
        endsWithUnconditionalBranch Head.insts = false ∧
        branchTargets LoopTail.insts = [MF.numBlockIDs, MF.numBlockIDs + 3] ∧
        endsWithUnconditionalBranch LoopTail.insts = true := by
      cases m
      · simp at hm
        rw [hm.1, hm.2]
        simp [branchTargets, endsWithUnconditionalBranch]
      · simp at hm
        obtain ⟨Mask, -, hh, ht⟩ := hm
        rw [hh, ht]
        simp [branchTargets, endsWithUnconditionalBranch]
    obtain ⟨c1, c2, c3, c4⟩ := hc
    refine ⟨MBB, B', [Head, LoopTail, Tail], Done, hB, by simp [hMF], by simp, ?_⟩
    intro i X hX
    rcases i with _ | _ | _ | i
    · simp only [List.getElem?_cons_zero, Option.some.injEq] at hX
      subst hX
      refine ⟨LoopTail, rfl, rfl, ?_⟩
      rw [c1, c2, hhs, hln]
      exact List.Perm.swap _ _ _
    · simp only [List.getElem?_cons_succ, List.getElem?_cons_zero, Option.some.injEq] at hX
      subst hX
      refine ⟨Tail, rfl, rfl, ?_⟩
      rw [c3, c4, hls]
      exact List.Perm.swap _ _ _
    · simp only [List.getElem?_cons_succ, List.getElem?_cons_zero, Option.some.injEq] at hX
      subst hX
      refine ⟨Done, rfl, by simp, ?_⟩
      rw [hts, hti, hdn]
      exact List.Perm.refl _
    · simp at hX

theorem getReg_withOrdering {MI : MachineInstr} {p : Nat} {a : Int}
    (hp : MI.operands[p]? = some (MachineOperand.Imm a)) (b : Int) (i : Nat) :
    (MI.withOrdering p b).getReg i = MI.getReg i := by
  have hlt := lt_length_of_getElem? hp
  by_cases hi : p = i
  · subst hi
    simp [MachineInstr.getReg, MachineInstr.withOrdering, hp, List.getElem?_set, hlt]
  · simp [MachineInstr.getReg, MachineInstr.withOrdering, List.getElem?_set, hi]

theorem getImm_withOrdering_same {MI : MachineInstr} {p : Nat} {a : Int}
    (hp : MI.operands[p]? = some (MachineOperand.Imm a)) (b : Int) :
    (MI.withOrdering p b).getImm p = .ok b := by
  have hlt := lt_length_of_getElem? hp
  simp [MachineInstr.getImm, MachineInstr.withOrdering, List.getElem?_set, hlt]

theorem getImm_withOrdering_other (MI : MachineInstr) (p : Nat) (b : Int) (i : Nat)
    (hi : p ≠ i) : (MI.withOrdering p b).getImm i = MI.getImm i := by
  simp [MachineInstr.getImm, MachineInstr.withOrdering, List.getElem?_set, hi]

theorem take_set_self {α : Type} (l : List α) (j : Nat) (x : α) :
    (l.set j x).take j = l.take j := by
  induction l generalizing j with
  | nil => simp
  | cons a l ih =>
    cases j with
    | zero => simp
    | succ j => simp [ih]

theorem drop_set_succ {α : Type} (l : List α) (j : Nat) (x : α) :
    (l.set j x).drop (j + 1) = l.drop (j + 1) := by
  induction l generalizing j with
  | nil => simp
  | cons a l ih =>
    cases j with
    | zero => simp
    | succ j => simp [ih]

theorem eraseIdx_drop_zero {α : Type} (l : List α) (j : Nat) :
    (l.drop j).eraseIdx 0 = l.drop (j + 1) := by
  induction l generalizing j with
  | nil => simp
  | cons a l ih =>
    cases j with
    | zero => simp
    | succ j => simp [ih]

theorem setInst_spec {MF : MachineFunction} {k j : Nat} {MBB : MachineBasicBlock}
    {MI1 : MachineInstr} (hB : MF.blocks[k]? = some MBB) (hI : MBB.insts[j]? = some MI1)
    (MI2 : MachineInstr) :
    (MF.setInst k j MI2).blocks[k]? = some { MBB with insts := MBB.insts.set j MI2 } ∧
    (MBB.insts.set j MI2)[j]? = some MI2 ∧
    (MF.setInst k j MI2).blocks.take k = MF.blocks.take k ∧
    (MF.setInst k j MI2).blocks.drop (k + 1) = MF.blocks.drop (k + 1) ∧
    (MF.setInst k j MI2).numBlockIDs = MF.numBlockIDs := by
  have hk := lt_length_of_getElem? hB
  have hj := lt_length_of_getElem? hI
  have hset : MF.setInst k j MI2 =
      { MF with blocks := MF.blocks.set k { MBB with insts := MBB.insts.set j MI2 } } := by
    simp only [MachineFunction.setInst, hB]
  rw [hset]
  refine ⟨?_, ?_, take_set_self _ _ _, drop_set_succ _ _ _, rfl⟩
  · simp [List.getElem?_set, hk]
  · simp [List.getElem?_set, hj]

theorem drop_eq_cons_of_getElem? {α : Type} {l : List α} {j : Nat} {x : α}
    (h : l[j]? = some x) : l.drop j = x :: l.drop (j + 1) := by
  induction l generalizing j with
  | nil => simp at h
  | cons a l ih =>
    cases j with
    | zero =>
      simp only [List.getElem?_cons_zero, Option.some.injEq] at h
      simp [h]
    | succ j =>
      simp only [List.getElem?_cons_succ] at h
      simpa using ih h

theorem expandAtomicMinMaxOp_setInst {MF : MachineFunction} {k j : Nat}
    {MBB : MachineBasicBlock} {MI1 : MachineInstr} (hB : MF.blocks[k]? = some MBB)
    (hI : MBB.insts[j]? = some MI1) (MI2 : MachineInstr)
    (hreg : ∀ i, MI2.getReg i = MI1.getReg i) (op : AtomicRMWInst.BinOp) (m : Bool) (w : Nat) :
    expandAtomicMinMaxOp (MF.setInst k j MI2) k j op m w =
      expandAtomicMinMaxOp MF k j op m w := by
  obtain ⟨s1, s2, s3, s4, s5⟩ := setInst_spec hB hI MI2
  have hd1 := drop_eq_cons_of_getElem? hI
  have hd2 := drop_eq_cons_of_getElem? s2
  rw [drop_set_succ] at hd2
  unfold expandAtomicMinMaxOp
  simp only [s1, s2, s3, s4, s5, hB, hI, hreg, MachineBasicBlock.splice,
    MachineBasicBlock.transferSuccessors, MachineBasicBlock.erase, take_set_self, hd1, hd2,
    CreateMachineBasicBlock, MachineBasicBlock.addSuccessor, List.nil_append,
    List.eraseIdx_cons_zero]

theorem expandAtomicCmpXchg_setInst {MF : MachineFunction} {k j : Nat}
    {MBB : MachineBasicBlock} {MI1 : MachineInstr} (hB : MF.blocks[k]? = some MBB)
    (hI : MBB.insts[j]? = some MI1) (MI2 : MachineInstr)
    (hreg : ∀ i, MI2.getReg i = MI1.getReg i) (m : Bool) (w : Nat) :
    expandAtomicCmpXchg (MF.setInst k j MI2) k j m w = expandAtomicCmpXchg MF k j m w := by
  obtain ⟨s1, s2, s3, s4, s5⟩ := setInst_spec hB hI MI2
  have hd1 := drop_eq_cons_of_getElem? hI
  have hd2 := drop_eq_cons_of_getElem? s2
  rw [drop_set_succ] at hd2
  unfold expandAtomicCmpXchg
  simp only [s1, s2, s3, s4, s5, hB, hI, hreg, MachineBasicBlock.splice,
    MachineBasicBlock.transferSuccessors, MachineBasicBlock.erase, take_set_self, hd1, hd2,
    CreateMachineBasicBlock, MachineBasicBlock.addSuccessor, List.nil_append,
    List.eraseIdx_cons_zero]

theorem expandAtomicBinOp_setInst {MF : MachineFunction} {k j : Nat}
    {MBB : MachineBasicBlock} {MI1 : MachineInstr} (hB : MF.blocks[k]? = some MBB)
    (hI : MBB.insts[j]? = some MI1) (MI2 : MachineInstr) (op : AtomicRMWInst.BinOp) (m : Bool)
    (w : Nat)
    (hdo : ∀ L, doAtomicBinOpExpansion MI2 L op w = doAtomicBinOpExpansion MI1 L op w)
    (hmasked : ∀ L,
      doMaskedAtomicBinOpExpansion MI2 L op w = doMaskedAtomicBinOpExpansion MI1 L op w) :
    expandAtomicBinOp (MF.setInst k j MI2) k j op m w = expandAtomicBinOp MF k j op m w := by
  obtain ⟨s1, s2, s3, s4, s5⟩ := setInst_spec hB hI MI2
  have hd1 := drop_eq_cons_of_getElem? hI
  have hd2 := drop_eq_cons_of_getElem? s2
  rw [drop_set_succ] at hd2
  unfold expandAtomicBinOp
  simp only [s1, s2, s3, s4, s5, hB, hI, hdo, hmasked, MachineBasicBlock.splice,
    MachineBasicBlock.transferSuccessors, MachineBasicBlock.erase, take_set_self, hd1, hd2,
    CreateMachineBasicBlock, MachineBasicBlock.addSuccessor, List.nil_append,
    List.eraseIdx_cons_zero]

theorem getImm_of_getElem? {MI : MachineInstr} {p : Nat} {a : Int}
    (hp : MI.operands[p]? = some (MachineOperand.Imm a)) : MI.getImm p = .ok a := by
  simp [MachineInstr.getImm, hp]

theorem doAtomicBinOpExpansion_withOrdering {MI : MachineInstr} {p : Nat} {a : Int}
    (hp : MI.operands[p]? = some (MachineOperand.Imm a)) (b : Int)
    (hab : AtomicOrdering.ofImm a ≠ AtomicOrdering.Monotonic ↔
      AtomicOrdering.ofImm b ≠ AtomicOrdering.Monotonic)
    (L : MachineBasicBlock) (op : AtomicRMWInst.BinOp) (w : Nat) :
    doAtomicBinOpExpansion (MI.withOrdering p b) L op w = doAtomicBinOpExpansion MI L op w := by
  unfold doAtomicBinOpExpansion
  simp only [getReg_withOrdering hp]
  by_cases h4 : p = 4
  · subst h4
    rw [getImm_withOrdering_same hp, getImm_of_getElem? hp]
    by_cases ha : AtomicOrdering.ofImm a = AtomicOrdering.Monotonic
    · have hb : AtomicOrdering.ofImm b = AtomicOrdering.Monotonic := by
        by_contra hb
        exact hab.2 hb ha
      simp only [bind, Except.bind, ha, hb]
    · have hb : AtomicOrdering.ofImm b ≠ AtomicOrdering.Monotonic := hab.1 ha
      simp only [bind, Except.bind, ha, hb, ne_eq, not_false_eq_true, if_true]
  · simp only [getImm_withOrdering_other _ _ _ _ h4]

theorem doMaskedAtomicBinOpExpansion_withOrdering {MI : MachineInstr} {p : Nat} {a : Int}
    (hp : MI.operands[p]? = some (MachineOperand.Imm a)) (b : Int)
    (hab : AtomicOrdering.ofImm a ≠ AtomicOrdering.Monotonic ↔
      AtomicOrdering.ofImm b ≠ AtomicOrdering.Monotonic)
    (L : MachineBasicBlock) (op : AtomicRMWInst.BinOp) (w : Nat) :
    doMaskedAtomicBinOpExpansion (MI.withOrdering p b) L op w =
      doMaskedAtomicBinOpExpansion MI L op w := by
  unfold doMaskedAtomicBinOpExpansion
  simp only [getReg_withOrdering hp]
  by_cases h5 : p = 5
  · subst h5
    rw [getImm_withOrdering_same hp, getImm_of_getElem? hp]
    by_cases ha : AtomicOrdering.ofImm a = AtomicOrdering.Monotonic
    · have hb : AtomicOrdering.ofImm b = AtomicOrdering.Monotonic := by
        by_contra hb
        exact hab.2 hb ha
      simp only [bind, Except.bind, ha, hb]
    · have hb : AtomicOrdering.ofImm b ≠ AtomicOrdering.Monotonic := hab.1 ha
      simp only [bind, Except.bind, ha, hb, ne_eq, not_false_eq_true, if_true]
  · simp only [getImm_withOrdering_other _ _ _ _ h5]

theorem operandAt_eq_some {MF : MachineFunction} {k j p : Nat} {O : MachineOperand}
    (h : MF.operandAt k j p = some O) :
    ∃ MBB MI, MF.blocks[k]? = some MBB ∧ MBB.insts[j]? = some MI ∧ MI.operands[p]? = some O ∧
      ∀ b, MF.withOrdering k j p b = MF.setInst k j (MI.withOrdering p b) := by
  unfold MachineFunction.operandAt at h
  cases hB : MF.blocks[k]? with
  | none => simp [hB] at h
  | some MBB =>
    cases hI : MBB.insts[j]? with
    | none => simp [hB, hI] at h
    | some MI =>
      simp only [hB, hI] at h
      exact ⟨MBB, MI, rfl, hI, h, fun b => by simp only [MachineFunction.withOrdering, hB, hI]⟩

/-! ## Execution on words of the access width: lemmas -/

theorem accessBits_cases (w : Nat) :
    (w = 32 ∧ accessBits w = 32) ∨ (w ≠ 32 ∧ accessBits w = 64) := by
  by_cases hw : w = 32 <;> simp [accessBits, hw]

theorem one_lt_two_pow_accessBits (w : Nat) : 1 < 2 ^ accessBits w := by
  rcases accessBits_cases w with ⟨-, h⟩ | ⟨-, h⟩ <;> rw [h] <;> decide

theorem RegFile.readBits_lt (n : Nat) (σ : RegFile) (R : Register) :
    σ.readBits n R < 2 ^ n := by
  unfold RegFile.readBits
  split
  · exact Nat.two_pow_pos n
  · exact Nat.mod_lt _ (Nat.two_pow_pos n)

theorem RegFile.readBits_writeBits_same (n : Nat) (σ : RegFile) (R : Register) (V : Nat)
    (hR : R ≠ R0) (hV : V < 2 ^ n) : (σ.writeBits n R V).readBits n R = V := by
  simp only [RegFile.readBits, RegFile.writeBits, hR, if_false, if_true]
  rw [Nat.mod_mod, Nat.mod_eq_of_lt hV]

theorem RegFile.readBits_writeBits_other (n : Nat) (σ : RegFile) (R X : Register) (V : Nat)
    (h : X ≠ R) : (σ.writeBits n R V).readBits n X = σ.readBits n X := by
  simp [RegFile.readBits, RegFile.writeBits, h]

theorem execInstBits_DBAR (n : Nat) (s : MachineState) (V : Int) :
    execInstBits n s ⟨Opcode.DBAR, [MachineOperand.Imm V]⟩ = some (s, none) := rfl

theorem execInstBits_LL (s : MachineState) (w : Nat) (D A : Register) (Off : Int) :
    execInstBits (accessBits w) s ⟨if w = 32 then Opcode.LL_W else Opcode.LL_D,
      [MachineOperand.Reg D true, MachineOperand.Reg A false, MachineOperand.Imm Off]⟩ =
    some ({ s with
            regs := s.regs.writeBits (accessBits w) D
              (s.mem (effectiveAddressBits (accessBits w) s.regs A Off)) }, none) := by
  by_cases hw : w = 32 <;> simp [hw, accessBits, execInstBits]

theorem execInstBits_SC (s : MachineState) (w : Nat) (D V A : Register) (Off : Int) :
    execInstBits (accessBits w) s ⟨if w = 32 then Opcode.SC_W else Opcode.SC_D,
      [MachineOperand.Reg D true, MachineOperand.Reg V false, MachineOperand.Reg A false,
       MachineOperand.Imm Off]⟩ = storeConditionalBits (accessBits w) s D V A Off := by
  by_cases hw : w = 32 <;> simp [hw, accessBits, execInstBits]

theorem execInstBits_BNE (n : Nat) (s : MachineState) (A B : Register) (T : Nat) :
    execInstBits n s ⟨Opcode.BNE, [MachineOperand.Reg A false, MachineOperand.Reg B false,
      MachineOperand.MBB T]⟩ =
    some (s, if s.regs.readBits n A ≠ s.regs.readBits n B then some T else none) := rfl

theorem execInstBits_BEQZ (n : Nat) (s : MachineState) (A : Register) (T : Nat) :
    execInstBits n s ⟨Opcode.BEQZ, [MachineOperand.Reg A false, MachineOperand.MBB T]⟩ =
    some (s, if s.regs.readBits n A = 0 then some T else none) := rfl

theorem execInstBits_B (n : Nat) (s : MachineState) (T : Nat) :
    execInstBits n s ⟨Opcode.B, [MachineOperand.MBB T]⟩ = some (s, some T) := rfl

theorem execInstBits_AND (n : Nat) (s : MachineState) (D A B : Register) :
    execInstBits n s ⟨Opcode.AND, [MachineOperand.Reg D true, MachineOperand.Reg A false,
      MachineOperand.Reg B false]⟩ =
    some ({ s with regs := s.regs.writeBits n D (s.regs.readBits n A &&& s.regs.readBits n B) },
      none) := rfl

theorem execInstBits_OR (n : Nat) (s : MachineState) (D A B : Register) :
    execInstBits n s ⟨Opcode.OR, [MachineOperand.Reg D true, MachineOperand.Reg A false,
      MachineOperand.Reg B false]⟩ =
    some ({ s with regs := s.regs.writeBits n D (s.regs.readBits n A ||| s.regs.readBits n B) },
      none) := rfl

theorem execInstBits_ANDN (n : Nat) (s : MachineState) (D A B : Register) :
    execInstBits n s ⟨Opcode.ANDN, [MachineOperand.Reg D true, MachineOperand.Reg A false,
      MachineOperand.Reg B false]⟩ =
    some ({ s with
            regs := s.regs.writeBits n D
              (s.regs.readBits n A &&& (2 ^ n - 1 - s.regs.readBits n B)) }, none) := rfl

theorem execFromBits_step {n : Nat} {Blocks : List MachineBasicBlock} {Stop Idx Idx' : Nat}
    {s s' : MachineState} {B : MachineBasicBlock} {Target : Option Nat}
    {Trace : List MachineInstr} (Fuel : Nat)
    (hB : Blocks[Idx]? = some B) (hne : B.number ≠ Stop)
    (hex : execBlockBits n s B.insts = some (s', Target, Trace))
    (hnx : nextBlock Blocks Idx Target = some Idx') :
    execFromBits n Blocks Stop (Fuel + 1) Idx s =
      (execFromBits n Blocks Stop Fuel Idx' s').map fun (Path, Trace', s'') =>
        (B.number :: Path, Trace ++ Trace', s'') := by
  simp only [execFromBits, hB, hne, if_false, hex, hnx]

theorem execFromBits_stop {n : Nat} {Blocks : List MachineBasicBlock} {Stop Idx : Nat}
    {B : MachineBasicBlock} (Fuel : Nat) (s : MachineState)
    (hB : Blocks[Idx]? = some B) (he : B.number = Stop) :
    execFromBits n Blocks Stop (Fuel + 1) Idx s = some ([], [], s) := by
  simp only [execFromBits, hB, he, if_true]

theorem RegFile.readBits_32 (σ : RegFile) (R : Register) : σ.readBits 32 R = σ.read R := rfl

theorem RegFile.writeBits_32 (σ : RegFile) (R : Register) (V : Nat) :
    σ.writeBits 32 R V = σ.write R V := rfl

theorem storeConditionalBits_32 (s : MachineState) (D V A : Register) (Off : Int) :
    storeConditionalBits 32 s D V A Off = storeConditional s D V A Off := rfl

/-- On 32-bit words the execution on words of the access width is the execution of the
register model. -/
theorem execInstBits_32 {s : MachineState} {X : MachineInstr}
    {r : MachineState × Option Nat} (h : execInstBits 32 s X = some r) :
    execInst s X = some r := by
  obtain ⟨opc, ops⟩ := X
  unfold execInstBits at h
  split at h
  case h_12 => cases h
  all_goals
    (rename_i hop hops
     simp only at hop hops
     subst hop hops
     try simp only [if_true, (by decide : ¬ (32 = 64)), if_false] at h
     try cases h)
  all_goals first
    | rfl
    | exact h
    | (simp only [execInst, execALU, not32, RegFile.readBits_32, RegFile.writeBits_32,
        Nat.mod_eq_of_lt (RegFile.read_lt _ _), Option.map_some'])

/-! ## The claims -/

/-- Claim C1.  When `runOnMachineFunction` returns, no instruction of any basic block of
the resulting function (blocks created by the pass and `done` blocks included) carries one
of the atomic pseudo opcodes that `expandMI` dispatches. -/
theorem runOnMachineFunction_no_pseudo_survives (MF MF' : MachineFunction) (Modified : Bool)
    (h : runOnMachineFunction MF = .ok (MF', Modified)) :
    ∀ MBB ∈ MF'.blocks, ∀ MI ∈ MBB.insts, isAtomicPseudo MI.opcode = false :=
  (runOnMachineFunction_loop_spec _ MF 0 false MF' Modified h (Nat.zero_le _)
    (by simp [noPseudo]) (by simp)).1

/-- Claim C2.  The pass is idempotent: a second run on the result of a first run returns
the very same function and reports that nothing was modified. -/
theorem runOnMachineFunction_idempotent (MF MF1 : MachineFunction) (Modified : Bool)
    (h : runOnMachineFunction MF = .ok (MF1, Modified)) :
    runOnMachineFunction MF1 = .ok (MF1, false) :=
  runOnMachineFunction_loop_of_noPseudo
    (runOnMachineFunction_loop_spec _ MF 0 false MF1 Modified h (Nat.zero_le _)
      (by simp [noPseudo]) (by simp)).1 _ 0 false

/-- Witness for C1: the pass runs on `exampleMF`, reports a modification, and leaves no
atomic pseudo behind. -/
theorem runOnMachineFunction_no_pseudo_survives_witness :
    ∃ MF', runOnMachineFunction exampleMF = .ok (MF', true) ∧
      ∀ MBB ∈ MF'.blocks, ∀ MI ∈ MBB.insts, isAtomicPseudo MI.opcode = false :=
  ⟨_, rfl, runOnMachineFunction_no_pseudo_survives exampleMF _ true rfl⟩

/-- Witness for C2: a second run on the expanded `exampleMF` changes nothing. -/
theorem runOnMachineFunction_idempotent_witness :
    ∃ MF1, runOnMachineFunction exampleMF = .ok (MF1, true) ∧
      runOnMachineFunction MF1 = .ok (MF1, false) :=
  ⟨_, rfl, runOnMachineFunction_idempotent exampleMF _ true rfl⟩

/-- Claim C3.  An expansion (binary read-modify-write, min/max or compare-and-exchange) of
the pseudo `I` in the block `B` at layout index `k`, with `B.insts = pre ++ I :: post`,
leaves every other block in place, cuts `B` down to exactly `pre`, creates behind it new
blocks that hold native instructions only (so `I` is in none of them), and ends them with
the `done` block, whose instruction list is exactly `post`, in the same order. -/
theorem expansion_preserves_instructions (E : Expander) (MF MF' : MachineFunction) (k : Nat)
    (B : MachineBasicBlock) (pre post : List MachineInstr) (I : MachineInstr)
    (hB : MF.blocks[k]? = some B) (hI : B.insts = pre ++ I :: post)
    (hp : isAtomicPseudo I.opcode = true)
    (h : E.run MF k pre.length = .ok MF') :
    ∃ B' New Done,
      MF'.blocks = MF.blocks.take k ++ B' :: (New ++ Done :: MF.blocks.drop (k + 1)) ∧
      B'.number = B.number ∧ B'.insts = pre ∧ Done.insts = post ∧
      (∀ N ∈ New, I ∉ N.insts) ∧
      (∀ N ∈ New, ∀ X ∈ N.insts, isAtomicPseudo X.opcode = false) := by
  obtain ⟨MBB, MI, Mid, Done, hB1, hI1, hbl, -, -, -, hmid, -, -, hdi, -⟩ := Expander.run_split h
  rw [hB] at hB1
  cases hB1
  obtain ⟨ht, hd⟩ := take_length_of_eq hI
  refine ⟨_, Mid, Done, hbl, rfl, ht, by rw [hdi, hd], ?_, hmid⟩
  intro N hN hIN
  have := hmid N hN I hIN
  rw [hp] at this
  cases this

/-- Claim C4.  After an expansion of a pseudo in the block `B` with successor list `S`, the
`done` block has successor list `S` and `B` has exactly one successor, the first of the
newly created blocks: the block laid out right behind `B`, which holds the load-linked
(the loop block of a binary read-modify-write, the head block of min/max and
compare-and-exchange). -/
theorem expansion_rewires_successors (E : Expander) (MF MF' : MachineFunction) (k j : Nat)
    (B : MachineBasicBlock) (S : List Nat)
    (hB : MF.blocks[k]? = some B) (hS : B.successors = S)
    (h : E.run MF k j = .ok MF') :
    ∃ B' First Rest Done,
      MF'.blocks = MF.blocks.take k ++ B' :: First :: (Rest ++ Done :: MF.blocks.drop (k + 1)) ∧
      B'.number = B.number ∧ B'.successors = [First.number] ∧
      (∃ X ∈ First.insts, isLoadLinked X.opcode = true) ∧
      Done.successors = S := by
  obtain ⟨MBB, B', First, Rest, Done, BS, hB1, hbl, -, -, -, -, hl, -, -, -, hn, hs, hds⟩ :=
    Expander.run_ll_sc h
  rw [hB] at hB1
  cases hB1
  exact ⟨B', First, Rest, Done, hbl, hn, hs, hl, by rw [hds, hS]⟩

/-- Witness for C3: the full-word atomic add of `exampleMF`, at position 1 of block 0. -/
theorem expansion_preserves_instructions_witness :
    ∃ MF', (Expander.binOp AtomicRMWInst.BinOp.Add false 32).run exampleMF 0 1 = .ok MF' ∧
      ∃ B' New Done,
        MF'.blocks = exampleMF.blocks.take 0 ++ B' :: (New ++ Done :: exampleMF.blocks.drop (0 + 1)) ∧
        B'.number = 0 ∧ B'.insts = [⟨Opcode.other 1, []⟩] ∧
        Done.insts =
          [⟨Opcode.other 2, []⟩,
           ⟨Opcode.PseudoMaskedAtomicLoadUMax32,
             [MachineOperand.Reg 10 true, MachineOperand.Reg 11 true, MachineOperand.Reg 14 true,
              MachineOperand.Reg 12 false, MachineOperand.Reg 13 false, MachineOperand.Reg 15 false,
              MachineOperand.Imm 7]⟩,
           ⟨Opcode.other 3, []⟩] ∧
        (∀ N ∈ New,
          (⟨Opcode.PseudoAtomicLoadAdd32,
            [MachineOperand.Reg 10 true, MachineOperand.Reg 11 true, MachineOperand.Reg 12 false,
             MachineOperand.Reg 13 false, MachineOperand.Imm 2]⟩ : MachineInstr) ∉ N.insts) ∧
        (∀ N ∈ New, ∀ X ∈ N.insts, isAtomicPseudo X.opcode = false) :=
  ⟨_, rfl, expansion_preserves_instructions (Expander.binOp AtomicRMWInst.BinOp.Add false 32)
    exampleMF _ 0 ⟨0, _, [1], []⟩ [⟨Opcode.other 1, []⟩] _ _ rfl rfl rfl rfl⟩

/-- Witness for C4: the masked compare-and-exchange of `exampleMF`, in block 1. -/
theorem expansion_rewires_successors_witness :
    ∃ MF', (Expander.cmpXchg true 32).run exampleMF 1 0 = .ok MF' ∧
      ∃ B' First Rest Done,
        MF'.blocks = exampleMF.blocks.take 1 ++
          B' :: First :: (Rest ++ Done :: exampleMF.blocks.drop (1 + 1)) ∧
        B'.number = 1 ∧ B'.successors = [First.number] ∧
        (∃ X ∈ First.insts, isLoadLinked X.opcode = true) ∧ Done.successors = [] :=
  ⟨_, rfl, expansion_rewires_successors (Expander.cmpXchg true 32) exampleMF _ 1 0
    ⟨1, _, [], [5]⟩ [] rfl rfl rfl⟩

/-- Claim C5.  Whenever `expandMI` expands a pseudo (whatever its opcode and its ordering
operand), the blocks it creates between the cut block and `done` hold every emitted
instruction (`done` holds exactly the relocated tail), and among them there is exactly one
load-linked and exactly one store-conditional; the block with the store-conditional has
the block with the load-linked among its successors. -/
theorem expansion_one_ll_one_sc (MF MF' : MachineFunction) (k j : Nat)
    (h : expandMI MF k j = .ok (some MF')) :
    ∃ MBB B' New Done BL BS, MF.blocks[k]? = some MBB ∧
      MF'.blocks = MF.blocks.take k ++ B' :: (New ++ Done :: MF.blocks.drop (k + 1)) ∧
      B'.insts = MBB.insts.take j ∧ Done.insts = MBB.insts.drop (j + 1) ∧
      countInsts isLoadLinked New = 1 ∧ countInsts isStoreConditional New = 1 ∧
      BL ∈ New ∧ BS ∈ New ∧
      (∃ X ∈ BL.insts, isLoadLinked X.opcode = true) ∧
      (∃ X ∈ BS.insts, isStoreConditional X.opcode = true) ∧
      BL.number ∈ BS.successors := by
  obtain ⟨_, _, E, -, -, -, hrun⟩ := expandMI_some h
  obtain ⟨MBB, B', First, Rest, Done, BS, hB, hbl, hb, hd, hll, hsc, hl, hBS, hs, hback, -, -, -⟩ :=
    Expander.run_ll_sc hrun
  exact ⟨MBB, B', First :: Rest, Done, First, BS, hB, by simpa using hbl, hb, hd, hll, hsc,
    by simp, hBS, hl, hs, hback⟩

/-- Witness for C5, on the full-word atomic add of `exampleMF`. -/
theorem expansion_one_ll_one_sc_witness :
    ∃ MF', expandMI exampleMF 0 1 = .ok (some MF') ∧
      ∃ MBB B' New Done BL BS, exampleMF.blocks[0]? = some MBB ∧
        MF'.blocks = exampleMF.blocks.take 0 ++ B' :: (New ++ Done :: exampleMF.blocks.drop (0 + 1)) ∧
        B'.insts = MBB.insts.take 1 ∧ Done.insts = MBB.insts.drop (1 + 1) ∧
        countInsts isLoadLinked New = 1 ∧ countInsts isStoreConditional New = 1 ∧
        BL ∈ New ∧ BS ∈ New ∧
        (∃ X ∈ BL.insts, isLoadLinked X.opcode = true) ∧
        (∃ X ∈ BS.insts, isStoreConditional X.opcode = true) ∧
        BL.number ∈ BS.successors :=
  ⟨_, rfl, expansion_one_ll_one_sc exampleMF _ 0 1 rfl⟩

/-- Claim C6.  For all 32-bit words `old`, `new` and `mask`,
`old ^ ((old ^ new) & mask) = (old & ~mask) | (new & mask)`; and this is the word that the
XOR, AND, XOR triple emitted by `insertMaskedMerge` leaves in the destination register,
with `old`, `new` and `mask` the words read from the old-value, new-value and mask
registers before the triple (destination and scratch are not the zero register). -/
theorem insertMaskedMerge_computes_merge :
    (∀ old new mask : Nat, old < 2 ^ 32 → new < 2 ^ 32 → mask < 2 ^ 32 →
      old ^^^ ((old ^^^ new) &&& mask) = (old &&& not32 mask) ||| (new &&& mask)) ∧
    (∀ (B B' : MachineBasicBlock) (D O Nw M S : Register) (σ : RegFile),
      insertMaskedMerge B D O Nw M S = .ok B' → D ≠ R0 → S ≠ R0 →
      ∃ σ', execALUs σ (B'.insts.drop B.insts.length) = some σ' ∧
        σ'.read D = σ.read O ^^^ ((σ.read O ^^^ σ.read Nw) &&& σ.read M) ∧
        σ'.read D = (σ.read O &&& not32 (σ.read M)) ||| (σ.read Nw &&& σ.read M)) := by
  refine ⟨masked_merge_identity, ?_⟩
  intro B B' D O Nw M S σ h hD hS
  rw [insertMaskedMerge_ok] at h
  obtain ⟨hOS, hOM, hSM, hB'⟩ := h
  subst hB'
  have hx : σ.read O ^^^ σ.read Nw < 2 ^ 32 := Nat.xor_lt_two_pow (σ.read_lt O) (σ.read_lt Nw)
  have ha : (σ.read O ^^^ σ.read Nw) &&& σ.read M < 2 ^ 32 := Nat.and_lt_two_pow _ (σ.read_lt M)
  have hr : σ.read O ^^^ ((σ.read O ^^^ σ.read Nw) &&& σ.read M) < 2 ^ 32 :=
    Nat.xor_lt_two_pow (σ.read_lt O) ha
  have hMS : M ≠ S := fun e => hSM e.symm
  have key : ∃ σ', execALUs σ
      [⟨Opcode.XOR, [MachineOperand.Reg S true, MachineOperand.Reg O false, MachineOperand.Reg Nw false]⟩,
       ⟨Opcode.AND, [MachineOperand.Reg S true, MachineOperand.Reg S false, MachineOperand.Reg M false]⟩,
       ⟨Opcode.XOR, [MachineOperand.Reg D true, MachineOperand.Reg O false, MachineOperand.Reg S false]⟩]
        = some σ' ∧
      σ'.read D = σ.read O ^^^ ((σ.read O ^^^ σ.read Nw) &&& σ.read M) := by
    refine ⟨_, rfl, ?_⟩
    rw [RegFile.read_write_same _ _ _ hD]
    · rw [RegFile.read_write_other _ _ _ _ hOS, RegFile.read_write_other _ _ _ _ hOS,
        RegFile.read_write_same _ _ _ hS, RegFile.read_write_same _ _ _ hS hx,
        RegFile.read_write_other _ _ _ _ hMS]
      rw [RegFile.read_write_same _ _ _ hS hx, RegFile.read_write_other _ _ _ _ hMS]
      exact ha
    · rw [RegFile.read_write_other _ _ _ _ hOS, RegFile.read_write_other _ _ _ _ hOS,
        RegFile.read_write_same _ _ _ hS, RegFile.read_write_same _ _ _ hS hx,
        RegFile.read_write_other _ _ _ _ hMS]
      · exact hr
      · rw [RegFile.read_write_same _ _ _ hS hx, RegFile.read_write_other _ _ _ _ hMS]
        exact ha
  obtain ⟨σ', he, hv⟩ := key
  refine ⟨σ', by simpa using he, hv, ?_⟩
  rw [hv]
  exact masked_merge_identity _ _ _ (σ.read_lt O) (σ.read_lt Nw) (σ.read_lt M)

/-- Witness for C6: the identity at concrete words, and the triple emitted with
destination and scratch register 11, old value in register 10, new value in register 13
and mask in register 15, run on the register file that holds `R + 100` in register `R`. -/
theorem insertMaskedMerge_computes_merge_witness :
    (0xF0F0 ^^^ ((0xF0F0 ^^^ 0x1234) &&& 0xFF) = (0xF0F0 &&& not32 0xFF) ||| (0x1234 &&& 0xFF)) ∧
    (∃ B', insertMaskedMerge (CreateMachineBasicBlock 0) 11 10 13 15 11 = .ok B' ∧
      ∃ σ', execALUs (fun R => R + 100) (B'.insts.drop (CreateMachineBasicBlock 0).insts.length) = some σ' ∧
        σ'.read 11 = RegFile.read (fun R => R + 100) 10 ^^^
          ((RegFile.read (fun R => R + 100) 10 ^^^ RegFile.read (fun R => R + 100) 13) &&&
            RegFile.read (fun R => R + 100) 15) ∧
        σ'.read 11 = (RegFile.read (fun R => R + 100) 10 &&& not32 (RegFile.read (fun R => R + 100) 15)) |||
          (RegFile.read (fun R => R + 100) 13 &&& RegFile.read (fun R => R + 100) 15)) :=
  ⟨insertMaskedMerge_computes_merge.1 0xF0F0 0x1234 0xFF (by decide) (by decide) (by decide),
   _, rfl,
   insertMaskedMerge_computes_merge.2 (CreateMachineBasicBlock 0) _ 11 10 13 15 11
     (fun R => R + 100) rfl (by decide) (by decide)⟩

/-- Claim C7.  In the expansion of a binary read-modify-write pseudo (full-word or masked),
with `Imm` the ordering operand (operand 4, or operand 5 of a masked pseudo) and the
ordering tag the cast of `Imm` to `AtomicOrdering`, as the source reads it: if the tag is
not Monotonic the loop block starts with the fence `DBAR 0`, directly followed by the
load-linked, and holds no other fence; if the tag is Monotonic the loop block holds no
fence.  In both cases the cut block and the `done` block hold exactly the instructions
before and behind the pseudo: nothing is added to `done`. -/
theorem binop_fence_placement (MF MF' : MachineFunction) (k j : Nat) (op : AtomicRMWInst.BinOp)
    (m : Bool) (w : Nat) (h : expandAtomicBinOp MF k j op m w = .ok MF') :
    ∃ MBB MI Imm B' Loop Done, MF.blocks[k]? = some MBB ∧ MBB.insts[j]? = some MI ∧
      MI.getImm (if m then 5 else 4) = .ok Imm ∧
      MF'.blocks = MF.blocks.take k ++ B' :: Loop :: Done :: MF.blocks.drop (k + 1) ∧
      B'.insts = MBB.insts.take j ∧ Done.insts = MBB.insts.drop (j + 1) ∧
      (AtomicOrdering.ofImm Imm ≠ AtomicOrdering.Monotonic →
        Loop.insts.head? = some ⟨Opcode.DBAR, [MachineOperand.Imm 0]⟩ ∧
        (∃ LL, Loop.insts[1]? = some LL ∧ isLoadLinked LL.opcode = true) ∧
        ∀ X ∈ Loop.insts.tail, X.opcode ≠ Opcode.DBAR) ∧
      (AtomicOrdering.ofImm Imm = AtomicOrdering.Monotonic → ∀ X ∈ Loop.insts, X.opcode ≠ Opcode.DBAR) := by
  obtain ⟨MBB, MI, L, B', Loop, Done, hB, hI, hL, hMF, hB', hn, hi, hs, hdn, hdi, hds⟩ :=
    expandAtomicBinOp_ok h
  cases m
  · obtain ⟨Dest, Scratch, Addr, Incr, Ord, -, -, -, -, hO, -, -, -, h3⟩ :=
      doAtomicBinOpExpansion_ok (by simpa using hL)
    refine ⟨MBB, MI, Ord, B', Loop, Done, hB, hI, by simpa using hO, by simp [hMF], by simp [hB'],
      hdi, ?_, ?_⟩
    · intro ho
      rw [hi, h3]
      by_cases hw : w = 32 <;> cases op <;> simp [ho, hw, isLoadLinked]
    · intro ho
      rw [hi, h3]
      by_cases hw : w = 32 <;> cases op <;> simp [ho, hw]
  · obtain ⟨Dest, Scratch, Addr, Incr, Mask, Ord, -, -, -, -, -, -, hO, -, -, -, -, -, -, h3⟩ :=
      doMaskedAtomicBinOpExpansion_ok (by simpa using hL)
    refine ⟨MBB, MI, Ord, B', Loop, Done, hB, hI, by simpa using hO, by simp [hMF], by simp [hB'],
      hdi, ?_, ?_⟩
    · intro ho
      rw [hi, h3]
      cases op <;> simp [ho, isLoadLinked]
    · intro ho
      rw [hi, h3]
      cases op <;> simp [ho]

/-- Witness for C7, on the full-word atomic add of `exampleWrappedTagAddMF`, whose ordering
immediate `2 ^ 32 + 2` is cast to Monotonic: its loop block is load-linked, add,
store-conditional and branch, without a fence.  The loop block of the masked exchange of
`exampleSwapMF`, whose ordering is AcquireRelease, starts with the fence. -/
theorem binop_fence_placement_witness :
    (∃ MF2, expandAtomicBinOp exampleSwapMF 0 1 AtomicRMWInst.BinOp.Xchg true 32 = .ok MF2 ∧
      (MF2.blocks[1]?.bind fun B => B.insts.head?) =
        some ⟨Opcode.DBAR, [MachineOperand.Imm 0]⟩) ∧
    ∃ MF', expandAtomicBinOp exampleWrappedTagAddMF 0 0 AtomicRMWInst.BinOp.Add false 32 =
        .ok MF' ∧
      (MF'.blocks[1]?.map fun B => B.insts.map fun X => X.opcode) =
        some [Opcode.LL_W, Opcode.ADD_W, Opcode.SC_W, Opcode.BEQZ] ∧
      ∃ MBB MI Imm B' Loop Done, exampleWrappedTagAddMF.blocks[0]? = some MBB ∧
        MBB.insts[0]? = some MI ∧
        MI.getImm (if false then 5 else 4) = .ok Imm ∧
        MF'.blocks = exampleWrappedTagAddMF.blocks.take 0 ++
          B' :: Loop :: Done :: exampleWrappedTagAddMF.blocks.drop (0 + 1) ∧
        B'.insts = MBB.insts.take 0 ∧ Done.insts = MBB.insts.drop (0 + 1) ∧
        (AtomicOrdering.ofImm Imm ≠ AtomicOrdering.Monotonic →
          Loop.insts.head? = some ⟨Opcode.DBAR, [MachineOperand.Imm 0]⟩ ∧
          (∃ LL, Loop.insts[1]? = some LL ∧ isLoadLinked LL.opcode = true) ∧
          ∀ X ∈ Loop.insts.tail, X.opcode ≠ Opcode.DBAR) ∧
        (AtomicOrdering.ofImm Imm = AtomicOrdering.Monotonic →
          ∀ X ∈ Loop.insts, X.opcode ≠ Opcode.DBAR) :=
  ⟨⟨_, rfl, rfl⟩, _, rfl, rfl,
    binop_fence_placement exampleWrappedTagAddMF _ 0 0 AtomicRMWInst.BinOp.Add false 32 rfl⟩

/-- Counterexample to C8 as stated: in the expansion of the full-word atomic add
(Monotonic) of `exampleMF`, the loop block is load-linked, add, store-conditional and a
branch with opcode `BEQZ` (branch if equal to zero); its branch is not a `BNEZ`. -/
theorem atomic_add_retry_branch_is_not_bnez :
    ∃ MF' Loop, expandMI exampleMF 0 1 = .ok (some MF') ∧ MF'.blocks[1]? = some Loop ∧
      Loop.insts.map (fun MI => MI.opcode) =
        [Opcode.LL_W, Opcode.ADD_W, Opcode.SC_W, Opcode.BEQZ] ∧
      Loop.insts.map (fun MI => MI.opcode) ≠
        [Opcode.LL_W, Opcode.ADD_W, Opcode.SC_W, Opcode.BNEZ] :=
  ⟨_, _, rfl, rfl, rfl, by decide⟩

/-- Claim C8, amended.  Expanding a full-word atomic add pseudo (`PseudoAtomicLoadAdd32`)
whose ordering operand is Monotonic creates exactly two blocks (loop, done) and fills the
loop block with exactly four instructions, in order: a load-linked into the destination,
an add of destination and operand into the scratch register, a store-conditional of the
scratch register, and a branch-if-equal-zero (`BEQZ`) on the scratch register back to the
loop block; no fence is emitted.  The expansion completes whenever operands 0 to 3 are
registers. -/
theorem atomic_add_monotonic_expansion (MF : MachineFunction) (k j : Nat)
    (B : MachineBasicBlock) (MI : MachineInstr)
    (hB : MF.blocks[k]? = some B) (hI : B.insts[j]? = some MI)
    (hop : MI.opcode = Opcode.PseudoAtomicLoadAdd32)
    (hord : MI.getImm 4 = .ok AtomicOrdering.Monotonic) :
    (∀ MF', expandMI MF k j = .ok (some MF') →
      ∃ Dest Scratch Addr Incr B' Loop Done,
        MI.getReg 0 = .ok Dest ∧ MI.getReg 1 = .ok Scratch ∧ MI.getReg 2 = .ok Addr ∧
        MI.getReg 3 = .ok Incr ∧
        MF'.blocks = MF.blocks.take k ++ B' :: Loop :: Done :: MF.blocks.drop (k + 1) ∧
        MF'.blocks.length = MF.blocks.length + 2 ∧
        B'.insts = B.insts.take j ∧ Done.insts = B.insts.drop (j + 1) ∧
        Loop.insts =
          [⟨Opcode.LL_W, [MachineOperand.Reg Dest true, MachineOperand.Reg Addr false,
              MachineOperand.Imm 0]⟩,
           ⟨Opcode.ADD_W, [MachineOperand.Reg Scratch true, MachineOperand.Reg Dest false,
              MachineOperand.Reg Incr false]⟩,
           ⟨Opcode.SC_W, [MachineOperand.Reg Scratch true, MachineOperand.Reg Scratch false,
              MachineOperand.Reg Addr false, MachineOperand.Imm 0]⟩,
           ⟨Opcode.BEQZ, [MachineOperand.Reg Scratch false, MachineOperand.MBB Loop.number]⟩] ∧
        ∀ X ∈ Loop.insts, X.opcode ≠ Opcode.DBAR) ∧
    (∀ Dest Scratch Addr Incr, MI.getReg 0 = .ok Dest → MI.getReg 1 = .ok Scratch →
      MI.getReg 2 = .ok Addr → MI.getReg 3 = .ok Incr →
      ∃ MF', expandMI MF k j = .ok (some MF')) := by
  constructor
  · intro MF' h
    unfold expandMI at h
    simp only [hB, hI, hop, map_eq_ok] at h
    obtain ⟨MF1, hrun, hMF⟩ := h
    cases hMF
    obtain ⟨MBB, MI1, L, B', Loop, Done, hB1, hI1, hL, hMF, hB', hn, hi, hs, hdn, hdi, hds⟩ :=
      expandAtomicBinOp_ok hrun
    rw [hB] at hB1
    cases hB1
    rw [hI] at hI1
    cases hI1
    obtain ⟨Dest, Scratch, Addr, Incr, Ord, h0, h1, h2, h3, h4, hLn, -, -, hLi⟩ :=
      doAtomicBinOpExpansion_ok (by simpa using hL)
    rw [hord] at h4
    cases h4
    have hlen : MF.blocks.length =
        (MF.blocks.take k).length + ((MF.blocks.drop (k + 1)).length + 1) := by
      have := lt_length_of_getElem? hB
      simp
      omega
    have hLoop : Loop.insts =
        [⟨Opcode.LL_W, [MachineOperand.Reg Dest true, MachineOperand.Reg Addr false,
            MachineOperand.Imm 0]⟩,
         ⟨Opcode.ADD_W, [MachineOperand.Reg Scratch true, MachineOperand.Reg Dest false,
            MachineOperand.Reg Incr false]⟩,
         ⟨Opcode.SC_W, [MachineOperand.Reg Scratch true, MachineOperand.Reg Scratch false,
            MachineOperand.Reg Addr false, MachineOperand.Imm 0]⟩,
         ⟨Opcode.BEQZ, [MachineOperand.Reg Scratch false, MachineOperand.MBB Loop.number]⟩] := by
      rw [hi, hLi, hn, hLn]
      simp [AtomicOrdering.ofImm_Monotonic]
    refine ⟨Dest, Scratch, Addr, Incr, B', Loop, Done, h0, h1, h2, h3, by simp [hMF], ?_,
      by simp [hB'], hdi, hLoop, ?_⟩
    · rw [hMF]
      simp only [List.length_append, List.length_cons]
      omega
    · rw [hLoop]
      simp
  · intro Dest Scratch Addr Incr h0 h1 h2 h3
    obtain ⟨MF', h⟩ := expandAtomicBinOp_succeeds MF k j AtomicRMWInst.BinOp.Add false 32 B MI hB hI
      (fun L0 => by
        simpa using doAtomicBinOpExpansion_succeeds MI L0 AtomicRMWInst.BinOp.Add 32 Dest Scratch
          Addr Incr _ h0 h1 h2 h3 hord (by simp))
    refine ⟨MF', ?_⟩
    unfold expandMI
    simp only [hB, hI, hop, bind, Except.bind, pure, Except.pure]
    rw [h]
    rfl

/-- Witness for the amended C8, on the full-word atomic add of `exampleMF`. -/
theorem atomic_add_monotonic_expansion_witness :
    ∃ B MI MF', exampleMF.blocks[0]? = some B ∧ B.insts[1]? = some MI ∧
      expandMI exampleMF 0 1 = .ok (some MF') ∧
      ∃ Dest Scratch Addr Incr B' Loop Done,
        MI.getReg 0 = .ok Dest ∧ MI.getReg 1 = .ok Scratch ∧ MI.getReg 2 = .ok Addr ∧
        MI.getReg 3 = .ok Incr ∧
        MF'.blocks = exampleMF.blocks.take 0 ++ B' :: Loop :: Done :: exampleMF.blocks.drop (0 + 1) ∧
        MF'.blocks.length = exampleMF.blocks.length + 2 ∧
        B'.insts = B.insts.take 1 ∧ Done.insts = B.insts.drop (1 + 1) ∧
        Loop.insts =
          [⟨Opcode.LL_W, [MachineOperand.Reg Dest true, MachineOperand.Reg Addr false,
              MachineOperand.Imm 0]⟩,
           ⟨Opcode.ADD_W, [MachineOperand.Reg Scratch true, MachineOperand.Reg Dest false,
              MachineOperand.Reg Incr false]⟩,
           ⟨Opcode.SC_W, [MachineOperand.Reg Scratch true, MachineOperand.Reg Scratch false,
              MachineOperand.Reg Addr false, MachineOperand.Imm 0]⟩,
           ⟨Opcode.BEQZ, [MachineOperand.Reg Scratch false, MachineOperand.MBB Loop.number]⟩] ∧
        ∀ X ∈ Loop.insts, X.opcode ≠ Opcode.DBAR :=
  ⟨_, _, _, rfl, rfl, rfl, (atomic_add_monotonic_expansion exampleMF 0 1 _ _ rfl rfl rfl rfl).1 _ rfl⟩

/-- Claim C9.  Expanding a masked atomic exchange pseudo (`PseudoMaskedAtomicSwap32`) whose
ordering operand is AcquireRelease fills the loop block with exactly eight instructions,
in order: the fence `DBAR 0`, a load-linked into the destination, a direct copy of the
operand into the scratch register (`ADDI_W` with immediate 0), the three masked-merge
instructions (XOR, AND with the mask, XOR), a store-conditional of the scratch register,
and the conditional retry branch (`BEQZ`) back to the loop block.  The expansion completes
whenever operands 0 to 4 are registers with destination, scratch and mask pairwise
distinct. -/
theorem masked_swap_acqrel_expansion (MF : MachineFunction) (k j : Nat)
    (B : MachineBasicBlock) (MI : MachineInstr)
    (hB : MF.blocks[k]? = some B) (hI : B.insts[j]? = some MI)
    (hop : MI.opcode = Opcode.PseudoMaskedAtomicSwap32)
    (hord : MI.getImm 5 = .ok AtomicOrdering.AcquireRelease) :
    (∀ MF', expandMI MF k j = .ok (some MF') →
      ∃ Dest Scratch Addr Incr Mask B' Loop Done,
        MI.getReg 0 = .ok Dest ∧ MI.getReg 1 = .ok Scratch ∧ MI.getReg 2 = .ok Addr ∧
        MI.getReg 3 = .ok Incr ∧ MI.getReg 4 = .ok Mask ∧
        MF'.blocks = MF.blocks.take k ++ B' :: Loop :: Done :: MF.blocks.drop (k + 1) ∧
        B'.insts = B.insts.take j ∧ Done.insts = B.insts.drop (j + 1) ∧
        Loop.insts =
          [⟨Opcode.DBAR, [MachineOperand.Imm 0]⟩,
           ⟨Opcode.LL_W, [MachineOperand.Reg Dest true, MachineOperand.Reg Addr false,
              MachineOperand.Imm 0]⟩,
           ⟨Opcode.ADDI_W, [MachineOperand.Reg Scratch true, MachineOperand.Reg Incr false,
              MachineOperand.Imm 0]⟩,
           ⟨Opcode.XOR, [MachineOperand.Reg Scratch true, MachineOperand.Reg Dest false,
              MachineOperand.Reg Scratch false]⟩,
           ⟨Opcode.AND, [MachineOperand.Reg Scratch true, MachineOperand.Reg Scratch false,
              MachineOperand.Reg Mask false]⟩,
           ⟨Opcode.XOR, [MachineOperand.Reg Scratch true, MachineOperand.Reg Dest false,
              MachineOperand.Reg Scratch false]⟩,
           ⟨Opcode.SC_W, [MachineOperand.Reg Scratch true, MachineOperand.Reg Scratch false,
              MachineOperand.Reg Addr false, MachineOperand.Imm 0]⟩,
           ⟨Opcode.BEQZ, [MachineOperand.Reg Scratch false, MachineOperand.MBB Loop.number]⟩]) ∧
    (∀ Dest Scratch Addr Incr Mask, MI.getReg 0 = .ok Dest → MI.getReg 1 = .ok Scratch →
      MI.getReg 2 = .ok Addr → MI.getReg 3 = .ok Incr → MI.getReg 4 = .ok Mask →
      Dest ≠ Scratch → Dest ≠ Mask → Scratch ≠ Mask →
      ∃ MF', expandMI MF k j = .ok (some MF')) := by
  constructor
  · intro MF' h
    unfold expandMI at h
    simp only [hB, hI, hop, map_eq_ok] at h
    obtain ⟨MF1, hrun, hMF⟩ := h
    cases hMF
    obtain ⟨MBB, MI1, L, B', Loop, Done, hB1, hI1, hL, hMF, hB', hn, hi, hs, hdn, hdi, hds⟩ :=
      expandAtomicBinOp_ok hrun
    rw [hB] at hB1
    cases hB1
    rw [hI] at hI1
    cases hI1
    obtain ⟨Dest, Scratch, Addr, Incr, Mask, Ord, -, h0, h1, h2, h3, h4, h5, -, -, -, hLn, -, -, hLi⟩ :=
      doMaskedAtomicBinOpExpansion_ok (by simpa using hL)
    rw [hord] at h5
    cases h5
    refine ⟨Dest, Scratch, Addr, Incr, Mask, B', Loop, Done, h0, h1, h2, h3, h4, by simp [hMF],
      by simp [hB'], hdi, ?_⟩
    rw [hi, hLi, hn, hLn, AtomicOrdering.ofImm_AcquireRelease]
    simp [AtomicOrdering.AcquireRelease, AtomicOrdering.Monotonic]
  · intro Dest Scratch Addr Incr Mask h0 h1 h2 h3 h4 d1 d2 d3
    obtain ⟨MF', h⟩ := expandAtomicBinOp_succeeds MF k j AtomicRMWInst.BinOp.Xchg true 32 B MI hB hI
      (fun L0 => by
        simpa using doMaskedAtomicBinOpExpansion_succeeds MI L0 AtomicRMWInst.BinOp.Xchg Dest Scratch
          Addr Incr Mask _ h0 h1 h2 h3 h4 hord d1 d2 d3 (by simp))
    refine ⟨MF', ?_⟩
    unfold expandMI
    simp only [hB, hI, hop, bind, Except.bind, pure, Except.pure]
    rw [h]
    rfl

/-- Witness for C9, on the masked atomic exchange of `exampleSwapMF`. -/
theorem masked_swap_acqrel_expansion_witness :
    ∃ B MI MF', exampleSwapMF.blocks[0]? = some B ∧ B.insts[1]? = some MI ∧
      expandMI exampleSwapMF 0 1 = .ok (some MF') ∧
      ∃ Dest Scratch Addr Incr Mask B' Loop Done,
        MI.getReg 0 = .ok Dest ∧ MI.getReg 1 = .ok Scratch ∧ MI.getReg 2 = .ok Addr ∧
        MI.getReg 3 = .ok Incr ∧ MI.getReg 4 = .ok Mask ∧
        MF'.blocks = exampleSwapMF.blocks.take 0 ++
          B' :: Loop :: Done :: exampleSwapMF.blocks.drop (0 + 1) ∧
        B'.insts = B.insts.take 1 ∧ Done.insts = B.insts.drop (1 + 1) ∧
        Loop.insts =
          [⟨Opcode.DBAR, [MachineOperand.Imm 0]⟩,
           ⟨Opcode.LL_W, [MachineOperand.Reg Dest true, MachineOperand.Reg Addr false,
              MachineOperand.Imm 0]⟩,
           ⟨Opcode.ADDI_W, [MachineOperand.Reg Scratch true, MachineOperand.Reg Incr false,
              MachineOperand.Imm 0]⟩,
           ⟨Opcode.XOR, [MachineOperand.Reg Scratch true, MachineOperand.Reg Dest false,
              MachineOperand.Reg Scratch false]⟩,
           ⟨Opcode.AND, [MachineOperand.Reg Scratch true, MachineOperand.Reg Scratch false,
              MachineOperand.Reg Mask false]⟩,
           ⟨Opcode.XOR, [MachineOperand.Reg Scratch true, MachineOperand.Reg Dest false,
              MachineOperand.Reg Scratch false]⟩,
           ⟨Opcode.SC_W, [MachineOperand.Reg Scratch true, MachineOperand.Reg Scratch false,
              MachineOperand.Reg Addr false, MachineOperand.Imm 0]⟩,
           ⟨Opcode.BEQZ, [MachineOperand.Reg Scratch false, MachineOperand.MBB Loop.number]⟩] :=
  ⟨_, _, _, rfl, rfl, rfl,
    (masked_swap_acqrel_expansion exampleSwapMF 0 1 _ _ rfl rfl rfl rfl).1 _ rfl⟩

/-- Claim C10.  Expanding a masked min/max pseudo (umax, umin, max or min) creates exactly
five blocks, laid out behind the cut block in the order head, if-body, tail, post-tail,
done, with successor lists head = [if-body, tail], if-body = [tail], tail = [head,
post-tail] and post-tail = [done]; the five blocks are pairwise distinct, and the last
instruction of head is the compare branch (`BGEU` or `BGE`) whose target is the tail block,
so taking it skips the if-body.  The expansion completes whenever operands 0 to 5 (and
operand 6 of a signed pseudo) are registers with destination, first scratch and mask
pairwise distinct. -/
theorem minmax_block_graph (MF : MachineFunction) (k j : Nat)
    (B : MachineBasicBlock) (MI : MachineInstr)
    (hB : MF.blocks[k]? = some B) (hI : B.insts[j]? = some MI)
    (hop : MI.opcode = Opcode.PseudoMaskedAtomicLoadUMax32 ∨
      MI.opcode = Opcode.PseudoMaskedAtomicLoadUMin32 ∨
      MI.opcode = Opcode.PseudoMaskedAtomicLoadMax32 ∨
      MI.opcode = Opcode.PseudoMaskedAtomicLoadMin32) :
    (∀ MF', expandMI MF k j = .ok (some MF') →
      ∃ B' Head IfBody Tail PostTail Done Br,
        MF'.blocks = MF.blocks.take k ++
          B' :: Head :: IfBody :: Tail :: PostTail :: Done :: MF.blocks.drop (k + 1) ∧
        MF'.blocks.length = MF.blocks.length + 5 ∧
        Head.successors = [IfBody.number, Tail.number] ∧
        IfBody.successors = [Tail.number] ∧
        Tail.successors = [Head.number, PostTail.number] ∧
        PostTail.successors = [Done.number] ∧
        [Head.number, IfBody.number, Tail.number, PostTail.number, Done.number].Nodup ∧
        Head.insts.getLast? = some Br ∧
        (Br.opcode = Opcode.BGEU ∨ Br.opcode = Opcode.BGE) ∧
        Br.operands.getLast? = some (MachineOperand.MBB Tail.number)) ∧
    (∀ Dest S1 S2 Addr Incr Mask, MI.getReg 0 = .ok Dest → MI.getReg 1 = .ok S1 →
      MI.getReg 2 = .ok S2 → MI.getReg 3 = .ok Addr → MI.getReg 4 = .ok Incr →
      MI.getReg 5 = .ok Mask → Dest ≠ S1 → Dest ≠ Mask → S1 ≠ Mask →
      (MI.opcode = Opcode.PseudoMaskedAtomicLoadMax32 ∨
        MI.opcode = Opcode.PseudoMaskedAtomicLoadMin32 → ∃ Shamt, MI.getReg 6 = .ok Shamt) →
      ∃ MF', expandMI MF k j = .ok (some MF')) := by
  constructor
  · intro MF' h
    have hrun : ∃ op, expandAtomicMinMaxOp MF k j op true 32 = .ok MF' := by
      unfold expandMI at h
      rcases hop with hop | hop | hop | hop <;>
      · simp only [hB, hI, hop, map_eq_ok] at h
        obtain ⟨MF1, hrun, hMF⟩ := h
        cases hMF
        exact ⟨_, hrun⟩
    obtain ⟨op, hrun⟩ := hrun
    obtain ⟨MBB, MI1, Dest, S1, S2, Addr, Incr, Mask, B', Head, IfBody, LoopTail, Tail, Done, cmp,
      -, -, hB1, hI1, -, -, -, -, -, -, -, -, -, hMF, hB', hhn, hhs, hhi, hcmp, hin, his, hii,
      hln, hls, hli, htn, hts, hti, hdn, hdi, hds⟩ := expandAtomicMinMaxOp_ok hrun
    have hlen : MF.blocks.length =
        (MF.blocks.take k).length + ((MF.blocks.drop (k + 1)).length + 1) := by
      have := lt_length_of_getElem? hB
      simp
      omega
    have hbr : ∃ Br, Head.insts.getLast? = some Br ∧
        (Br.opcode = Opcode.BGEU ∨ Br.opcode = Opcode.BGE) ∧
        Br.operands.getLast? = some (MachineOperand.MBB (MF.numBlockIDs + 2)) := by
      rw [hhi]
      cases op <;> simp at hcmp
      all_goals first
        | (obtain ⟨Shamt, -, hcmp⟩ := hcmp
           subst hcmp
           exact ⟨_, rfl, by simp, rfl⟩)
        | (subst hcmp
           exact ⟨_, rfl, by simp, rfl⟩)
    obtain ⟨Br, hb1, hb2, hb3⟩ := hbr
    refine ⟨B', Head, IfBody, LoopTail, Tail, Done, Br, by simp [hMF], ?_, by simp [hhs, hin, hln],
      by simp [his, hln], by simp [hls, hhn, htn], by simp [hts, hdn], ?_, hb1, hb2, ?_⟩
    · rw [hMF]
      simp only [List.length_append, List.length_cons]
      omega
    · rw [hhn, hin, hln, htn, hdn]
      simp
    · rw [hb3, hln]
  · intro Dest S1 S2 Addr Incr Mask h0 h1 h2 h3 h4 h5 d1 d2 d3 h6
    unfold expandMI
    rcases hop with hop | hop | hop | hop
    · obtain ⟨MF', h⟩ := expandAtomicMinMaxOp_succeeds MF k j AtomicRMWInst.BinOp.UMax B MI Dest S1 S2
        Addr Incr Mask hB hI h0 h1 h2 h3 h4 h5 d1 d2 d3 (Or.inl rfl)
      refine ⟨MF', ?_⟩
      simp only [hB, hI, hop, bind, Except.bind, pure, Except.pure]
      rw [h]
      rfl
    · obtain ⟨MF', h⟩ := expandAtomicMinMaxOp_succeeds MF k j AtomicRMWInst.BinOp.UMin B MI Dest S1 S2
        Addr Incr Mask hB hI h0 h1 h2 h3 h4 h5 d1 d2 d3 (Or.inr (Or.inl rfl))
      refine ⟨MF', ?_⟩
      simp only [hB, hI, hop, bind, Except.bind, pure, Except.pure]
      rw [h]
      rfl
    · obtain ⟨MF', h⟩ := expandAtomicMinMaxOp_succeeds MF k j AtomicRMWInst.BinOp.Max B MI Dest S1 S2
        Addr Incr Mask hB hI h0 h1 h2 h3 h4 h5 d1 d2 d3 (Or.inr (Or.inr ⟨Or.inl rfl, h6 (Or.inl hop)⟩))
      refine ⟨MF', ?_⟩
      simp only [hB, hI, hop, bind, Except.bind, pure, Except.pure]
      rw [h]
      rfl
    · obtain ⟨MF', h⟩ := expandAtomicMinMaxOp_succeeds MF k j AtomicRMWInst.BinOp.Min B MI Dest S1 S2
        Addr Incr Mask hB hI h0 h1 h2 h3 h4 h5 d1 d2 d3 (Or.inr (Or.inr ⟨Or.inr rfl, h6 (Or.inr hop)⟩))
      refine ⟨MF', ?_⟩
      simp only [hB, hI, hop, bind, Except.bind, pure, Except.pure]
      rw [h]
      rfl

/-- Witness for C10, on the masked unsigned max of `exampleMF` (position 3 of block 0). -/
theorem minmax_block_graph_witness :
    ∃ MF', expandMI exampleMF 0 3 = .ok (some MF') ∧
      ∃ B' Head IfBody Tail PostTail Done Br,
        MF'.blocks = exampleMF.blocks.take 0 ++
          B' :: Head :: IfBody :: Tail :: PostTail :: Done :: exampleMF.blocks.drop (0 + 1) ∧
        MF'.blocks.length = exampleMF.blocks.length + 5 ∧
        Head.successors = [IfBody.number, Tail.number] ∧
        IfBody.successors = [Tail.number] ∧
        Tail.successors = [Head.number, PostTail.number] ∧
        PostTail.successors = [Done.number] ∧
        [Head.number, IfBody.number, Tail.number, PostTail.number, Done.number].Nodup ∧
        Head.insts.getLast? = some Br ∧
        (Br.opcode = Opcode.BGEU ∨ Br.opcode = Opcode.BGE) ∧
        Br.operands.getLast? = some (MachineOperand.MBB Tail.number) :=
  ⟨_, rfl, (minmax_block_graph exampleMF 0 3 _ _ rfl rfl (Or.inl rfl)).1 _ rfl⟩

/-- Claim C11.  Expanding a compare-and-exchange pseudo (masked or not, 32 or 64 bit)
creates exactly four blocks, laid out behind the cut block in the order head, tail,
post-tail, done, with successor lists head = [tail, post-tail], tail = [done, head] and
post-tail = [done]; the four blocks are pairwise distinct, and the last instruction of
head is a `BNE` that compares with the expected-value register (operand 3) and whose
target is the post-tail block.  The expansion completes whenever operands 0 to 4 (and
operand 5 of a masked pseudo) are registers. -/
theorem cmpxchg_block_graph (MF : MachineFunction) (k j : Nat) (m : Bool) (w : Nat)
    (B : MachineBasicBlock) (MI : MachineInstr)
    (hB : MF.blocks[k]? = some B) (hI : B.insts[j]? = some MI) :
    (∀ MF', expandAtomicCmpXchg MF k j m w = .ok MF' →
      ∃ B' Head Tail PostTail Done X CmpVal,
        MF'.blocks = MF.blocks.take k ++
          B' :: Head :: Tail :: PostTail :: Done :: MF.blocks.drop (k + 1) ∧
        MF'.blocks.length = MF.blocks.length + 4 ∧
        Head.successors = [Tail.number, PostTail.number] ∧
        Tail.successors = [Done.number, Head.number] ∧
        PostTail.successors = [Done.number] ∧
        [Head.number, Tail.number, PostTail.number, Done.number].Nodup ∧
        MI.getReg 3 = .ok CmpVal ∧
        Head.insts.getLast? = some ⟨Opcode.BNE, [MachineOperand.Reg X false,
          MachineOperand.Reg CmpVal false, MachineOperand.MBB PostTail.number]⟩) ∧
    (∀ Dest Scratch Addr CmpVal NewVal, MI.getReg 0 = .ok Dest → MI.getReg 1 = .ok Scratch →
      MI.getReg 2 = .ok Addr → MI.getReg 3 = .ok CmpVal → MI.getReg 4 = .ok NewVal →
      (m = true → ∃ Mask, MI.getReg 5 = .ok Mask) →
      ∃ MF', expandAtomicCmpXchg MF k j m w = .ok MF') := by
  constructor
  · intro MF' h
    obtain ⟨MBB, MI1, Dest, Scratch, Addr, CmpVal, NewVal, B', Head, LoopTail, Tail, Done,
      hB1, hI1, -, -, -, h3, -, hMF, hB', hhn, hhs, hln, hls, htn, hts, hti, hdn, hdi, hds, hm⟩ :=
      expandAtomicCmpXchg_ok h
    rw [hB] at hB1
    cases hB1
    rw [hI] at hI1
    cases hI1
    have hlen : MF.blocks.length =
        (MF.blocks.take k).length + ((MF.blocks.drop (k + 1)).length + 1) := by
      have := lt_length_of_getElem? hB
      simp
      omega
    have hbr : ∃ X, Head.insts.getLast? = some ⟨Opcode.BNE, [MachineOperand.Reg X false,
        MachineOperand.Reg CmpVal false, MachineOperand.MBB (MF.numBlockIDs + 2)]⟩ := by
      cases m
      · simp at hm
        exact ⟨Dest, by rw [hm.1]; rfl⟩
      · simp at hm
        obtain ⟨Mask, -, hh, -⟩ := hm
        exact ⟨Scratch, by rw [hh]; rfl⟩
    obtain ⟨X, hX⟩ := hbr
    refine ⟨B', Head, LoopTail, Tail, Done, X, CmpVal, by simp [hMF], ?_, by simp [hhs, hln, htn],
      by simp [hls, hdn, hhn], by simp [hts, hdn], ?_, h3, by rw [hX, htn]⟩
    · rw [hMF]
      simp only [List.length_append, List.length_cons]
      omega
    · rw [hhn, hln, htn, hdn]
      simp
  · intro Dest Scratch Addr CmpVal NewVal h0 h1 h2 h3 h4 h5
    exact expandAtomicCmpXchg_succeeds MF k j m w B MI Dest Scratch Addr CmpVal NewVal hB hI
      h0 h1 h2 h3 h4 h5

/-- Witness for C11, on the masked compare-and-exchange of `exampleMF` (block 1). -/
theorem cmpxchg_block_graph_witness :
    ∃ (B : MachineBasicBlock) (MI : MachineInstr) (MF' : MachineFunction),
      exampleMF.blocks[1]? = some B ∧ B.insts[0]? = some MI ∧
      expandAtomicCmpXchg exampleMF 1 0 true 32 = .ok MF' ∧
      ∃ B' Head Tail PostTail Done X CmpVal,
        MF'.blocks = exampleMF.blocks.take 1 ++
          B' :: Head :: Tail :: PostTail :: Done :: exampleMF.blocks.drop (1 + 1) ∧
        MF'.blocks.length = exampleMF.blocks.length + 4 ∧
        Head.successors = [Tail.number, PostTail.number] ∧
        Tail.successors = [Done.number, Head.number] ∧
        PostTail.successors = [Done.number] ∧
        [Head.number, Tail.number, PostTail.number, Done.number].Nodup ∧
        MI.getReg 3 = .ok CmpVal ∧
        Head.insts.getLast? = some ⟨Opcode.BNE, [MachineOperand.Reg X false,
          MachineOperand.Reg CmpVal false, MachineOperand.MBB PostTail.number]⟩ :=
  ⟨_, _, _, rfl, rfl, rfl, (cmpxchg_block_graph exampleMF 1 0 true 32 _ _ rfl rfl).1 _ rfl⟩

/-- Claim C13.  In every min/max expansion and every compare-and-exchange expansion,
whatever the operands of the pseudo (its ordering operand included), the block laid out
right before `done` (post-tail) consists of exactly one instruction, the fence
`DBAR 0x700`; it holds no branch and its only successor is `done`, so it falls through
to `done`. -/
theorem post_tail_is_trailing_fence (E : Expander) (MF MF' : MachineFunction) (k j : Nat)
    (hE : ∀ op m w, E ≠ Expander.binOp op m w)
    (h : E.run MF k j = .ok MF') :
    ∃ MBB B' Filled PostTail Done, MF.blocks[k]? = some MBB ∧
      MF'.blocks = MF.blocks.take k ++
        B' :: (Filled ++ PostTail :: Done :: MF.blocks.drop (k + 1)) ∧
      PostTail.insts = [⟨Opcode.DBAR, [MachineOperand.Imm 0x700]⟩] ∧
      PostTail.successors = [Done.number] ∧
      Done.insts = MBB.insts.drop (j + 1) := by
  cases E with
  | binOp op m w => exact absurd rfl (hE op m w)
  | minMax op m w =>
    obtain ⟨MBB, MI, Dest, S1, S2, Addr, Incr, Mask, B', Head, IfBody, LoopTail, Tail, Done, cmp,
      -, -, hB, hI, -, -, -, -, -, -, -, -, -, hMF, hB', hhn, hhs, hhi, hcmp, hin, his, hii,
      hln, hls, hli, htn, hts, hti, hdn, hdi, hds⟩ := expandAtomicMinMaxOp_ok h
    exact ⟨MBB, B', [Head, IfBody, LoopTail], Tail, Done, hB, by simp [hMF], hti,
      by rw [hts, hdn], hdi⟩
  | cmpXchg m w =>
    obtain ⟨MBB, MI, Dest, Scratch, Addr, CmpVal, NewVal, B', Head, LoopTail, Tail, Done,
      hB, hI, -, -, -, -, -, hMF, hB', hhn, hhs, hln, hls, htn, hts, hti, hdn, hdi, hds, hm⟩ :=
      expandAtomicCmpXchg_ok h
    exact ⟨MBB, B', [Head, LoopTail], Tail, Done, hB, by simp [hMF], hti, by rw [hts, hdn], hdi⟩

/-- Witness for C13, on the Monotonic masked unsigned max of `exampleMonotonicMaxMF`. -/
theorem post_tail_is_trailing_fence_witness :
    ∃ MF', (Expander.minMax AtomicRMWInst.BinOp.UMax true 32).run exampleMonotonicMaxMF 0 0 =
        .ok MF' ∧
      ∃ MBB B' Filled PostTail Done, exampleMonotonicMaxMF.blocks[0]? = some MBB ∧
        MF'.blocks = exampleMonotonicMaxMF.blocks.take 0 ++
          B' :: (Filled ++ PostTail :: Done :: exampleMonotonicMaxMF.blocks.drop (0 + 1)) ∧
        PostTail.insts = [⟨Opcode.DBAR, [MachineOperand.Imm 0x700]⟩] ∧
        PostTail.successors = [Done.number] ∧
        Done.insts = MBB.insts.drop (0 + 1) :=
  ⟨_, rfl, post_tail_is_trailing_fence (Expander.minMax AtomicRMWInst.BinOp.UMax true 32)
    exampleMonotonicMaxMF _ 0 0 (fun _ _ _ h => by cases h) rfl⟩

/-- Counterexample to C14 as stated: the masked unsigned max of `exampleMonotonicMaxMF` has
ordering Monotonic (its only immediate operand is 2), and the head block of its expansion
still begins with the fence `DBAR 0`. -/
theorem minmax_head_fence_when_monotonic :
    ∃ MI MF' Head, exampleMonotonicMaxMF.blocks[0]?.bind (fun B => B.insts[0]?) = some MI ∧
      MI.operands =
        [MachineOperand.Reg 10 true, MachineOperand.Reg 11 true, MachineOperand.Reg 14 true,
         MachineOperand.Reg 12 false, MachineOperand.Reg 13 false, MachineOperand.Reg 15 false,
         MachineOperand.Imm AtomicOrdering.Monotonic] ∧
      expandMI exampleMonotonicMaxMF 0 0 = .ok (some MF') ∧ MF'.blocks[1]? = some Head ∧
      Head.insts.head? = some ⟨Opcode.DBAR, [MachineOperand.Imm 0]⟩ ∧
      ¬ (∀ X ∈ Head.insts, X.opcode ≠ Opcode.DBAR) :=
  ⟨_, _, _, rfl, rfl, rfl, rfl, rfl, by decide⟩

/-- Claim C14, amended.  In every min/max expansion the head block begins with the fence
`DBAR 0`, whatever the operands of the pseudo (its ordering tag is not read); after the
fence it holds, in order, the load-linked into the destination (operand 0) from the
address (operand 3), the AND that extracts the masked field into the second scratch
register (operands 2 and 5), and the copy of the destination into the first scratch
register, the accumulator (operand 1); the compare instructions follow, and they hold no
fence. -/
theorem minmax_head_block (MF MF' : MachineFunction) (k j : Nat) (op : AtomicRMWInst.BinOp)
    (m : Bool) (w : Nat) (h : expandAtomicMinMaxOp MF k j op m w = .ok MF') :
    ∃ MBB MI Dest S1 S2 Addr Mask B' Head Rest Cmp, MF.blocks[k]? = some MBB ∧
      MBB.insts[j]? = some MI ∧
      MI.getReg 0 = .ok Dest ∧ MI.getReg 1 = .ok S1 ∧ MI.getReg 2 = .ok S2 ∧
      MI.getReg 3 = .ok Addr ∧ MI.getReg 5 = .ok Mask ∧
      MF'.blocks = MF.blocks.take k ++ B' :: Head :: Rest ∧
      Head.insts =
        ⟨Opcode.DBAR, [MachineOperand.Imm 0]⟩ ::
        ⟨Opcode.LL_W, [MachineOperand.Reg Dest true, MachineOperand.Reg Addr false,
          MachineOperand.Imm 0]⟩ ::
        ⟨Opcode.AND, [MachineOperand.Reg S2 true, MachineOperand.Reg Dest false,
          MachineOperand.Reg Mask false]⟩ ::
        ⟨Opcode.OR, [MachineOperand.Reg S1 true, MachineOperand.Reg Dest false,
          MachineOperand.Reg R0 false]⟩ :: Cmp ∧
      ∀ X ∈ Cmp, X.opcode ≠ Opcode.DBAR := by
  obtain ⟨MBB, MI, Dest, S1, S2, Addr, Incr, Mask, B', Head, IfBody, LoopTail, Tail, Done, cmp,
    -, -, hB, hI, h0, h1, h2, h3, -, h5, -, -, -, hMF, hB', hhn, hhs, hhi, hcmp, -⟩ :=
    expandAtomicMinMaxOp_ok h
  refine ⟨MBB, MI, Dest, S1, S2, Addr, Mask, B', Head, _, cmp, hB, hI, h0, h1, h2, h3, h5,
    by rw [hMF], by simpa using hhi, ?_⟩
  cases op <;> simp at hcmp
  all_goals first
    | (obtain ⟨Shamt, -, hcmp⟩ := hcmp
       subst hcmp
       simp)
    | (subst hcmp
       simp)

/-- Witness for the amended C14, on the Monotonic unsigned max of
`exampleMonotonicMaxMF`. -/
theorem minmax_head_block_witness :
    ∃ MF', expandAtomicMinMaxOp exampleMonotonicMaxMF 0 0 AtomicRMWInst.BinOp.UMax true 32 =
        .ok MF' ∧
      ∃ MBB MI Dest S1 S2 Addr Mask B' Head Rest Cmp, exampleMonotonicMaxMF.blocks[0]? = some MBB ∧
        MBB.insts[0]? = some MI ∧
        MI.getReg 0 = .ok Dest ∧ MI.getReg 1 = .ok S1 ∧ MI.getReg 2 = .ok S2 ∧
        MI.getReg 3 = .ok Addr ∧ MI.getReg 5 = .ok Mask ∧
        MF'.blocks = exampleMonotonicMaxMF.blocks.take 0 ++ B' :: Head :: Rest ∧
        Head.insts =
          ⟨Opcode.DBAR, [MachineOperand.Imm 0]⟩ ::
          ⟨Opcode.LL_W, [MachineOperand.Reg Dest true, MachineOperand.Reg Addr false,
            MachineOperand.Imm 0]⟩ ::
          ⟨Opcode.AND, [MachineOperand.Reg S2 true, MachineOperand.Reg Dest false,
            MachineOperand.Reg Mask false]⟩ ::
          ⟨Opcode.OR, [MachineOperand.Reg S1 true, MachineOperand.Reg Dest false,
            MachineOperand.Reg R0 false]⟩ :: Cmp ∧
        ∀ X ∈ Cmp, X.opcode ≠ Opcode.DBAR :=
  ⟨_, rfl, minmax_head_block exampleMonotonicMaxMF _ 0 0 AtomicRMWInst.BinOp.UMax true 32 rfl⟩

/-- Counterexample to C15 as stated: called for the masked form of `and` on the
well-formed masked pseudo of `exampleSwapMF`, `expandAtomicBinOp` ends in the fatal
"Unexpected AtomicRMW BinOp". -/
theorem masked_and_is_fatal :
    expandAtomicBinOp exampleSwapMF 0 1 AtomicRMWInst.BinOp.And true 32 =
      .error Fatal.unexpectedBinOp := rfl

/-- Claim C15, amended.  For a pseudo whose operands 0 to 3 are registers:
for each of the seven operations exchange, add, sub, and, or, xor and nand in the
full-word form (ordering at operand 4), and for exchange, add, sub and nand in the masked
form (mask at operand 4, ordering at operand 5, destination, scratch and mask pairwise
distinct), `expandAtomicBinOp` completes and the loop block ends with a
store-conditional followed by the retry branch `BEQZ` back to the loop block; the masked
form of and, or and xor ends in the fatal "Unexpected AtomicRMW BinOp". -/
theorem binop_expansion_completes (MF : MachineFunction) (k j : Nat) (B : MachineBasicBlock)
    (MI : MachineInstr) (Dest Scratch Addr Incr : Register)
    (hB : MF.blocks[k]? = some B) (hI : B.insts[j]? = some MI)
    (h0 : MI.getReg 0 = .ok Dest) (h1 : MI.getReg 1 = .ok Scratch) (h2 : MI.getReg 2 = .ok Addr)
    (h3 : MI.getReg 3 = .ok Incr) :
    (∀ op ∈ [AtomicRMWInst.BinOp.Xchg, AtomicRMWInst.BinOp.Add, AtomicRMWInst.BinOp.Sub,
        AtomicRMWInst.BinOp.And, AtomicRMWInst.BinOp.Or, AtomicRMWInst.BinOp.Xor,
        AtomicRMWInst.BinOp.Nand],
      ∀ w Ord, MI.getImm 4 = .ok Ord →
      ∃ MF' B' Loop Done Init SC,
        expandAtomicBinOp MF k j op false w = .ok MF' ∧
        MF'.blocks = MF.blocks.take k ++ B' :: Loop :: Done :: MF.blocks.drop (k + 1) ∧
        Loop.insts = Init ++ [SC, ⟨Opcode.BEQZ, [MachineOperand.Reg Scratch false,
          MachineOperand.MBB Loop.number]⟩] ∧
        isStoreConditional SC.opcode = true) ∧
    (∀ op ∈ [AtomicRMWInst.BinOp.Xchg, AtomicRMWInst.BinOp.Add, AtomicRMWInst.BinOp.Sub,
        AtomicRMWInst.BinOp.Nand],
      ∀ Mask Ord, MI.getReg 4 = .ok Mask → MI.getImm 5 = .ok Ord →
      Dest ≠ Scratch → Dest ≠ Mask → Scratch ≠ Mask →
      ∃ MF' B' Loop Done Init SC,
        expandAtomicBinOp MF k j op true 32 = .ok MF' ∧
        MF'.blocks = MF.blocks.take k ++ B' :: Loop :: Done :: MF.blocks.drop (k + 1) ∧
        Loop.insts = Init ++ [SC, ⟨Opcode.BEQZ, [MachineOperand.Reg Scratch false,
          MachineOperand.MBB Loop.number]⟩] ∧
        isStoreConditional SC.opcode = true) ∧
    (∀ op ∈ [AtomicRMWInst.BinOp.And, AtomicRMWInst.BinOp.Or, AtomicRMWInst.BinOp.Xor],
      ∀ Mask Ord, MI.getReg 4 = .ok Mask → MI.getImm 5 = .ok Ord →
      expandAtomicBinOp MF k j op true 32 = .error Fatal.unexpectedBinOp) := by
  refine ⟨?_, ?_, ?_⟩
  · intro op hop w Ord h4
    obtain ⟨MF', h⟩ := expandAtomicBinOp_succeeds MF k j op false w B MI hB hI
      (fun L0 => by
        simpa using doAtomicBinOpExpansion_succeeds MI L0 op w Dest Scratch Addr Incr Ord
          h0 h1 h2 h3 h4 (by simp at hop ⊢; tauto))
    obtain ⟨Scratch1, B', Loop, Done, Init, SC, e1, hbl, hLi, hsc⟩ := expandAtomicBinOp_ends hB hI h
    rw [h1] at e1
    cases e1
    exact ⟨MF', B', Loop, Done, Init, SC, h, hbl, hLi, hsc⟩
  · intro op hop Mask Ord h4 h5 d1 d2 d3
    obtain ⟨MF', h⟩ := expandAtomicBinOp_succeeds MF k j op true 32 B MI hB hI
      (fun L0 => by
        simpa using doMaskedAtomicBinOpExpansion_succeeds MI L0 op Dest Scratch Addr Incr Mask Ord
          h0 h1 h2 h3 h4 h5 d1 d2 d3 hop)
    obtain ⟨Scratch1, B', Loop, Done, Init, SC, e1, hbl, hLi, hsc⟩ := expandAtomicBinOp_ends hB hI h
    rw [h1] at e1
    cases e1
    exact ⟨MF', B', Loop, Done, Init, SC, h, hbl, hLi, hsc⟩
  · intro op hop Mask Ord h4 h5
    unfold expandAtomicBinOp
    simp only [hB, hI, bind, Except.bind, pure, Except.pure, if_true]
    unfold doMaskedAtomicBinOpExpansion
    simp only [h0, h1, h2, h3, h4, h5, bind, Except.bind, pure, Except.pure, ne_eq,
      not_true_eq_false, ite_false]
    simp only [List.mem_cons, List.mem_singleton, List.not_mem_nil, or_false] at hop
    rcases hop with rfl | rfl | rfl <;> rfl

/-- Witness for the amended C15, on the masked atomic exchange of `exampleSwapMF`. -/
theorem binop_expansion_completes_witness :
    ∃ MF' B' Loop Done Init SC,
      expandAtomicBinOp exampleSwapMF 0 1 AtomicRMWInst.BinOp.Xchg true 32 = .ok MF' ∧
      MF'.blocks = exampleSwapMF.blocks.take 0 ++
        B' :: Loop :: Done :: exampleSwapMF.blocks.drop (0 + 1) ∧
      Loop.insts = Init ++ [SC, ⟨Opcode.BEQZ, [MachineOperand.Reg 11 false,
        MachineOperand.MBB Loop.number]⟩] ∧
      isStoreConditional SC.opcode = true :=
  (binop_expansion_completes exampleSwapMF 0 1 _ _ 10 11 12 13 rfl rfl rfl rfl rfl rfl).2.1
    AtomicRMWInst.BinOp.Xchg (by simp) 15 6 rfl rfl (by decide) (by decide) (by decide)

/-- Counterexample to C16 as stated: the full-word atomic add of `exampleAliasedAddMF` has
the same register as destination and scratch, and the same register as address and
operand, and its expansion completes. -/
theorem aliased_full_word_add_expands :
    ∃ (B : MachineBasicBlock) (MI : MachineInstr) (MF' : MachineFunction),
      exampleAliasedAddMF.blocks[0]? = some B ∧ B.insts[0]? = some MI ∧
      MI.getReg 0 = .ok 10 ∧ MI.getReg 1 = .ok 10 ∧ MI.getReg 2 = .ok 12 ∧ MI.getReg 3 = .ok 12 ∧
      expandMI exampleAliasedAddMF 0 0 = .ok (some MF') :=
  ⟨_, _, _, rfl, rfl, rfl, rfl, rfl, rfl, rfl⟩

/-- Claim C16, amended.  Register checks of the binary read-modify-write expansion.
A full-word expansion never aborts on a register check.  A masked expansion of exchange,
add, sub or nand (operands 0 to 4 registers, ordering at operand 5) aborts with a fatal
invariant violation when the destination is the scratch register, when the destination
is the mask register, and when the scratch register is the mask register; the address and
operand registers are not checked, and when destination, scratch and mask are pairwise
distinct the expansion completes. -/
theorem binop_register_checks (MF : MachineFunction) (k j : Nat) (B : MachineBasicBlock)
    (MI : MachineInstr) (hB : MF.blocks[k]? = some B) (hI : B.insts[j]? = some MI) :
    (∀ op w e, expandAtomicBinOp MF k j op false w = .error e →
      e ≠ Fatal.oldValIsScratch ∧ e ≠ Fatal.oldValIsMask ∧ e ≠ Fatal.scratchIsMask) ∧
    (∀ op ∈ [AtomicRMWInst.BinOp.Xchg, AtomicRMWInst.BinOp.Add, AtomicRMWInst.BinOp.Sub,
        AtomicRMWInst.BinOp.Nand],
      ∀ Dest Scratch Addr Incr Mask Ord, MI.getReg 0 = .ok Dest → MI.getReg 1 = .ok Scratch →
      MI.getReg 2 = .ok Addr → MI.getReg 3 = .ok Incr → MI.getReg 4 = .ok Mask →
      MI.getImm 5 = .ok Ord →
      (Dest = Scratch →
        expandAtomicBinOp MF k j op true 32 = .error Fatal.oldValIsScratch) ∧
      (Dest ≠ Scratch → Dest = Mask →
        expandAtomicBinOp MF k j op true 32 = .error Fatal.oldValIsMask) ∧
      (Dest ≠ Scratch → Dest ≠ Mask → Scratch = Mask →
        expandAtomicBinOp MF k j op true 32 = .error Fatal.scratchIsMask) ∧
      (Dest ≠ Scratch → Dest ≠ Mask → Scratch ≠ Mask →
        ∃ MF', expandAtomicBinOp MF k j op true 32 = .ok MF')) := by
  constructor
  · intro op w e h
    unfold expandAtomicBinOp at h
    simp only [hB, hI, bind_eq_error] at h
    rcases h with h | ⟨_, -, h⟩
    · rcases doAtomicBinOpExpansion_error (by simpa using h) with rfl | rfl <;> simp
    · simp [pure, Except.pure] at h
  · intro op hop Dest Scratch Addr Incr Mask Ord h0 h1 h2 h3 h4 h5
    obtain ⟨L1, hL1⟩ := doMaskedAtomicBinOpExpansion_eq MI
      (((CreateMachineBasicBlock MF.numBlockIDs).addSuccessor
        (CreateMachineBasicBlock MF.numBlockIDs).number).addSuccessor
          (CreateMachineBasicBlock (MF.numBlockIDs + 1)).number)
      op Dest Scratch Addr Incr Mask Ord h0 h1 h2 h3 h4 h5 hop
    refine ⟨?_, ?_, ?_, ?_⟩
    · intro d1
      unfold expandAtomicBinOp
      simp only [hB, hI, if_true, hL1, insertMaskedMerge_eq, bind, Except.bind, pure, Except.pure]
      simp [d1]
    · intro d1 d2
      unfold expandAtomicBinOp
      simp only [hB, hI, if_true, hL1, insertMaskedMerge_eq, bind, Except.bind, pure, Except.pure]
      subst d2
      simp [d1]
    · intro d1 d2 d3
      unfold expandAtomicBinOp
      simp only [hB, hI, if_true, hL1, insertMaskedMerge_eq, bind, Except.bind, pure, Except.pure]
      subst d3
      simp [d1]
    · intro d1 d2 d3
      unfold expandAtomicBinOp
      simp only [hB, hI, if_true, hL1, insertMaskedMerge_eq, bind, Except.bind, pure, Except.pure]
      simp only [d1, d2, d3, if_true, if_false]
      exact ⟨_, rfl⟩

/-- Witness for the amended C16, on the masked atomic exchange of `exampleSwapMF`, whose
destination, scratch and mask registers are pairwise distinct. -/
theorem binop_register_checks_witness :
    ∃ MF', expandAtomicBinOp exampleSwapMF 0 1 AtomicRMWInst.BinOp.Xchg true 32 = .ok MF' :=
  ((binop_register_checks exampleSwapMF 0 1 _ _ rfl rfl).2 AtomicRMWInst.BinOp.Xchg (by simp)
    10 11 12 13 15 6 rfl rfl rfl rfl rfl rfl).2.2.2 (by decide) (by decide) (by decide)

/-- Counterexample to C17: in `exampleSignedMaxMF` the register the sign-extension shifts by
(register 16) is operand 6 of the placeholder, the operand directly after the mask register;
the ordering tag is operand 7 and no operand follows it.  With the tag at operand 6 and the
shift-amount register after it (`exampleTagFirstMaxMF`) the read of operand 6 as a register
is fatal. -/
theorem signed_max_shift_amount_precedes_tag :
    ∃ (MI : MachineInstr) (MF' : MachineFunction) (Head : MachineBasicBlock),
      exampleSignedMaxMF.blocks[0]?.bind (fun B => B.insts[0]?) = some MI ∧
      MI.operands[5]? = some (MachineOperand.Reg 15 false) ∧
      MI.operands[6]? = some (MachineOperand.Reg 16 false) ∧
      MI.operands[7]? = some (MachineOperand.Imm AtomicOrdering.SequentiallyConsistent) ∧
      MI.operands[8]? = none ∧
      expandMI exampleSignedMaxMF 0 0 = .ok (some MF') ∧
      MF'.blocks[1]? = some Head ∧
      Head.insts[4]? = some ⟨Opcode.SLL_W, [MachineOperand.Reg 14 true, MachineOperand.Reg 14 false,
        MachineOperand.Reg 16 false]⟩ ∧
      Head.insts[5]? = some ⟨Opcode.SRA_W, [MachineOperand.Reg 14 true, MachineOperand.Reg 14 false,
        MachineOperand.Reg 16 false]⟩ ∧
      expandMI exampleTagFirstMaxMF 0 0 = .error Fatal.badOperand :=
  ⟨_, _, _, rfl, rfl, rfl, rfl, rfl, rfl, rfl, rfl, rfl, rfl⟩

/-- Claim C17 (amended).  Every expander reads the operands of the placeholder by position.
A binary read-modify-write reads destination, scratch, address and value registers at
operands 0 to 3, then the ordering tag at operand 4 (full word) or the mask register at
operand 4 and the ordering tag at operand 5 (masked).  Min/max reads destination, first
scratch, second scratch, address, value and mask registers at operands 0 to 5 and, when
signed, the shift-amount register at operand 6, directly after the mask; the sign-extension
pair in the head block shifts the second scratch register by that register.  Compare and
exchange reads destination, scratch, address, comparison and new-value registers at
operands 0 to 4 and, when masked, the mask register at operand 5.  Min/max and compare and
exchange read no ordering tag: they complete on every placeholder whose register operands
are in these positions (for min/max with destination, first scratch and mask pairwise
distinct), whatever follows them. -/
theorem expanders_read_operands_by_position (MF : MachineFunction) (k j : Nat)
    (B : MachineBasicBlock) (MI : MachineInstr)
    (hB : MF.blocks[k]? = some B) (hI : B.insts[j]? = some MI) :
    (∀ op w MF', expandAtomicBinOp MF k j op false w = .ok MF' →
      ∃ Dest Scratch Addr Incr Ord, MI.getReg 0 = .ok Dest ∧ MI.getReg 1 = .ok Scratch ∧
        MI.getReg 2 = .ok Addr ∧ MI.getReg 3 = .ok Incr ∧ MI.getImm 4 = .ok Ord) ∧
    (∀ op w MF', expandAtomicBinOp MF k j op true w = .ok MF' →
      ∃ Dest Scratch Addr Incr Mask Ord, MI.getReg 0 = .ok Dest ∧ MI.getReg 1 = .ok Scratch ∧
        MI.getReg 2 = .ok Addr ∧ MI.getReg 3 = .ok Incr ∧ MI.getReg 4 = .ok Mask ∧
        MI.getImm 5 = .ok Ord) ∧
    (∀ op m w MF', expandAtomicMinMaxOp MF k j op m w = .ok MF' →
      ∃ Dest S1 S2 Addr Incr Mask, MI.getReg 0 = .ok Dest ∧ MI.getReg 1 = .ok S1 ∧
        MI.getReg 2 = .ok S2 ∧ MI.getReg 3 = .ok Addr ∧ MI.getReg 4 = .ok Incr ∧
        MI.getReg 5 = .ok Mask ∧
        (op = AtomicRMWInst.BinOp.Max ∨ op = AtomicRMWInst.BinOp.Min →
          ∃ Shamt Head, MI.getReg 6 = .ok Shamt ∧ MF'.blocks[k + 1]? = some Head ∧
            Head.insts[4]? = some ⟨Opcode.SLL_W, [MachineOperand.Reg S2 true,
              MachineOperand.Reg S2 false, MachineOperand.Reg Shamt false]⟩ ∧
            Head.insts[5]? = some ⟨Opcode.SRA_W, [MachineOperand.Reg S2 true,
              MachineOperand.Reg S2 false, MachineOperand.Reg Shamt false]⟩)) ∧
    (∀ m w MF', expandAtomicCmpXchg MF k j m w = .ok MF' →
      ∃ Dest Scratch Addr CmpVal NewVal, MI.getReg 0 = .ok Dest ∧ MI.getReg 1 = .ok Scratch ∧
        MI.getReg 2 = .ok Addr ∧ MI.getReg 3 = .ok CmpVal ∧ MI.getReg 4 = .ok NewVal ∧
        (m = true → ∃ Mask, MI.getReg 5 = .ok Mask)) ∧
    (∀ Dest S1 S2 Addr Incr Mask, MI.getReg 0 = .ok Dest → MI.getReg 1 = .ok S1 →
      MI.getReg 2 = .ok S2 → MI.getReg 3 = .ok Addr → MI.getReg 4 = .ok Incr →
      MI.getReg 5 = .ok Mask → Dest ≠ S1 → Dest ≠ Mask → S1 ≠ Mask →
      (∀ op, op = AtomicRMWInst.BinOp.UMax ∨ op = AtomicRMWInst.BinOp.UMin →
        ∃ MF', expandAtomicMinMaxOp MF k j op true 32 = .ok MF') ∧
      (∀ op Shamt, op = AtomicRMWInst.BinOp.Max ∨ op = AtomicRMWInst.BinOp.Min →
        MI.getReg 6 = .ok Shamt → ∃ MF', expandAtomicMinMaxOp MF k j op true 32 = .ok MF')) ∧
    (∀ Dest Scratch Addr CmpVal NewVal, MI.getReg 0 = .ok Dest → MI.getReg 1 = .ok Scratch →
      MI.getReg 2 = .ok Addr → MI.getReg 3 = .ok CmpVal → MI.getReg 4 = .ok NewVal →
      (∀ w, ∃ MF', expandAtomicCmpXchg MF k j false w = .ok MF') ∧
      (∀ w Mask, MI.getReg 5 = .ok Mask → ∃ MF', expandAtomicCmpXchg MF k j true w = .ok MF')) := by
  refine ⟨?_, ?_, ?_, ?_, ?_, ?_⟩
  · intro op w MF' h
    obtain ⟨MBB, MI', L, B', Loop, Done, hB', hI', hL, -⟩ := expandAtomicBinOp_ok h
    rw [hB] at hB'; cases hB'
    rw [hI] at hI'; cases hI'
    simp only [Bool.false_eq_true, if_false] at hL
    obtain ⟨Dest, Scratch, Addr, Incr, Ord, h0, h1, h2, h3, h4, -⟩ := doAtomicBinOpExpansion_ok hL
    exact ⟨Dest, Scratch, Addr, Incr, Ord, h0, h1, h2, h3, h4⟩
  · intro op w MF' h
    obtain ⟨MBB, MI', L, B', Loop, Done, hB', hI', hL, -⟩ := expandAtomicBinOp_ok h
    rw [hB] at hB'; cases hB'
    rw [hI] at hI'; cases hI'
    simp only [if_true] at hL
    obtain ⟨Dest, Scratch, Addr, Incr, Mask, Ord, -, h0, h1, h2, h3, h4, h5, -⟩ :=
      doMaskedAtomicBinOpExpansion_ok hL
    exact ⟨Dest, Scratch, Addr, Incr, Mask, Ord, h0, h1, h2, h3, h4, h5⟩
  · intro op m w MF' h
    obtain ⟨MBB, MI', Dest, S1, S2, Addr, Incr, Mask, B', Head, IfBody, LoopTail, Tail, Done, cmp,
      -, -, hB', hI', h0, h1, h2, h3, h4, h5, -, -, -, hMF, -, -, -, hHead, hcmp, -⟩ :=
      expandAtomicMinMaxOp_ok h
    rw [hB] at hB'; cases hB'
    rw [hI] at hI'; cases hI'
    refine ⟨Dest, S1, S2, Addr, Incr, Mask, h0, h1, h2, h3, h4, h5, ?_⟩
    have hk : (MF.blocks.take k).length = k :=
      List.length_take_of_le (Nat.le_of_lt (lt_length_of_getElem? hB))
    have hHd : MF'.blocks[k + 1]? = some Head := by
      subst hMF
      simp only []
      rw [List.getElem?_append_right (by omega)]
      simp [hk]
    rintro (rfl | rfl)
    · obtain ⟨Shamt, h6, hc⟩ := hcmp
      exact ⟨Shamt, Head, h6, hHd, by rw [hHead, hc]; rfl, by rw [hHead, hc]; rfl⟩
    · obtain ⟨Shamt, h6, hc⟩ := hcmp
      exact ⟨Shamt, Head, h6, hHd, by rw [hHead, hc]; rfl, by rw [hHead, hc]; rfl⟩
  · intro m w MF' h
    obtain ⟨MBB, MI', Dest, Scratch, Addr, CmpVal, NewVal, B', Head, LoopTail, Tail, Done,
      hB', hI', h0, h1, h2, h3, h4, -, -, -, -, -, -, -, -, -, -, -, -, hm⟩ :=
      expandAtomicCmpXchg_ok h
    rw [hB] at hB'; cases hB'
    rw [hI] at hI'; cases hI'
    refine ⟨Dest, Scratch, Addr, CmpVal, NewVal, h0, h1, h2, h3, h4, ?_⟩
    intro hmt
    rw [if_pos hmt] at hm
    obtain ⟨Mask, h5, -⟩ := hm
    exact ⟨Mask, h5⟩
  · intro Dest S1 S2 Addr Incr Mask h0 h1 h2 h3 h4 h5 d1 d2 d3
    refine ⟨fun op hop => ?_, fun op Shamt hop h6 => ?_⟩
    · exact expandAtomicMinMaxOp_succeeds MF k j op B MI Dest S1 S2 Addr Incr Mask hB hI
        h0 h1 h2 h3 h4 h5 d1 d2 d3 (by rcases hop with h | h; exact Or.inl h; exact Or.inr (Or.inl h))
    · exact expandAtomicMinMaxOp_succeeds MF k j op B MI Dest S1 S2 Addr Incr Mask hB hI
        h0 h1 h2 h3 h4 h5 d1 d2 d3 (Or.inr (Or.inr ⟨hop, Shamt, h6⟩))
  · intro Dest Scratch Addr CmpVal NewVal h0 h1 h2 h3 h4
    refine ⟨fun w => ?_, fun w Mask h5 => ?_⟩
    · exact expandAtomicCmpXchg_succeeds MF k j false w B MI Dest Scratch Addr CmpVal NewVal hB hI
        h0 h1 h2 h3 h4 (fun h => by cases h)
    · exact expandAtomicCmpXchg_succeeds MF k j true w B MI Dest Scratch Addr CmpVal NewVal hB hI
        h0 h1 h2 h3 h4 (fun _ => ⟨Mask, h5⟩)

/-- Witness for the amended C17, on the masked signed max of `exampleSignedMaxMF`: the
shift-amount register read at operand 6 is register 16. -/
theorem expanders_read_operands_by_position_witness :
    ∃ (MF' : MachineFunction) (MI : MachineInstr),
      expandAtomicMinMaxOp exampleSignedMaxMF 0 0 AtomicRMWInst.BinOp.Max true 32 = .ok MF' ∧
      ∃ Dest S1 S2 Addr Incr Mask, MI.getReg 0 = .ok Dest ∧ MI.getReg 1 = .ok S1 ∧
        MI.getReg 2 = .ok S2 ∧ MI.getReg 3 = .ok Addr ∧ MI.getReg 4 = .ok Incr ∧
        MI.getReg 5 = .ok Mask ∧
        (AtomicRMWInst.BinOp.Max = AtomicRMWInst.BinOp.Max ∨
            AtomicRMWInst.BinOp.Max = AtomicRMWInst.BinOp.Min →
          ∃ Shamt Head, MI.getReg 6 = .ok Shamt ∧ MF'.blocks[0 + 1]? = some Head ∧
            Head.insts[4]? = some ⟨Opcode.SLL_W, [MachineOperand.Reg S2 true,
              MachineOperand.Reg S2 false, MachineOperand.Reg Shamt false]⟩ ∧
            Head.insts[5]? = some ⟨Opcode.SRA_W, [MachineOperand.Reg S2 true,
              MachineOperand.Reg S2 false, MachineOperand.Reg Shamt false]⟩) :=
  ⟨_, _, rfl, (expanders_read_operands_by_position exampleSignedMaxMF 0 0 _ _ rfl rfl).2.2.1
    AtomicRMWInst.BinOp.Max true 32 _ rfl⟩

/-- Claim C18.  In the expansion of a full-word binary read-modify-write the loop block is
an optional fence, the load-linked into the destination register, the arithmetic and
logical instructions `Mid`, the store-conditional that stores the scratch register, and
the retry branch.  Run on any register file in which the destination register holds the
loaded word `old` and the value register holds `v` (the zero register reads 0 and the
scratch register is not the zero register), `Mid` leaves in the scratch register `v` for
exchange, `old + v` and `old - v` modulo `2 ^ 32` for add and sub, the bitwise and, or,
exclusive or for and, or, xor, and the complement of the bitwise and for nand, which is
emitted as `AND` followed by `NOR` with the zero register. -/
theorem full_word_binop_stored_value (MF MF' : MachineFunction) (k j : Nat)
    (op : AtomicRMWInst.BinOp) (w : Nat)
    (h : expandAtomicBinOp MF k j op false w = .ok MF') :
    ∃ MBB MI Dest Scratch Addr Incr Loop Pre LL Mid SC Br,
      MF.blocks[k]? = some MBB ∧ MBB.insts[j]? = some MI ∧
      MI.getReg 0 = .ok Dest ∧ MI.getReg 1 = .ok Scratch ∧ MI.getReg 2 = .ok Addr ∧
      MI.getReg 3 = .ok Incr ∧
      MF'.blocks[k + 1]? = some Loop ∧
      Loop.insts = Pre ++ LL :: (Mid ++ [SC, Br]) ∧
      isLoadLinked LL.opcode = true ∧
      LL.operands = [MachineOperand.Reg Dest true, MachineOperand.Reg Addr false,
        MachineOperand.Imm 0] ∧
      isStoreConditional SC.opcode = true ∧
      SC.operands = [MachineOperand.Reg Scratch true, MachineOperand.Reg Scratch false,
        MachineOperand.Reg Addr false, MachineOperand.Imm 0] ∧
      (op = AtomicRMWInst.BinOp.Nand →
        Mid = [⟨Opcode.AND, [MachineOperand.Reg Scratch true, MachineOperand.Reg Dest false,
                 MachineOperand.Reg Incr false]⟩,
               ⟨Opcode.NOR, [MachineOperand.Reg Scratch true, MachineOperand.Reg Scratch false,
                 MachineOperand.Reg R0 false]⟩]) ∧
      ∀ (σ : RegFile) (old v : Nat), σ.read Dest = old → σ.read Incr = v → Scratch ≠ R0 →
        ∃ σ', execALUs σ Mid = some σ' ∧ specBinOpValue op old v = some (σ'.read Scratch) := by
  obtain ⟨MBB, MI, L, B', Loop, Done, hB, hI, hL, hMF, -, -, hLi, -⟩ := expandAtomicBinOp_ok h
  simp only [Bool.false_eq_true, if_false] at hL
  have hop := doAtomicBinOpExpansion_op hL
  obtain ⟨Dest, Scratch, Addr, Incr, Ord, h0, h1, h2, h3, -, -, -, -, hi⟩ :=
    doAtomicBinOpExpansion_ok hL
  have hLoop : MF'.blocks[k + 1]? = some Loop := by
    subst hMF
    have := getElem?_layout hB [B'] (Loop :: Done :: MF.blocks.drop (k + 1)) 1
    simpa using this
  rw [← hLi] at hi
  simp only [List.nil_append, List.append_assoc, List.singleton_append] at hi
  refine ⟨MBB, MI, Dest, Scratch, Addr, Incr, Loop, _, _, _, _, _, hB, hI, h0, h1, h2, h3, hLoop,
    hi, ?_, rfl, ?_, rfl, ?_, ?_⟩
  · by_cases hw : w = 32 <;> simp [hw, isLoadLinked]
  · by_cases hw : w = 32 <;> simp [hw, isStoreConditional]
  · rintro rfl
    rfl
  · intro σ old v ho hv hS
    subst ho hv
    simp only [List.mem_cons, List.mem_singleton, List.not_mem_nil, or_false] at hop
    rcases hop with rfl | rfl | rfl | rfl | rfl | rfl | rfl
    · obtain ⟨σ', he, hv, -⟩ := execALUs_binop _ σ Dest Scratch Incr _ hS (Or.inl ⟨rfl, rfl⟩)
      exact ⟨σ', he, hv⟩
    · obtain ⟨σ', he, hv, -⟩ := execALUs_binop _ σ Dest Scratch Incr _ hS
        (Or.inr (Or.inr (Or.inl ⟨rfl, rfl⟩)))
      exact ⟨σ', he, hv⟩
    · obtain ⟨σ', he, hv, -⟩ := execALUs_binop _ σ Dest Scratch Incr _ hS
        (Or.inr (Or.inr (Or.inr (Or.inl ⟨rfl, rfl⟩))))
      exact ⟨σ', he, hv⟩
    · obtain ⟨σ', he, hv, -⟩ := execALUs_binop _ σ Dest Scratch Incr _ hS
        (Or.inr (Or.inr (Or.inr (Or.inr (Or.inl ⟨rfl, rfl⟩)))))
      exact ⟨σ', he, hv⟩
    · obtain ⟨σ', he, hv, -⟩ := execALUs_binop _ σ Dest Scratch Incr _ hS
        (Or.inr (Or.inr (Or.inr (Or.inr (Or.inr (Or.inl ⟨rfl, rfl⟩))))))
      exact ⟨σ', he, hv⟩
    · obtain ⟨σ', he, hv, -⟩ := execALUs_binop _ σ Dest Scratch Incr _ hS
        (Or.inr (Or.inr (Or.inr (Or.inr (Or.inr (Or.inr (Or.inl ⟨rfl, rfl⟩)))))))
      exact ⟨σ', he, hv⟩
    · obtain ⟨σ', he, hv, -⟩ := execALUs_binop _ σ Dest Scratch Incr _ hS
        (Or.inr (Or.inr (Or.inr (Or.inr (Or.inr (Or.inr (Or.inr ⟨rfl, rfl⟩)))))))
      exact ⟨σ', he, hv⟩

/-- Witness for C18, on the full-word atomic add of `exampleMF`. -/
theorem full_word_binop_stored_value_witness :
    ∃ MF', expandAtomicBinOp exampleMF 0 1 AtomicRMWInst.BinOp.Add false 32 = .ok MF' ∧
    ∃ MBB MI Dest Scratch Addr Incr Loop Pre LL Mid SC Br,
      exampleMF.blocks[0]? = some MBB ∧ MBB.insts[1]? = some MI ∧
      MI.getReg 0 = .ok Dest ∧ MI.getReg 1 = .ok Scratch ∧ MI.getReg 2 = .ok Addr ∧
      MI.getReg 3 = .ok Incr ∧
      MF'.blocks[0 + 1]? = some Loop ∧
      Loop.insts = Pre ++ LL :: (Mid ++ [SC, Br]) ∧
      isLoadLinked LL.opcode = true ∧
      LL.operands = [MachineOperand.Reg Dest true, MachineOperand.Reg Addr false,
        MachineOperand.Imm 0] ∧
      isStoreConditional SC.opcode = true ∧
      SC.operands = [MachineOperand.Reg Scratch true, MachineOperand.Reg Scratch false,
        MachineOperand.Reg Addr false, MachineOperand.Imm 0] ∧
      (AtomicRMWInst.BinOp.Add = AtomicRMWInst.BinOp.Nand →
        Mid = [⟨Opcode.AND, [MachineOperand.Reg Scratch true, MachineOperand.Reg Dest false,
                 MachineOperand.Reg Incr false]⟩,
               ⟨Opcode.NOR, [MachineOperand.Reg Scratch true, MachineOperand.Reg Scratch false,
                 MachineOperand.Reg R0 false]⟩]) ∧
      ∀ (σ : RegFile) (old v : Nat), σ.read Dest = old → σ.read Incr = v → Scratch ≠ R0 →
        ∃ σ', execALUs σ Mid = some σ' ∧
          specBinOpValue AtomicRMWInst.BinOp.Add old v = some (σ'.read Scratch) :=
  ⟨_, rfl, full_word_binop_stored_value exampleMF _ 0 1 AtomicRMWInst.BinOp.Add 32 rfl⟩

/-- Claim C19.  In the expansion of a masked binary read-modify-write (which completes only
for exchange, add, sub and nand, with destination, scratch and mask registers pairwise
distinct) the loop block is an optional fence, the load-linked into the destination
register, the instructions `Mid`, the store-conditional that stores the scratch register,
and the retry branch; `Mid` ends with the masked-merge triple in which the scratch register
is new value, temporary and result at once.  Run on any register file in which the
destination register holds the loaded word `old`, the value register holds `v` and the mask
register holds `mask` (the scratch register is not the zero register), `Mid` leaves in the
scratch register `(old AND NOT mask) OR (new AND mask)`, where `new` is the value of the
full-word operation on `old` and `v`; every bit outside the mask equals the bit of `old`. -/
theorem masked_binop_stored_value (MF MF' : MachineFunction) (k j : Nat)
    (op : AtomicRMWInst.BinOp) (w : Nat)
    (h : expandAtomicBinOp MF k j op true w = .ok MF') :
    ∃ MBB MI Dest Scratch Addr Incr Mask Loop Pre LL Op SC Br,
      MF.blocks[k]? = some MBB ∧ MBB.insts[j]? = some MI ∧
      MI.getReg 0 = .ok Dest ∧ MI.getReg 1 = .ok Scratch ∧ MI.getReg 2 = .ok Addr ∧
      MI.getReg 3 = .ok Incr ∧ MI.getReg 4 = .ok Mask ∧
      Dest ≠ Scratch ∧ Dest ≠ Mask ∧ Scratch ≠ Mask ∧
      op ∈ [AtomicRMWInst.BinOp.Xchg, AtomicRMWInst.BinOp.Add, AtomicRMWInst.BinOp.Sub,
        AtomicRMWInst.BinOp.Nand] ∧
      MF'.blocks[k + 1]? = some Loop ∧
      Loop.insts = Pre ++ LL :: (Op ++
        ([⟨Opcode.XOR, [MachineOperand.Reg Scratch true, MachineOperand.Reg Dest false,
            MachineOperand.Reg Scratch false]⟩,
          ⟨Opcode.AND, [MachineOperand.Reg Scratch true, MachineOperand.Reg Scratch false,
            MachineOperand.Reg Mask false]⟩,
          ⟨Opcode.XOR, [MachineOperand.Reg Scratch true, MachineOperand.Reg Dest false,
            MachineOperand.Reg Scratch false]⟩] ++ [SC, Br])) ∧
      isLoadLinked LL.opcode = true ∧
      LL.operands = [MachineOperand.Reg Dest true, MachineOperand.Reg Addr false,
        MachineOperand.Imm 0] ∧
      isStoreConditional SC.opcode = true ∧
      SC.operands = [MachineOperand.Reg Scratch true, MachineOperand.Reg Scratch false,
        MachineOperand.Reg Addr false, MachineOperand.Imm 0] ∧
      ∀ (σ : RegFile) (old v mask : Nat), σ.read Dest = old → σ.read Incr = v →
        σ.read Mask = mask → Scratch ≠ R0 →
        ∃ σ' new, execALUs σ (Op ++
            [⟨Opcode.XOR, [MachineOperand.Reg Scratch true, MachineOperand.Reg Dest false,
                MachineOperand.Reg Scratch false]⟩,
             ⟨Opcode.AND, [MachineOperand.Reg Scratch true, MachineOperand.Reg Scratch false,
                MachineOperand.Reg Mask false]⟩,
             ⟨Opcode.XOR, [MachineOperand.Reg Scratch true, MachineOperand.Reg Dest false,
                MachineOperand.Reg Scratch false]⟩]) = some σ' ∧
          specBinOpValue op old v = some new ∧
          σ'.read Scratch = (old &&& not32 mask) ||| (new &&& mask) ∧
          ∀ i, mask.testBit i = false → (σ'.read Scratch).testBit i = old.testBit i := by
  obtain ⟨MBB, MI, L, B', Loop, Done, hB, hI, hL, hMF, -, -, hLi, -⟩ := expandAtomicBinOp_ok h
  simp only [if_true] at hL
  have hop := doMaskedAtomicBinOpExpansion_op hL
  obtain ⟨Dest, Scratch, Addr, Incr, Mask, Ord, -, h0, h1, h2, h3, h4, -, d1, d2, d3, -, -, -, hi⟩ :=
    doMaskedAtomicBinOpExpansion_ok hL
  have hLoop : MF'.blocks[k + 1]? = some Loop := by
    subst hMF
    have := getElem?_layout hB [B'] (Loop :: Done :: MF.blocks.drop (k + 1)) 1
    simpa using this
  rw [← hLi] at hi
  simp only [List.nil_append, List.append_assoc, List.singleton_append] at hi
  refine ⟨MBB, MI, Dest, Scratch, Addr, Incr, Mask, Loop, _, _, _, _, _, hB, hI, h0, h1, h2, h3, h4,
    d1, d2, d3, hop, hLoop, hi, ?_, ?_, ?_, ?_, ?_⟩
  · rfl
  · rfl
  · rfl
  · rfl
  intro σ old v mask ho hv hm hS
  subst ho hv hm
  have key : ∀ Op : List MachineInstr,
      (∃ σ1, execALUs σ Op = some σ1 ∧
        specBinOpValue op (σ.read Dest) (σ.read Incr) = some (σ1.read Scratch) ∧
        ∀ X, X ≠ Scratch → σ1.read X = σ.read X) →
      ∃ σ' new, execALUs σ (Op ++
          [⟨Opcode.XOR, [MachineOperand.Reg Scratch true, MachineOperand.Reg Dest false,
              MachineOperand.Reg Scratch false]⟩,
           ⟨Opcode.AND, [MachineOperand.Reg Scratch true, MachineOperand.Reg Scratch false,
              MachineOperand.Reg Mask false]⟩,
           ⟨Opcode.XOR, [MachineOperand.Reg Scratch true, MachineOperand.Reg Dest false,
              MachineOperand.Reg Scratch false]⟩]) = some σ' ∧
        specBinOpValue op (σ.read Dest) (σ.read Incr) = some new ∧
        σ'.read Scratch = (σ.read Dest &&& not32 (σ.read Mask)) ||| (new &&& σ.read Mask) ∧
        ∀ i, (σ.read Mask).testBit i = false →
          (σ'.read Scratch).testBit i = (σ.read Dest).testBit i := by
    rintro Op ⟨σ1, he1, hv1, hk1⟩
    obtain ⟨σ2, he2, hv2, -⟩ := execALUs_merge σ1 Scratch Dest Scratch Mask Scratch d1 d3 hS hS
    have hval : σ2.read Scratch =
        (σ.read Dest &&& not32 (σ.read Mask)) ||| (σ1.read Scratch &&& σ.read Mask) := by
      rw [hv2, hk1 Dest d1, hk1 Mask (fun e => d3 e.symm)]
    refine ⟨σ2, σ1.read Scratch, ?_, hv1, hval, fun i hi => ?_⟩
    · rw [execALUs_append, he1]
      exact he2
    · rw [hval]
      exact merge_outside_mask _ _ _ (σ.read_lt Dest) (σ.read_lt Mask) i hi
  simp only [List.mem_cons, List.mem_singleton, List.not_mem_nil, or_false] at hop
  rcases hop with rfl | rfl | rfl | rfl
  · exact key _ (execALUs_binop _ σ Dest Scratch Incr _ hS (Or.inr (Or.inl ⟨rfl, rfl⟩)))
  · exact key _ (execALUs_binop _ σ Dest Scratch Incr _ hS
      (Or.inr (Or.inr (Or.inr (Or.inl ⟨rfl, rfl⟩)))))
  · exact key _ (execALUs_binop _ σ Dest Scratch Incr _ hS
      (Or.inr (Or.inr (Or.inr (Or.inr (Or.inl ⟨rfl, rfl⟩))))))
  · exact key _ (execALUs_binop _ σ Dest Scratch Incr _ hS
      (Or.inr (Or.inr (Or.inl ⟨rfl, rfl⟩))))

/-- Witness for C19, on the masked atomic exchange of `exampleSwapMF`. -/
theorem masked_binop_stored_value_witness :
    ∃ MF', expandAtomicBinOp exampleSwapMF 0 1 AtomicRMWInst.BinOp.Xchg true 32 = .ok MF' ∧
    ∃ MBB MI Dest Scratch Addr Incr Mask Loop Pre LL Op SC Br,
      exampleSwapMF.blocks[0]? = some MBB ∧ MBB.insts[1]? = some MI ∧
      MI.getReg 0 = .ok Dest ∧ MI.getReg 1 = .ok Scratch ∧ MI.getReg 2 = .ok Addr ∧
      MI.getReg 3 = .ok Incr ∧ MI.getReg 4 = .ok Mask ∧
      Dest ≠ Scratch ∧ Dest ≠ Mask ∧ Scratch ≠ Mask ∧
      AtomicRMWInst.BinOp.Xchg ∈ [AtomicRMWInst.BinOp.Xchg, AtomicRMWInst.BinOp.Add,
        AtomicRMWInst.BinOp.Sub, AtomicRMWInst.BinOp.Nand] ∧
      MF'.blocks[0 + 1]? = some Loop ∧
      Loop.insts = Pre ++ LL :: (Op ++
        ([⟨Opcode.XOR, [MachineOperand.Reg Scratch true, MachineOperand.Reg Dest false,
            MachineOperand.Reg Scratch false]⟩,
          ⟨Opcode.AND, [MachineOperand.Reg Scratch true, MachineOperand.Reg Scratch false,
            MachineOperand.Reg Mask false]⟩,
          ⟨Opcode.XOR, [MachineOperand.Reg Scratch true, MachineOperand.Reg Dest false,
            MachineOperand.Reg Scratch false]⟩] ++ [SC, Br])) ∧
      isLoadLinked LL.opcode = true ∧
      LL.operands = [MachineOperand.Reg Dest true, MachineOperand.Reg Addr false,
        MachineOperand.Imm 0] ∧
      isStoreConditional SC.opcode = true ∧
      SC.operands = [MachineOperand.Reg Scratch true, MachineOperand.Reg Scratch false,
        MachineOperand.Reg Addr false, MachineOperand.Imm 0] ∧
      ∀ (σ : RegFile) (old v mask : Nat), σ.read Dest = old → σ.read Incr = v →
        σ.read Mask = mask → Scratch ≠ R0 →
        ∃ σ' new, execALUs σ (Op ++
            [⟨Opcode.XOR, [MachineOperand.Reg Scratch true, MachineOperand.Reg Dest false,
                MachineOperand.Reg Scratch false]⟩,
             ⟨Opcode.AND, [MachineOperand.Reg Scratch true, MachineOperand.Reg Scratch false,
                MachineOperand.Reg Mask false]⟩,
             ⟨Opcode.XOR, [MachineOperand.Reg Scratch true, MachineOperand.Reg Dest false,
                MachineOperand.Reg Scratch false]⟩]) = some σ' ∧
          specBinOpValue AtomicRMWInst.BinOp.Xchg old v = some new ∧
          σ'.read Scratch = (old &&& not32 mask) ||| (new &&& mask) ∧
          ∀ i, mask.testBit i = false → (σ'.read Scratch).testBit i = old.testBit i :=
  ⟨_, rfl, masked_binop_stored_value exampleSwapMF _ 0 1 AtomicRMWInst.BinOp.Xchg 32 rfl⟩

/-- Claim C12.  In the expansion of a compare-and-exchange pseudo of a function whose block
numbers are below `numBlockIDs`, with `M` the word in memory at the address and `C` the
word in the comparison register (words of the access width: every 32-bit value for the
word forms, every 64-bit value for the doubleword forms; destination not the
zero register and not the comparison register, and for the masked form scratch not the
zero register and not the comparison register, destination not the mask register): if the
word the head block compares (`M`, or `M AND mask` for the masked form) differs from `C`,
execution from the head block runs through head, then post-tail, and enters done; no
store-conditional is executed, memory is unchanged and head is not entered again.  The
loop-tail block executes a store-conditional and leaves to head when that
store-conditional fails and to done when it succeeds; no instruction of head or post-tail
branches to head. -/
theorem cmpxchg_bail_out (MF MF' : MachineFunction) (k j : Nat) (m : Bool) (w : Nat)
    (h : expandAtomicCmpXchg MF k j m w = .ok MF')
    (hnum : ∀ b ∈ MF.blocks, b.number < MF.numBlockIDs) :
    ∃ MBB MI Dest Scratch Addr CmpVal Mask Head LoopTail PostTail Done,
      MF.blocks[k]? = some MBB ∧ MBB.insts[j]? = some MI ∧
      MI.getReg 0 = .ok Dest ∧ MI.getReg 1 = .ok Scratch ∧ MI.getReg 2 = .ok Addr ∧
      MI.getReg 3 = .ok CmpVal ∧ (m = true → MI.getReg 5 = .ok Mask) ∧
      MF'.blocks[k + 1]? = some Head ∧ MF'.blocks[k + 2]? = some LoopTail ∧
      MF'.blocks[k + 3]? = some PostTail ∧ MF'.blocks[k + 4]? = some Done ∧
      Head.number ≠ Done.number ∧
      (∀ (s : MachineState) (M C : Nat),
        s.mem (effectiveAddressBits (accessBits w) s.regs Addr 0) = M → M < 2 ^ accessBits w →
        s.regs.readBits (accessBits w) CmpVal = C →
        Dest ≠ R0 → Dest ≠ CmpVal →
        (m = true → Scratch ≠ R0 ∧ Scratch ≠ CmpVal ∧ Dest ≠ Mask) →
        (if m = true then M &&& s.regs.readBits (accessBits w) Mask else M) ≠ C →
        ∀ Fuel, ∃ Trace s',
          execFromBits (accessBits w) MF'.blocks Done.number (Fuel + 3) (k + 1) s =
            some ([Head.number, PostTail.number], Trace, s') ∧
          (∀ X ∈ Trace, isStoreConditional X.opcode = false) ∧
          s'.mem = s.mem ∧ s'.SCOutcomes = s.SCOutcomes) ∧
      (∀ (s : MachineState) (b : Bool) (Rest : List Bool),
        s.SCOutcomes = b :: Rest → Scratch ≠ R0 →
        ∃ s' Trace,
          execBlockBits (accessBits w) s LoopTail.insts =
            some (s', some (if b = true then Done.number else Head.number), Trace) ∧
          (∃ X ∈ Trace, isStoreConditional X.opcode = true) ∧
          s'.SCOutcomes = Rest) ∧
      (∀ X ∈ Head.insts ++ PostTail.insts, MachineOperand.MBB Head.number ∉ X.operands) := by
  obtain ⟨MBB, MI, Dest, Scratch, Addr, CmpVal, NewVal, B', Head, LoopTail, Tail, Done,
    hB, hI, h0, h1, h2, h3, h4, hMF, hB', hHn, hHs, hLn, hLs, hTn, hTs, hTi, hDn, hDi, hDs, hm⟩ :=
    expandAtomicCmpXchg_ok h
  have hblocks : MF'.blocks = MF.blocks.take k ++
      [B', Head, LoopTail, Tail, Done] ++ MF.blocks.drop (k + 1) := by
    rw [hMF]
    simp
  have hlen : (MF.blocks.take k).length = k :=
    List.length_take_of_le (Nat.le_of_lt (lt_length_of_getElem? hB))
  have hiH : MF'.blocks[k + 1]? = some Head := by
    rw [hblocks, getElem?_layout hB]; simp
  have hiL : MF'.blocks[k + 2]? = some LoopTail := by
    rw [hblocks, getElem?_layout hB]; simp
  have hiT : MF'.blocks[k + 3]? = some Tail := by
    rw [hblocks, getElem?_layout hB]; simp
  have hiD : MF'.blocks[k + 4]? = some Done := by
    rw [hblocks, getElem?_layout hB]; simp
  have hB'n : B'.number = MBB.number := by rw [hB']
  have hbiT : blockIndex (MF.numBlockIDs + 2) MF'.blocks = some (k + 3) := by
    have := blockIndex_layout hB hnum B' hB'n [Head, LoopTail, Tail, Done]
      (MF.blocks.drop (k + 1)) (MF.numBlockIDs + 2) 2 (by omega)
      (by simp [blockIndex, hHn, hLn, hTn])
    rw [hMF]
    simpa using this
  have hnext : nextBlock MF'.blocks (k + 3) none = some (k + 4) := by
    have : k + 3 + 1 < MF'.blocks.length := lt_length_of_getElem? hiD
    simp [nextBlock, this]
  have hHD : Head.number ≠ Done.number := by rw [hHn, hDn]; omega
  have hTD : Tail.number ≠ Done.number := by rw [hTn, hDn]; omega
  have hexT : ∀ s : MachineState, execBlockBits (accessBits w) s Tail.insts =
      some (s, none, [⟨Opcode.DBAR, [MachineOperand.Imm 0x700]⟩]) := by
    intro s
    rw [hTi]
    rfl
  -- the run from head once the head block is known to branch to post-tail
  have hrun : ∀ (s s1 : MachineState) (Fuel : Nat),
      execBlockBits (accessBits w) s Head.insts =
        some (s1, some (MF.numBlockIDs + 2), Head.insts) →
      execFromBits (accessBits w) MF'.blocks Done.number (Fuel + 3) (k + 1) s =
        some ([Head.number, Tail.number],
          Head.insts ++ ([⟨Opcode.DBAR, [MachineOperand.Imm 0x700]⟩] ++ []), s1) := by
    intro s s1 Fuel hex
    rw [execFromBits_step (Fuel + 2) hiH hHD hex (by simpa [nextBlock] using hbiT),
      execFromBits_step (Fuel + 1) hiT hTD (hexT s1) hnext,
      execFromBits_stop Fuel s1 hiD rfl]
    rfl
  cases m
  · -- unmasked
    simp only [Bool.false_eq_true, if_false] at hm
    obtain ⟨hHi, hLi⟩ := hm
    refine ⟨MBB, MI, Dest, Scratch, Addr, CmpVal, 0, Head, LoopTail, Tail, Done, hB, hI, h0, h1, h2,
      h3, (fun hf => by cases hf), hiH, hiL, hiT, hiD, hHD, ?_, ?_, ?_⟩
    · intro s M C hM hM32 hC hD0 hDC _ hne Fuel
      simp only [Bool.false_eq_true, if_false] at hne
      have hc : (s.regs.writeBits (accessBits w) Dest M).readBits (accessBits w) Dest ≠ (s.regs.writeBits (accessBits w) Dest M).readBits (accessBits w) CmpVal := by
        rw [RegFile.readBits_writeBits_same _ _ _ _ hD0 hM32,
          RegFile.readBits_writeBits_other _ _ _ _ _ (fun e => hDC e.symm), hC]
        exact hne
      have hex : execBlockBits (accessBits w) s Head.insts =
          some ({ s with regs := s.regs.writeBits (accessBits w) Dest M }, some (MF.numBlockIDs + 2), Head.insts) := by
        rw [hHi]
        simp only [execBlockBits, execInstBits_LL, execInstBits_BNE, hM, if_pos hc, Option.map_some']
      refine ⟨_, _, hrun s _ Fuel hex, ?_, rfl, rfl⟩
      intro X hX
      rw [hHi] at hX
      simp only [List.mem_append, List.mem_cons, List.mem_singleton, List.not_mem_nil,
        or_false] at hX
      rcases hX with (rfl | rfl) | rfl
      · by_cases hw : w = 32 <;> simp [hw, isStoreConditional]
      · rfl
      · rfl
    · intro s b Rest hs hS0
      rw [hLi]
      cases b
      · apply Exists.intro
        apply Exists.intro
        refine ⟨?ex, ?sc, ?out⟩
        case ex =>
          simp only [execBlockBits, execInstBits_DBAR, execInstBits_OR, execInstBits_SC, storeConditionalBits, hs,
            execInstBits_BEQZ, RegFile.readBits_writeBits_same _ _ _ _ hS0 (Nat.two_pow_pos _), if_true,
            Bool.false_eq_true, if_false, hHn, Option.map_some']
          rfl
        case sc =>
          refine ⟨_, List.mem_cons_of_mem _ (List.mem_cons_of_mem _ (List.mem_cons_self _ _)), ?_⟩
          by_cases hw : w = 32 <;> simp [hw, isStoreConditional]
        case out => rfl
      · apply Exists.intro
        apply Exists.intro
        refine ⟨?ex, ?sc, ?out⟩
        case ex =>
          simp only [execBlockBits, execInstBits_DBAR, execInstBits_OR, execInstBits_SC, storeConditionalBits, hs,
            execInstBits_BEQZ, execInstBits_B, RegFile.readBits_writeBits_same _ _ _ _ hS0 (one_lt_two_pow_accessBits w),
            if_true, one_ne_zero, if_false, hDn, Option.map_some']
          rfl
        case sc =>
          refine ⟨_, List.mem_cons_of_mem _ (List.mem_cons_of_mem _ (List.mem_cons_self _ _)), ?_⟩
          by_cases hw : w = 32 <;> simp [hw, isStoreConditional]
        case out => rfl
    · intro X hX
      rw [hHi, hTi] at hX
      rw [hHn]
      simp only [List.mem_append, List.mem_cons, List.mem_singleton, List.not_mem_nil,
        or_false] at hX
      rcases hX with (rfl | rfl) | rfl <;> simp
  · -- masked
    simp only [if_true] at hm
    obtain ⟨Mask, h5, hHi, hLi⟩ := hm
    refine ⟨MBB, MI, Dest, Scratch, Addr, CmpVal, Mask, Head, LoopTail, Tail, Done, hB, hI, h0, h1,
      h2, h3, fun _ => h5, hiH, hiL, hiT, hiD, hHD, ?_, ?_, ?_⟩
    · intro s M C hM hM32 hC hD0 hDC hregs hne Fuel
      obtain ⟨hS0, hSC, hDM⟩ := hregs rfl
      simp only [if_true] at hne
      have hand : M &&& s.regs.readBits (accessBits w) Mask < 2 ^ accessBits w :=
        Nat.and_lt_two_pow _ (s.regs.readBits_lt _ Mask)
      have hrd : (s.regs.writeBits (accessBits w) Dest M).readBits (accessBits w) Dest = M := RegFile.readBits_writeBits_same _ _ _ _ hD0 hM32
      have hrm : (s.regs.writeBits (accessBits w) Dest M).readBits (accessBits w) Mask = s.regs.readBits (accessBits w) Mask :=
        RegFile.readBits_writeBits_other _ _ _ _ _ (fun e => hDM e.symm)
      have hc : ((s.regs.writeBits (accessBits w) Dest M).writeBits (accessBits w) Scratch
          (M &&& s.regs.readBits (accessBits w) Mask)).readBits (accessBits w) Scratch ≠
          ((s.regs.writeBits (accessBits w) Dest M).writeBits (accessBits w) Scratch
          (M &&& s.regs.readBits (accessBits w) Mask)).readBits (accessBits w) CmpVal := by
        rw [RegFile.readBits_writeBits_same _ _ _ _ hS0 hand,
          RegFile.readBits_writeBits_other _ _ _ _ _ (fun e => hSC e.symm),
          RegFile.readBits_writeBits_other _ _ _ _ _ (fun e => hDC e.symm), hC]
        exact hne
      have hex : execBlockBits (accessBits w) s Head.insts =
          some ({ s with
                  regs := (s.regs.writeBits (accessBits w) Dest M).writeBits (accessBits w) Scratch
                    (M &&& s.regs.readBits (accessBits w) Mask) },
            some (MF.numBlockIDs + 2), Head.insts) := by
        rw [hHi]
        simp only [execBlockBits, execInstBits_LL, execInstBits_AND, execInstBits_BNE, hM, hrd, hrm, if_pos hc,
          Option.map_some']
      refine ⟨_, _, hrun s _ Fuel hex, ?_, rfl, rfl⟩
      intro X hX
      rw [hHi] at hX
      simp only [List.mem_append, List.mem_cons, List.mem_singleton, List.not_mem_nil,
        or_false] at hX
      rcases hX with (rfl | rfl | rfl) | rfl
      · by_cases hw : w = 32 <;> simp [hw, isStoreConditional]
      · rfl
      · rfl
      · rfl
    · intro s b Rest hs hS0
      rw [hLi]
      cases b
      · apply Exists.intro
        apply Exists.intro
        refine ⟨?ex, ?sc, ?out⟩
        case ex =>
          simp only [execBlockBits, execInstBits_DBAR, execInstBits_ANDN, execInstBits_OR, execInstBits_SC,
            storeConditionalBits, hs, execInstBits_BEQZ,
            RegFile.readBits_writeBits_same _ _ _ _ hS0 (Nat.two_pow_pos _), if_true,
            Bool.false_eq_true, if_false, hHn, Option.map_some']
          rfl
        case sc =>
          refine ⟨_, List.mem_cons_of_mem _ (List.mem_cons_of_mem _
            (List.mem_cons_of_mem _ (List.mem_cons_self _ _))), ?_⟩
          by_cases hw : w = 32 <;> simp [hw, isStoreConditional]
        case out => rfl
      · apply Exists.intro
        apply Exists.intro
        refine ⟨?ex, ?sc, ?out⟩
        case ex =>
          simp only [execBlockBits, execInstBits_DBAR, execInstBits_ANDN, execInstBits_OR, execInstBits_SC,
            storeConditionalBits, hs, execInstBits_BEQZ, execInstBits_B,
            RegFile.readBits_writeBits_same _ _ _ _ hS0 (one_lt_two_pow_accessBits w),
            if_true, one_ne_zero, if_false, hDn, Option.map_some']
          rfl
        case sc =>
          refine ⟨_, List.mem_cons_of_mem _ (List.mem_cons_of_mem _
            (List.mem_cons_of_mem _ (List.mem_cons_self _ _))), ?_⟩
          by_cases hw : w = 32 <;> simp [hw, isStoreConditional]
        case out => rfl
    · intro X hX
      rw [hHi, hTi] at hX
      rw [hHn]
      simp only [List.mem_append, List.mem_cons, List.mem_singleton, List.not_mem_nil,
        or_false] at hX
      rcases hX with (rfl | rfl | rfl) | rfl <;> simp

/-- Witness for C12, on the 64-bit compare-and-exchange of `exampleCmpXchg64MF`; and a run of
the expanded code on 64-bit words from the head block with `2 ^ 32` in memory, 0 in the
comparison register and no store-conditional outcome to draw on, which goes through head
(block 1) and post-tail (block 3) into done (block 4) and leaves `2 ^ 32` in the
destination register 10. -/
theorem cmpxchg_bail_out_witness :
    (∀ b ∈ exampleCmpXchg64MF.blocks, b.number < exampleCmpXchg64MF.numBlockIDs) ∧
    ∃ MF', expandAtomicCmpXchg exampleCmpXchg64MF 0 0 false 64 = .ok MF' ∧
    (execFromBits (accessBits 64) MF'.blocks 4 3 1 ⟨fun _ => 0, fun _ => 4294967296, []⟩).map
      (fun r => (r.1, r.2.2.regs 10)) = some ([1, 3], 4294967296) ∧
    ∃ MBB MI Dest Scratch Addr CmpVal Mask Head LoopTail PostTail Done,
      exampleCmpXchg64MF.blocks[0]? = some MBB ∧ MBB.insts[0]? = some MI ∧
      MI.getReg 0 = .ok Dest ∧ MI.getReg 1 = .ok Scratch ∧ MI.getReg 2 = .ok Addr ∧
      MI.getReg 3 = .ok CmpVal ∧ (false = true → MI.getReg 5 = .ok Mask) ∧
      MF'.blocks[0 + 1]? = some Head ∧ MF'.blocks[0 + 2]? = some LoopTail ∧
      MF'.blocks[0 + 3]? = some PostTail ∧ MF'.blocks[0 + 4]? = some Done ∧
      Head.number ≠ Done.number ∧
      (∀ (s : MachineState) (M C : Nat),
        s.mem (effectiveAddressBits (accessBits 64) s.regs Addr 0) = M → M < 2 ^ accessBits 64 →
        s.regs.readBits (accessBits 64) CmpVal = C →
        Dest ≠ R0 → Dest ≠ CmpVal →
        (false = true → Scratch ≠ R0 ∧ Scratch ≠ CmpVal ∧ Dest ≠ Mask) →
        (if false = true then M &&& s.regs.readBits (accessBits 64) Mask else M) ≠ C →
        ∀ Fuel, ∃ Trace s',
          execFromBits (accessBits 64) MF'.blocks Done.number (Fuel + 3) (0 + 1) s =
            some ([Head.number, PostTail.number], Trace, s') ∧
          (∀ X ∈ Trace, isStoreConditional X.opcode = false) ∧
          s'.mem = s.mem ∧ s'.SCOutcomes = s.SCOutcomes) ∧
      (∀ (s : MachineState) (b : Bool) (Rest : List Bool),
        s.SCOutcomes = b :: Rest → Scratch ≠ R0 →
        ∃ s' Trace,
          execBlockBits (accessBits 64) s LoopTail.insts =
            some (s', some (if b = true then Done.number else Head.number), Trace) ∧
          (∃ X ∈ Trace, isStoreConditional X.opcode = true) ∧
          s'.SCOutcomes = Rest) ∧
      (∀ X ∈ Head.insts ++ PostTail.insts, MachineOperand.MBB Head.number ∉ X.operands) :=
  ⟨by decide, _, rfl, rfl, cmpxchg_bail_out exampleCmpXchg64MF _ 0 0 false 64 rfl (by decide)⟩

/-- Claim C20.  In the expansion of the unsigned masked max (resp. min) pseudo of a function
whose block numbers are below `numBlockIDs`, with `old` the word in memory at the address,
`v` the word in the value register and `mask` the word in the mask register, where
`v AND NOT mask = 0` and destination, both scratch registers and mask register are pairwise
distinct (and, for the register model, destination and scratch registers are not the zero
register and the value register is none of them): execution from the head block reaches the
loop-tail block, whose store-conditional stores the first scratch register; the word in
that register then has every bit outside the mask equal to the bit of `old`, and its
masked field is the unsigned maximum (resp. minimum) of `old AND mask` and `v`.  When the
field already satisfies the relation, the run goes from head straight to loop-tail and the
word is `old` itself; otherwise it runs through the if-body. -/
theorem unsigned_minmax_stored_word (MF MF' : MachineFunction) (k j : Nat)
    (op : AtomicRMWInst.BinOp) (m : Bool) (w : Nat)
    (h : expandAtomicMinMaxOp MF k j op m w = .ok MF')
    (hop : op = AtomicRMWInst.BinOp.UMax ∨ op = AtomicRMWInst.BinOp.UMin)
    (hnum : ∀ b ∈ MF.blocks, b.number < MF.numBlockIDs) :
    ∃ MBB MI Dest S1 S2 Addr Incr Mask Head IfBody LoopTail SC Br,
      MF.blocks[k]? = some MBB ∧ MBB.insts[j]? = some MI ∧
      MI.getReg 0 = .ok Dest ∧ MI.getReg 1 = .ok S1 ∧ MI.getReg 2 = .ok S2 ∧
      MI.getReg 3 = .ok Addr ∧ MI.getReg 4 = .ok Incr ∧ MI.getReg 5 = .ok Mask ∧
      Dest ≠ S1 ∧ Dest ≠ Mask ∧ S1 ≠ Mask ∧
      MF'.blocks[k + 1]? = some Head ∧ MF'.blocks[k + 2]? = some IfBody ∧
      MF'.blocks[k + 3]? = some LoopTail ∧
      LoopTail.insts = [SC, Br] ∧ isStoreConditional SC.opcode = true ∧
      SC.operands = [MachineOperand.Reg S1 true, MachineOperand.Reg S1 false,
        MachineOperand.Reg Addr false, MachineOperand.Imm 0] ∧
      ∀ (s : MachineState) (old v mask : Nat),
        s.mem (effectiveAddress s.regs Addr 0) = old → old < 2 ^ 32 →
        s.regs.read Incr = v → s.regs.read Mask = mask → v &&& not32 mask = 0 →
        Dest ≠ S2 → S1 ≠ S2 → S2 ≠ Mask →
        Dest ≠ R0 → S1 ≠ R0 → S2 ≠ R0 → Incr ≠ Dest → Incr ≠ S1 → Incr ≠ S2 →
        ∀ Fuel, ∃ Path Trace s',
          execFrom MF'.blocks LoopTail.number (Fuel + 3) (k + 1) s = some (Path, Trace, s') ∧
          (∀ X ∈ Trace, isStoreConditional X.opcode = false) ∧
          (∀ i, mask.testBit i = false → (s'.regs.read S1).testBit i = old.testBit i) ∧
          s'.regs.read S1 &&& mask =
            (if op = AtomicRMWInst.BinOp.UMax then max (old &&& mask) v
             else min (old &&& mask) v) ∧
          ((if op = AtomicRMWInst.BinOp.UMax then v ≤ old &&& mask else old &&& mask ≤ v) →
            Path = [Head.number] ∧ s'.regs.read S1 = old) ∧
          (¬ (if op = AtomicRMWInst.BinOp.UMax then v ≤ old &&& mask else old &&& mask ≤ v) →
            Path = [Head.number, IfBody.number]) := by
  obtain ⟨MBB, MI, Dest, S1, S2, Addr, Incr, Mask, B', Head, IfBody, LoopTail, Tail, Done, cmp,
    -, -, hB, hI, h0, h1, h2, h3, h4, h5, d1, d2, d3, hMF, hB', hHn, -, hHi, hcmp,
    hIn, -, hIi, hLn, -, hLi, -⟩ := expandAtomicMinMaxOp_ok h
  have hblocks : MF'.blocks = MF.blocks.take k ++
      [B', Head, IfBody, LoopTail, Tail, Done] ++ MF.blocks.drop (k + 1) := by
    rw [hMF]
    simp
  have hiH : MF'.blocks[k + 1]? = some Head := by
    rw [hblocks, getElem?_layout hB]; simp
  have hiI : MF'.blocks[k + 2]? = some IfBody := by
    rw [hblocks, getElem?_layout hB]; simp
  have hiL : MF'.blocks[k + 3]? = some LoopTail := by
    rw [hblocks, getElem?_layout hB]; simp
  have hB'n : B'.number = MBB.number := by rw [hB']
  have hbiL : blockIndex (MF.numBlockIDs + 2) MF'.blocks = some (k + 3) := by
    have := blockIndex_layout hB hnum B' hB'n [Head, IfBody, LoopTail, Tail, Done]
      (MF.blocks.drop (k + 1)) (MF.numBlockIDs + 2) 2 (by omega)
      (by simp [blockIndex, hHn, hIn, hLn])
    rw [hMF]
    simpa using this
  have hnextH : nextBlock MF'.blocks (k + 1) none = some (k + 2) := by
    have : k + 1 + 1 < MF'.blocks.length := lt_length_of_getElem? hiI
    simp [nextBlock, this]
  have hnextI : nextBlock MF'.blocks (k + 2) none = some (k + 3) := by
    have : k + 2 + 1 < MF'.blocks.length := lt_length_of_getElem? hiL
    simp [nextBlock, this]
  have hHL : Head.number ≠ LoopTail.number := by rw [hHn, hLn]; omega
  have hIL : IfBody.number ≠ LoopTail.number := by rw [hIn, hLn]; omega
  refine ⟨MBB, MI, Dest, S1, S2, Addr, Incr, Mask, Head, IfBody, LoopTail, _, _, hB, hI, h0, h1, h2,
    h3, h4, h5, d1, d2, d3, hiH, hiI, hiL, hLi, rfl, rfl, ?_⟩
  intro s old v mask hold hold32 hv hmask hvm e1 e2 e3 z0 z1 z2 i0 i1 i2 Fuel
  have hv32 : v < 2 ^ 32 := hv ▸ s.regs.read_lt Incr
  have hm32 : mask < 2 ^ 32 := hmask ▸ s.regs.read_lt Mask
  have hfield : old &&& mask < 2 ^ 32 := Nat.and_lt_two_pow _ hm32
  -- the registers after the four straight-line instructions of the head block
  let σ := ((s.regs.write Dest old).write S2 (old &&& mask)).write S1 old
  have r1d : (s.regs.write Dest old).read Dest = old := RegFile.read_write_same _ _ _ z0 hold32
  have r1m : (s.regs.write Dest old).read Mask = mask := by
    rw [RegFile.read_write_other _ _ _ _ (fun e => d2 e.symm), hmask]
  have r2d : ((s.regs.write Dest old).write S2 (old &&& mask)).read Dest = old := by
    rw [RegFile.read_write_other _ _ _ _ e1, r1d]
  have r2z : ((s.regs.write Dest old).write S2 (old &&& mask)).read R0 = 0 := by
    simp [RegFile.read]
  have hσ1 : σ.read S1 = old := RegFile.read_write_same _ _ _ z1 hold32
  have hσ2 : σ.read S2 = old &&& mask := by
    show (((s.regs.write Dest old).write S2 (old &&& mask)).write S1 old).read S2 = _
    rw [RegFile.read_write_other _ _ _ _ (fun e => e2 e.symm),
      RegFile.read_write_same _ _ _ z2 hfield]
  have hσd : σ.read Dest = old := by
    show (((s.regs.write Dest old).write S2 (old &&& mask)).write S1 old).read Dest = _
    rw [RegFile.read_write_other _ _ _ _ d1, r2d]
  have hσi : σ.read Incr = v := by
    show (((s.regs.write Dest old).write S2 (old &&& mask)).write S1 old).read Incr = _
    rw [RegFile.read_write_other _ _ _ _ i1, RegFile.read_write_other _ _ _ _ i2,
      RegFile.read_write_other _ _ _ _ i0, hv]
  have hσm : σ.read Mask = mask := by
    show (((s.regs.write Dest old).write S2 (old &&& mask)).write S1 old).read Mask = _
    rw [RegFile.read_write_other _ _ _ _ (fun e => d3 e.symm),
      RegFile.read_write_other _ _ _ _ (fun e => e3 e.symm), r1m]
  -- the head block up to its branch
  have hhead : ∀ A B : Register,
      cmp = [⟨Opcode.BGEU, [MachineOperand.Reg A false, MachineOperand.Reg B false,
        MachineOperand.MBB (MF.numBlockIDs + 2)]⟩] →
      execBlock s Head.insts = some ({ s with regs := σ },
        (if σ.read B ≤ σ.read A then some (MF.numBlockIDs + 2) else none), Head.insts) := by
    intro A B hc
    rw [hHi, hc]
    simp only [List.cons_append, List.nil_append, execBlock, execInst_DBAR,
      execInst_LL_W, execInst_AND, execInst_OR, execInst_BGEU, hold, r1d, r1m, r2d, r2z,
      Nat.or_zero]
    by_cases hc' : σ.read B ≤ σ.read A
    · rw [if_pos hc']
      simp only [σ] at hc'
      simp only [if_pos hc', Option.map_some']
    · rw [if_neg hc']
      simp only [σ] at hc'
      simp only [if_neg hc', Option.map_some']
  -- the merged word of the if-body
  obtain ⟨σ2, he2, hv2, -⟩ := execALUs_merge σ S1 Dest Incr Mask S1 d1 d3 z1 z1
  rw [hσd, hσi, hσm] at hv2
  have hexI : execBlock { s with regs := σ } IfBody.insts =
      some ({ s with regs := σ2 }, none, IfBody.insts) := by
    rw [hIi]
    simp only [execALUs, execALU, Option.bind] at he2
    simp only [Option.some.injEq] at he2
    subst he2
    simp only [execBlock, execInst_XOR, execInst_AND, Option.map_some']
  have hnoSC : ∀ X ∈ Head.insts ++ IfBody.insts, isStoreConditional X.opcode = false := by
    intro X hX
    rw [hHi, hIi] at hX
    rcases hop with rfl | rfl
    · simp only [] at hcmp
      rw [hcmp] at hX
      simp only [List.mem_append, List.mem_cons, List.mem_singleton, List.not_mem_nil,
        or_false] at hX
      rcases hX with ((rfl | rfl | rfl | rfl) | rfl) | rfl | rfl | rfl <;> rfl
    · simp only [] at hcmp
      rw [hcmp] at hX
      simp only [List.mem_append, List.mem_cons, List.mem_singleton, List.not_mem_nil,
        or_false] at hX
      rcases hX with ((rfl | rfl | rfl | rfl) | rfl) | rfl | rfl | rfl <;> rfl
  -- the two runs
  have hskip : execBlock s Head.insts = some ({ s with regs := σ },
        some (MF.numBlockIDs + 2), Head.insts) →
      execFrom MF'.blocks LoopTail.number (Fuel + 3) (k + 1) s =
        some ([Head.number], Head.insts ++ [], { s with regs := σ }) := by
    intro hex
    rw [execFrom_step (Fuel + 2) hiH hHL hex (by simpa [nextBlock] using hbiL),
      execFrom_stop (Fuel + 1) _ hiL rfl]
    rfl
  have hbody : execBlock s Head.insts = some ({ s with regs := σ }, none, Head.insts) →
      execFrom MF'.blocks LoopTail.number (Fuel + 3) (k + 1) s =
        some ([Head.number, IfBody.number], Head.insts ++ (IfBody.insts ++ []),
          { s with regs := σ2 }) := by
    intro hex
    rw [execFrom_step (Fuel + 2) hiH hHL hex hnextH,
      execFrom_step (Fuel + 1) hiI hIL hexI hnextI,
      execFrom_stop Fuel _ hiL rfl]
    rfl
  have hvmask : v &&& mask = v := and_mask_of_and_not32 v mask hv32 hm32 hvm
  have hmergef : ((old &&& not32 mask) ||| (v &&& mask)) &&& mask = v := by
    rw [merge_field _ _ _ hm32, hvmask]
  rcases hop with rfl | rfl
  · -- unsigned max: the branch is taken when `v ≤ old AND mask`
    simp only [] at hcmp
    have hex := hhead S2 Incr hcmp
    simp only [hσ2, hσi] at hex
    by_cases ht : v ≤ old &&& mask
    · rw [if_pos ht] at hex
      refine ⟨_, _, _, hskip hex, ?_, ?_, ?_, ?_, ?_⟩
      · intro X hX
        exact hnoSC X (List.mem_append_left _ (by simpa using hX))
      · intro i _
        show (σ.read S1).testBit i = _
        rw [hσ1]
      · show σ.read S1 &&& mask = _
        rw [hσ1, if_pos rfl, max_eq_left ht]
      · intro _
        exact ⟨rfl, hσ1⟩
      · intro hn
        exact absurd (by simpa using ht) hn
    · rw [if_neg ht] at hex
      refine ⟨_, _, _, hbody hex, ?_, ?_, ?_, ?_, ?_⟩
      · intro X hX
        exact hnoSC X (by simpa using hX)
      · intro i hi
        show (σ2.read S1).testBit i = _
        rw [hv2]
        exact merge_outside_mask _ _ _ hold32 hm32 i hi
      · show σ2.read S1 &&& mask = _
        rw [hv2, hmergef, if_pos rfl, max_eq_right (Nat.le_of_lt (Nat.lt_of_not_le ht))]
      · intro hc
        exact absurd (by simpa using hc) ht
      · intro _
        rfl
  · -- unsigned min: the branch is taken when `old AND mask ≤ v`
    simp only [] at hcmp
    have hex := hhead Incr S2 hcmp
    simp only [hσ2, hσi] at hex
    by_cases ht : old &&& mask ≤ v
    · rw [if_pos ht] at hex
      refine ⟨_, _, _, hskip hex, ?_, ?_, ?_, ?_, ?_⟩
      · intro X hX
        exact hnoSC X (List.mem_append_left _ (by simpa using hX))
      · intro i _
        show (σ.read S1).testBit i = _
        rw [hσ1]
      · show σ.read S1 &&& mask = _
        rw [hσ1, if_neg (by decide), min_eq_left ht]
      · intro _
        exact ⟨rfl, hσ1⟩
      · intro hn
        exact absurd (by simpa using ht) hn
    · rw [if_neg ht] at hex
      refine ⟨_, _, _, hbody hex, ?_, ?_, ?_, ?_, ?_⟩
      · intro X hX
        exact hnoSC X (by simpa using hX)
      · intro i hi
        show (σ2.read S1).testBit i = _
        rw [hv2]
        exact merge_outside_mask _ _ _ hold32 hm32 i hi
      · show σ2.read S1 &&& mask = _
        rw [hv2, hmergef, if_neg (by decide), min_eq_right (Nat.le_of_lt (Nat.lt_of_not_le ht))]
      · intro hc
        exact absurd (by simpa using hc) ht
      · intro _
        rfl

/-- Witness for C20, on the masked unsigned max of `exampleMF`; and a run of the expanded
code from the head block with 7 in memory, 113 in the value register and 115 in the mask
register, which goes through the if-body and hands 117 to the store-conditional. -/
theorem unsigned_minmax_stored_word_witness :
    (∀ b ∈ exampleMF.blocks, b.number < exampleMF.numBlockIDs) ∧
    ∃ MF', expandAtomicMinMaxOp exampleMF 0 3 AtomicRMWInst.BinOp.UMax true 32 = .ok MF' ∧
    (execFrom MF'.blocks 4 3 1 ⟨fun R => R + 100, fun _ => 7, []⟩).map
      (fun r => (r.1, r.2.2.regs.read 11)) = some ([2, 3], 117) ∧
    ∃ MBB MI Dest S1 S2 Addr Incr Mask Head IfBody LoopTail SC Br,
      exampleMF.blocks[0]? = some MBB ∧ MBB.insts[3]? = some MI ∧
      MI.getReg 0 = .ok Dest ∧ MI.getReg 1 = .ok S1 ∧ MI.getReg 2 = .ok S2 ∧
      MI.getReg 3 = .ok Addr ∧ MI.getReg 4 = .ok Incr ∧ MI.getReg 5 = .ok Mask ∧
      Dest ≠ S1 ∧ Dest ≠ Mask ∧ S1 ≠ Mask ∧
      MF'.blocks[0 + 1]? = some Head ∧ MF'.blocks[0 + 2]? = some IfBody ∧
      MF'.blocks[0 + 3]? = some LoopTail ∧
      LoopTail.insts = [SC, Br] ∧ isStoreConditional SC.opcode = true ∧
      SC.operands = [MachineOperand.Reg S1 true, MachineOperand.Reg S1 false,
        MachineOperand.Reg Addr false, MachineOperand.Imm 0] ∧
      ∀ (s : MachineState) (old v mask : Nat),
        s.mem (effectiveAddress s.regs Addr 0) = old → old < 2 ^ 32 →
        s.regs.read Incr = v → s.regs.read Mask = mask → v &&& not32 mask = 0 →
        Dest ≠ S2 → S1 ≠ S2 → S2 ≠ Mask →
        Dest ≠ R0 → S1 ≠ R0 → S2 ≠ R0 → Incr ≠ Dest → Incr ≠ S1 → Incr ≠ S2 →
        ∀ Fuel, ∃ Path Trace s',
          execFrom MF'.blocks LoopTail.number (Fuel + 3) (0 + 1) s = some (Path, Trace, s') ∧
          (∀ X ∈ Trace, isStoreConditional X.opcode = false) ∧
          (∀ i, mask.testBit i = false → (s'.regs.read S1).testBit i = old.testBit i) ∧
          s'.regs.read S1 &&& mask =
            (if AtomicRMWInst.BinOp.UMax = AtomicRMWInst.BinOp.UMax then max (old &&& mask) v
             else min (old &&& mask) v) ∧
          ((if AtomicRMWInst.BinOp.UMax = AtomicRMWInst.BinOp.UMax then v ≤ old &&& mask else old &&& mask ≤ v) →
            Path = [Head.number] ∧ s'.regs.read S1 = old) ∧
          (¬ (if AtomicRMWInst.BinOp.UMax = AtomicRMWInst.BinOp.UMax then v ≤ old &&& mask else old &&& mask ≤ v) →
            Path = [Head.number, IfBody.number]) :=
  ⟨by decide, _, rfl, rfl, unsigned_minmax_stored_word exampleMF _ 0 3 AtomicRMWInst.BinOp.UMax
    true 32 rfl (Or.inl rfl) (by decide)⟩

/-- Claim C21.  In the head block of a min/max expansion the copy of the destination into
the first scratch register (the accumulator) is followed, for the signed variants, by a
shift-left and an arithmetic shift-right of the second scratch register (the extracted
field) by the shift-amount register and then the signed branch `BGE` to the loop-tail
block, taken when field >= operand for max and when operand >= field for min; for the
unsigned variants it is followed directly by the unsigned branch `BGEU`, taken when
field >= operand for umax and when operand >= field for umin. -/
theorem minmax_compare (MF MF' : MachineFunction) (k j : Nat) (op : AtomicRMWInst.BinOp)
    (m : Bool) (w : Nat) (h : expandAtomicMinMaxOp MF k j op m w = .ok MF') :
    ∃ MBB MI Dest S1 S2 Incr Head LoopTail Pre Cmp,
      MF.blocks[k]? = some MBB ∧ MBB.insts[j]? = some MI ∧
      MI.getReg 0 = .ok Dest ∧ MI.getReg 1 = .ok S1 ∧ MI.getReg 2 = .ok S2 ∧
      MI.getReg 4 = .ok Incr ∧
      MF'.blocks[k + 1]? = some Head ∧ MF'.blocks[k + 3]? = some LoopTail ∧
      Head.insts = Pre ++ ⟨Opcode.OR, [MachineOperand.Reg S1 true, MachineOperand.Reg Dest false,
        MachineOperand.Reg R0 false]⟩ :: Cmp ∧
      (∀ X ∈ Pre, X.opcode ≠ Opcode.SLL_W ∧ X.opcode ≠ Opcode.SRA_W ∧ X.opcode ≠ Opcode.BGE ∧
        X.opcode ≠ Opcode.BGEU) ∧
      (op = AtomicRMWInst.BinOp.Max ∨ op = AtomicRMWInst.BinOp.Min ∨
        op = AtomicRMWInst.BinOp.UMax ∨ op = AtomicRMWInst.BinOp.UMin) ∧
      (op = AtomicRMWInst.BinOp.Max → ∃ Shamt, MI.getReg 6 = .ok Shamt ∧
        Cmp = [⟨Opcode.SLL_W, [MachineOperand.Reg S2 true, MachineOperand.Reg S2 false,
                  MachineOperand.Reg Shamt false]⟩,
               ⟨Opcode.SRA_W, [MachineOperand.Reg S2 true, MachineOperand.Reg S2 false,
                  MachineOperand.Reg Shamt false]⟩,
               ⟨Opcode.BGE, [MachineOperand.Reg S2 false, MachineOperand.Reg Incr false,
                  MachineOperand.MBB LoopTail.number]⟩] ∧
        ∀ s : MachineState, execInst s ⟨Opcode.BGE, [MachineOperand.Reg S2 false,
            MachineOperand.Reg Incr false, MachineOperand.MBB LoopTail.number]⟩ =
          some (s, if toSigned32 (s.regs.read Incr) ≤ toSigned32 (s.regs.read S2)
            then some LoopTail.number else none)) ∧
      (op = AtomicRMWInst.BinOp.Min → ∃ Shamt, MI.getReg 6 = .ok Shamt ∧
        Cmp = [⟨Opcode.SLL_W, [MachineOperand.Reg S2 true, MachineOperand.Reg S2 false,
                  MachineOperand.Reg Shamt false]⟩,
               ⟨Opcode.SRA_W, [MachineOperand.Reg S2 true, MachineOperand.Reg S2 false,
                  MachineOperand.Reg Shamt false]⟩,
               ⟨Opcode.BGE, [MachineOperand.Reg Incr false, MachineOperand.Reg S2 false,
                  MachineOperand.MBB LoopTail.number]⟩] ∧
        ∀ s : MachineState, execInst s ⟨Opcode.BGE, [MachineOperand.Reg Incr false,
            MachineOperand.Reg S2 false, MachineOperand.MBB LoopTail.number]⟩ =
          some (s, if toSigned32 (s.regs.read S2) ≤ toSigned32 (s.regs.read Incr)
            then some LoopTail.number else none)) ∧
      (op = AtomicRMWInst.BinOp.UMax →
        Cmp = [⟨Opcode.BGEU, [MachineOperand.Reg S2 false, MachineOperand.Reg Incr false,
                  MachineOperand.MBB LoopTail.number]⟩] ∧
        ∀ s : MachineState, execInst s ⟨Opcode.BGEU, [MachineOperand.Reg S2 false,
            MachineOperand.Reg Incr false, MachineOperand.MBB LoopTail.number]⟩ =
          some (s, if s.regs.read Incr ≤ s.regs.read S2 then some LoopTail.number else none)) ∧
      (op = AtomicRMWInst.BinOp.UMin →
        Cmp = [⟨Opcode.BGEU, [MachineOperand.Reg Incr false, MachineOperand.Reg S2 false,
                  MachineOperand.MBB LoopTail.number]⟩] ∧
        ∀ s : MachineState, execInst s ⟨Opcode.BGEU, [MachineOperand.Reg Incr false,
            MachineOperand.Reg S2 false, MachineOperand.MBB LoopTail.number]⟩ =
          some (s, if s.regs.read S2 ≤ s.regs.read Incr then some LoopTail.number else none)) := by
  obtain ⟨MBB, MI, Dest, S1, S2, Addr, Incr, Mask, B', Head, IfBody, LoopTail, Tail, Done, cmp,
    -, -, hB, hI, h0, h1, h2, h3, h4, h5, -, -, -, hMF, hB', hHn, -, hHi, hcmp,
    hIn, -, hIi, hLn, -, hLi, -⟩ := expandAtomicMinMaxOp_ok h
  have hblocks : MF'.blocks = MF.blocks.take k ++
      [B', Head, IfBody, LoopTail, Tail, Done] ++ MF.blocks.drop (k + 1) := by
    rw [hMF]
    simp
  have hiH : MF'.blocks[k + 1]? = some Head := by
    rw [hblocks, getElem?_layout hB]; simp
  have hiL : MF'.blocks[k + 3]? = some LoopTail := by
    rw [hblocks, getElem?_layout hB]; simp
  have hsplit : Head.insts =
      [⟨Opcode.DBAR, [MachineOperand.Imm 0]⟩,
       ⟨Opcode.LL_W, [MachineOperand.Reg Dest true, MachineOperand.Reg Addr false,
         MachineOperand.Imm 0]⟩,
       ⟨Opcode.AND, [MachineOperand.Reg S2 true, MachineOperand.Reg Dest false,
         MachineOperand.Reg Mask false]⟩] ++
      ⟨Opcode.OR, [MachineOperand.Reg S1 true, MachineOperand.Reg Dest false,
        MachineOperand.Reg R0 false]⟩ :: cmp := by
    rw [hHi]; rfl
  refine ⟨MBB, MI, Dest, S1, S2, Incr, Head, LoopTail, _, cmp, hB, hI, h0, h1, h2, h4, hiH, hiL,
    hsplit, ?_, ?_, ?_, ?_, ?_, ?_⟩
  · intro X hX
    simp only [List.mem_cons, List.mem_singleton, List.not_mem_nil, or_false] at hX
    rcases hX with rfl | rfl | rfl <;> simp
  · cases op <;> simp at hcmp ⊢
  · rintro rfl
    obtain ⟨Shamt, h6, hc⟩ := hcmp
    exact ⟨Shamt, h6, by rw [hc, hLn], fun s => rfl⟩
  · rintro rfl
    obtain ⟨Shamt, h6, hc⟩ := hcmp
    exact ⟨Shamt, h6, by rw [hc, hLn], fun s => rfl⟩
  · rintro rfl
    exact ⟨by rw [hLn]; exact hcmp, fun s => rfl⟩
  · rintro rfl
    exact ⟨by rw [hLn]; exact hcmp, fun s => rfl⟩

/-- Witness for C21, on the masked signed max of `exampleSignedMaxMF`, whose head block
ends with the shifts of register 14 by register 16 and `BGE 14, 13` to block 3. -/
theorem minmax_compare_witness :
    ∃ MF', expandAtomicMinMaxOp exampleSignedMaxMF 0 0 AtomicRMWInst.BinOp.Max true 32 = .ok MF' ∧
    (∃ Head, MF'.blocks[0 + 1]? = some Head ∧
      Head.insts.drop 4 =
        [⟨Opcode.SLL_W, [MachineOperand.Reg 14 true, MachineOperand.Reg 14 false,
            MachineOperand.Reg 16 false]⟩,
         ⟨Opcode.SRA_W, [MachineOperand.Reg 14 true, MachineOperand.Reg 14 false,
            MachineOperand.Reg 16 false]⟩,
         ⟨Opcode.BGE, [MachineOperand.Reg 14 false, MachineOperand.Reg 13 false,
            MachineOperand.MBB 3]⟩]) ∧
    ∃ MBB MI Dest S1 S2 Incr Head LoopTail Pre Cmp,
      exampleSignedMaxMF.blocks[0]? = some MBB ∧ MBB.insts[0]? = some MI ∧
      MI.getReg 0 = .ok Dest ∧ MI.getReg 1 = .ok S1 ∧ MI.getReg 2 = .ok S2 ∧
      MI.getReg 4 = .ok Incr ∧
      MF'.blocks[0 + 1]? = some Head ∧ MF'.blocks[0 + 3]? = some LoopTail ∧
      Head.insts = Pre ++ ⟨Opcode.OR, [MachineOperand.Reg S1 true, MachineOperand.Reg Dest false,
        MachineOperand.Reg R0 false]⟩ :: Cmp ∧
      (∀ X ∈ Pre, X.opcode ≠ Opcode.SLL_W ∧ X.opcode ≠ Opcode.SRA_W ∧ X.opcode ≠ Opcode.BGE ∧
        X.opcode ≠ Opcode.BGEU) ∧
      (AtomicRMWInst.BinOp.Max = AtomicRMWInst.BinOp.Max ∨ AtomicRMWInst.BinOp.Max = AtomicRMWInst.BinOp.Min ∨
        AtomicRMWInst.BinOp.Max = AtomicRMWInst.BinOp.UMax ∨ AtomicRMWInst.BinOp.Max = AtomicRMWInst.BinOp.UMin) ∧
      (AtomicRMWInst.BinOp.Max = AtomicRMWInst.BinOp.Max → ∃ Shamt, MI.getReg 6 = .ok Shamt ∧
        Cmp = [⟨Opcode.SLL_W, [MachineOperand.Reg S2 true, MachineOperand.Reg S2 false,
                  MachineOperand.Reg Shamt false]⟩,
               ⟨Opcode.SRA_W, [MachineOperand.Reg S2 true, MachineOperand.Reg S2 false,
                  MachineOperand.Reg Shamt false]⟩,
               ⟨Opcode.BGE, [MachineOperand.Reg S2 false, MachineOperand.Reg Incr false,
                  MachineOperand.MBB LoopTail.number]⟩] ∧
        ∀ s : MachineState, execInst s ⟨Opcode.BGE, [MachineOperand.Reg S2 false,
            MachineOperand.Reg Incr false, MachineOperand.MBB LoopTail.number]⟩ =
          some (s, if toSigned32 (s.regs.read Incr) ≤ toSigned32 (s.regs.read S2)
            then some LoopTail.number else none)) ∧
      (AtomicRMWInst.BinOp.Max = AtomicRMWInst.BinOp.Min → ∃ Shamt, MI.getReg 6 = .ok Shamt ∧
        Cmp = [⟨Opcode.SLL_W, [MachineOperand.Reg S2 true, MachineOperand.Reg S2 false,
                  MachineOperand.Reg Shamt false]⟩,
               ⟨Opcode.SRA_W, [MachineOperand.Reg S2 true, MachineOperand.Reg S2 false,
                  MachineOperand.Reg Shamt false]⟩,
               ⟨Opcode.BGE, [MachineOperand.Reg Incr false, MachineOperand.Reg S2 false,
                  MachineOperand.MBB LoopTail.number]⟩] ∧
        ∀ s : MachineState, execInst s ⟨Opcode.BGE, [MachineOperand.Reg Incr false,
            MachineOperand.Reg S2 false, MachineOperand.MBB LoopTail.number]⟩ =
          some (s, if toSigned32 (s.regs.read S2) ≤ toSigned32 (s.regs.read Incr)
            then some LoopTail.number else none)) ∧
      (AtomicRMWInst.BinOp.Max = AtomicRMWInst.BinOp.UMax →
        Cmp = [⟨Opcode.BGEU, [MachineOperand.Reg S2 false, MachineOperand.Reg Incr false,
                  MachineOperand.MBB LoopTail.number]⟩] ∧
        ∀ s : MachineState, execInst s ⟨Opcode.BGEU, [MachineOperand.Reg S2 false,
            MachineOperand.Reg Incr false, MachineOperand.MBB LoopTail.number]⟩ =
          some (s, if s.regs.read Incr ≤ s.regs.read S2 then some LoopTail.number else none)) ∧
      (AtomicRMWInst.BinOp.Max = AtomicRMWInst.BinOp.UMin →
        Cmp = [⟨Opcode.BGEU, [MachineOperand.Reg Incr false, MachineOperand.Reg S2 false,
                  MachineOperand.MBB LoopTail.number]⟩] ∧
        ∀ s : MachineState, execInst s ⟨Opcode.BGEU, [MachineOperand.Reg Incr false,
            MachineOperand.Reg S2 false, MachineOperand.MBB LoopTail.number]⟩ =
          some (s, if s.regs.read S2 ≤ s.regs.read Incr then some LoopTail.number else none)) :=
  ⟨_, rfl, ⟨_, rfl, rfl⟩,
    minmax_compare exampleSignedMaxMF _ 0 0 AtomicRMWInst.BinOp.Max true 32 rfl⟩

/-- Claim C23.  `expandMI` expands the full-word compare-and-exchange pseudos with
`IsMasked = false` and width 32 (`PseudoCmpXchg32`) or 64 (`PseudoCmpXchg64`).  In every
such expansion, whatever the ordering operand, the head block is exactly the load-linked of
that width into the destination from the address and `BNE destination, expected` to the
post-tail block; the tail block is exactly the fence `DBAR 0`, the copy of the new value
into the scratch register (`OR` with the zero register), the store-conditional of that
width of the scratch register to the address, `BEQZ scratch` to the head block, and the
unconditional branch to `done`. -/
theorem unmasked_cmpxchg_blocks (MF : MachineFunction) (k j : Nat) (B : MachineBasicBlock)
    (MI : MachineInstr) (hB : MF.blocks[k]? = some B) (hI : B.insts[j]? = some MI) :
    (MI.opcode = Opcode.PseudoCmpXchg32 →
      expandMI MF k j = some <$> expandAtomicCmpXchg MF k j false 32) ∧
    (MI.opcode = Opcode.PseudoCmpXchg64 →
      expandMI MF k j = some <$> expandAtomicCmpXchg MF k j false 64) ∧
    (∀ w MF', expandAtomicCmpXchg MF k j false w = .ok MF' →
      ∃ Dest Scratch Addr CmpVal NewVal Head Tail PostTail Done,
        MI.getReg 0 = .ok Dest ∧ MI.getReg 1 = .ok Scratch ∧ MI.getReg 2 = .ok Addr ∧
        MI.getReg 3 = .ok CmpVal ∧ MI.getReg 4 = .ok NewVal ∧
        MF'.blocks[k + 1]? = some Head ∧ MF'.blocks[k + 2]? = some Tail ∧
        MF'.blocks[k + 3]? = some PostTail ∧ MF'.blocks[k + 4]? = some Done ∧
        MF'.blocks.length = MF.blocks.length + 4 ∧
        Head.insts =
          [⟨if w = 32 then Opcode.LL_W else Opcode.LL_D,
             [MachineOperand.Reg Dest true, MachineOperand.Reg Addr false, MachineOperand.Imm 0]⟩,
           ⟨Opcode.BNE, [MachineOperand.Reg Dest false, MachineOperand.Reg CmpVal false,
             MachineOperand.MBB PostTail.number]⟩] ∧
        Tail.insts =
          [⟨Opcode.DBAR, [MachineOperand.Imm 0]⟩,
           ⟨Opcode.OR, [MachineOperand.Reg Scratch true, MachineOperand.Reg NewVal false,
             MachineOperand.Reg R0 false]⟩,
           ⟨if w = 32 then Opcode.SC_W else Opcode.SC_D,
             [MachineOperand.Reg Scratch true, MachineOperand.Reg Scratch false,
              MachineOperand.Reg Addr false, MachineOperand.Imm 0]⟩,
           ⟨Opcode.BEQZ, [MachineOperand.Reg Scratch false, MachineOperand.MBB Head.number]⟩,
           ⟨Opcode.B, [MachineOperand.MBB Done.number]⟩]) := by
  refine ⟨?_, ?_, ?_⟩
  · intro ho
    simp only [expandMI, hB, hI, ho]
  · intro ho
    simp only [expandMI, hB, hI, ho]
  · intro w MF' h
    obtain ⟨MBB, MI', Dest, Scratch, Addr, CmpVal, NewVal, B', Head, LoopTail, Tail, Done,
      hB1, hI1, h0, h1, h2, h3, h4, hMF, hB', hHn, hHs, hLn, hLs, hTn, hTs, hTi, hDn, hDi, hDs,
      hm⟩ := expandAtomicCmpXchg_ok h
    rw [hB] at hB1; cases hB1
    rw [hI] at hI1; cases hI1
    simp only [Bool.false_eq_true, if_false] at hm
    obtain ⟨hHi, hLi⟩ := hm
    have hblocks : MF'.blocks = MF.blocks.take k ++
        [B', Head, LoopTail, Tail, Done] ++ MF.blocks.drop (k + 1) := by
      rw [hMF]
      simp
    have hk := lt_length_of_getElem? hB
    refine ⟨Dest, Scratch, Addr, CmpVal, NewVal, Head, LoopTail, Tail, Done, h0, h1, h2, h3, h4,
      ?_, ?_, ?_, ?_, ?_, ?_, ?_⟩
    · rw [hblocks, getElem?_layout hB]; simp
    · rw [hblocks, getElem?_layout hB]; simp
    · rw [hblocks, getElem?_layout hB]; simp
    · rw [hblocks, getElem?_layout hB]; simp
    · rw [hblocks]
      simp only [List.length_append, List.length_take, List.length_drop, List.length_cons,
        List.length_nil]
      omega
    · rw [hHi, hTn]
    · rw [hLi, hHn, hDn]

/-- Witness for C23, on the 64-bit compare-and-exchange of `exampleCmpXchg64MF`, which
`expandMI` expands to a head block of `LL_D`, `BNE` and a tail block of five instructions
around `SC_D`. -/
theorem unmasked_cmpxchg_blocks_witness :
    ∃ B MI, exampleCmpXchg64MF.blocks[0]? = some B ∧ B.insts[0]? = some MI ∧
    (∃ MF' Head Tail, expandMI exampleCmpXchg64MF 0 0 = .ok (some MF') ∧
      MF'.blocks[1]? = some Head ∧ MF'.blocks[2]? = some Tail ∧
      Head.insts.map (fun X => X.opcode) = [Opcode.LL_D, Opcode.BNE] ∧
      Tail.insts.map (fun X => X.opcode) =
        [Opcode.DBAR, Opcode.OR, Opcode.SC_D, Opcode.BEQZ, Opcode.B]) ∧
    (MI.opcode = Opcode.PseudoCmpXchg32 →
      expandMI exampleCmpXchg64MF 0 0 = some <$> expandAtomicCmpXchg exampleCmpXchg64MF 0 0 false 32) ∧
    (MI.opcode = Opcode.PseudoCmpXchg64 →
      expandMI exampleCmpXchg64MF 0 0 = some <$> expandAtomicCmpXchg exampleCmpXchg64MF 0 0 false 64) ∧
    (∀ w MF', expandAtomicCmpXchg exampleCmpXchg64MF 0 0 false w = .ok MF' →
      ∃ Dest Scratch Addr CmpVal NewVal Head Tail PostTail Done,
        MI.getReg 0 = .ok Dest ∧ MI.getReg 1 = .ok Scratch ∧ MI.getReg 2 = .ok Addr ∧
        MI.getReg 3 = .ok CmpVal ∧ MI.getReg 4 = .ok NewVal ∧
        MF'.blocks[0 + 1]? = some Head ∧ MF'.blocks[0 + 2]? = some Tail ∧
        MF'.blocks[0 + 3]? = some PostTail ∧ MF'.blocks[0 + 4]? = some Done ∧
        MF'.blocks.length = exampleCmpXchg64MF.blocks.length + 4 ∧
        Head.insts =
          [⟨if w = 32 then Opcode.LL_W else Opcode.LL_D,
             [MachineOperand.Reg Dest true, MachineOperand.Reg Addr false, MachineOperand.Imm 0]⟩,
           ⟨Opcode.BNE, [MachineOperand.Reg Dest false, MachineOperand.Reg CmpVal false,
             MachineOperand.MBB PostTail.number]⟩] ∧
        Tail.insts =
          [⟨Opcode.DBAR, [MachineOperand.Imm 0]⟩,
           ⟨Opcode.OR, [MachineOperand.Reg Scratch true, MachineOperand.Reg NewVal false,
             MachineOperand.Reg R0 false]⟩,
           ⟨if w = 32 then Opcode.SC_W else Opcode.SC_D,
             [MachineOperand.Reg Scratch true, MachineOperand.Reg Scratch false,
              MachineOperand.Reg Addr false, MachineOperand.Imm 0]⟩,
           ⟨Opcode.BEQZ, [MachineOperand.Reg Scratch false, MachineOperand.MBB Head.number]⟩,
           ⟨Opcode.B, [MachineOperand.MBB Done.number]⟩]) :=
  ⟨_, _, rfl, rfl, ⟨_, _, _, rfl, rfl, rfl, rfl, rfl⟩,
    unmasked_cmpxchg_blocks exampleCmpXchg64MF 0 0 _ _ rfl rfl⟩

/-- Claim C30.  When `runOnMachineFunction` returns, it returns `true` if and only if the
function held at least one atomic pseudo instruction before the run.  On a function that
holds none the pass returns `false` and the function itself, so every instruction list,
every successor list and the block order are as they were. -/
theorem runOnMachineFunction_modified_iff (MF : MachineFunction) :
    (∀ MF' Modified, runOnMachineFunction MF = .ok (MF', Modified) →
      (Modified = true ↔
        ∃ MBB ∈ MF.blocks, ∃ MI ∈ MBB.insts, isAtomicPseudo MI.opcode = true)) ∧
    ((∀ MBB ∈ MF.blocks, ∀ MI ∈ MBB.insts, isAtomicPseudo MI.opcode = false) →
      runOnMachineFunction MF = .ok (MF, false)) := by
  refine ⟨?_, ?_⟩
  · intro MF' Modified h
    have hs := runOnMachineFunction_loop_spec _ MF 0 false MF' Modified h (Nat.zero_le _)
      (by intro b hb; simp at hb) (by simp)
    obtain ⟨-, hM, -⟩ := hs
    simp only [List.drop_zero, Bool.false_or] at hM
    rw [hM]
    simp only [decide_eq_true_eq, ne_eq, numPseudos_eq_zero_iff, noPseudo]
    constructor
    · intro hn
      by_contra hc
      apply hn
      intro MBB hMBB MI hMI
      cases hp : isAtomicPseudo MI.opcode with
      | false => rfl
      | true => exact absurd ⟨MBB, hMBB, MI, hMI, hp⟩ hc
    · rintro ⟨MBB, hMBB, MI, hMI, hp⟩ hn
      rw [hn MBB hMBB MI hMI] at hp
      cases hp
  · intro hc
    exact runOnMachineFunction_loop_of_noPseudo hc _ _ _

/-- Witness for C30: the pass returns `true` on `exampleMF`, which holds the atomic add at
position 1 of block 0, and returns `false` and the function unchanged on the expanded
function, which holds no pseudo. -/
theorem runOnMachineFunction_modified_iff_witness :
    ∃ MF', runOnMachineFunction exampleMF = .ok (MF', true) ∧
      (true = true ↔
        ∃ MBB ∈ exampleMF.blocks, ∃ MI ∈ MBB.insts, isAtomicPseudo MI.opcode = true) ∧
      (∀ MBB ∈ MF'.blocks, ∀ MI ∈ MBB.insts, isAtomicPseudo MI.opcode = false) ∧
      runOnMachineFunction MF' = .ok (MF', false) :=
  ⟨_, rfl, (runOnMachineFunction_modified_iff exampleMF).1 _ _ rfl, by decide,
    (runOnMachineFunction_modified_iff _).2 (by decide)⟩

/-- Claim C24.  For every atomic pseudo, the call `expandMI` makes is a supported one:
a masked binary read-modify-write with width 32 and exchange, add, sub or nand; a full-word
one with one of its seven operations; min/max with `IsMasked = true`, width 32 and umax,
umin, max or min; compare-and-exchange with width 32 when masked.  Hence a fatal exit of
`expandMI` is never the "Unexpected AtomicRMW BinOp" default nor the width or masked
assertion. -/
theorem expandMI_no_dispatch_fatal (MF : MachineFunction) (k j : Nat) (B : MachineBasicBlock)
    (MI : MachineInstr) (hB : MF.blocks[k]? = some B) (hI : B.insts[j]? = some MI) :
    (isAtomicPseudo MI.opcode = true →
      ∃ E : Expander, E.supported ∧ expandMI MF k j = some <$> E.run MF k j) ∧
    (∀ e, expandMI MF k j = .error e →
      e ≠ Fatal.unexpectedBinOp ∧ e ≠ Fatal.masked64 ∧ e ≠ Fatal.unmaskedMinMax) := by
  refine ⟨expandMI_dispatch hB hI, ?_⟩
  intro e he
  have hd : e.isDispatchFatal = false := by
    cases hp : isAtomicPseudo MI.opcode with
    | false =>
      rw [expandMI_of_not_pseudo hB hI hp] at he
      cases he
    | true =>
      obtain ⟨E, hs, hrun⟩ := expandMI_dispatch hB hI hp
      rw [hrun, map_eq_error] at he
      exact Expander.run_error_supported hs he
  refine ⟨?_, ?_, ?_⟩ <;> rintro rfl <;> cases hd

/-- Witness for C24, on the signed max of `exampleTagFirstMaxMF`, whose expansion is fatal
because operand 6 is not a register. -/
theorem expandMI_no_dispatch_fatal_witness :
    ∃ B MI, exampleTagFirstMaxMF.blocks[0]? = some B ∧ B.insts[0]? = some MI ∧
      isAtomicPseudo MI.opcode = true ∧
      expandMI exampleTagFirstMaxMF 0 0 = .error Fatal.badOperand ∧
      (isAtomicPseudo MI.opcode = true →
        ∃ E : Expander, E.supported ∧
          expandMI exampleTagFirstMaxMF 0 0 = some <$> E.run exampleTagFirstMaxMF 0 0) ∧
      (∀ e, expandMI exampleTagFirstMaxMF 0 0 = .error e →
        e ≠ Fatal.unexpectedBinOp ∧ e ≠ Fatal.masked64 ∧ e ≠ Fatal.unmaskedMinMax) :=
  ⟨_, _, rfl, rfl, rfl, rfl, expandMI_no_dispatch_fatal exampleTagFirstMaxMF 0 0 _ _ rfl rfl⟩

/-- Claim C22.  In the expansion of a masked compare-and-exchange pseudo the tail block is
the fence, `ANDN scratch, destination, mask`, `OR scratch, scratch, new value`, and then the
store-conditional that stores the scratch register.  With `old` the word in memory at the
address, `mask` and `n` the words in the mask and new-value registers, the comparison of
the head block succeeding, destination and scratch registers distinct (and, for the register
model, neither of them the zero register, the mask, the new-value or the comparison
register): the head block falls through to the tail block and the word in the scratch
register when the store-conditional is reached is `(old AND NOT mask) OR n`.  Hence, when
`n AND NOT mask = 0`, every bit outside the mask is the bit of `old` and the masked field
is `n`. -/
theorem masked_cmpxchg_stored_word (MF MF' : MachineFunction) (k j w : Nat)
    (h : expandAtomicCmpXchg MF k j true w = .ok MF') :
    ∃ MBB MI Dest Scratch Addr CmpVal NewVal Mask Head Tail SC Post,
      MF.blocks[k]? = some MBB ∧ MBB.insts[j]? = some MI ∧
      MI.getReg 0 = .ok Dest ∧ MI.getReg 1 = .ok Scratch ∧ MI.getReg 2 = .ok Addr ∧
      MI.getReg 3 = .ok CmpVal ∧ MI.getReg 4 = .ok NewVal ∧ MI.getReg 5 = .ok Mask ∧
      MF'.blocks[k + 1]? = some Head ∧ MF'.blocks[k + 2]? = some Tail ∧
      Tail.insts =
        [⟨Opcode.DBAR, [MachineOperand.Imm 0]⟩,
         ⟨Opcode.ANDN, [MachineOperand.Reg Scratch true, MachineOperand.Reg Dest false,
           MachineOperand.Reg Mask false]⟩,
         ⟨Opcode.OR, [MachineOperand.Reg Scratch true, MachineOperand.Reg Scratch false,
           MachineOperand.Reg NewVal false]⟩] ++ SC :: Post ∧
      isStoreConditional SC.opcode = true ∧
      SC.operands = [MachineOperand.Reg Scratch true, MachineOperand.Reg Scratch false,
        MachineOperand.Reg Addr false, MachineOperand.Imm 0] ∧
      ∀ (s : MachineState) (old mask n : Nat),
        s.mem (effectiveAddress s.regs Addr 0) = old → old < 2 ^ 32 →
        s.regs.read Mask = mask → s.regs.read NewVal = n →
        old &&& mask = s.regs.read CmpVal →
        Dest ≠ Scratch → Dest ≠ R0 → Scratch ≠ R0 → Dest ≠ Mask → Scratch ≠ Mask →
        NewVal ≠ Dest → NewVal ≠ Scratch → CmpVal ≠ Dest → CmpVal ≠ Scratch →
        ∃ s1 s2,
          execBlock s Head.insts = some (s1, none, Head.insts) ∧
          execBlock s1
            [⟨Opcode.DBAR, [MachineOperand.Imm 0]⟩,
             ⟨Opcode.ANDN, [MachineOperand.Reg Scratch true, MachineOperand.Reg Dest false,
               MachineOperand.Reg Mask false]⟩,
             ⟨Opcode.OR, [MachineOperand.Reg Scratch true, MachineOperand.Reg Scratch false,
               MachineOperand.Reg NewVal false]⟩] =
            some (s2, none,
              [⟨Opcode.DBAR, [MachineOperand.Imm 0]⟩,
               ⟨Opcode.ANDN, [MachineOperand.Reg Scratch true, MachineOperand.Reg Dest false,
                 MachineOperand.Reg Mask false]⟩,
               ⟨Opcode.OR, [MachineOperand.Reg Scratch true, MachineOperand.Reg Scratch false,
                 MachineOperand.Reg NewVal false]⟩]) ∧
          s2.regs.read Scratch = (old &&& not32 mask) ||| n ∧
          (n &&& not32 mask = 0 →
            (∀ i, mask.testBit i = false →
              (s2.regs.read Scratch).testBit i = old.testBit i) ∧
            s2.regs.read Scratch &&& mask = n) := by
  obtain ⟨MBB, MI, Dest, Scratch, Addr, CmpVal, NewVal, B', Head, LoopTail, Tail, Done,
    hB, hI, h0, h1, h2, h3, h4, hMF, hB', hHn, hHs, hLn, hLs, hTn, hTs, hTi, hDn, hDi, hDs, hm⟩ :=
    expandAtomicCmpXchg_ok h
  simp only [if_true] at hm
  obtain ⟨Mask, h5, hHi, hLi⟩ := hm
  have hblocks : MF'.blocks = MF.blocks.take k ++
      [B', Head, LoopTail, Tail, Done] ++ MF.blocks.drop (k + 1) := by
    rw [hMF]
    simp
  have hiH : MF'.blocks[k + 1]? = some Head := by
    rw [hblocks, getElem?_layout hB]; simp
  have hiL : MF'.blocks[k + 2]? = some LoopTail := by
    rw [hblocks, getElem?_layout hB]; simp
  refine ⟨MBB, MI, Dest, Scratch, Addr, CmpVal, NewVal, Mask, Head, LoopTail, _, _, hB, hI, h0, h1,
    h2, h3, h4, h5, hiH, hiL, hLi, ?_, rfl, ?_⟩
  · by_cases hw : w = 32 <;> simp [hw, isStoreConditional]
  intro s old mask n hold hold32 hmask hn hcmp dS d0 s0 dM sM nD nS cD cS
  have hn32 : n < 2 ^ 32 := hn ▸ s.regs.read_lt NewVal
  have hm32 : mask < 2 ^ 32 := hmask ▸ s.regs.read_lt Mask
  have hand : old &&& mask < 2 ^ 32 := Nat.and_lt_two_pow _ hm32
  have handn : old &&& not32 mask < 2 ^ 32 := Nat.and_lt_two_pow _ (not32_lt mask)
  -- the registers after the head block
  have r1d : (s.regs.write Dest old).read Dest = old := RegFile.read_write_same _ _ _ d0 hold32
  have r1m : (s.regs.write Dest old).read Mask = mask := by
    rw [RegFile.read_write_other _ _ _ _ (fun e => dM e.symm), hmask]
  have hc : ¬ ((s.regs.write Dest old).write Scratch (old &&& mask)).read Scratch ≠
      ((s.regs.write Dest old).write Scratch (old &&& mask)).read CmpVal := by
    rw [RegFile.read_write_same _ _ _ s0 hand, RegFile.read_write_other _ _ _ _ cS,
      RegFile.read_write_other _ _ _ _ cD]
    exact fun hne => hne hcmp
  have q1 : ((s.regs.write Dest old).write Scratch (old &&& mask)).read Dest = old := by
    rw [RegFile.read_write_other _ _ _ _ dS, r1d]
  have q2 : ((s.regs.write Dest old).write Scratch (old &&& mask)).read Mask = mask := by
    rw [RegFile.read_write_other _ _ _ _ (fun e => sM e.symm), r1m]
  have q3 : ∀ V, (((s.regs.write Dest old).write Scratch (old &&& mask)).write Scratch V).read
      NewVal = n := by
    intro V
    rw [RegFile.read_write_other _ _ _ _ nS, RegFile.read_write_other _ _ _ _ nS,
      RegFile.read_write_other _ _ _ _ nD, hn]
  have q4 : (((s.regs.write Dest old).write Scratch (old &&& mask)).write Scratch
      (old &&& not32 mask)).read Scratch = old &&& not32 mask :=
    RegFile.read_write_same _ _ _ s0 handn
  have hor : (old &&& not32 mask) ||| n < 2 ^ 32 := Nat.or_lt_two_pow handn hn32
  refine ⟨{ s with regs := (s.regs.write Dest old).write Scratch (old &&& mask) },
    { s with regs := (((s.regs.write Dest old).write Scratch (old &&& mask)).write Scratch
      (old &&& not32 mask)).write Scratch ((old &&& not32 mask) ||| n) }, ?_, ?_, ?_, ?_⟩
  · rw [hHi]
    simp only [execBlock, execInst_LL, execInst_AND, execInst_BNE, hold, r1d, r1m, if_neg hc,
      Option.map_some']
  · simp only [execBlock, execInst_DBAR, execInst_ANDN, execInst_OR, q1, q2, q3, q4,
      Option.map_some']
  · exact RegFile.read_write_same _ _ _ s0 hor
  · intro hz
    have hrd : (((((s.regs.write Dest old).write Scratch (old &&& mask)).write Scratch
        (old &&& not32 mask)).write Scratch ((old &&& not32 mask) ||| n))).read Scratch =
        (old &&& not32 mask) ||| n := RegFile.read_write_same _ _ _ s0 hor
    refine ⟨fun i hi => ?_, ?_⟩
    · show (RegFile.read _ Scratch).testBit i = _
      rw [hrd]
      exact or_outside_of_and_not32 old n mask hold32 hn32 hm32 hz i hi
    · show RegFile.read _ Scratch &&& mask = n
      rw [hrd]
      exact or_field_of_and_not32 old n mask hn32 hm32 hz

/-- Witness for C22, on the masked compare-and-exchange of `exampleMF`; and a run of its
head block and of the tail block up to the store-conditional with 7 in memory, 115 in the
mask register, 3 in the comparison register and 114 in the new-value register, which leaves
`(7 AND NOT 115) OR 114 = 118` in the scratch register. -/
theorem masked_cmpxchg_stored_word_witness :
    ∃ MF', expandAtomicCmpXchg exampleMF 1 0 true 32 = .ok MF' ∧
    (∃ Head Tail, MF'.blocks[2]? = some Head ∧ MF'.blocks[3]? = some Tail ∧
      (execBlock ⟨fun R => if R = 13 then 3 else R + 100, fun _ => 7, []⟩
        (Head.insts ++ Tail.insts.take 3)).map (fun r => (r.1.regs.read 11, r.2.1)) =
        some (118, none)) ∧
    ∃ MBB MI Dest Scratch Addr CmpVal NewVal Mask Head Tail SC Post,
      exampleMF.blocks[1]? = some MBB ∧ MBB.insts[0]? = some MI ∧
      MI.getReg 0 = .ok Dest ∧ MI.getReg 1 = .ok Scratch ∧ MI.getReg 2 = .ok Addr ∧
      MI.getReg 3 = .ok CmpVal ∧ MI.getReg 4 = .ok NewVal ∧ MI.getReg 5 = .ok Mask ∧
      MF'.blocks[1 + 1]? = some Head ∧ MF'.blocks[1 + 2]? = some Tail ∧
      Tail.insts =
        [⟨Opcode.DBAR, [MachineOperand.Imm 0]⟩,
         ⟨Opcode.ANDN, [MachineOperand.Reg Scratch true, MachineOperand.Reg Dest false,
           MachineOperand.Reg Mask false]⟩,
         ⟨Opcode.OR, [MachineOperand.Reg Scratch true, MachineOperand.Reg Scratch false,
           MachineOperand.Reg NewVal false]⟩] ++ SC :: Post ∧
      isStoreConditional SC.opcode = true ∧
      SC.operands = [MachineOperand.Reg Scratch true, MachineOperand.Reg Scratch false,
        MachineOperand.Reg Addr false, MachineOperand.Imm 0] ∧
      ∀ (s : MachineState) (old mask n : Nat),
        s.mem (effectiveAddress s.regs Addr 0) = old → old < 2 ^ 32 →
        s.regs.read Mask = mask → s.regs.read NewVal = n →
        old &&& mask = s.regs.read CmpVal →
        Dest ≠ Scratch → Dest ≠ R0 → Scratch ≠ R0 → Dest ≠ Mask → Scratch ≠ Mask →
        NewVal ≠ Dest → NewVal ≠ Scratch → CmpVal ≠ Dest → CmpVal ≠ Scratch →
        ∃ s1 s2,
          execBlock s Head.insts = some (s1, none, Head.insts) ∧
          execBlock s1
            [⟨Opcode.DBAR, [MachineOperand.Imm 0]⟩,
             ⟨Opcode.ANDN, [MachineOperand.Reg Scratch true, MachineOperand.Reg Dest false,
               MachineOperand.Reg Mask false]⟩,
             ⟨Opcode.OR, [MachineOperand.Reg Scratch true, MachineOperand.Reg Scratch false,
               MachineOperand.Reg NewVal false]⟩] =
            some (s2, none,
              [⟨Opcode.DBAR, [MachineOperand.Imm 0]⟩,
               ⟨Opcode.ANDN, [MachineOperand.Reg Scratch true, MachineOperand.Reg Dest false,
                 MachineOperand.Reg Mask false]⟩,
               ⟨Opcode.OR, [MachineOperand.Reg Scratch true, MachineOperand.Reg Scratch false,
                 MachineOperand.Reg NewVal false]⟩]) ∧
          s2.regs.read Scratch = (old &&& not32 mask) ||| n ∧
          (n &&& not32 mask = 0 →
            (∀ i, mask.testBit i = false →
              (s2.regs.read Scratch).testBit i = old.testBit i) ∧
            s2.regs.read Scratch &&& mask = n) :=
  ⟨_, rfl, ⟨_, _, rfl, rfl, rfl⟩, masked_cmpxchg_stored_word exampleMF _ 1 0 32 rfl⟩

/-- Claim C25.  After every expansion, each block the expansion created (the blocks laid
out between the cut block and the rest of the function, `done` included) has a live-in
list that holds every register that an instruction of the block reads while no earlier
instruction of the block defines it. -/
theorem liveIns_cover_upward_exposed_uses (E : Expander) (MF MF' : MachineFunction)
    (k j : Nat) (h : E.run MF k j = .ok MF') :
    ∃ B' New, MF'.blocks = MF.blocks.take k ++ B' :: (New ++ MF.blocks.drop (k + 1)) ∧
      MF'.blocks.length = MF.blocks.length + New.length ∧
      ∀ X ∈ New, ∀ (i : Nat) (MI : MachineInstr) (R : Register),
        X.insts[i]? = some MI → R ∈ MI.uses →
        (∀ i' MI', i' < i → X.insts[i']? = some MI' → R ∉ MI'.defs) →
        R ∈ X.liveIns := by
  obtain ⟨B', New, hb, hl, hlive⟩ := Expander.run_liveIns h
  refine ⟨B', New, hb, hl, ?_⟩
  intro X hX i MI R hI hu hd
  obtain ⟨Outs, ho⟩ := hlive X hX
  rw [ho]
  exact mem_foldr_stepBackward Outs R X.insts i MI hI hu hd

/-- Witness for C25, on the full-word atomic add of `exampleMF`, whose loop block reads the
address register 12 and the value register 13 before any definition and lists both as
live-in. -/
theorem liveIns_cover_upward_exposed_uses_witness :
    ∃ MF', (Expander.binOp AtomicRMWInst.BinOp.Add false 32).run exampleMF 0 1 = .ok MF' ∧
    (MF'.blocks[1]?.map fun B => decide (12 ∈ B.liveIns ∧ 13 ∈ B.liveIns)) = some true ∧
    ∃ B' New, MF'.blocks = exampleMF.blocks.take 0 ++ B' :: (New ++ exampleMF.blocks.drop (0 + 1)) ∧
      MF'.blocks.length = exampleMF.blocks.length + New.length ∧
      ∀ X ∈ New, ∀ (i : Nat) (MI : MachineInstr) (R : Register),
        X.insts[i]? = some MI → R ∈ MI.uses →
        (∀ i' MI', i' < i → X.insts[i']? = some MI' → R ∉ MI'.defs) →
        R ∈ X.liveIns :=
  ⟨_, rfl, rfl, liveIns_cover_upward_exposed_uses
    (Expander.binOp AtomicRMWInst.BinOp.Add false 32) exampleMF _ 0 1 rfl⟩

/-- Claim C26.  In every expansion the registers that the emitted instructions define are
the destination register of the pseudo (operand 0) and its scratch register (operand 1;
for min/max also operand 2): the blocks the expansion fills hold exactly one load-linked,
which defines the destination and nothing else, and every other emitted instruction
defines scratch registers only.  So a register that is neither the destination nor a
scratch register (address, value, expected, new value, mask, shift amount) is defined by no
emitted instruction and keeps its word when an emitted instruction executes; and when the
destination is not a scratch register, no emitted instruction but the load-linked defines
it, so it keeps the loaded word while the other emitted instructions execute, one by one
or in any sequence. -/
theorem emitted_defs_are_dest_or_scratch (E : Expander) (MF MF' : MachineFunction)
    (k j : Nat) (h : E.run MF k j = .ok MF') :
    ∃ MBB MI B' Mid Done Dest S1 Scratches,
      MF.blocks[k]? = some MBB ∧ MBB.insts[j]? = some MI ∧
      MF'.blocks = MF.blocks.take k ++ B' :: (Mid ++ Done :: MF.blocks.drop (k + 1)) ∧
      B'.insts = MBB.insts.take j ∧ Done.insts = MBB.insts.drop (j + 1) ∧
      MI.getReg 0 = .ok Dest ∧ MI.getReg 1 = .ok S1 ∧
      (match E with
        | Expander.minMax _ _ _ => ∃ S2, MI.getReg 2 = .ok S2 ∧ Scratches = [S1, S2]
        | _ => Scratches = [S1]) ∧
      countInsts isLoadLinked Mid = 1 ∧
      (∀ B ∈ Mid, ∀ X ∈ B.insts,
        (isLoadLinked X.opcode = true → X.defs = [Dest]) ∧
        (isLoadLinked X.opcode = false → ∀ R ∈ X.defs, R ∈ Scratches)) ∧
      (∀ R, R ≠ Dest → R ∉ Scratches → ∀ B ∈ Mid, ∀ X ∈ B.insts,
        R ∉ X.defs ∧
        ∀ (s s' : MachineState) (t : Option Nat), execInst s X = some (s', t) →
          s'.regs.read R = s.regs.read R) ∧
      (Dest ∉ Scratches → ∀ B ∈ Mid, ∀ X ∈ B.insts, isLoadLinked X.opcode = false →
        Dest ∉ X.defs ∧
        ∀ (s s' : MachineState) (t : Option Nat), execInst s X = some (s', t) →
          s'.regs.read Dest = s.regs.read Dest) ∧
      (Dest ∉ Scratches → ∀ Xs : List MachineInstr,
        (∀ X ∈ Xs, isLoadLinked X.opcode = false ∧ ∃ B ∈ Mid, X ∈ B.insts) →
        ∀ s s' : MachineState,
          Xs.foldlM (fun s X => (execInst s X).map Prod.fst) s = some s' →
          s'.regs.read Dest = s.regs.read Dest) := by
  obtain ⟨MBB, MI, B', Mid, Done, Dest, S1, Scratches, hB, hI, hbl, hB', hD, h0, h1, hS, hcount,
    hP⟩ := Expander.run_defs h
  refine ⟨MBB, MI, B', Mid, Done, Dest, S1, Scratches, hB, hI, hbl, hB', hD, h0, h1, hS, hcount,
    hP, ?_, ?_, ?_⟩
  · intro R hRD hRS B hBm X hX
    obtain ⟨hl, hn⟩ := hP B hBm X hX
    have hnd : R ∉ X.defs := by
      intro hmem
      cases hll : isLoadLinked X.opcode with
      | true =>
        rw [hl hll] at hmem
        simp only [List.mem_singleton] at hmem
        exact hRD hmem
      | false => exact hRS (hn hll R hmem)
    exact ⟨hnd, fun s s' t hex => RegFile.read_congr (execInst_frame hex hnd)⟩
  · intro hDS B hBm X hX hll
    obtain ⟨-, hn⟩ := hP B hBm X hX
    have hnd : Dest ∉ X.defs := fun hmem => hDS (hn hll Dest hmem)
    exact ⟨hnd, fun s s' t hex => RegFile.read_congr (execInst_frame hex hnd)⟩
  · intro hDS Xs hXs s s' hex
    refine RegFile.read_congr (foldlM_execInst_frame Xs s s' ?_ hex)
    intro X hX hmem
    obtain ⟨hll, B, hBm, hXB⟩ := hXs X hX
    exact hDS ((hP B hBm X hXB).2 hll Dest hmem)

/-- Witness for C26, on the masked signed max of `exampleSignedMaxMF`, whose destination is
register 10 and whose scratch registers are 11 and 14. -/
theorem emitted_defs_are_dest_or_scratch_witness :
    ∃ MF', (Expander.minMax AtomicRMWInst.BinOp.Max true 32).run exampleSignedMaxMF 0 0 = .ok MF' ∧
    ∃ MBB MI B' Mid Done Dest S1 Scratches,
      exampleSignedMaxMF.blocks[0]? = some MBB ∧ MBB.insts[0]? = some MI ∧
      MF'.blocks = exampleSignedMaxMF.blocks.take 0 ++ B' :: (Mid ++ Done :: exampleSignedMaxMF.blocks.drop (0 + 1)) ∧
      B'.insts = MBB.insts.take 0 ∧ Done.insts = MBB.insts.drop (0 + 1) ∧
      MI.getReg 0 = .ok Dest ∧ MI.getReg 1 = .ok S1 ∧
      (match Expander.minMax AtomicRMWInst.BinOp.Max true 32 with
        | Expander.minMax _ _ _ => ∃ S2, MI.getReg 2 = .ok S2 ∧ Scratches = [S1, S2]
        | _ => Scratches = [S1]) ∧
      countInsts isLoadLinked Mid = 1 ∧
      (∀ B ∈ Mid, ∀ X ∈ B.insts,
        (isLoadLinked X.opcode = true → X.defs = [Dest]) ∧
        (isLoadLinked X.opcode = false → ∀ R ∈ X.defs, R ∈ Scratches)) ∧
      (∀ R, R ≠ Dest → R ∉ Scratches → ∀ B ∈ Mid, ∀ X ∈ B.insts,
        R ∉ X.defs ∧
        ∀ (s s' : MachineState) (t : Option Nat), execInst s X = some (s', t) →
          s'.regs.read R = s.regs.read R) ∧
      (Dest ∉ Scratches → ∀ B ∈ Mid, ∀ X ∈ B.insts, isLoadLinked X.opcode = false →
        Dest ∉ X.defs ∧
        ∀ (s s' : MachineState) (t : Option Nat), execInst s X = some (s', t) →
          s'.regs.read Dest = s.regs.read Dest) ∧
      (Dest ∉ Scratches → ∀ Xs : List MachineInstr,
        (∀ X ∈ Xs, isLoadLinked X.opcode = false ∧ ∃ B ∈ Mid, X ∈ B.insts) →
        ∀ s s' : MachineState,
          Xs.foldlM (fun s X => (execInst s X).map Prod.fst) s = some s' →
          s'.regs.read Dest = s.regs.read Dest) :=
  ⟨_, rfl, emitted_defs_are_dest_or_scratch
    (Expander.minMax AtomicRMWInst.BinOp.Max true 32) exampleSignedMaxMF _ 0 0 rfl⟩

/-- Claim C27.  In every expansion, each block the expansion fills (every created block but
done) has as successor list, up to the order of the entries, the targets of the branch
instructions emitted into it followed, when the block does not end with the unconditional
branch `B`, by the number of the block laid out right after it.  So every branch of the
block targets one of its successors, and every successor is a branch target of the block or
the block laid out after it when the block can fall through. -/
theorem successors_match_control_flow (E : Expander) (MF MF' : MachineFunction) (k j : Nat)
    (h : E.run MF k j = .ok MF') :
    ∃ B' Mid Done,
      MF'.blocks = MF.blocks.take k ++ B' :: (Mid ++ Done :: MF.blocks.drop (k + 1)) ∧
      Mid ≠ [] ∧
      ∀ (i : Nat) (X : MachineBasicBlock), Mid[i]? = some X →
        MF'.blocks[k + 1 + i]? = some X ∧
        X.successors.Perm (controlSuccessors MF'.blocks (k + 1 + i)) ∧
        (∀ T, T ∈ X.successors ↔ T ∈ controlSuccessors MF'.blocks (k + 1 + i)) ∧
        (∀ T ∈ branchTargets X.insts, T ∈ X.successors) ∧
        (∀ T ∈ X.successors, T ∈ branchTargets X.insts ∨
          (endsWithUnconditionalBranch X.insts = false ∧
            ∃ N, MF'.blocks[k + 1 + i + 1]? = some N ∧ N.number = T)) := by
  obtain ⟨MBB, B', Mid, Done, hB, hbl, hne, hflow⟩ := Expander.run_flow h
  refine ⟨B', Mid, Done, hbl, hne, ?_⟩
  intro i X hX
  obtain ⟨N, hX', hN, hperm⟩ := hflow i X hX
  obtain ⟨hget, hcs⟩ := controlSuccessors_layout hB B' Mid (Done :: MF.blocks.drop (k + 1)) i X N
    hX' hN
  rw [← hbl] at hget hcs
  have hnext : MF'.blocks[k + 1 + i + 1]? = some N := by
    have := getElem?_layout hB [B'] (Mid ++ Done :: MF.blocks.drop (k + 1)) (1 + (i + 1))
    simp only [List.append_assoc, List.singleton_append] at this
    rw [hbl, show k + 1 + i + 1 = k + (1 + (i + 1)) by omega, this, Nat.add_comm 1 (i + 1),
      List.getElem?_cons_succ, hN]
  rw [← hcs] at hperm
  refine ⟨hget, hperm, fun T => hperm.mem_iff, ?_, ?_⟩
  · intro T hT
    rw [hperm.mem_iff, hcs]
    exact List.mem_append_left _ hT
  · intro T hT
    rw [hperm.mem_iff, hcs, List.mem_append] at hT
    rcases hT with hT | hT
    · exact Or.inl hT
    · right
      cases he : endsWithUnconditionalBranch X.insts with
      | true => simp [he] at hT
      | false =>
        simp only [he, Bool.false_eq_true, if_false, List.mem_singleton] at hT
        exact ⟨rfl, N, hnext, hT.symm⟩

/-- Witness for C27, on the masked compare-and-swap of `exampleMF`: its loop-tail block, at
layout index 3, has the successors 5 and 2 and branches to 2 and then to 5. -/
theorem successors_match_control_flow_witness :
    ∃ MF', (Expander.cmpXchg true 32).run exampleMF 1 0 = .ok MF' ∧
    (MF'.blocks.map fun B => B.successors) = [[1], [2], [3, 4], [5, 2], [5], []] ∧
    controlSuccessors MF'.blocks 3 = [2, 5] ∧
    ∃ B' Mid Done,
      MF'.blocks = exampleMF.blocks.take 1 ++ B' :: (Mid ++ Done :: exampleMF.blocks.drop (1 + 1)) ∧
      Mid ≠ [] ∧
      ∀ (i : Nat) (X : MachineBasicBlock), Mid[i]? = some X →
        MF'.blocks[1 + 1 + i]? = some X ∧
        X.successors.Perm (controlSuccessors MF'.blocks (1 + 1 + i)) ∧
        (∀ T, T ∈ X.successors ↔ T ∈ controlSuccessors MF'.blocks (1 + 1 + i)) ∧
        (∀ T ∈ branchTargets X.insts, T ∈ X.successors) ∧
        (∀ T ∈ X.successors, T ∈ branchTargets X.insts ∨
          (endsWithUnconditionalBranch X.insts = false ∧
            ∃ N, MF'.blocks[1 + 1 + i + 1]? = some N ∧ N.number = T)) :=
  ⟨_, rfl, rfl, rfl, successors_match_control_flow
    (Expander.cmpXchg true 32) exampleMF _ 1 0 rfl⟩

/-- Claim C29.  Take a function whose instruction `j` of block `k` has an immediate as
operand `p` (an ordering tag `a`), and the same function with that operand replaced by the
immediate `b`.  The min/max expander and the compare-and-swap expander return the same
result on both, for every operation, `IsMasked` and `Width`: the same blocks, instructions,
successor lists and live-in lists, or the same fatal error.  The binary read-modify-write
expander returns the same result on both when the orderings `a` and `b` stand for, their
casts to `AtomicOrdering` as the source reads them, both differ from Monotonic. -/
theorem expansion_independent_of_ordering (MF : MachineFunction) (k j p : Nat) (a b : Int)
    (hp : MF.operandAt k j p = some (MachineOperand.Imm a)) :
    (∀ op m w, expandAtomicMinMaxOp (MF.withOrdering k j p b) k j op m w =
      expandAtomicMinMaxOp MF k j op m w) ∧
    (∀ m w, expandAtomicCmpXchg (MF.withOrdering k j p b) k j m w =
      expandAtomicCmpXchg MF k j m w) ∧
    (AtomicOrdering.ofImm a ≠ AtomicOrdering.Monotonic →
      AtomicOrdering.ofImm b ≠ AtomicOrdering.Monotonic →
      ∀ op m w, expandAtomicBinOp (MF.withOrdering k j p b) k j op m w =
        expandAtomicBinOp MF k j op m w) := by
  obtain ⟨MBB, MI, hB, hI, hO, hset⟩ := operandAt_eq_some hp
  rw [hset b]
  refine ⟨?_, ?_, ?_⟩
  · intro op m w
    exact expandAtomicMinMaxOp_setInst hB hI _ (getReg_withOrdering hO b) op m w
  · intro m w
    exact expandAtomicCmpXchg_setInst hB hI _ (getReg_withOrdering hO b) m w
  · intro ha hb op m w
    have hab : AtomicOrdering.ofImm a ≠ AtomicOrdering.Monotonic ↔
        AtomicOrdering.ofImm b ≠ AtomicOrdering.Monotonic :=
      ⟨fun _ => hb, fun _ => ha⟩
    exact expandAtomicBinOp_setInst hB hI _ op m w
      (fun L => doAtomicBinOpExpansion_withOrdering hO b hab L op w)
      (fun L => doMaskedAtomicBinOpExpansion_withOrdering hO b hab L op w)

/-- Witness for C29, on the masked unsigned max of `exampleMF`, whose operand 6 is the
ordering tag 7: with the tag 4 in its place the function is another one, and the expansion
succeeds on both with the same result. -/
theorem expansion_independent_of_ordering_witness :
    exampleMF.operandAt 0 3 6 = some (MachineOperand.Imm 7) ∧
    exampleMF.withOrdering 0 3 6 4 ≠ exampleMF ∧
    (∃ MF', expandAtomicMinMaxOp exampleMF 0 3 AtomicRMWInst.BinOp.UMax true 32 = .ok MF') ∧
    (∀ op m w, expandAtomicMinMaxOp (exampleMF.withOrdering 0 3 6 4) 0 3 op m w =
      expandAtomicMinMaxOp exampleMF 0 3 op m w) ∧
    (∀ m w, expandAtomicCmpXchg (exampleMF.withOrdering 0 3 6 4) 0 3 m w =
      expandAtomicCmpXchg exampleMF 0 3 m w) ∧
    (AtomicOrdering.ofImm 7 ≠ AtomicOrdering.Monotonic →
      AtomicOrdering.ofImm 4 ≠ AtomicOrdering.Monotonic →
      ∀ op m w, expandAtomicBinOp (exampleMF.withOrdering 0 3 6 4) 0 3 op m w =
        expandAtomicBinOp exampleMF 0 3 op m w) :=
  ⟨rfl, by decide, ⟨_, rfl⟩, expansion_independent_of_ordering exampleMF 0 3 6 7 4 rfl⟩

end RASM
